import Mathlib

/-!
# Verification of the nghttp3 `ksl` ordered container (`lib/nghttp3_ksl.c`)

This file shallowly embeds the "key-sorted skip list" of nghttp3 — a balanced,
block-structured ordered container (B-tree-like, with separator = upper bound of
the subtree) — and proves or refutes the frozen specification claims about it.

Embedding conventions (mapping from the C source):

* A block (`nghttp3_ksl_blk`) is a `Blk K V`: either a leaf holding a list of
  `(key, data)` entries, or an internal node holding a list of
  `(separator key, child block)` entries. `blk->n` is the list length,
  `blk->leaf` the constructor.
* The comparator `nghttp3_ksl_compar` is a parameter `lt : K → K → Bool`
  (strict "less than", exactly as in the C contract).
* The constants come from `nghttp3_ksl.h`, which is not part of the sources
  under verification. Modelled from the spec: `NGHTTP3_KSL_MIN_NBLK` is a
  parameter `MIN` and `NGHTTP3_KSL_MAX_NBLK = 2 * MIN` (the spec fixes
  `MAX_FANOUT = 2 * MIN_FANOUT`).
* The leaf `prev`/`next` pointers always link the leaves in left-to-right tree
  order (`ksl->front`/`ksl->back` are the leftmost/rightmost leaves), so the
  linked list of leaves is embedded as the in-order list of leaf blocks
  (`Blk.leafBlocks`); "the next leaf of `blk`" is the successor of `blk` in
  this list, and an iterator (`nghttp3_ksl_it`, a `(blk, i)` pair plus the
  owning `ksl`) is a triple `(leaves, p, i)` where `p` identifies the block
  in the leaf list.
* Memory allocation is an oracle `List Bool` consumed one entry per
  `nghttp3_mem_malloc` call in program order (`[]` means every allocation
  succeeds).  The removal path performs no allocation.
* The C loops descending the tree are embedded as fuel-indexed recursions;
  the public wrappers pass fuel large enough for every execution (this is
  proved for well-formed trees in the lemmas below).
-/

set_option maxHeartbeats 1600000

namespace NgKsl

/-- An allocation oracle: each `nghttp3_mem_malloc` call consumes one entry
(`true` = success, `false` = out of memory); the empty oracle always succeeds. -/
def takeAlloc : List Bool → Bool × List Bool
  | [] => (true, [])
  | b :: bs => (b, bs)

/-- `nghttp3_ksl_blk`: a leaf block holds `(key, data)` entries, an internal
block holds `(separator key, child)` entries (`nghttp3_ksl_node` carries a key
and either `data` or `blk`). -/
inductive Blk (K V : Type) : Type where
  | leaf : List (K × V) → Blk K V
  | node : List (K × Blk K V) → Blk K V

instance {K V : Type} : Inhabited (Blk K V) := ⟨.leaf []⟩

namespace Blk

variable {K V : Type}

/-- `blk->n`: the number of entries in the block. -/
def count : Blk K V → Nat
  | .leaf es => es.length
  | .node es => es.length

/-- `blk->leaf`. -/
def isLeaf : Blk K V → Bool
  | .leaf _ => true
  | .node _ => false

/-- The keys of the entries of a block, in order. -/
def keyList : Blk K V → List K
  | .leaf es => es.map Prod.fst
  | .node es => es.map Prod.fst

/-- The child entries of an internal block (empty for a leaf). -/
def children : Blk K V → List (K × Blk K V)
  | .leaf _ => []
  | .node es => es

/-- The key of the last entry of the block (`ksl_nth_node(blk, blk->n - 1)->key`);
`default` on an empty block (never reached on the paths the C takes). -/
def lastKeyD [Inhabited K] (b : Blk K V) : K :=
  b.keyList.getLastD default

end Blk

mutual

/-- The leaf blocks of the subtree, in left-to-right order.  This is exactly
the segment of the global leaf linked list (`prev`/`next` pointers) covered by
this subtree. -/
def Blk.leafBlocks {K V : Type} : Blk K V → List (List (K × V))
  | .leaf es => [es]
  | .node es => leafBlocksEnts es

def leafBlocksEnts {K V : Type} : List (K × Blk K V) → List (List (K × V))
  | [] => []
  | (_, c) :: rest => c.leafBlocks ++ leafBlocksEnts rest

end

/-- The number of leaf blocks of the subtree. -/
def Blk.leafCount {K V : Type} (b : Blk K V) : Nat := b.leafBlocks.length

mutual

/-- All `(key, data)` entries stored in the subtree, in leaf order. -/
def Blk.flat {K V : Type} : Blk K V → List (K × V)
  | .leaf es => es
  | .node es => flatEnts es

def flatEnts {K V : Type} : List (K × Blk K V) → List (K × V)
  | [] => []
  | (_, c) :: rest => c.flat ++ flatEnts rest

end

/-- The stored keys of the subtree, in leaf order. -/
def Blk.fkeys {K V : Type} (b : Blk K V) : List K := b.flat.map Prod.fst

mutual

/-- Height of a block: `0` for a leaf; internal nodes with no children (never
constructed) count as height `1`. -/
def Blk.height {K V : Type} : Blk K V → Nat
  | .leaf _ => 0
  | .node es => heightEnts es

def heightEnts {K V : Type} : List (K × Blk K V) → Nat
  | [] => 1
  | (_, c) :: rest => max (c.height + 1) (heightEnts rest)

end

/-- Induction over `Blk` that walks the entry list of internal nodes. -/
theorem Blk.consInduction {K V : Type} {motive : Blk K V → Prop}
    (hleaf : ∀ es, motive (.leaf es))
    (hnil : motive (.node []))
    (hcons : ∀ k c rest, motive c → motive (.node rest) →
      motive (.node ((k, c) :: rest))) :
    ∀ b, motive b
  | .leaf es => hleaf es
  | .node [] => hnil
  | .node ((k, c) :: rest) =>
    hcons k c rest (Blk.consInduction hleaf hnil hcons c)
      (Blk.consInduction hleaf hnil hcons (.node rest))

/-- The loop of `ksl_bsearch`: binary search with `left = -1`, `right = n`,
narrowing while `right - left > 1` using the comparator verdict at `mid`. -/
def bsearchLoop {K : Type} (lt : K → K → Bool) (ks : List K) (key : K) :
    Int → Int → Int := fun left right =>
  if h : 1 < right - left then
    let mid := (left + right) / 2
    match ks.get? mid.toNat with
    | some mk =>
      if lt mk key then bsearchLoop lt ks key mid right
      else bsearchLoop lt ks key left mid
    | none => right
  else right
termination_by left right => (right - left).toNat
decreasing_by
  · omega
  · omega

/-- `ksl_bsearch`: the least index whose key is not less than `key`
(computed by binary search over the block's keys). -/
def ksl_bsearch {K : Type} (lt : K → K → Bool) (ks : List K) (key : K) : Nat :=
  (bsearchLoop lt ks key (-1) (ks.length : Int)).toNat

/-- `key_equal`: equality of keys derived from the strict comparator. -/
def key_equal {K : Type} (lt : K → K → Bool) (a b : K) : Bool :=
  !lt a b && !lt b a

/-- `nghttp3_ksl`: the tree object.  `head` is the root block and `n` the
live-entry count (`ksl->front`, `ksl->back` and the leaf links are derived:
they always denote the leftmost/rightmost leaf and the in-order leaf list). -/
structure Ksl (K V : Type) : Type where
  head : Blk K V
  n : Nat

/-- `nghttp3_ksl_it`: an iterator is a `(blk, i)` cursor; the block pointer is
embedded as the index `p` of the block in the leaf list `leaves` of the owning
tree (the `ksl` back-pointer of the C iterator). -/
structure KslIt (K V : Type) : Type where
  leaves : List (List (K × V))
  p : Nat
  i : Nat
  deriving DecidableEq

namespace KslIt

variable {K V : Type}

/-- `it->blk->n`. -/
def curLen (it : KslIt K V) : Nat := (it.leaves.getD it.p []).length

end KslIt

/-- `nghttp3_ksl_it_end`: `it->blk->n == it->i && it->blk->next == NULL`. -/
def nghttp3_ksl_it_end {K V : Type} (it : KslIt K V) : Bool :=
  it.curLen == it.i && it.p + 1 == it.leaves.length

/-- `nghttp3_ksl_it_begin`: `it->i == 0 && it->blk->prev == NULL`. -/
def nghttp3_ksl_it_begin {K V : Type} (it : KslIt K V) : Bool :=
  it.i == 0 && it.p == 0

/-- `nghttp3_ksl_it_next`: advance the index, crossing to the next leaf when
the block is exhausted and a next leaf exists. -/
def nghttp3_ksl_it_next {K V : Type} (it : KslIt K V) : KslIt K V :=
  if it.i + 1 == it.curLen && it.p + 1 < it.leaves.length then
    ⟨it.leaves, it.p + 1, 0⟩
  else
    ⟨it.leaves, it.p, it.i + 1⟩

/-- `nghttp3_ksl_it_get`: the data of the entry under the cursor (`none` when
the cursor is not dereferenceable; the C asserts `it->i < it->blk->n`). -/
def nghttp3_ksl_it_get {K V : Type} (it : KslIt K V) : Option V :=
  ((it.leaves.getD it.p []).get? it.i).map Prod.snd

/-- `nghttp3_ksl_it_key`: the key of the entry under the cursor. -/
def nghttp3_ksl_it_key {K V : Type} (it : KslIt K V) : Option K :=
  ((it.leaves.getD it.p []).get? it.i).map Prod.fst

/-- The in-order leaf list of the tree (the `front → back` linked list). -/
def kslLeaves {K V : Type} (t : Ksl K V) : List (List (K × V)) :=
  t.head.leafBlocks

/-- `nghttp3_ksl_begin`: cursor at `(ksl->front, 0)`. -/
def nghttp3_ksl_begin {K V : Type} (t : Ksl K V) : KslIt K V :=
  ⟨kslLeaves t, 0, 0⟩

/-- `nghttp3_ksl_end`: cursor at `(ksl->back, ksl->back->n)`. -/
def nghttp3_ksl_end {K V : Type} (t : Ksl K V) : KslIt K V :=
  ⟨kslLeaves t, (kslLeaves t).length - 1, ((kslLeaves t).getLastD []).length⟩

/-- `nghttp3_ksl_len`. -/
def nghttp3_ksl_len {K V : Type} (t : Ksl K V) : Nat := t.n

/-- `nghttp3_ksl_init` (the initial allocation is assumed to succeed): a single
empty leaf as head, zero entries. -/
def nghttp3_ksl_init {K V : Type} : Ksl K V := ⟨.leaf [], 0⟩

/-- The global position (rank) of the cursor `(p, i)` in the concatenation of
the leaf blocks: the number of entries strictly before it. -/
def lbRank {K V : Type} (ls : List (List (K × V))) (p i : Nat) : Nat :=
  ((ls.take p).map List.length).sum + i

section Ops

variable {K V : Type} [Inhabited K] [Inhabited V]

/-- `ksl_split_blk`: the new right block receives the upper `n / 2` entries,
the left block keeps the remaining `n - n / 2`; returns `(left, right)`. -/
def splitBlkPair : Blk K V → Blk K V × Blk K V
  | .leaf es =>
    (.leaf (es.take (es.length - es.length / 2)),
     .leaf (es.drop (es.length - es.length / 2)))
  | .node es =>
    (.node (es.take (es.length - es.length / 2)),
     .node (es.drop (es.length - es.length / 2)))

/-- `ksl_split_node` applied to the entry list of an internal block: the child
at `i` is split, the right half is inserted as entry `i + 1`, and both entries
get the key of the last entry of their half. -/
def splitNodeEs (es : List (K × Blk K V)) (i : Nat) : List (K × Blk K V) :=
  let pr := splitBlkPair (es.getD i default).2
  es.take i ++ [(pr.1.lastKeyD, pr.1), (pr.2.lastKeyD, pr.2)] ++ es.drop (i + 1)

/-- `ksl_split_head`: split the root and allocate a new root with the two
halves as children.  Consumes up to two allocations (the right sibling inside
`ksl_split_blk`, then the new head).  Returns `(success, new head, oracle)`:
if the second allocation fails the C frees the already-attached right sibling,
so the head keeps only its lower half of entries. -/
def ksl_split_head (b : Blk K V) (os : List Bool) :
    Bool × Blk K V × List Bool :=
  match takeAlloc os with
  | (false, os') => (false, b, os')
  | (true, os') =>
    let pr := splitBlkPair b
    match takeAlloc os' with
    | (false, os'') => (false, pr.1, os'')
    | (true, os'') =>
      (true, .node [(pr.1.lastKeyD, pr.1), (pr.2.lastKeyD, pr.2)], os'')

/-- Result of the insertion descent: the rebuilt block, the number of leaf
blocks preceding the insertion leaf inside the subtree, the index in that
leaf, and the remaining oracle — or out-of-memory with the block as the C
leaves it. -/
inductive InsRes (K V : Type) : Type where
  | ok : Blk K V → Nat → Nat → List Bool → InsRes K V
  | oom : Blk K V → List Bool → InsRes K V

/-- Rebuild a parent entry list after descending into child `idx`
(`blk = node->blk` followed by the loop body, with the parent updated in
place in the C). -/
def insDescend (es : List (K × Blk K V)) (idx : Nat) :
    InsRes K V → InsRes K V
  | .ok c lb i os =>
    .ok (.node (es.set idx ((es.getD idx default).1, c)))
      (((es.take idx).map fun e => e.2.leafCount).sum + lb) i os
  | .oom c os => .oom (.node (es.set idx ((es.getD idx default).1, c))) os

/-- The inner loop of `nghttp3_ksl_insert` for the case `i == blk->n`: the new
key exceeds every key of the subtree, so descend along the rightmost spine,
splitting any full rightmost child before entering it, and rewriting each
passed separator to the new key; at the leaf, append. -/
def insertMax (lt : K → K → Bool) (MIN : Nat) (key : K) (data : V) :
    Nat → Blk K V → List Bool → InsRes K V
  | 0, b, os => .oom b os
  | _ + 1, .leaf es, os => .ok (.leaf (es ++ [(key, data)])) 0 es.length os
  | fuel + 1, .node es, os =>
    let last := es.getLastD default
    if last.2.count = 2 * MIN then
      match takeAlloc os with
      | (false, os') => .oom (.node es) os'
      | (true, os') =>
        let pr := splitBlkPair last.2
        match insertMax lt MIN key data fuel pr.2 os' with
        | .ok c lb i os'' =>
          .ok (.node (es.dropLast ++ [(pr.1.lastKeyD, pr.1), (key, c)]))
            (((es.dropLast.map fun e => e.2.leafCount).sum + pr.1.leafCount)
              + lb) i os''
        | .oom c os'' =>
          .oom (.node (es.dropLast ++ [(pr.1.lastKeyD, pr.1), (key, c)])) os''
    else
      match insertMax lt MIN key data fuel last.2 os with
      | .ok c lb i os' =>
        .ok (.node (es.dropLast ++ [(key, c)]))
          ((es.dropLast.map fun e => e.2.leafCount).sum + lb) i os'
      | .oom c os' => .oom (.node (es.dropLast ++ [(key, c)])) os'

/-- The main loop of `nghttp3_ksl_insert`: binary-search the block; insert at
a leaf; take the rightmost-spine path when `i == blk->n`; otherwise split a
full target child (re-resolving which half the key belongs to and rewriting
its separator if even the right half's separator is less than the key) and
descend. -/
def insertB (lt : K → K → Bool) (MIN : Nat) (key : K) (data : V) :
    Nat → Blk K V → List Bool → InsRes K V
  | 0, b, os => .oom b os
  | _ + 1, .leaf es, os =>
    let i := ksl_bsearch lt (es.map Prod.fst) key
    .ok (.leaf (es.take i ++ (key, data) :: es.drop i)) 0 i os
  | fuel + 1, .node es, os =>
    let i := ksl_bsearch lt (es.map Prod.fst) key
    if i = es.length then insertMax lt MIN key data fuel (.node es) os
    else if (es.getD i default).2.count = 2 * MIN then
      match takeAlloc os with
      | (false, os') => .oom (.node es) os'
      | (true, os') =>
        let es' := splitNodeEs es i
        if lt (es'.getD i default).1 key then
          if lt (es'.getD (i + 1) default).1 key then
            let es'' := es'.set (i + 1) (key, (es'.getD (i + 1) default).2)
            insDescend es'' (i + 1)
              (insertB lt MIN key data fuel (es''.getD (i + 1) default).2 os')
          else
            insDescend es' (i + 1)
              (insertB lt MIN key data fuel (es'.getD (i + 1) default).2 os')
        else
          insDescend es' i
            (insertB lt MIN key data fuel (es'.getD i default).2 os')
    else
      insDescend es i
        (insertB lt MIN key data fuel (es.getD i default).2 os)

/-- Result of `nghttp3_ksl_insert`: success with the new tree and the iterator
out-parameter, or out-of-memory with the tree as the C leaves it. -/
inductive KIns (K V : Type) : Type where
  | ok : Ksl K V → KslIt K V → KIns K V
  | oom : Ksl K V → KIns K V

/-- `nghttp3_ksl_insert`: split a full root first (growing the height), then
run the descent loop. -/
def nghttp3_ksl_insert (lt : K → K → Bool) (MIN : Nat) (t : Ksl K V)
    (key : K) (data : V) (os : List Bool) : KIns K V :=
  let go : Blk K V → List Bool → KIns K V := fun b os' =>
    match insertB lt MIN key data (2 * b.height + 2) b os' with
    | .ok b' lb i _ => .ok ⟨b', t.n + 1⟩ ⟨b'.leafBlocks, lb, i⟩
    | .oom b' _ => .oom ⟨b', t.n⟩
  if t.head.count = 2 * MIN then
    match ksl_split_head t.head os with
    | (false, b', _) => .oom ⟨b', t.n⟩
    | (true, b', os') => go b' os'
  else go t.head os

/-- `ksl_shift_right` on the two adjacent child blocks: the last entry of the
left block is moved to the front of the right block (junk on mixed kinds,
which well-formedness excludes). -/
def shiftRightPair : Blk K V → Blk K V → Blk K V × Blk K V
  | .leaf ls, .leaf rs => (.leaf ls.dropLast, .leaf (ls.getLastD default :: rs))
  | .node ls, .node rs => (.node ls.dropLast, .node (ls.getLastD default :: rs))
  | l, r => (l, r)

/-- `ksl_shift_right(blk, j)` on the entry list: move the last entry of child
`j` to the front of child `j + 1` and update child `j`'s separator to its new
last key. -/
def shiftRightEs (es : List (K × Blk K V)) (j : Nat) : List (K × Blk K V) :=
  let l := es.getD j default
  let r := es.getD (j + 1) default
  let pr := shiftRightPair l.2 r.2
  (es.set j (pr.1.lastKeyD, pr.1)).set (j + 1) (r.1, pr.2)

/-- `ksl_shift_left` on the two adjacent child blocks: the first entry of the
right block is appended to the left block. -/
def shiftLeftPair : Blk K V → Blk K V → Blk K V × Blk K V
  | .leaf ls, .leaf rs => (.leaf (ls ++ [rs.headD default]), .leaf rs.tail)
  | .node ls, .node rs => (.node (ls ++ [rs.headD default]), .node rs.tail)
  | l, r => (l, r)

/-- `ksl_shift_left(blk, j)` on the entry list: move the first entry of child
`j` to the end of child `j - 1` and update child `j - 1`'s separator to the
moved key (its new last key). -/
def shiftLeftEs (es : List (K × Blk K V)) (j : Nat) : List (K × Blk K V) :=
  let l := es.getD (j - 1) default
  let r := es.getD j default
  let pr := shiftLeftPair l.2 r.2
  (es.set (j - 1) (pr.1.lastKeyD, pr.1)).set j (r.1, pr.2)

/-- The block-level concatenation performed by `ksl_merge_node`: the right
block's entries are appended to the left block (which keeps the left block's
leaf links on the left side and inherits the right block's `next`). -/
def mergeBlk : Blk K V → Blk K V → Blk K V
  | .leaf a, .leaf b => .leaf (a ++ b)
  | .node a, .node b => .node (a ++ b)
  | a, _ => a

/-- Rebuild a parent entry list after the removal descent into child `idx`. -/
def remDescend (es : List (K × Blk K V)) (idx : Nat) :
    Blk K V × Nat × Nat → Blk K V × Nat × Nat
  | (c, lb, i) =>
    (.node (es.set idx ((es.getD idx default).1, c)),
     ((es.take idx).map fun e => e.2.leafCount).sum + lb, i)

/-- The loop of `nghttp3_ksl_remove` (no allocation can fail here): at a leaf,
remove entry `i`; at an internal block whose chosen child sits at
`MIN_NBLK`, rebalance first — borrow from the left sibling if it has surplus,
else from the right sibling, else merge with the left (or, lacking one, the
right) sibling, collapsing the root when the root held just these two
children — and re-run the loop; otherwise descend.  Returns the rebuilt
block, the leaf position of the removal and the index within that leaf. -/
def removeB (lt : K → K → Bool) (MIN : Nat) (key : K) :
    Nat → Bool → Blk K V → Blk K V × Nat × Nat
  | 0, _, b => (b, 0, 0)
  | _ + 1, _, .leaf es =>
    let i := ksl_bsearch lt (es.map Prod.fst) key
    (.leaf (es.eraseIdx i), 0, i)
  | fuel + 1, isHead, .node es =>
    let i := ksl_bsearch lt (es.map Prod.fst) key
    if (es.getD i default).2.count = MIN then
      if 0 < i ∧ MIN < (es.getD (i - 1) default).2.count then
        removeB lt MIN key fuel isHead (.node (shiftRightEs es (i - 1)))
      else if i + 1 < es.length ∧ MIN < (es.getD (i + 1) default).2.count then
        removeB lt MIN key fuel isHead (.node (shiftLeftEs es (i + 1)))
      else
        let j := if 0 < i then i - 1 else i
        let merged := mergeBlk (es.getD j default).2 (es.getD (j + 1) default).2
        if isHead ∧ es.length = 2 then
          removeB lt MIN key fuel true merged
        else
          remDescend ((es.set j (merged.lastKeyD, merged)).eraseIdx (j + 1)) j
            (removeB lt MIN key fuel false merged)
    else
      remDescend es i (removeB lt MIN key fuel false (es.getD i default).2)

/-- `nghttp3_ksl_remove`: pre-emptively collapse a 2-child root whose children
both sit at `MIN_NBLK`, run the loop, decrement the count, and normalize the
returned cursor to the start of the next leaf when the removal emptied the
tail of its leaf. -/
def nghttp3_ksl_remove (lt : K → K → Bool) (MIN : Nat) (t : Ksl K V)
    (key : K) : Ksl K V × KslIt K V :=
  let b0 :=
    if !t.head.isLeaf ∧ t.head.count = 2 ∧
        (t.head.children.getD 0 default).2.count = MIN ∧
        (t.head.children.getD 1 default).2.count = MIN then
      mergeBlk (t.head.children.getD 0 default).2
        (t.head.children.getD 1 default).2
    else t.head
  let r := removeB lt MIN key (2 * b0.height + 2) true b0
  let ls := r.1.leafBlocks
  let it : KslIt K V :=
    if r.2.2 = (ls.getD r.2.1 []).length ∧ r.2.1 + 1 < ls.length then
      ⟨ls, r.2.1 + 1, 0⟩
    else ⟨ls, r.2.1, r.2.2⟩
  (⟨r.1, t.n - 1⟩, it)

/-- The loop of `nghttp3_ksl_lower_bound`: binary-search each block and
descend.  A result of `none` means the query key is greater than every key of
the subtree: the C fast-forwards to the subtree's rightmost leaf and follows
its `next` link, which is resolved here by the caller frame (the next leaf is
the first leaf of the next sibling's subtree) or, at the top, as `end()`. -/
def lowerBoundB (lt : K → K → Bool) (key : K) :
    Nat → Blk K V → Option (Nat × Nat)
  | 0, _ => none
  | _ + 1, .leaf es =>
    let i := ksl_bsearch lt (es.map Prod.fst) key
    if i = es.length then none else some (0, i)
  | fuel + 1, .node es =>
    let i := ksl_bsearch lt (es.map Prod.fst) key
    if i = es.length then none
    else
      match lowerBoundB lt key fuel (es.getD i default).2 with
      | some (p, j) =>
        some (((es.take i).map fun e => e.2.leafCount).sum + p, j)
      | none =>
        if i + 1 < es.length then
          some (((es.take (i + 1)).map fun e => e.2.leafCount).sum, 0)
        else none

/-- `nghttp3_ksl_lower_bound`: descend with the tree's comparator; translate a
past-the-end outcome into the `end()` cursor. -/
def nghttp3_ksl_lower_bound (lt : K → K → Bool) (t : Ksl K V) (key : K) :
    KslIt K V :=
  match lowerBoundB lt key (t.head.height + 1) t.head with
  | some (p, i) => ⟨kslLeaves t, p, i⟩
  | none => nghttp3_ksl_end t

/-- The loop of `nghttp3_ksl_update_key`: descend with `old_key`; at the leaf
overwrite the entry's key with `new_key`; on the way down rewrite to
`new_key` every separator that equals `old_key` or is less than `new_key`. -/
def updateKeyB (lt : K → K → Bool) (oldKey newKey : K) :
    Nat → Blk K V → Blk K V
  | 0, b => b
  | _ + 1, .leaf es =>
    let i := ksl_bsearch lt (es.map Prod.fst) oldKey
    .leaf (es.set i (newKey, (es.getD i default).2))
  | fuel + 1, .node es =>
    let i := ksl_bsearch lt (es.map Prod.fst) oldKey
    let nd := es.getD i default
    let k := if key_equal lt nd.1 oldKey || lt nd.1 newKey then newKey else nd.1
    .node (es.set i (k, updateKeyB lt oldKey newKey fuel nd.2))

/-- `nghttp3_ksl_update_key`. -/
def nghttp3_ksl_update_key (lt : K → K → Bool) (t : Ksl K V)
    (oldKey newKey : K) : Ksl K V :=
  ⟨updateKeyB lt oldKey newKey (t.head.height + 1) t.head, t.n⟩

end Ops

section Seq

variable {K V : Type} [Inhabited K] [Inhabited V]

/-- A public mutating operation on the container. -/
inductive Op (K V : Type) : Type where
  | ins : K → V → Op K V
  | del : K → Op K V

/-- Apply one operation (allocation always succeeding). -/
def applyOp (lt : K → K → Bool) (MIN : Nat) (t : Ksl K V) : Op K V → Ksl K V
  | .ins k v =>
    match nghttp3_ksl_insert lt MIN t k v [] with
    | .ok t' _ => t'
    | .oom t' => t'
  | .del k => (nghttp3_ksl_remove lt MIN t k).1

/-- Apply a sequence of operations in order. -/
def applyOps (lt : K → K → Bool) (MIN : Nat) (t : Ksl K V)
    (ops : List (Op K V)) : Ksl K V :=
  ops.foldl (applyOp lt MIN) t

/-- The preconditions of the C API along a sequence: an inserted key must not
be equivalent to a stored key, a removed key must be stored. -/
def opsValid (lt : K → K → Bool) (MIN : Nat) :
    Ksl K V → List (Op K V) → Prop
  | _, [] => True
  | t, op :: ops =>
    (match op with
     | .ins k _ => ∀ x ∈ t.head.fkeys, lt x k = true ∨ lt k x = true
     | .del k => k ∈ t.head.fkeys) ∧
    opsValid lt MIN (applyOp lt MIN t op) ops

/-- The keys that a sequence of valid operations leaves live. -/
def liveKeys (lt : K → K → Bool) : List K → List (Op K V) → List K
  | acc, [] => acc
  | acc, .ins k _ :: ops => liveKeys lt (acc ++ [k]) ops
  | acc, .del k :: ops =>
    liveKeys lt (acc.filter fun x => !key_equal lt x k) ops

/-- Fuel-indexed iterator traversal: read the entry under the cursor and
advance with `nghttp3_ksl_it_next` until `nghttp3_ksl_it_end`. -/
def iterTrav : Nat → KslIt K V → List (K × V)
  | 0, _ => []
  | fuel + 1, it =>
    if nghttp3_ksl_it_end it then []
    else
      (it.leaves.getD it.p []).getD it.i default ::
        iterTrav fuel (nghttp3_ksl_it_next it)

end Seq

section Wf

variable {K V : Type}

/-- Well-formedness of a block at height `h` (`root` marks the head block).
This is the invariant the engine maintains:
* fanout bounds (`MIN ≤ n` for non-root blocks, `2 ≤ n` for an internal root,
  `n ≤ 2 * MIN` everywhere; a root leaf may be empty);
* entries of a leaf strictly ascending under the comparator;
* all leaves at equal depth (`h` counts down uniformly);
* every separator is an upper bound for its whole subtree — both for the keys
  stored in it and for the subtree's own last entry key — and a strict lower
  bound for everything in later siblings' subtrees, with separators strictly
  ascending.  (Removal makes separators stale, so a separator need not equal
  its subtree's maximum; see the claims about separator exactness.) -/
def WfN (lt : K → K → Bool) (MIN : Nat) :
    Nat → Bool → Blk K V → Prop
  | 0, root, .leaf es =>
    (root = true ∨ MIN ≤ es.length) ∧ es.length ≤ 2 * MIN ∧
    List.Pairwise (fun a b => lt a b = true) (es.map Prod.fst)
  | _ + 1, _, .leaf _ => False
  | 0, _, .node _ => False
  | h + 1, root, .node es =>
    (if root = true then 2 ≤ es.length else MIN ≤ es.length) ∧
    es.length ≤ 2 * MIN ∧
    (∀ e ∈ es, WfN lt MIN h false e.2 ∧
      (∀ x ∈ e.2.fkeys, lt e.1 x = false) ∧
      e.2.fkeys ≠ [] ∧
      (∀ s ∈ e.2.keyList.getLast?, lt e.1 s = false)) ∧
    List.Pairwise
      (fun a b => lt a.1 b.1 = true ∧ ∀ x ∈ b.2.fkeys, lt a.1 x = true) es

/-- Well-formedness of the tree object: the head is well-formed at its height
and `ksl->n` counts the stored entries. -/
def WfK (lt : K → K → Bool) (MIN : Nat) (t : Ksl K V) : Prop :=
  WfN lt MIN t.head.height true t.head ∧ t.n = t.head.flat.length

/-- Exactness of separators (the stronger invariant the spec asserts): every
internal entry's key equals the last (= greatest) key stored in its subtree. -/
def SepExact : Blk K V → Prop
  | .leaf _ => True
  | .node [] => True
  | .node ((k, c) :: rest) =>
    c.fkeys.getLast? = some k ∧ SepExact c ∧ SepExact (.node rest)

/-- The properties of the comparator the C contract demands: a strict total
order (with equivalence implying equality, as for byte-compared fixed keys). -/
structure LtOrder {K : Type} (lt : K → K → Bool) : Prop where
  irrefl : ∀ a, lt a a = false
  tr : ∀ a b c, lt a b = true → lt b c = true → lt a c = true
  conn : ∀ a b, lt a b = false → lt b a = false → a = b

end Wf

/-- `nghttp3_range`: `rb` is the C field `begin`, `re` the C field `end`
(`uint64_t` offsets, embedded as `Nat`; only comparisons are performed). -/
structure NgRange : Type where
  rb : Nat
  re : Nat
  deriving DecidableEq

/-- `nghttp3_ksl_range_compar`: order interval keys by their `begin`. -/
def nghttp3_ksl_range_compar (a b : NgRange) : Bool :=
  decide (a.rb < b.rb)

/-- `nghttp3_ksl_range_exclusive_compar`: `a < b` iff `a.begin < b.begin` and
the two half-open intervals do not overlap
(`!(max(a.begin, b.begin) < min(a.end, b.end))`). -/
def nghttp3_ksl_range_exclusive_compar (a b : NgRange) : Bool :=
  decide (a.rb < b.rb) && !decide (max a.rb b.rb < min a.re b.re)

/-- A concrete comparator over `Nat` keys (strict less-than), used to
instantiate the generic development on concrete containers. -/
def natLt : Nat → Nat → Bool := fun a b => decide (a < b)

/-! ## Order lemmas for the comparator contract -/

namespace LtOrder

variable {K : Type} {lt : K → K → Bool}

theorem asymm (ord : LtOrder lt) {a b : K} (h : lt a b = true) :
    lt b a = false := by
  cases hba : lt b a with
  | false => rfl
  | true =>
    have h2 := ord.tr a b a h hba
    rw [ord.irrefl] at h2
    cases h2

theorem lt_or_eq (ord : LtOrder lt) {a b : K} (h : lt b a = false) :
    lt a b = true ∨ a = b := by
  cases hab : lt a b with
  | true => exact Or.inl rfl
  | false => exact Or.inr (ord.conn a b hab h)

/-- From `a < b` and `b ≤ c` conclude `a < c`. -/
theorem ltLe (ord : LtOrder lt) {a b c : K} (h1 : lt a b = true)
    (h2 : lt c b = false) : lt a c = true := by
  rcases ord.lt_or_eq h2 with h | h
  · exact ord.tr a b c h1 h
  · exact h ▸ h1

/-- From `a ≤ b` and `b < c` conclude `a < c`. -/
theorem leLt (ord : LtOrder lt) {a b c : K} (h1 : lt b a = false)
    (h2 : lt b c = true) : lt a c = true := by
  rcases ord.lt_or_eq h1 with h | h
  · exact ord.tr a b c h h2
  · exact h ▸ h2

/-- From `a ≤ b` and `b ≤ c` conclude `a ≤ c`. -/
theorem leLe (ord : LtOrder lt) {a b c : K} (h1 : lt b a = false)
    (h2 : lt c b = false) : lt c a = false := by
  cases hca : lt c a with
  | false => rfl
  | true =>
    have h3 := ord.ltLe hca h1
    rw [h2] at h3
    cases h3

end LtOrder

/-! ## Binary search characterization -/

section Bsearch

variable {K : Type} {lt : K → K → Bool}

/-- Monotonicity of the search predicate over a list: any key at or before a
key that is less than the query is itself less than the query. -/
def BsMono (lt : K → K → Bool) (ks : List K) (key : K) : Prop :=
  ∀ (i j : Nat) (ki kj : K), i ≤ j → ks.get? i = some ki →
    ks.get? j = some kj → lt kj key = true → lt ki key = true

theorem bsearchLoop_spec (ks : List K) (key : K)
    (hmono : BsMono lt ks key) :
    ∀ (left right : Int), -1 ≤ left → left < right → right ≤ ks.length →
    (∀ (m : Nat) (k : K), (m : Int) ≤ left → ks.get? m = some k →
      lt k key = true) →
    (∀ k : K, right < ks.length → ks.get? right.toNat = some k →
      lt k key = false) →
    left < bsearchLoop lt ks key left right ∧
    bsearchLoop lt ks key left right ≤ right ∧
    (∀ (m : Nat) (k : K), (m : Int) < bsearchLoop lt ks key left right →
      ks.get? m = some k → lt k key = true) ∧
    (∀ k : K, bsearchLoop lt ks key left right < ks.length →
      ks.get? (bsearchLoop lt ks key left right).toNat = some k →
      lt k key = false) := by
  intro left right
  induction left, right using bsearchLoop.induct lt ks key with
  | case1 left right hlt mid mk hget hcmp ih =>
    intro h0 h1 h2 hlo hhi
    have hmid : mid = (left + right) / 2 := rfl
    have hunf : bsearchLoop lt ks key left right =
        bsearchLoop lt ks key mid right := by
      rw [bsearchLoop]
      simp only [dif_pos hlt]
      have hget2 : ks.get? (((left + right) / 2).toNat) = some mk := hget
      simp only [hget2, hcmp, if_true]
    rw [hunf]
    have hstep := ih (by omega) (by omega) h2 ?_ hhi
    · exact ⟨by omega, hstep.2.1, hstep.2.2.1, hstep.2.2.2⟩
    · intro m k hm hk
      exact hmono m mid.toNat k mk (by omega) hk hget hcmp
  | case2 left right hlt mid mk hget hcmp ih =>
    intro h0 h1 h2 hlo hhi
    have hmid : mid = (left + right) / 2 := rfl
    have hunf : bsearchLoop lt ks key left right =
        bsearchLoop lt ks key left mid := by
      rw [bsearchLoop]
      simp only [dif_pos hlt]
      have hget2 : ks.get? (((left + right) / 2).toNat) = some mk := hget
      have hcmp2 : lt mk key = false := by simpa using hcmp
      simp only [hget2, hcmp2, Bool.false_eq_true, if_false]
    rw [hunf]
    have hstep := ih (by omega) (by omega) (by omega) hlo ?_
    · exact ⟨hstep.1, by omega, hstep.2.2.1, hstep.2.2.2⟩
    · intro k hk hget2
      rw [hget2] at hget
      cases hget
      simpa using hcmp
  | case3 left right hlt mid hget =>
    intro h0 h1 h2 hlo hhi
    exfalso
    have hlen : ks.length ≤ mid.toNat := by
      rw [← List.get?_eq_none]
      exact hget
    have hmid : mid = (left + right) / 2 := rfl
    omega
  | case4 left right hlt =>
    intro h0 h1 h2 hlo hhi
    have hunf : bsearchLoop lt ks key left right = right := by
      rw [bsearchLoop]
      simp only [dif_neg hlt]
    rw [hunf]
    refine ⟨by omega, by omega, ?_, hhi⟩
    intro m k hm hk
    exact hlo m k (by omega) hk

theorem ksl_bsearch_spec (ks : List K) (key : K)
    (hmono : BsMono lt ks key) :
    ksl_bsearch lt ks key ≤ ks.length ∧
    (∀ (m : Nat) (k : K), m < ksl_bsearch lt ks key → ks.get? m = some k →
      lt k key = true) ∧
    (∀ k : K, ks.get? (ksl_bsearch lt ks key) = some k →
      lt k key = false) := by
  have h := bsearchLoop_spec ks key hmono (-1) (ks.length : Int)
    (by omega) (by omega) (by omega)
    (by intro m k hm hk; omega)
    (by intro k hk _; omega)
  rcases h with ⟨h1, h2, h3, h4⟩
  unfold ksl_bsearch
  refine ⟨by omega, ?_, ?_⟩
  · intro m k hm hk
    exact h3 m k (by omega) hk
  · intro k hk
    by_cases hlen : bsearchLoop lt ks key (-1) (ks.length : Int) < ks.length
    · exact h4 k hlen hk
    · exfalso
      have : ks.length ≤ (bsearchLoop lt ks key (-1) (ks.length : Int)).toNat := by
        omega
      rw [List.get?_eq_none.2 this] at hk
      cases hk

theorem bsMono_of_sorted (ord : LtOrder lt) (key : K) {ks : List K}
    (hs : List.Pairwise (fun a b => lt a b = true) ks) : BsMono lt ks key := by
  intro i j ki kj hij hki hkj hcmp
  rcases Nat.eq_or_lt_of_le hij with h | h
  · subst h
    rw [hki] at hkj
    cases hkj
    exact hcmp
  · obtain ⟨hi, hgi⟩ := List.get?_eq_some.1 hki
    obtain ⟨hj, hgj⟩ := List.get?_eq_some.1 hkj
    have hlt : lt ki kj = true := by
      have hp := List.pairwise_iff_get.1 hs ⟨i, hi⟩ ⟨j, hj⟩ h
      rwa [hgi, hgj] at hp
    exact ord.tr ki kj key hlt hcmp

theorem sorted_countP_split {key : K} (ord : LtOrder lt) {l : List K}
    (hs : List.Pairwise (fun a b => lt a b = true) l) :
    (∀ x ∈ l.take (l.countP fun y => lt y key), lt x key = true) ∧
    (∀ x ∈ l.drop (l.countP fun y => lt y key), lt x key = false) := by
  induction l with
  | nil => simp
  | cons a l ih =>
    rcases List.pairwise_cons.1 hs with ⟨ha, hl⟩
    by_cases hcmp : lt a key = true
    · rw [List.countP_cons_of_pos _ _ (by simpa using hcmp)]
      simp only [List.take_succ_cons, List.drop_succ_cons]
      refine ⟨?_, (ih hl).2⟩
      intro x hx
      rcases List.mem_cons.1 hx with rfl | hx
      · exact hcmp
      · exact (ih hl).1 x hx
    · have hcmp2 : lt a key = false := by simpa using hcmp
      have hall : ∀ x ∈ a :: l, lt x key = false := by
        intro x hx
        rcases List.mem_cons.1 hx with rfl | hx
        · exact hcmp2
        · cases hxk : lt x key with
          | false => rfl
          | true =>
            have h2 := ord.tr a x key (ha x hx) hxk
            rw [hcmp2] at h2
            cases h2
      have hcnt : (a :: l).countP (fun y => lt y key) = 0 := by
        rw [List.countP_eq_zero]
        intro x hx
        simpa using hall x hx
      rw [hcnt]
      exact ⟨by simp, by simpa using hall⟩

theorem ksl_bsearch_sorted (ord : LtOrder lt) (key : K) {ks : List K}
    (hs : List.Pairwise (fun a b => lt a b = true) ks) :
    ksl_bsearch lt ks key = ks.countP fun y => lt y key := by
  have hspec := ksl_bsearch_spec ks key (bsMono_of_sorted ord key hs)
  have h1 : (ks.take (ksl_bsearch lt ks key)).countP (fun y => lt y key) =
      (ks.take (ksl_bsearch lt ks key)).length := by
    rw [List.countP_eq_length]
    intro x hx
    obtain ⟨m, hm⟩ := List.mem_iff_get?.1 hx
    obtain ⟨hmlt, _⟩ := List.get?_eq_some.1 hm
    rw [List.length_take] at hmlt
    have hmr : m < ksl_bsearch lt ks key := lt_of_lt_of_le hmlt (min_le_left _ _)
    have hks : ks.get? m = some x := by
      rw [← List.get?_take hmr]
      exact hm
    simpa using hspec.2.1 m x hmr hks
  have h2 : (ks.drop (ksl_bsearch lt ks key)).countP (fun y => lt y key) = 0 := by
    rw [List.countP_eq_zero]
    intro x hx
    obtain ⟨m, hm⟩ := List.mem_iff_get?.1 hx
    rw [List.get?_drop] at hm
    simp only [Bool.not_eq_true]
    cases hxk : lt x key with
    | false => rfl
    | true =>
      obtain ⟨hlen, _⟩ := List.get?_eq_some.1 hm
      have hr : ksl_bsearch lt ks key < ks.length := by omega
      obtain ⟨hr2, hgr⟩ : ∃ h : ksl_bsearch lt ks key < ks.length, True :=
        ⟨hr, trivial⟩
      cases hgr2 : ks.get? (ksl_bsearch lt ks key) with
      | none =>
        rw [List.get?_eq_none] at hgr2
        omega
      | some kr =>
        have hmono := bsMono_of_sorted ord key hs
          (ksl_bsearch lt ks key) (ksl_bsearch lt ks key + m) kr x
          (Nat.le_add_right _ _) hgr2 hm hxk
        have hfalse := hspec.2.2 kr hgr2
        rw [hmono] at hfalse
        cases hfalse
  have hsplit := (List.take_append_drop (ksl_bsearch lt ks key) ks).symm
  have hcnt : ks.countP (fun y => lt y key) =
      (ks.take (ksl_bsearch lt ks key)).countP (fun y => lt y key) +
      (ks.drop (ksl_bsearch lt ks key)).countP (fun y => lt y key) := by
    conv_lhs => rw [hsplit]
    rw [List.countP_append]
  rw [hcnt, h1, h2, List.length_take, Nat.add_zero,
    Nat.min_eq_left hspec.1]

end Bsearch

/-! ## Structural lemmas about blocks -/

section BlkLemmas

variable {K V : Type}

@[simp] theorem Blk.flat_leaf (es : List (K × V)) :
    (Blk.leaf es).flat = es := rfl

@[simp] theorem Blk.flat_node_nil :
    (Blk.node ([] : List (K × Blk K V))).flat = [] := rfl

@[simp] theorem Blk.flat_node_cons (k : K) (c : Blk K V) (rest) :
    (Blk.node ((k, c) :: rest)).flat = c.flat ++ (Blk.node rest).flat := rfl

@[simp] theorem Blk.leafBlocks_leaf (es : List (K × V)) :
    (Blk.leaf es).leafBlocks = [es] := rfl

@[simp] theorem Blk.leafBlocks_node_nil :
    (Blk.node ([] : List (K × Blk K V))).leafBlocks = [] := rfl

@[simp] theorem Blk.leafBlocks_node_cons (k : K) (c : Blk K V) (rest) :
    (Blk.node ((k, c) :: rest)).leafBlocks =
      c.leafBlocks ++ (Blk.node rest).leafBlocks := rfl

@[simp] theorem Blk.count_leaf (es : List (K × V)) :
    (Blk.leaf es).count = es.length := rfl

@[simp] theorem Blk.count_node (es : List (K × Blk K V)) :
    (Blk.node es).count = es.length := rfl

@[simp] theorem Blk.keyList_leaf (es : List (K × V)) :
    (Blk.leaf es).keyList = es.map Prod.fst := rfl

@[simp] theorem Blk.keyList_node (es : List (K × Blk K V)) :
    (Blk.node es).keyList = es.map Prod.fst := rfl

theorem Blk.flat_node_append (es₁ es₂ : List (K × Blk K V)) :
    (Blk.node (es₁ ++ es₂)).flat =
      (Blk.node es₁).flat ++ (Blk.node es₂).flat := by
  induction es₁ with
  | nil => simp
  | cons e rest ih =>
    obtain ⟨k, c⟩ := e
    simp [ih]

theorem Blk.leafBlocks_node_append (es₁ es₂ : List (K × Blk K V)) :
    (Blk.node (es₁ ++ es₂)).leafBlocks =
      (Blk.node es₁).leafBlocks ++ (Blk.node es₂).leafBlocks := by
  induction es₁ with
  | nil => simp
  | cons e rest ih =>
    obtain ⟨k, c⟩ := e
    simp [ih]

theorem Blk.flat_eq_join_leafBlocks (b : Blk K V) :
    b.flat = b.leafBlocks.join := by
  induction b using Blk.consInduction with
  | hleaf es => simp
  | hnil => simp
  | hcons k c rest ihc ihr => simp [ihc, ihr]

/-- `fkeys` of an internal node is the concatenation of the children's
`fkeys`. -/
theorem Blk.fkeys_node_cons (k : K) (c : Blk K V) (rest) :
    (Blk.node ((k, c) :: rest)).fkeys = c.fkeys ++ (Blk.node rest).fkeys := by
  simp [Blk.fkeys]

theorem Blk.fkeys_node_append (es₁ es₂ : List (K × Blk K V)) :
    (Blk.node (es₁ ++ es₂)).fkeys =
      (Blk.node es₁).fkeys ++ (Blk.node es₂).fkeys := by
  simp [Blk.fkeys, Blk.flat_node_append]

@[simp] theorem Blk.fkeys_leaf (es : List (K × V)) :
    (Blk.leaf es).fkeys = es.map Prod.fst := by simp [Blk.fkeys]

@[simp] theorem Blk.fkeys_node_nil :
    (Blk.node ([] : List (K × Blk K V))).fkeys = [] := by simp [Blk.fkeys]

@[simp] theorem Blk.height_leaf (es : List (K × V)) :
    (Blk.leaf es).height = 0 := rfl

theorem Blk.length_flat_eq_sum (b : Blk K V) :
    b.flat.length = (b.leafBlocks.map List.length).sum := by
  rw [Blk.flat_eq_join_leafBlocks]
  induction b.leafBlocks with
  | nil => simp
  | cons l ls ih => simp [ih]

theorem Blk.fkeys_node_join {K V : Type} (es : List (K × Blk K V)) :
    (Blk.node es).fkeys = (es.map fun e => e.2.fkeys).join := by
  induction es with
  | nil => simp
  | cons e rest ih =>
    obtain ⟨k, c⟩ := e
    simp [Blk.fkeys_node_cons, ih]

theorem Blk.leafBlocks_node_join {K V : Type} (es : List (K × Blk K V)) :
    (Blk.node es).leafBlocks = (es.map fun e => e.2.leafBlocks).join := by
  induction es with
  | nil => simp
  | cons e rest ih =>
    obtain ⟨k, c⟩ := e
    simp [ih]

theorem Blk.leafCount_node {K V : Type} (es : List (K × Blk K V)) :
    (Blk.node es).leafCount = (es.map fun e => e.2.leafCount).sum := by
  simp [Blk.leafCount, Blk.leafBlocks_node_join]
  induction es with
  | nil => simp
  | cons e rest ih => simp [ih, Blk.leafCount]

end BlkLemmas

/-! ## Well-formedness: destructuring and derived facts -/

section WfLemmas

variable {K V : Type} {lt : K → K → Bool} {MIN : Nat}

theorem WfN_leaf_iff {root : Bool} {es : List (K × V)} :
    WfN lt MIN 0 root (Blk.leaf es) ↔
      ((root = true ∨ MIN ≤ es.length) ∧ es.length ≤ 2 * MIN ∧
       List.Pairwise (fun a b => lt a b = true) (es.map Prod.fst)) := by
  rw [WfN]

theorem WfN_node_iff {h : Nat} {root : Bool} {es : List (K × Blk K V)} :
    WfN lt MIN (h + 1) root (Blk.node es) ↔
      ((if root = true then 2 ≤ es.length else MIN ≤ es.length) ∧
       es.length ≤ 2 * MIN ∧
       (∀ e ∈ es, WfN lt MIN h false e.2 ∧
         (∀ x ∈ e.2.fkeys, lt e.1 x = false) ∧
         e.2.fkeys ≠ [] ∧
         (∀ s ∈ e.2.keyList.getLast?, lt e.1 s = false)) ∧
       List.Pairwise
         (fun a b => lt a.1 b.1 = true ∧ ∀ x ∈ b.2.fkeys, lt a.1 x = true)
         es) := by
  rw [WfN]

@[simp] theorem WfN_leaf_succ {h : Nat} {root : Bool} {es : List (K × V)} :
    WfN lt MIN (h + 1) root (Blk.leaf es) ↔ False := by
  rw [WfN]

@[simp] theorem WfN_node_zero {root : Bool} {es : List (K × Blk K V)} :
    WfN lt MIN 0 root (Blk.node es) ↔ False := by
  rw [WfN]

theorem getLast?_mem_self {A : Type} :
    ∀ {l : List A} {a : A}, l.getLast? = some a → a ∈ l
  | [], _, h => by cases h
  | [x], a, h => by
    simp only [List.getLast?_singleton, Option.some.injEq] at h
    simp [h]
  | x :: y :: l, a, h => by
    rw [List.getLast?_cons_cons] at h
    exact List.mem_cons_of_mem x (getLast?_mem_self h)

theorem sorted_getLast_ge (ord : LtOrder lt) :
    ∀ {l : List K}, List.Pairwise (fun a b => lt a b = true) l →
    ∀ {s : K}, l.getLast? = some s → ∀ x ∈ l, lt s x = false := by
  intro l
  induction l with
  | nil => intro _ s hs; cases hs
  | cons a l ih =>
    intro hp s hs x hx
    rcases List.pairwise_cons.1 hp with ⟨ha, hl⟩
    cases l with
    | nil =>
      simp only [List.getLast?_singleton, Option.some.injEq] at hs
      subst hs
      rcases List.mem_singleton.1 hx with rfl
      exact ord.irrefl x
    | cons b l2 =>
      rw [List.getLast?_cons_cons] at hs
      rcases List.mem_cons.1 hx with rfl | hx2
      · exact ord.asymm (ha s (getLast?_mem_self hs))
      · exact ih hl hs x hx2

theorem wf_sorted_block_keys {h : Nat} {root : Bool} {b : Blk K V}
    (hwf : WfN lt MIN h root b) :
    List.Pairwise (fun a b => lt a b = true) b.keyList := by
  cases b with
  | leaf es =>
    cases h with
    | zero => exact (WfN_leaf_iff.1 hwf).2.2
    | succ h => exact absurd hwf (by simp)
  | node es =>
    cases h with
    | zero => exact absurd hwf (by simp)
    | succ h =>
      have hp := (WfN_node_iff.1 hwf).2.2.2
      simp only [Blk.keyList_node]
      exact List.pairwise_map.2 (hp.imp fun h => h.1)

/-- Every stored key of a child subtree is at most the child's separator,
and the keys of later subtrees exceed the separator. -/
theorem wf_fkeys_sorted (ord : LtOrder lt) :
    ∀ (h : Nat) {root : Bool} {b : Blk K V}, WfN lt MIN h root b →
    List.Pairwise (fun a b => lt a b = true) b.fkeys := by
  intro h
  induction h with
  | zero =>
    intro root b hwf
    cases b with
    | leaf es => simpa using (WfN_leaf_iff.1 hwf).2.2
    | node es => exact absurd hwf (by simp)
  | succ h ih =>
    intro root b hwf
    cases b with
    | leaf es => exact absurd hwf (by simp)
    | node es =>
      obtain ⟨_, _, hent, hp⟩ := WfN_node_iff.1 hwf
      rw [Blk.fkeys_node_join, List.pairwise_join]
      refine ⟨?_, ?_⟩
      · intro l hl
        obtain ⟨e, he, rfl⟩ := List.mem_map.1 hl
        exact ih (hent e he).1
      · rw [List.pairwise_map]
        refine List.Pairwise.imp_of_mem ?_ hp
        intro a b ha hb hab
        intro x hx y hy
        exact ord.leLt ((hent a ha).2.1 x hx) (hab.2 y hy)

theorem height_node_of_children {h : Nat} :
    ∀ {es : List (K × Blk K V)}, es ≠ [] → (∀ e ∈ es, e.2.height = h) →
    (Blk.node es).height = h + 1 := by
  intro es
  induction es with
  | nil => intro hne; cases hne rfl
  | cons e rest ih =>
    intro _ hall
    obtain ⟨k, c⟩ := e
    have hunf : (Blk.node ((k, c) :: rest)).height =
        max (c.height + 1) (Blk.node rest).height := rfl
    rw [hunf]
    have hc : c.height = h := hall (k, c) (List.mem_cons_self _ _)
    cases rest with
    | nil =>
      have h1 : (Blk.node ([] : List (K × Blk K V))).height = 1 := rfl
      rw [h1, hc]
      omega
    | cons e2 rest2 =>
      rw [ih (by simp) fun e he => hall e (List.mem_cons_of_mem _ he), hc]
      omega

theorem wf_height (hMIN : 1 ≤ MIN) :
    ∀ (h : Nat) {root : Bool} {b : Blk K V}, WfN lt MIN h root b →
    b.height = h := by
  intro h
  induction h with
  | zero =>
    intro root b hwf
    cases b with
    | leaf es => simp
    | node es => exact absurd hwf (by simp)
  | succ h ih =>
    intro root b hwf
    cases b with
    | leaf es => exact absurd hwf (by simp)
    | node es =>
      obtain ⟨hlo, _, hent, _⟩ := WfN_node_iff.1 hwf
      refine height_node_of_children ?_ fun e he => ih (hent e he).1
      intro hnil
      subst hnil
      by_cases hroot : root = true <;> simp [hroot] at hlo <;> omega

theorem wf_leafCount_pos (hMIN : 1 ≤ MIN) :
    ∀ (h : Nat) {root : Bool} {b : Blk K V}, WfN lt MIN h root b →
    1 ≤ b.leafCount := by
  intro h
  induction h with
  | zero =>
    intro root b hwf
    cases b with
    | leaf es => simp [Blk.leafCount]
    | node es => exact absurd hwf (by simp)
  | succ h ih =>
    intro root b hwf
    cases b with
    | leaf es => exact absurd hwf (by simp)
    | node es =>
      obtain ⟨hlo, _, hent, _⟩ := WfN_node_iff.1 hwf
      cases es with
      | nil =>
        exfalso
        by_cases hroot : root = true <;> simp [hroot] at hlo <;> omega
      | cons e rest =>
        obtain ⟨k, c⟩ := e
        have h1 := ih (hent (k, c) (List.mem_cons_self _ _)).1
        simp only [Blk.leafCount, Blk.leafBlocks_node_cons, List.length_append]
        simp only [Blk.leafCount] at h1
        omega

theorem wf_nonroot_fkeys_ne_nil (hMIN : 1 ≤ MIN) {h : Nat} {b : Blk K V}
    (hwf : WfN lt MIN h false b) : b.fkeys ≠ [] := by
  cases b with
  | leaf es =>
    cases h with
    | zero =>
      obtain ⟨hlo, _, _⟩ := WfN_leaf_iff.1 hwf
      simp only [Blk.fkeys_leaf, ne_eq, List.map_eq_nil_iff]
      intro hnil
      subst hnil
      simp at hlo
      omega
    | succ h => exact absurd hwf (by simp)
  | node es =>
    cases h with
    | zero => exact absurd hwf (by simp)
    | succ h =>
      obtain ⟨hlo, _, hent, _⟩ := WfN_node_iff.1 hwf
      cases es with
      | nil => simp at hlo; omega
      | cons e rest =>
        have h1 := (hent e (List.mem_cons_self _ _)).2.2.1
        rw [Blk.fkeys_node_cons]
        simp only [ne_eq, List.append_eq_nil]
        intro hc
        exact h1 hc.1

theorem wf_leafBlocks_ne_nil (hMIN : 1 ≤ MIN) :
    ∀ (h : Nat) {b : Blk K V}, WfN lt MIN h false b →
    ∀ l ∈ b.leafBlocks, l ≠ [] := by
  intro h
  induction h with
  | zero =>
    intro b hwf l hl
    cases b with
    | leaf es =>
      obtain ⟨hlo, _, _⟩ := WfN_leaf_iff.1 hwf
      simp only [Blk.leafBlocks_leaf, List.mem_singleton] at hl
      subst hl
      intro hnil
      subst hnil
      simp only [List.length_nil] at hlo
      rcases hlo with hc | hc
      · cases hc
      · omega
    | node es => exact absurd hwf (by simp)
  | succ h ih =>
    intro b hwf l hl
    cases b with
    | leaf es => exact absurd hwf (by simp)
    | node es =>
      obtain ⟨_, _, hent, _⟩ := WfN_node_iff.1 hwf
      rw [Blk.leafBlocks_node_join] at hl
      obtain ⟨ls, hls, hl2⟩ := List.mem_join.1 hl
      obtain ⟨e, he, rfl⟩ := List.mem_map.1 hls
      exact ih (hent e he).1 l hl2

/-- All leaf blocks of a well-formed head are nonempty, unless the tree is the
single empty root leaf. -/
theorem wf_head_leafBlocks_ne_nil (hMIN : 1 ≤ MIN) {h : Nat} {b : Blk K V}
    (hwf : WfN lt MIN h true b) (hne : b.flat ≠ []) :
    ∀ l ∈ b.leafBlocks, l ≠ [] := by
  cases b with
  | leaf es =>
    intro l hl
    simp only [Blk.leafBlocks_leaf, List.mem_singleton] at hl
    subst hl
    simpa using hne
  | node es =>
    cases h with
    | zero => exact absurd hwf (by simp)
    | succ h =>
      obtain ⟨_, _, hent, _⟩ := WfN_node_iff.1 hwf
      intro l hl
      rw [Blk.leafBlocks_node_join] at hl
      obtain ⟨ls, hls, hl2⟩ := List.mem_join.1 hl
      obtain ⟨e, he, rfl⟩ := List.mem_map.1 hls
      exact wf_leafBlocks_ne_nil hMIN h (hent e he).1 l hl2

/-- A well-formed head with no stored entries is the empty leaf. -/
theorem wf_flat_nil_eq (hMIN : 1 ≤ MIN) {h : Nat} {b : Blk K V}
    (hwf : WfN lt MIN h true b) (hnil : b.flat = []) : b = Blk.leaf [] := by
  cases b with
  | leaf es => rw [Blk.flat_leaf] at hnil; rw [hnil]
  | node es =>
    cases h with
    | zero => exact absurd hwf (by simp)
    | succ h =>
      exfalso
      obtain ⟨hlo, _, hent, _⟩ := WfN_node_iff.1 hwf
      cases es with
      | nil => simp at hlo
      | cons e rest =>
        obtain ⟨k, c⟩ := e
        have h1 := (hent (k, c) (List.mem_cons_self _ _)).2.2.1
        rw [Blk.flat_node_cons] at hnil
        have : c.flat = [] := by
          cases hflat : c.flat with
          | nil => rfl
          | cons x xs => rw [hflat] at hnil; simp at hnil
        exact h1 (by simp [Blk.fkeys, this])

end WfLemmas

/-! ## Rank and join utilities for cursors -/

section RankLemmas

variable {K V : Type}

theorem lbRank_append (A B : List (List (K × V))) (p i : Nat) :
    lbRank (A ++ B) (A.length + p) i =
      (A.map List.length).sum + lbRank B p i := by
  unfold lbRank
  rw [List.take_append, List.map_append, List.sum_append]
  omega

theorem lbRank_zero (ls : List (List (K × V))) (i : Nat) :
    lbRank ls 0 i = i := by
  simp [lbRank]

theorem join_get?_rank :
    ∀ (ls : List (List (K × V))) (p i : Nat), p < ls.length →
    i < (ls.getD p []).length →
    ls.join.get? (lbRank ls p i) = (ls.getD p []).get? i := by
  intro ls
  induction ls with
  | nil => intro p i hp; simp at hp
  | cons l rest ih =>
    intro p i hp hi
    cases p with
    | zero =>
      simp only [List.getD_cons_zero] at hi ⊢
      have hj : (l :: rest).join = l ++ rest.join := rfl
      rw [lbRank_zero, hj, List.get?_append hi]
    | succ p =>
      simp only [List.getD_cons_succ] at hi ⊢
      have hrank : lbRank (l :: rest) (p + 1) i =
          l.length + lbRank rest p i := by
        simp [lbRank, List.take_succ_cons]
        omega
      have hj : (l :: rest).join = l ++ rest.join := rfl
      rw [hrank, hj, List.get?_append_right (by omega)]
      have : l.length + lbRank rest p i - l.length = lbRank rest p i := by omega
      rw [this]
      exact ih p i (by simpa using hp) hi

end RankLemmas

/-! ## Small list access helpers -/

section ListHelpers

variable {A : Type}

theorem mem_take_get? {l : List A} {i : Nat} {x : A} (hx : x ∈ l.take i) :
    ∃ m, m < i ∧ l.get? m = some x := by
  obtain ⟨m, hm⟩ := List.mem_iff_get?.1 hx
  obtain ⟨hmlt, _⟩ := List.get?_eq_some.1 hm
  rw [List.length_take] at hmlt
  have hmi : m < i := lt_of_lt_of_le hmlt (min_le_left _ _)
  refine ⟨m, hmi, ?_⟩
  rw [← List.get?_take hmi]
  exact hm

theorem getD_append_offset (l₁ l₂ : List A) (n : Nat) (d : A) :
    (l₁ ++ l₂).getD (l₁.length + n) d = l₂.getD n d := by
  rw [List.getD_eq_getD_get?, List.getD_eq_getD_get?,
    List.get?_append_right (by omega)]
  have h : l₁.length + n - l₁.length = n := by omega
  rw [h]

theorem getD_append_left (l₁ l₂ : List A) {n : Nat} (d : A)
    (h : n < l₁.length) : (l₁ ++ l₂).getD n d = l₁.getD n d := by
  rw [List.getD_eq_getD_get?, List.getD_eq_getD_get?, List.get?_append h]

theorem getD_append_length (l₁ l₂ : List A) (d : A) :
    (l₁ ++ l₂).getD l₁.length d = l₂.getD 0 d := by
  have h := getD_append_offset l₁ l₂ 0 d
  simpa using h

theorem drop_eq_cons_of_get? {l : List A} {i : Nat} {x : A}
    (h : l.get? i = some x) : l.drop i = x :: l.drop (i + 1) := by
  induction l generalizing i with
  | nil => cases h
  | cons a l ih =>
    cases i with
    | zero =>
      simp only [List.get?_cons_zero, Option.some.injEq] at h
      subst h
      simp
    | succ i =>
      simp only [List.get?_cons_succ] at h
      simpa using ih h

end ListHelpers

/-! ## Correctness of the lower-bound descent -/

section LowerBoundProof

variable {K V : Type} [Inhabited K] [Inhabited V] {lt : K → K → Bool}
  {MIN : Nat}

theorem lbRank_append_left {p i : Nat} (A B : List (List (K × V)))
    (h : p ≤ A.length) : lbRank (A ++ B) p i = lbRank A p i := by
  unfold lbRank
  rw [List.take_append_of_le_length h]

theorem lbRank_append_len (A B : List (List (K × V))) (i : Nat) :
    lbRank (A ++ B) A.length i = (A.map List.length).sum + lbRank B 0 i := by
  have h := lbRank_append A B 0 i
  simpa using h

theorem lowerBoundB_spec (ord : LtOrder lt) (hMIN : 1 ≤ MIN) (key : K) :
    ∀ (h : Nat) (root : Bool) (b : Blk K V), WfN lt MIN h root b →
    ∀ fuel, h + 1 ≤ fuel →
    (lowerBoundB lt key fuel b = none →
      ∀ x ∈ b.fkeys, lt x key = true) ∧
    (∀ p i, lowerBoundB lt key fuel b = some (p, i) →
      p < b.leafCount ∧ i < (b.leafBlocks.getD p []).length ∧
      lbRank b.leafBlocks p i = b.fkeys.countP fun x => lt x key) := by
  intro h
  induction h with
  | zero =>
    intro root b hwf fuel hfuel
    cases b with
    | node es => exact absurd hwf (by simp)
    | leaf es =>
      cases fuel with
      | zero => omega
      | succ f =>
        have hsorted := (WfN_leaf_iff.1 hwf).2.2
        have hbs := ksl_bsearch_sorted ord key hsorted
        constructor
        · intro hnone x hx
          simp only [lowerBoundB] at hnone
          by_cases hieq : ksl_bsearch lt (es.map Prod.fst) key = es.length
          · rw [hbs] at hieq
            have hlen : (es.map Prod.fst).countP (fun y => lt y key) =
                (es.map Prod.fst).length := by
              rw [List.length_map]
              exact hieq
            have hall := List.countP_eq_length.1 hlen
            rw [Blk.fkeys_leaf] at hx
            simpa using hall x hx
          · rw [if_neg hieq] at hnone
            cases hnone
        · intro p i hsome
          simp only [lowerBoundB] at hsome
          by_cases hieq : ksl_bsearch lt (es.map Prod.fst) key = es.length
          · rw [if_pos hieq] at hsome
            cases hsome
          · rw [if_neg hieq] at hsome
            have hpi : p = 0 ∧ i = ksl_bsearch lt (es.map Prod.fst) key := by
              cases hsome
              exact ⟨rfl, rfl⟩
            obtain ⟨rfl, rfl⟩ := hpi
            have hle : ksl_bsearch lt (es.map Prod.fst) key ≤ es.length := by
              have := (ksl_bsearch_spec (es.map Prod.fst) key
                (bsMono_of_sorted ord key hsorted)).1
              simpa using this
            refine ⟨by simp [Blk.leafCount], ?_, ?_⟩
            · simp only [Blk.leafBlocks_leaf, List.getD_cons_zero]
              omega
            · simp only [Blk.leafBlocks_leaf, lbRank_zero, Blk.fkeys_leaf]
              rw [hbs]
  | succ h ih =>
    intro root b hwf fuel hfuel
    cases b with
    | leaf es => exact absurd hwf (by simp)
    | node es =>
      cases fuel with
      | zero => omega
      | succ f =>
        obtain ⟨hlo, hhi, hent, hp⟩ := WfN_node_iff.1 hwf
        have hsorted : List.Pairwise (fun a b => lt a b = true)
            (es.map Prod.fst) := by
          simpa using wf_sorted_block_keys (b := Blk.node es) hwf
        have hspec := ksl_bsearch_spec (es.map Prod.fst) key
          (bsMono_of_sorted ord key hsorted)
        have hle : ksl_bsearch lt (es.map Prod.fst) key ≤ es.length := by
          simpa using hspec.1
        -- every entry of the prefix has separator (and hence subtree) < key
        have hpfx : ∀ e ∈ es.take (ksl_bsearch lt (es.map Prod.fst) key),
            lt e.1 key = true := by
          intro e he
          obtain ⟨m, hm, hg⟩ := mem_take_get? he
          exact hspec.2.1 m e.1 hm (by rw [List.get?_map, hg]; rfl)
        have hsubpre : ∀ x ∈ (Blk.node
            (es.take (ksl_bsearch lt (es.map Prod.fst) key))).fkeys,
            lt x key = true := by
          intro x hx
          rw [Blk.fkeys_node_join] at hx
          obtain ⟨ls, hls, hx2⟩ := List.mem_join.1 hx
          obtain ⟨e, he, rfl⟩ := List.mem_map.1 hls
          have he2 : e ∈ es := List.mem_of_mem_take he
          exact ord.leLt ((hent e he2).2.1 x hx2) (hpfx e he)
        by_cases hieq : ksl_bsearch lt (es.map Prod.fst) key = es.length
        · -- the query exceeds every separator: the whole subtree is < key
          have hnone : lowerBoundB lt key (f + 1) (Blk.node es) = none := by
            simp only [lowerBoundB]
            rw [if_pos hieq]
          have hall : ∀ x ∈ (Blk.node es).fkeys, lt x key = true := by
            have htake : es.take (ksl_bsearch lt (es.map Prod.fst) key) = es := by
              rw [hieq]
              exact List.take_length es
            rw [← htake]
            exact hsubpre
          constructor
          · intro _
            exact hall
          · intro p i hsome
            rw [hnone] at hsome
            cases hsome
        · -- descend into the child at the bsearch index
          have hilt : ksl_bsearch lt (es.map Prod.fst) key < es.length := by
            omega
          obtain ⟨ei, hei⟩ : ∃ ei, es.get?
              (ksl_bsearch lt (es.map Prod.fst) key) = some ei := by
            cases hg : es.get? (ksl_bsearch lt (es.map Prod.fst) key) with
            | none =>
              rw [List.get?_eq_none] at hg
              omega
            | some x => exact ⟨x, rfl⟩
          have hgd : es.getD (ksl_bsearch lt (es.map Prod.fst) key) default
              = ei := by
            rw [List.getD_eq_getD_get?, hei]
            rfl
          have heimem : ei ∈ es := by
            obtain ⟨hlt2, hg⟩ := List.get?_eq_some.1 hei
            exact hg ▸ List.get_mem es _ _
          have hsepi : lt ei.1 key = false :=
            hspec.2.2 ei.1 (by rw [List.get?_map, hei]; rfl)
          -- decomposition of the entry list around the bsearch index
          have hdrop := drop_eq_cons_of_get? hei
          have hsplit : es = es.take (ksl_bsearch lt (es.map Prod.fst) key)
              ++ ei :: es.drop (ksl_bsearch lt (es.map Prod.fst) key + 1) := by
            conv_lhs => rw [← List.take_append_drop
              (ksl_bsearch lt (es.map Prod.fst) key) es]
            rw [hdrop]
          -- the suffix subtrees are all ≥ key
          have hsuffix : ∀ x ∈ (Blk.node
              (es.drop (ksl_bsearch lt (es.map Prod.fst) key + 1))).fkeys,
              lt x key = false := by
            intro x hx
            rw [Blk.fkeys_node_join] at hx
            obtain ⟨ls, hls, hx2⟩ := List.mem_join.1 hx
            obtain ⟨e, he, rfl⟩ := List.mem_map.1 hls
            have hpe : ∀ y ∈ e.2.fkeys, lt ei.1 y = true := by
              have hpw := hp
              rw [hsplit] at hpw
              have h2 := (List.pairwise_append.1 hpw).2.1
              exact (List.pairwise_cons.1 h2).1 e he |>.2
            cases hxk : lt x key with
            | false => rfl
            | true =>
              have h3 := ord.tr ei.1 x key (hpe x hx2) hxk
              rw [hsepi] at h3
              cases h3
          -- countP decomposition
          have hcnt : (Blk.node es).fkeys.countP (fun x => lt x key) =
              (Blk.node (es.take (ksl_bsearch lt (es.map Prod.fst) key))).fkeys.length
              + ei.2.fkeys.countP (fun x => lt x key) := by
            conv_lhs => rw [hsplit]
            rw [Blk.fkeys_node_append, Blk.fkeys_node_cons,
              List.countP_append, List.countP_append]
            have hfull : (Blk.node (es.take (ksl_bsearch lt
                (es.map Prod.fst) key))).fkeys.countP (fun x => lt x key) =
                (Blk.node (es.take (ksl_bsearch lt
                  (es.map Prod.fst) key))).fkeys.length := by
              rw [List.countP_eq_length]
              intro x hx
              simpa using hsubpre x hx
            have hzero : (Blk.node (es.drop (ksl_bsearch lt
                (es.map Prod.fst) key + 1))).fkeys.countP
                (fun x => lt x key) = 0 := by
              rw [List.countP_eq_zero]
              intro x hx
              simp only [Bool.not_eq_true]
              exact hsuffix x hx
            rw [hfull, hzero]
            omega
          -- leaf block decomposition
          have hlb : (Blk.node es).leafBlocks =
              (Blk.node (es.take (ksl_bsearch lt (es.map Prod.fst) key))).leafBlocks
              ++ (ei.2.leafBlocks ++ (Blk.node
                (es.drop (ksl_bsearch lt (es.map Prod.fst) key + 1))).leafBlocks) := by
            conv_lhs => rw [hsplit]
            rw [Blk.leafBlocks_node_append]
            cases ei
            rfl
          have hpresum : ((es.take (ksl_bsearch lt (es.map Prod.fst) key)).map
              fun e => e.2.leafCount).sum =
              (Blk.node (es.take (ksl_bsearch lt (es.map Prod.fst) key))).leafBlocks.length := by
            rw [← Blk.leafCount_node]
            rfl
          have hlenA : ((Blk.node (es.take (ksl_bsearch lt
              (es.map Prod.fst) key))).leafBlocks.map List.length).sum =
              (Blk.node (es.take (ksl_bsearch lt
                (es.map Prod.fst) key))).fkeys.length := by
            rw [Blk.fkeys, List.length_map, Blk.length_flat_eq_sum]
          have hrec := ih false ei.2 (hent ei heimem).1 f (by omega)
          have hunf : lowerBoundB lt key (f + 1) (Blk.node es) =
              (match lowerBoundB lt key f ei.2 with
               | some (p, j) =>
                 some ((((es.take (ksl_bsearch lt (es.map Prod.fst) key)).map
                   fun e => e.2.leafCount).sum) + p, j)
               | none =>
                 if ksl_bsearch lt (es.map Prod.fst) key + 1 < es.length then
                   some ((((es.take (ksl_bsearch lt (es.map Prod.fst) key + 1)).map
                     fun e => e.2.leafCount).sum), 0)
                 else none) := by
            simp only [lowerBoundB]
            rw [if_neg hieq, hgd]
          cases hchild : lowerBoundB lt key f ei.2 with
          | some pr =>
            obtain ⟨p', j'⟩ := pr
            obtain ⟨hp'lt, hj'lt, hrank⟩ := hrec.2 p' j' hchild
            rw [hchild] at hunf
            constructor
            · intro hnone
              rw [hunf] at hnone
              cases hnone
            · intro p i hsome
              rw [hunf] at hsome
              simp only [Option.some.injEq, Prod.mk.injEq] at hsome
              obtain ⟨rfl, rfl⟩ := hsome
              rw [hlb, hpresum]
              set LA := (Blk.node (es.take (ksl_bsearch lt
                (es.map Prod.fst) key))).leafBlocks with hLA
              set LI := ei.2.leafBlocks with hLI
              set LB := (Blk.node (es.drop (ksl_bsearch lt
                (es.map Prod.fst) key + 1))).leafBlocks with hLB
              have hp'lt2 : p' < LI.length := hp'lt
              refine ⟨?_, ?_, ?_⟩
              · simp only [Blk.leafCount]
                rw [hlb]
                simp only [List.length_append]
                omega
              · rw [getD_append_offset]
                rw [getD_append_left (h := hp'lt2)]
                exact hj'lt
              · rw [lbRank_append, lbRank_append_left LI LB (le_of_lt hp'lt2)]
                rw [hcnt, ← hlenA]
                have : lbRank LI p' j' = ei.2.fkeys.countP fun x => lt x key := by
                  rw [hrank]
                omega
          | none =>
            have hallchild : ∀ x ∈ ei.2.fkeys, lt x key = true :=
              hrec.1 hchild
            rw [hchild] at hunf
            by_cases hnext : ksl_bsearch lt (es.map Prod.fst) key + 1 < es.length
            · rw [if_pos hnext] at hunf
              constructor
              · intro hnone
                rw [hunf] at hnone
                cases hnone
              · intro p i hsome
                rw [hunf] at hsome
                simp only [Option.some.injEq, Prod.mk.injEq] at hsome
                obtain ⟨rfl, rfl⟩ := hsome
                -- the suffix is nonempty: its first subtree has a first leaf
                have hdropne : es.drop (ksl_bsearch lt
                    (es.map Prod.fst) key + 1) ≠ [] := by
                  intro hnil
                  have := List.length_drop (ksl_bsearch lt
                    (es.map Prod.fst) key + 1) es
                  rw [hnil] at this
                  simp at this
                  omega
                obtain ⟨e1, B2, hB⟩ : ∃ e1 B2, es.drop (ksl_bsearch lt
                    (es.map Prod.fst) key + 1) = e1 :: B2 := by
                  cases hB : es.drop (ksl_bsearch lt (es.map Prod.fst) key + 1) with
                  | nil => exact absurd hB hdropne
                  | cons e1 B2 => exact ⟨e1, B2, rfl⟩
                have he1mem : e1 ∈ es := by
                  have : e1 ∈ es.drop (ksl_bsearch lt (es.map Prod.fst) key + 1) := by
                    rw [hB]
                    exact List.mem_cons_self _ _
                  exact List.mem_of_mem_drop this
                have htakesucc : es.take (ksl_bsearch lt (es.map Prod.fst) key + 1)
                    = es.take (ksl_bsearch lt (es.map Prod.fst) key) ++ [ei] := by
                  rw [List.take_succ]
                  have hei2 : es[ksl_bsearch lt (es.map Prod.fst) key]? = some ei := by
                    rw [← List.get?_eq_getElem?]
                    exact hei
                  rw [hei2]
                  rfl
                rw [hlb, htakesucc]
                set LA := (Blk.node (es.take (ksl_bsearch lt
                  (es.map Prod.fst) key))).leafBlocks with hLA
                set LI := ei.2.leafBlocks with hLI
                set LB := (Blk.node (es.drop (ksl_bsearch lt
                  (es.map Prod.fst) key + 1))).leafBlocks with hLB
                have hsum2 : ((es.take (ksl_bsearch lt (es.map Prod.fst) key)
                    ++ [ei]).map fun e => e.2.leafCount).sum =
                    LA.length + LI.length := by
                  rw [List.map_append, List.sum_append]
                  simp only [List.map_cons, List.map_nil, List.sum_cons,
                    List.sum_nil]
                  rw [hpresum]
                  simp [Blk.leafCount]
                have hLBfirst : LB = e1.2.leafBlocks ++ (Blk.node B2).leafBlocks := by
                  rw [hLB, hB]
                  cases e1
                  rw [Blk.leafBlocks_node_cons]
                have he1pos : 1 ≤ e1.2.leafCount :=
                  wf_leafCount_pos hMIN h (hent e1 he1mem).1
                have hLBpos : 1 ≤ LB.length := by
                  rw [hLBfirst]
                  simp only [List.length_append]
                  have : 1 ≤ e1.2.leafBlocks.length := he1pos
                  omega
                refine ⟨?_, ?_, ?_⟩
                · rw [hsum2]
                  simp only [Blk.leafCount]
                  rw [hlb]
                  simp only [List.length_append]
                  omega
                · rw [hsum2, ← List.length_append LA LI]
                  rw [← List.append_assoc]
                  rw [getD_append_length (LA ++ LI) LB]
                  have hfirstleaf : LB.getD 0 [] ∈ LB := by
                    rw [List.getD_eq_getD_get?]
                    cases hg : LB.get? 0 with
                    | none =>
                      rw [List.get?_eq_none] at hg
                      omega
                    | some x => simpa using List.get?_mem hg
                  have hne := wf_leafBlocks_ne_nil hMIN h (hent e1 he1mem).1
                  have hmem2 : LB.getD 0 [] ∈ e1.2.leafBlocks ∨
                      LB.getD 0 [] ∈ (Blk.node B2).leafBlocks := by
                    refine List.mem_append.1 ?_
                    rw [← hLBfirst]
                    exact hfirstleaf
                  have hnonnil : LB.getD 0 [] ≠ [] := by
                    rcases hmem2 with hm | hm
                    · exact hne _ hm
                    · rw [Blk.leafBlocks_node_join] at hm
                      obtain ⟨ls, hls, hm2⟩ := List.mem_join.1 hm
                      obtain ⟨e2, he2, rfl⟩ := List.mem_map.1 hls
                      have he2mem : e2 ∈ es := by
                        have : e2 ∈ es.drop (ksl_bsearch lt
                            (es.map Prod.fst) key + 1) := by
                          rw [hB]
                          exact List.mem_cons_of_mem _ he2
                        exact List.mem_of_mem_drop this
                      exact wf_leafBlocks_ne_nil hMIN h (hent e2 he2mem).1 _ hm2
                  cases hfl : LB.getD 0 [] with
                  | nil => exact absurd hfl hnonnil
                  | cons a l2 => simp [hfl]
                · rw [hsum2, ← List.length_append LA LI, ← List.append_assoc]
                  rw [lbRank_append_len (LA ++ LI) LB 0]
                  rw [hcnt, ← hlenA]
                  have hcntI : ei.2.fkeys.countP (fun x => lt x key) =
                      ei.2.fkeys.length := by
                    rw [List.countP_eq_length]
                    intro x hx
                    simpa using hallchild x hx
                  have hlenI : (LI.map List.length).sum = ei.2.fkeys.length := by
                    rw [Blk.fkeys, List.length_map, Blk.length_flat_eq_sum]
                  rw [lbRank_zero, List.map_append, List.sum_append, hcntI,
                    ← hlenI]
                  rfl
            · rw [if_neg hnext] at hunf
              constructor
              · intro _ x hx
                have hBnil : es.drop (ksl_bsearch lt
                    (es.map Prod.fst) key + 1) = [] := by
                  rw [List.drop_eq_nil_iff_le]
                  omega
                rw [hsplit, hBnil] at hx
                rw [Blk.fkeys_node_append, Blk.fkeys_node_cons] at hx
                simp only [Blk.fkeys_node_nil, List.append_nil] at hx
                rcases List.mem_append.1 hx with hx | hx
                · exact hsubpre x hx
                · exact hallchild x hx
              · intro p i hsome
                rw [hunf] at hsome
                cases hsome

/-- In a sorted list, the entry at index `countP (· < key)` is the least
element that is not less than `key`. -/
theorem sorted_min_ge (ord : LtOrder lt) {l : List K} (key : K)
    (hs : List.Pairwise (fun a b => lt a b = true) l) {s : K}
    (hget : l.get? (l.countP fun x => lt x key) = some s) :
    s ∈ l ∧ lt s key = false ∧
    ∀ x ∈ l, lt x key = false → lt x s = false := by
  have hmem : s ∈ l := List.get?_mem hget
  have hdrop : l.drop (l.countP fun x => lt x key) =
      s :: l.drop ((l.countP fun x => lt x key) + 1) :=
    drop_eq_cons_of_get? hget
  have hsge : lt s key = false := by
    refine (sorted_countP_split ord hs).2 s ?_
    rw [hdrop]
    exact List.mem_cons_self _ _
  refine ⟨hmem, hsge, ?_⟩
  intro x hx hxge
  have hxdrop : x ∈ l.drop (l.countP fun y => lt y key) := by
    have hx2 : x ∈ l.take (l.countP fun y => lt y key) ++
        l.drop (l.countP fun y => lt y key) := by
      rw [List.take_append_drop]
      exact hx
    rcases List.mem_append.1 hx2 with hx3 | hx3
    · have := (sorted_countP_split ord hs).1 x hx3
      rw [hxge] at this
      cases this
    · exact hx3
  have hpair : List.Pairwise (fun a b => lt a b = true)
      (l.drop (l.countP fun y => lt y key)) :=
    List.Pairwise.sublist (List.drop_sublist _ _) hs
  rw [hdrop] at hxdrop hpair
  rcases List.mem_cons.1 hxdrop with rfl | hx4
  · exact ord.irrefl x
  · exact ord.asymm ((List.pairwise_cons.1 hpair).1 x hx4)

theorem getD_length_sub_one {A : Type} (l : List A) (d : A) :
    l.getD (l.length - 1) d = l.getLastD d := by
  rw [List.getD_eq_getD_get?, List.getLastD_eq_getLast?,
    List.getLast?_eq_get?]

/-- Case analysis of `nghttp3_ksl_lower_bound` on a well-formed tree: either
every stored key is less than the query and the `end()` cursor is returned, or
the cursor is at the least stored key that is not less than the query. -/
theorem lower_bound_cases (ord : LtOrder lt) (hMIN : 1 ≤ MIN) (t : Ksl K V)
    (hwf : WfK lt MIN t) (key : K) :
    (nghttp3_ksl_lower_bound lt t key = nghttp3_ksl_end t ∧
      ∀ x ∈ t.head.fkeys, lt x key = true) ∨
    (∃ s, nghttp3_ksl_it_key (nghttp3_ksl_lower_bound lt t key) = some s ∧
      s ∈ t.head.fkeys ∧ lt s key = false ∧
      ∀ x ∈ t.head.fkeys, lt x key = false → lt x s = false) := by
  have hspec := lowerBoundB_spec ord hMIN key t.head.height true t.head hwf.1
    (t.head.height + 1) (le_refl _)
  cases hlb : lowerBoundB lt key (t.head.height + 1) t.head with
  | none =>
    left
    constructor
    · unfold nghttp3_ksl_lower_bound
      rw [hlb]
    · exact hspec.1 hlb
  | some pr =>
    right
    obtain ⟨p, i⟩ := pr
    obtain ⟨hplt, hilt, hrank⟩ := hspec.2 p i hlb
    have hitdef : nghttp3_ksl_lower_bound lt t key = ⟨kslLeaves t, p, i⟩ := by
      unfold nghttp3_ksl_lower_bound
      rw [hlb]
    obtain ⟨e, he⟩ : ∃ e, (t.head.leafBlocks.getD p []).get? i = some e := by
      cases hg : (t.head.leafBlocks.getD p []).get? i with
      | none =>
        rw [List.get?_eq_none] at hg
        omega
      | some e => exact ⟨e, rfl⟩
    set w := t.head.fkeys.countP fun x => lt x key with hwdef
    have hflat : t.head.flat.get? w = some e := by
      have hj := join_get?_rank t.head.leafBlocks p i hplt hilt
      rw [← Blk.flat_eq_join_leafBlocks] at hj
      have hw2 : w = lbRank t.head.leafBlocks p i := hrank.symm
      rw [hw2, hj]
      exact he
    have hkey : t.head.fkeys.get? w = some e.1 := by
      rw [Blk.fkeys, List.get?_map, hflat]
      rfl
    have hsorted := wf_fkeys_sorted ord t.head.height hwf.1
    obtain ⟨hmem, hge, hmin⟩ := sorted_min_ge ord key hsorted hkey
    refine ⟨e.1, ?_, hmem, hge, hmin⟩
    rw [hitdef]
    unfold nghttp3_ksl_it_key
    simp only [kslLeaves]
    rw [he]
    rfl

end LowerBoundProof

/-! ## Helpers for the insertion proof -/

section InsertHelpers

variable {K V : Type} [Inhabited K] [Inhabited V] {lt : K → K → Bool}
  {MIN : Nat}

theorem lastKeyD_spec (b : Blk K V) (hne : b.keyList ≠ []) :
    b.keyList.getLast? = some b.lastKeyD := by
  rw [Blk.lastKeyD, List.getLastD_eq_getLast?]
  cases hl : b.keyList.getLast? with
  | none =>
    rw [List.getLast?_eq_none_iff] at hl
    exact absurd hl hne
  | some s => rfl

/-- The key of the last entry of a block dominated by a separator bounds every
stored key of the block (weak separator invariant, block-internal form). -/
theorem sep_entries_last_ge (ord : LtOrder lt) :
    ∀ {es : List (K × Blk K V)},
    (∀ e ∈ es, ∀ x ∈ e.2.fkeys, lt e.1 x = false) →
    List.Pairwise
      (fun a b => lt a.1 b.1 = true ∧ ∀ x ∈ b.2.fkeys, lt a.1 x = true) es →
    ∀ {s : K}, (es.map Prod.fst).getLast? = some s →
    ∀ x ∈ (Blk.node es).fkeys, lt s x = false := by
  intro es
  induction es with
  | nil => intro _ _ s hs; cases hs
  | cons e rest ih =>
    intro hav hp s hs x hx
    obtain ⟨k, c⟩ := e
    rcases List.pairwise_cons.1 hp with ⟨hhead, hrest⟩
    rw [Blk.fkeys_node_cons] at hx
    cases rest with
    | nil =>
      simp only [List.map_cons, List.map_nil, List.getLast?_singleton,
        Option.some.injEq] at hs
      subst hs
      simp only [Blk.fkeys_node_nil, List.append_nil] at hx
      exact hav (k, c) (List.mem_cons_self _ _) x hx
    | cons e2 rest2 =>
      simp only [List.map_cons] at hs
      rw [List.getLast?_cons_cons] at hs
      have hs2 : ((e2 :: rest2).map Prod.fst).getLast? = some s := by
        simpa using hs
      rcases List.mem_append.1 hx with hx2 | hx2
      · -- x is under the first child: x ≤ k < s
        have hxk : lt k x = false := hav (k, c) (List.mem_cons_self _ _) x hx2
        have hks : lt k s = true := by
          have hsmem : s ∈ (e2 :: rest2).map Prod.fst :=
            getLast?_mem_self hs2
          obtain ⟨e3, he3, rfl⟩ := List.mem_map.1 hsmem
          exact (hhead e3 he3).1
        exact ord.asymm (ord.leLt hxk hks)
      · exact ih (fun e he => hav e (List.mem_cons_of_mem _ he)) hrest hs2 x hx2

/-- The last entry key of a well-formed block bounds all its stored keys. -/
theorem wf_lastKey_ge (ord : LtOrder lt) {h : Nat} {root : Bool}
    {b : Blk K V} (hwf : WfN lt MIN h root b) :
    ∀ x ∈ b.fkeys, lt b.lastKeyD x = false := by
  intro x hx
  cases b with
  | leaf es =>
    cases h with
    | succ h => exact absurd hwf (by simp)
    | zero =>
      have hs := (WfN_leaf_iff.1 hwf).2.2
      rw [Blk.fkeys_leaf] at hx
      have hne : (Blk.leaf es).keyList ≠ [] := by
        simp only [Blk.keyList_leaf, ne_eq, List.map_eq_nil_iff]
        intro hnil
        subst hnil
        cases hx
      exact sorted_getLast_ge ord hs (by
        have := lastKeyD_spec (Blk.leaf es) hne
        simpa using this) x hx
  | node es =>
    cases h with
    | zero => exact absurd hwf (by simp)
    | succ h =>
      obtain ⟨_, _, hent, hp⟩ := WfN_node_iff.1 hwf
      have hne : (Blk.node es).keyList ≠ [] := by
        simp only [Blk.keyList_node, ne_eq, List.map_eq_nil_iff]
        intro hnil
        subst hnil
        simp at hx
      have hlast := lastKeyD_spec (Blk.node es) hne
      rw [Blk.keyList_node] at hlast
      exact sep_entries_last_ge ord (fun e he => (hent e he).2.1) hp hlast x hx

/-- If every separator of a well-formed block is below the query key, so is
every stored key. -/
theorem wf_fkeys_lt_of_seps_lt (ord : LtOrder lt) {h : Nat} {root : Bool}
    {b : Blk K V} (hwf : WfN lt MIN h root b) {key : K}
    (hseps : ∀ s ∈ b.keyList, lt s key = true) :
    ∀ x ∈ b.fkeys, lt x key = true := by
  intro x hx
  cases b with
  | leaf es =>
    cases h with
    | succ h => exact absurd hwf (by simp)
    | zero =>
      apply hseps
      rw [Blk.fkeys_leaf] at hx
      simpa using hx
  | node es =>
    cases h with
    | zero => exact absurd hwf (by simp)
    | succ h =>
      obtain ⟨_, _, hent, _⟩ := WfN_node_iff.1 hwf
      rw [Blk.fkeys_node_join] at hx
      obtain ⟨ls, hls, hx2⟩ := List.mem_join.1 hx
      obtain ⟨e, he, rfl⟩ := List.mem_map.1 hls
      have h1 : lt e.1 x = false := (hent e he).2.1 x hx2
      have h2 : lt e.1 key = true := by
        apply hseps
        rw [Blk.keyList_node]
        exact List.mem_map_of_mem Prod.fst he
      exact ord.leLt h1 h2

theorem sorted_append_key (ord : LtOrder lt) {l : List K} {key : K}
    (hs : List.Pairwise (fun a b => lt a b = true) l)
    (hall : ∀ x ∈ l, lt x key = true) :
    List.Pairwise (fun a b => lt a b = true) (l ++ [key]) := by
  rw [List.pairwise_append]
  refine ⟨hs, List.pairwise_singleton _ _, ?_⟩
  intro x hx y hy
  rw [List.mem_singleton.1 hy]
  exact hall x hx

theorem splitBlkPair_flat (b : Blk K V) :
    (splitBlkPair b).1.flat ++ (splitBlkPair b).2.flat = b.flat := by
  cases b with
  | leaf es => simp [splitBlkPair]
  | node es =>
    simp only [splitBlkPair]
    rw [← Blk.flat_node_append, List.take_append_drop]

theorem splitBlkPair_count₁ (b : Blk K V) :
    (splitBlkPair b).1.count = b.count - b.count / 2 := by
  cases b with
  | leaf es => simp [splitBlkPair, List.length_take]
  | node es => simp [splitBlkPair, List.length_take]

theorem splitBlkPair_count₂ (b : Blk K V) :
    (splitBlkPair b).2.count = b.count / 2 := by
  cases b with
  | leaf es => simp [splitBlkPair]; omega
  | node es => simp [splitBlkPair]; omega

theorem splitBlkPair_keyList₁ (b : Blk K V) :
    (splitBlkPair b).1.keyList = b.keyList.take (b.count - b.count / 2) := by
  cases b with
  | leaf es => simp [splitBlkPair, List.map_take]
  | node es => simp [splitBlkPair, List.map_take]

theorem splitBlkPair_keyList₂ (b : Blk K V) :
    (splitBlkPair b).2.keyList = b.keyList.drop (b.count - b.count / 2) := by
  cases b with
  | leaf es => simp [splitBlkPair, List.map_drop]
  | node es => simp [splitBlkPair, List.map_drop]

theorem splitBlkPair_wf {h : Nat} {root : Bool} {b : Blk K V}
    (hwf : WfN lt MIN h root b) (hcnt : b.count = 2 * MIN) (hMIN : 1 ≤ MIN) :
    WfN lt MIN h false (splitBlkPair b).1 ∧
    WfN lt MIN h false (splitBlkPair b).2 := by
  have hhalf : b.count / 2 = MIN := by omega
  cases b with
  | leaf es =>
    cases h with
    | succ h => exact absurd hwf (by simp)
    | zero =>
      obtain ⟨_, _, hs⟩ := WfN_leaf_iff.1 hwf
      rw [Blk.count_leaf] at hcnt hhalf
      constructor <;> rw [splitBlkPair] <;> rw [WfN_leaf_iff] <;>
        refine ⟨Or.inr (by simp [List.length_take, List.length_drop]; omega),
          by simp [List.length_take, List.length_drop]; omega, ?_⟩
      · rw [List.map_take]
        exact List.Pairwise.sublist (List.take_sublist _ _) hs
      · rw [List.map_drop]
        exact List.Pairwise.sublist (List.drop_sublist _ _) hs
  | node es =>
    cases h with
    | zero => exact absurd hwf (by simp)
    | succ h =>
      obtain ⟨_, _, hent, hp⟩ := WfN_node_iff.1 hwf
      rw [Blk.count_node] at hcnt hhalf
      constructor <;> rw [splitBlkPair] <;> rw [WfN_node_iff]
      · refine ⟨by simp [List.length_take]; omega,
          by simp [List.length_take]; omega, ?_, ?_⟩
        · intro e he
          exact hent e (List.mem_of_mem_take he)
        · exact List.Pairwise.sublist (List.take_sublist _ _) hp
      · refine ⟨by simp [List.length_drop]; omega,
          by simp [List.length_drop]; omega, ?_, ?_⟩
        · intro e he
          exact hent e (List.mem_of_mem_drop he)
        · exact List.Pairwise.sublist (List.drop_sublist _ _) hp

theorem Blk.keyList_length (b : Blk K V) : b.keyList.length = b.count := by
  cases b with
  | leaf es => simp
  | node es => simp

/-- Every separator of a child bounded by its entry key is below any key that
exceeds the entry key. -/
theorem entry_seps_lt_key (ord : LtOrder lt) {h : Nat} {c : Blk K V} {k key : K}
    (hwfc : WfN lt MIN h false c)
    (hdom : ∀ s ∈ c.keyList.getLast?, lt k s = false)
    (hklt : lt k key = true) :
    ∀ s ∈ c.keyList, lt s key = true := by
  intro s hs
  have hne : c.keyList ≠ [] := List.ne_nil_of_mem hs
  have hlast := lastKeyD_spec c hne
  have hsorted := wf_sorted_block_keys hwfc
  have h1 : lt c.lastKeyD s = false := sorted_getLast_ge ord hsorted hlast s hs
  have h2 : lt k c.lastKeyD = false := hdom _ hlast
  exact ord.leLt (ord.leLe h1 h2) hklt

/-- After a split, the last key of the left half is below every key stored in
the right half. -/
theorem splitBlkPair_sep_lt (ord : LtOrder lt) {h : Nat} {root : Bool}
    {b : Blk K V} (hwf : WfN lt MIN h root b)
    (hn : 1 ≤ b.count - b.count / 2) :
    ∀ x ∈ (splitBlkPair b).2.fkeys, lt (splitBlkPair b).1.lastKeyD x = true := by
  intro x hx
  cases b with
  | leaf es =>
    cases h with
    | succ h => exact absurd hwf (by simp)
    | zero =>
      have hs := (WfN_leaf_iff.1 hwf).2.2
      rw [Blk.count_leaf] at hn
      simp only [splitBlkPair, Blk.fkeys_leaf] at hx ⊢
      have hlk : (Blk.leaf (es.take (es.length - es.length / 2))
          : Blk K V).keyList ≠ [] := by
        rw [Blk.keyList_leaf, ne_eq, List.map_eq_nil_iff, ← ne_eq]
        intro hnil
        have := congrArg List.length hnil
        simp [List.length_take] at this
        omega
      have hlast := lastKeyD_spec _ hlk
      rw [Blk.keyList_leaf, List.map_take] at hlast
      have hmem := getLast?_mem_self hlast
      have hsplit2 : es.map Prod.fst =
          (es.map Prod.fst).take (es.length - es.length / 2) ++
          (es.map Prod.fst).drop (es.length - es.length / 2) :=
        (List.take_append_drop _ _).symm
      have hpw := hs
      rw [hsplit2] at hpw
      have hbet := (List.pairwise_append.1 hpw).2.2
      refine hbet _ hmem x ?_
      rw [List.map_drop] at hx
      exact hx
  | node es =>
    cases h with
    | zero => exact absurd hwf (by simp)
    | succ h =>
      obtain ⟨_, _, hent, hp⟩ := WfN_node_iff.1 hwf
      rw [Blk.count_node] at hn
      simp only [splitBlkPair] at hx ⊢
      have hlk : (Blk.node (es.take (es.length - es.length / 2))
          : Blk K V).keyList ≠ [] := by
        rw [Blk.keyList_node, ne_eq, List.map_eq_nil_iff, ← ne_eq]
        intro hnil
        have := congrArg List.length hnil
        simp [List.length_take] at this
        omega
      have hlast := lastKeyD_spec _ hlk
      rw [Blk.keyList_node] at hlast
      have hmem := getLast?_mem_self hlast
      obtain ⟨em, hem, hfst⟩ := List.mem_map.1 hmem
      have hsplit2 : es = es.take (es.length - es.length / 2) ++
          es.drop (es.length - es.length / 2) := (List.take_append_drop _ _).symm
      have hpw := hp
      rw [hsplit2] at hpw
      have hbet := (List.pairwise_append.1 hpw).2.2
      rw [Blk.fkeys_node_join] at hx
      obtain ⟨ls, hls, hx2⟩ := List.mem_join.1 hx
      obtain ⟨e2, he2, rfl⟩ := List.mem_map.1 hls
      rw [← hfst]
      exact (hbet em hem e2 he2).2 x hx2


/-- A key dominating a block's last `keyList` entry dominates its whole key
list. -/
theorem entry_keyList_ge (ord : LtOrder lt) {h : Nat} {root : Bool}
    {c : Blk K V} {k : K} (hwfc : WfN lt MIN h root c)
    (hdom : ∀ s ∈ c.keyList.getLast?, lt k s = false) :
    ∀ s ∈ c.keyList, lt k s = false := by
  intro s hs
  have hne : c.keyList ≠ [] := List.ne_nil_of_mem hs
  have hlast := lastKeyD_spec c hne
  have hsorted := wf_sorted_block_keys hwfc
  have h1 : lt c.lastKeyD s = false := sorted_getLast_ge ord hsorted hlast s hs
  have h2 : lt k c.lastKeyD = false := hdom _ hlast
  exact ord.leLe h1 h2

/-- A stored entry of an internal block belongs to one of its children. -/
theorem mem_flat_node {es : List (K × Blk K V)} {x : K × V}
    (hx : x ∈ (Blk.node es : Blk K V).flat) : ∃ e ∈ es, x ∈ e.2.flat := by
  induction es with
  | nil => simp at hx
  | cons e rest ih =>
    rw [Blk.flat_node_cons] at hx
    rcases List.mem_append.1 hx with h2 | h2
    · exact ⟨e, List.mem_cons_self _ _, h2⟩
    · obtain ⟨e2, he2, hx2⟩ := ih h2
      exact ⟨e2, List.mem_cons_of_mem _ he2, hx2⟩

/-- Rebuilding the parent after a successful descent into child `idx`
(the effect of `insDescend` on a `.ok` result): the separator is kept and
the child replaced, preserving well-formedness, composing the stored
entries, and addressing the inserted entry by the combined cursor. -/
theorem insDescend_ok (ord : LtOrder lt) {key : K} {data : V}
    {h : Nat} {root : Bool} {es : List (K × Blk K V)} {idx : Nat}
    (hwf : WfN lt MIN (h + 1) root (Blk.node es))
    (hidx : idx < es.length)
    (hsepge : lt (es.getD idx default).1 key = false)
    (hbefore : ∀ j s, j < idx → (es.map Prod.fst).get? j = some s →
      lt s key = true)
    {c' : Blk K V} {lb₂ i₂ : Nat} {A₂ B₂ : List (K × V)}
    (hwfc' : WfN lt MIN h false c')
    (hflat : (es.getD idx default).2.flat = A₂ ++ B₂)
    (hflat' : c'.flat = A₂ ++ (key, data) :: B₂)
    (hA₂ : ∀ e ∈ A₂, lt e.1 key = true)
    (hB₂ : ∀ e ∈ B₂, lt key e.1 = true)
    (hlb₂ : lb₂ < c'.leafCount)
    (hi₂ : i₂ < (c'.leafBlocks.getD lb₂ []).length)
    (hrank₂ : lbRank c'.leafBlocks lb₂ i₂ = A₂.length)
    (hlast' : ∀ s ∈ c'.keyList.getLast?, lt key s = false ∨
      ∃ s₀, (es.getD idx default).2.keyList.getLast? = some s₀ ∧
        lt s₀ s = false) :
    WfN lt MIN (h + 1) root
      (Blk.node (es.set idx ((es.getD idx default).1, c'))) ∧
    (Blk.node es : Blk K V).flat =
      ((Blk.node (es.take idx) : Blk K V).flat ++ A₂) ++
        (B₂ ++ (Blk.node (es.drop (idx + 1)) : Blk K V).flat) ∧
    (Blk.node (es.set idx ((es.getD idx default).1, c')) : Blk K V).flat =
      ((Blk.node (es.take idx) : Blk K V).flat ++ A₂) ++ (key, data) ::
        (B₂ ++ (Blk.node (es.drop (idx + 1)) : Blk K V).flat) ∧
    (Blk.node (es.set idx ((es.getD idx default).1, c')) : Blk K V).count =
      es.length ∧
    (Blk.node (es.set idx ((es.getD idx default).1, c')) : Blk K V).keyList =
      (Blk.node es : Blk K V).keyList ∧
    (∀ e ∈ (Blk.node (es.take idx) : Blk K V).flat ++ A₂,
      lt e.1 key = true) ∧
    (∀ e ∈ B₂ ++ (Blk.node (es.drop (idx + 1)) : Blk K V).flat,
      lt key e.1 = true) ∧
    ((es.take idx).map fun e => e.2.leafCount).sum + lb₂ <
      (Blk.node (es.set idx ((es.getD idx default).1, c'))
        : Blk K V).leafCount ∧
    i₂ < ((Blk.node (es.set idx ((es.getD idx default).1, c'))
      : Blk K V).leafBlocks.getD
        (((es.take idx).map fun e => e.2.leafCount).sum + lb₂) []).length ∧
    lbRank (Blk.node (es.set idx ((es.getD idx default).1, c'))
        : Blk K V).leafBlocks
      (((es.take idx).map fun e => e.2.leafCount).sum + lb₂) i₂ =
      ((Blk.node (es.take idx) : Blk K V).flat ++ A₂).length := by
  obtain ⟨hlo, hhi, hent, hp⟩ := WfN_node_iff.1 hwf
  have h1 : es.get? idx = some (es.getD idx default) := by
    rcases hg : es.get? idx with _ | e
    · rw [List.get?_eq_none] at hg
      omega
    · rw [List.getD_eq_getD_get?, hg]
      rfl
  have hmem₀ : es.getD idx default ∈ es := List.get?_mem h1
  have hdz : es.drop idx = (es.getD idx default) :: es.drop (idx + 1) :=
    drop_eq_cons_of_get? h1
  have hdecomp : es = es.take idx ++ (es.getD idx default) ::
      es.drop (idx + 1) := by
    conv_lhs => rw [← List.take_append_drop idx es, hdz]
  have hset : es.set idx ((es.getD idx default).1, c') =
      es.take idx ++ ((es.getD idx default).1, c') :: es.drop (idx + 1) :=
    List.set_eq_take_cons_drop ((es.getD idx default).1, c') hidx
  have hsingle : ∀ (e : K × Blk K V),
      (Blk.node [e] : Blk K V).flat = e.2.flat := by
    intro e
    obtain ⟨k, c⟩ := e
    simp
  have hflatA : (Blk.node es : Blk K V).flat =
      (Blk.node (es.take idx) : Blk K V).flat ++
      ((es.getD idx default).2.flat ++
        (Blk.node (es.drop (idx + 1)) : Blk K V).flat) := by
    conv_lhs => rw [hdecomp]
    rw [show es.take idx ++ (es.getD idx default) :: es.drop (idx + 1) =
      es.take idx ++ ([(es.getD idx default)] ++ es.drop (idx + 1)) from
      by simp, Blk.flat_node_append, Blk.flat_node_append, hsingle]
  have hflatS : (Blk.node (es.set idx ((es.getD idx default).1, c'))
      : Blk K V).flat =
      (Blk.node (es.take idx) : Blk K V).flat ++
      (c'.flat ++ (Blk.node (es.drop (idx + 1)) : Blk K V).flat) := by
    rw [hset]
    rw [show es.take idx ++ ((es.getD idx default).1, c') ::
      es.drop (idx + 1) = es.take idx ++
      ([((es.getD idx default).1, c')] ++ es.drop (idx + 1)) from by simp,
      Blk.flat_node_append, Blk.flat_node_append, hsingle]
  have hlbS : (Blk.node (es.set idx ((es.getD idx default).1, c'))
      : Blk K V).leafBlocks =
      (Blk.node (es.take idx) : Blk K V).leafBlocks ++
      (c'.leafBlocks ++
        (Blk.node (es.drop (idx + 1)) : Blk K V).leafBlocks) := by
    rw [hset]
    rw [show es.take idx ++ ((es.getD idx default).1, c') ::
      es.drop (idx + 1) = es.take idx ++
      ([((es.getD idx default).1, c')] ++ es.drop (idx + 1)) from by simp,
      Blk.leafBlocks_node_append, Blk.leafBlocks_node_append]
    simp
  have hsum : ((es.take idx).map fun e => e.2.leafCount).sum =
      (Blk.node (es.take idx) : Blk K V).leafBlocks.length := by
    rw [show (Blk.node (es.take idx) : Blk K V).leafBlocks.length =
      (Blk.node (es.take idx) : Blk K V).leafCount from rfl,
      Blk.leafCount_node]
  have hAmem : ∀ e ∈ (Blk.node (es.take idx) : Blk K V).flat ++ A₂,
      lt e.1 key = true := by
    intro e he
    rcases List.mem_append.1 he with heT | heA
    · obtain ⟨a, ha, hea⟩ := mem_flat_node heT
      obtain ⟨j, hj, hjg⟩ := mem_take_get? ha
      have hakey : lt a.1 key = true := by
        refine hbefore j a.1 hj ?_
        rw [List.get?_map, hjg]
        rfl
      have hle : lt a.1 e.1 = false := by
        refine (hent a (List.mem_of_mem_take ha)).2.1 e.1 ?_
        rw [Blk.fkeys]
        exact List.mem_map_of_mem _ hea
      exact ord.leLt hle hakey
    · exact hA₂ e heA
  have hBmem : ∀ e ∈ B₂ ++ (Blk.node (es.drop (idx + 1)) : Blk K V).flat,
      lt key e.1 = true := by
    intro e he
    rcases List.mem_append.1 he with heB | heD
    · exact hB₂ e heB
    · obtain ⟨b, hb, heb⟩ := mem_flat_node heD
      have hp2 := hp
      rw [hdecomp, List.pairwise_append, List.pairwise_cons] at hp2
      have hrel := hp2.2.1.1 b hb
      have hsx : lt (es.getD idx default).1 e.1 = true := by
        refine hrel.2 e.1 ?_
        rw [Blk.fkeys]
        exact List.mem_map_of_mem _ heb
      exact ord.leLt hsepge hsx
  refine ⟨?_, ?_, ?_, ?_, ?_, hAmem, hBmem, ?_, ?_, ?_⟩
  · rw [WfN_node_iff]
    refine ⟨by simpa [List.length_set] using hlo,
      by simpa [List.length_set] using hhi, ?_, ?_⟩
    · intro e he
      rw [hset] at he
      rcases List.mem_append.1 he with heT | heC
      · refine hent e ?_
        rw [hdecomp]
        exact List.mem_append_left _ heT
      · rcases List.mem_cons.1 heC with rfl | heD
        · obtain ⟨hwf₀, hge₀, hne₀, hdom₀⟩ := hent _ hmem₀
          refine ⟨hwfc', ?_, ?_, ?_⟩
          · show ∀ x ∈ c'.fkeys, lt (es.getD idx default).1 x = false
            intro x hx
            rw [Blk.fkeys, hflat', List.map_append, List.map_cons] at hx
            rcases List.mem_append.1 hx with hx2 | hx2
            · refine hge₀ x ?_
              rw [Blk.fkeys, hflat, List.map_append]
              exact List.mem_append_left _ hx2
            · rcases List.mem_cons.1 hx2 with rfl | hx3
              · exact hsepge
              · refine hge₀ x ?_
                rw [Blk.fkeys, hflat, List.map_append]
                exact List.mem_append_right _ hx3
          · show c'.fkeys ≠ []
            rw [Blk.fkeys, hflat']
            simp
          · show ∀ s ∈ c'.keyList.getLast?, lt (es.getD idx default).1 s = false
            intro s hs
            rcases hlast' s hs with hk | ⟨s₀, hs₀, hss⟩
            · exact ord.leLe hk hsepge
            · exact ord.leLe hss (hdom₀ s₀ hs₀)
        · refine hent e ?_
          rw [hdecomp]
          exact List.mem_append_right _ (List.mem_cons_of_mem _ heD)
    · rw [hset]
      have hp2 := hp
      rw [hdecomp, List.pairwise_append, List.pairwise_cons] at hp2
      obtain ⟨hpT, ⟨hrel₀, hpD⟩, hcross⟩ := hp2
      rw [List.pairwise_append, List.pairwise_cons]
      refine ⟨hpT, ⟨?_, hpD⟩, ?_⟩
      · intro b hb
        exact hrel₀ b hb
      · intro a ha b hb
        rcases List.mem_cons.1 hb with rfl | hbD
        · have hold := hcross a ha _ (List.mem_cons_self _ _)
          refine ⟨hold.1, ?_⟩
          show ∀ x ∈ c'.fkeys, lt a.1 x = true
          intro x hx
          rw [Blk.fkeys, hflat', List.map_append, List.map_cons] at hx
          rcases List.mem_append.1 hx with hx2 | hx2
          · refine hold.2 x ?_
            rw [Blk.fkeys, hflat, List.map_append]
            exact List.mem_append_left _ hx2
          · rcases List.mem_cons.1 hx2 with rfl | hx3
            · obtain ⟨j, hj, hjg⟩ := mem_take_get? ha
              refine hbefore j a.1 hj ?_
              rw [List.get?_map, hjg]
              rfl
            · refine hold.2 x ?_
              rw [Blk.fkeys, hflat, List.map_append]
              exact List.mem_append_right _ hx3
        · exact hcross a ha b (List.mem_cons_of_mem _ hbD)
  · rw [hflatA, hflat]
    simp [List.append_assoc]
  · rw [hflatS, hflat']
    simp [List.append_assoc]
  · rw [Blk.count_node, List.length_set]
  · rw [Blk.keyList_node, Blk.keyList_node]
    conv_rhs => rw [hdecomp]
    rw [hset]
    simp
  · rw [show (Blk.node (es.set idx ((es.getD idx default).1, c'))
      : Blk K V).leafCount = (Blk.node (es.set idx
      ((es.getD idx default).1, c')) : Blk K V).leafBlocks.length from rfl,
      hlbS, hsum]
    simp only [Blk.leafCount] at hlb₂
    simp only [List.length_append]
    omega
  · rw [hlbS, hsum, getD_append_offset]
    rw [getD_append_left]
    · exact hi₂
    · simpa [Blk.leafCount] using hlb₂
  · rw [hlbS, hsum, lbRank_append, lbRank_append_left]
    · rw [hrank₂, List.length_append]
      have hfl : (Blk.node (es.take idx) : Blk K V).flat.length =
          ((Blk.node (es.take idx) : Blk K V).leafBlocks.map
            List.length).sum := Blk.length_flat_eq_sum _
      omega
    · simp only [Blk.leafCount] at hlb₂
      omega



/-- Splitting a full child at `i` (the effect of `ksl_split_node`) preserves
well-formedness of the parent, for any separator `ksep` of the right half
that dominates its keys and is itself dominated by the old separator.
(`ksep` is `rblk`'s last key in `ksl_split_node`; the insert loop may bump it
to the new key afterwards.) -/
theorem split_insert_wf (ord : LtOrder lt) (hMIN : 1 ≤ MIN)
    {h : Nat} {root : Bool} {es : List (K × Blk K V)} {i : Nat}
    (hwf : WfN lt MIN (h + 1) root (Blk.node es))
    (hi : i < es.length) (hlen : es.length < 2 * MIN)
    (hfull : (es.getD i default).2.count = 2 * MIN)
    {ksep : K}
    (hk1 : lt (splitBlkPair (es.getD i default).2).1.lastKeyD ksep = true)
    (hkge : ∀ x ∈ (splitBlkPair (es.getD i default).2).2.fkeys,
      lt ksep x = false)
    (hkle : lt (es.getD i default).1 ksep = false)
    (hklast : ∀ s ∈ (splitBlkPair (es.getD i default).2).2.keyList.getLast?,
      lt ksep s = false) :
    WfN lt MIN (h + 1) root (Blk.node (es.take i ++
      [((splitBlkPair (es.getD i default).2).1.lastKeyD,
        (splitBlkPair (es.getD i default).2).1),
       (ksep, (splitBlkPair (es.getD i default).2).2)] ++
      es.drop (i + 1))) := by
  obtain ⟨hlo, hhi, hent, hp⟩ := WfN_node_iff.1 hwf
  have h1 : es.get? i = some (es.getD i default) := by
    rcases hg : es.get? i with _ | e
    · rw [List.get?_eq_none] at hg
      omega
    · rw [List.getD_eq_getD_get?, hg]
      rfl
  have hmem₀ : es.getD i default ∈ es := List.get?_mem h1
  have hdz : es.drop i = (es.getD i default) :: es.drop (i + 1) :=
    drop_eq_cons_of_get? h1
  have hdecomp : es = es.take i ++ (es.getD i default) ::
      es.drop (i + 1) := by
    conv_lhs => rw [← List.take_append_drop i es, hdz]
  obtain ⟨hwfc, hge, hne, hdom⟩ := hent _ hmem₀
  obtain ⟨hwf1, hwf2⟩ := splitBlkPair_wf hwfc hfull hMIN
  have hcnt1 : (splitBlkPair (es.getD i default).2).1.count = MIN := by
    rw [splitBlkPair_count₁, hfull]
    omega
  have hcnt2 : (splitBlkPair (es.getD i default).2).2.count = MIN := by
    rw [splitBlkPair_count₂, hfull]
    omega
  have hkl1ne : (splitBlkPair (es.getD i default).2).1.keyList ≠ [] := by
    intro hnil
    have := congrArg List.length hnil
    rw [Blk.keyList_length, hcnt1] at this
    simp at this
    omega
  have hkl2ne : (splitBlkPair (es.getD i default).2).2.keyList ≠ [] := by
    intro hnil
    have := congrArg List.length hnil
    rw [Blk.keyList_length, hcnt2] at this
    simp at this
    omega
  have hlast1 : (splitBlkPair (es.getD i default).2).1.keyList.getLast? =
      some (splitBlkPair (es.getD i default).2).1.lastKeyD :=
    lastKeyD_spec _ hkl1ne
  have hgec1 : ∀ x ∈ (splitBlkPair (es.getD i default).2).1.fkeys,
      lt (splitBlkPair (es.getD i default).2).1.lastKeyD x = false :=
    wf_lastKey_ge ord hwf1
  have hltc2 : ∀ x ∈ (splitBlkPair (es.getD i default).2).2.fkeys,
      lt (splitBlkPair (es.getD i default).2).1.lastKeyD x = true :=
    splitBlkPair_sep_lt ord hwfc (by rw [hfull]; omega)
  have hfk : (es.getD i default).2.fkeys =
      (splitBlkPair (es.getD i default).2).1.fkeys ++
      (splitBlkPair (es.getD i default).2).2.fkeys := by
    rw [Blk.fkeys, Blk.fkeys, Blk.fkeys, ← List.map_append, splitBlkPair_flat]
  have hfk1ne : (splitBlkPair (es.getD i default).2).1.fkeys ≠ [] :=
    wf_nonroot_fkeys_ne_nil hMIN hwf1
  have hfk2ne : (splitBlkPair (es.getD i default).2).2.fkeys ≠ [] :=
    wf_nonroot_fkeys_ne_nil hMIN hwf2
  have hseple : ∀ s ∈ (es.getD i default).2.keyList,
      lt (es.getD i default).1 s = false :=
    entry_keyList_ge ord hwfc hdom
  have hk1mem : (splitBlkPair (es.getD i default).2).1.lastKeyD ∈
      (es.getD i default).2.keyList := by
    have hm := getLast?_mem_self hlast1
    rw [splitBlkPair_keyList₁] at hm
    exact List.mem_of_mem_take hm
  have hk1le : lt (es.getD i default).1
      (splitBlkPair (es.getD i default).2).1.lastKeyD = false :=
    hseple _ hk1mem
  rw [WfN_node_iff]
  have hlT : (es.take i).length = i := by
    rw [List.length_take]
    omega
  have hlD : (es.drop (i + 1)).length = es.length - (i + 1) :=
    List.length_drop _ _
  refine ⟨?_, ?_, ?_, ?_⟩
  · cases root with
    | true =>
      have : 2 ≤ es.length := by simpa using hlo
      simp only [List.length_append, List.length_cons, hlT, hlD]
      simp
      omega
    | false =>
      have : MIN ≤ es.length := by simpa using hlo
      simp only [List.length_append, List.length_cons, hlT, hlD]
      simp
      omega
  · simp only [List.length_append, List.length_cons, hlT, hlD,
      List.length_nil]
    omega
  · intro e he
    rcases List.mem_append.1 he with heTM | heD
    · rcases List.mem_append.1 heTM with heT | heM
      · refine hent e ?_
        rw [hdecomp]
        exact List.mem_append_left _ heT
      · rcases List.mem_cons.1 heM with rfl | heM2
        · refine ⟨hwf1, hgec1, hfk1ne, ?_⟩
          show ∀ s ∈ (splitBlkPair (es.getD i default).2).1.keyList.getLast?,
            lt (splitBlkPair (es.getD i default).2).1.lastKeyD s = false
          intro s hs
          rw [hlast1, Option.mem_def, Option.some.injEq] at hs
          subst hs
          exact ord.irrefl _
        · rcases List.mem_singleton.1 heM2 with rfl
          exact ⟨hwf2, hkge, hfk2ne, hklast⟩
    · refine hent e ?_
      rw [hdecomp]
      exact List.mem_append_right _ (List.mem_cons_of_mem _ heD)
  · have hp2 := hp
    rw [hdecomp, List.pairwise_append, List.pairwise_cons] at hp2
    obtain ⟨hpT, ⟨hrel₀, hpD⟩, hcross⟩ := hp2
    rw [List.append_assoc, List.pairwise_append]
    refine ⟨hpT, ?_, ?_⟩
    · rw [show ([((splitBlkPair (es.getD i default).2).1.lastKeyD,
        (splitBlkPair (es.getD i default).2).1),
        (ksep, (splitBlkPair (es.getD i default).2).2)] ++
        es.drop (i + 1)) =
        (((splitBlkPair (es.getD i default).2).1.lastKeyD,
          (splitBlkPair (es.getD i default).2).1) ::
         (ksep, (splitBlkPair (es.getD i default).2).2) ::
         es.drop (i + 1)) from rfl]
      rw [List.pairwise_cons, List.pairwise_cons]
      refine ⟨?_, ?_, hpD⟩
      · intro b hb
        rcases List.mem_cons.1 hb with rfl | hbD
        · exact ⟨hk1, hltc2⟩
        · have hold := hrel₀ b hbD
          refine ⟨ord.leLt hk1le hold.1, ?_⟩
          intro x hx
          exact ord.leLt hk1le (hold.2 x hx)
      · intro b hb
        have hold := hrel₀ b hb
        refine ⟨ord.leLt hkle hold.1, ?_⟩
        intro x hx
        exact ord.leLt hkle (hold.2 x hx)
    · intro a ha b hb
      have holdc := hcross a ha
      rcases List.mem_cons.1 hb with rfl | hb2
      · have hold := holdc _ (List.mem_cons_self _ _)
        obtain ⟨x₀, hx₀⟩ := List.exists_mem_of_ne_nil _ hfk1ne
        have hmemx : x₀ ∈ (es.getD i default).2.fkeys := by
          rw [hfk]
          exact List.mem_append_left _ hx₀
        refine ⟨ord.ltLe (hold.2 x₀ hmemx) (hgec1 x₀ hx₀), ?_⟩
        intro x hx
        refine hold.2 x ?_
        rw [hfk]
        exact List.mem_append_left _ hx
      · rcases List.mem_cons.1 hb2 with rfl | hbD
        · have hold := holdc _ (List.mem_cons_self _ _)
          obtain ⟨x₀, hx₀⟩ := List.exists_mem_of_ne_nil _ hfk2ne
          have hmemx : x₀ ∈ (es.getD i default).2.fkeys := by
            rw [hfk]
            exact List.mem_append_right _ hx₀
          refine ⟨ord.ltLe (hold.2 x₀ hmemx) (hkge x₀ hx₀), ?_⟩
          intro x hx
          refine hold.2 x ?_
          rw [hfk]
          exact List.mem_append_right _ hx
        · exact holdc b (List.mem_cons_of_mem _ hbD)



/-- Any well-formed block holds at most `2 * MIN` entries. -/
theorem wf_count_le {h : Nat} {root : Bool} {b : Blk K V}
    (hwf : WfN lt MIN h root b) : b.count ≤ 2 * MIN := by
  cases b with
  | leaf es =>
    cases h with
    | zero =>
      rw [Blk.count_leaf]
      exact (WfN_leaf_iff.1 hwf).2.1
    | succ h => exact absurd hwf (by simp)
  | node es =>
    cases h with
    | zero => exact absurd hwf (by simp)
    | succ h =>
      rw [Blk.count_node]
      exact (WfN_node_iff.1 hwf).2.1

section SplitListHelpers

variable {A : Type} [Inhabited A]

theorem getD_append2_fst (T D : List A) (x y d : A) :
    (T ++ [x, y] ++ D).getD T.length d = x := by
  have h := getD_append_offset T ([x, y] ++ D) 0 d
  rw [List.append_assoc]
  simpa using h

theorem getD_append2_snd (T D : List A) (x y d : A) :
    (T ++ [x, y] ++ D).getD (T.length + 1) d = y := by
  have h := getD_append_offset T ([x, y] ++ D) 1 d
  rw [List.append_assoc]
  simpa using h

theorem take_append2_fst (T D : List A) (x y : A) :
    (T ++ [x, y] ++ D).take T.length = T := by
  rw [List.append_assoc, List.take_left]

theorem take_append2_snd (T D : List A) (x y : A) :
    (T ++ [x, y] ++ D).take (T.length + 1) = T ++ [x] := by
  rw [show T ++ [x, y] ++ D = (T ++ [x]) ++ (y :: D) from by simp,
    List.take_left']
  simp

theorem drop_append2_fst (T D : List A) (x y : A) :
    (T ++ [x, y] ++ D).drop (T.length + 1) = y :: D := by
  rw [show T ++ [x, y] ++ D = (T ++ [x]) ++ (y :: D) from by simp,
    List.drop_left']
  simp

theorem drop_append2_snd (T D : List A) (x y : A) :
    (T ++ [x, y] ++ D).drop (T.length + 2) = D := by
  rw [show T ++ [x, y] ++ D = (T ++ [x, y]) ++ D from by simp,
    List.drop_left']
  simp

theorem set_append2_snd (T D : List A) (x y z : A) :
    (T ++ [x, y] ++ D).set (T.length + 1) z = T ++ [x, z] ++ D := by
  have hlen : T.length + 1 < (T ++ [x, y] ++ D).length := by
    simp
  rw [List.set_eq_take_cons_drop z hlen, take_append2_snd, drop_append2_snd]
  simp


theorem set_append2_fst (T D : List A) (x y z : A) :
    (T ++ [x, y] ++ D).set T.length z = T ++ [z, y] ++ D := by
  have hlen : T.length < (T ++ [x, y] ++ D).length := by
    simp
  rw [List.set_eq_take_cons_drop z hlen, take_append2_fst,
    drop_append2_fst]
  simp

theorem get?_append2_left (T D : List A) (x y : A) {j : Nat}
    (hj : j < T.length) : (T ++ [x, y] ++ D).get? j = T.get? j := by
  rw [List.append_assoc, List.get?_append hj]

theorem length_append2 (T D : List A) (x y : A) :
    (T ++ [x, y] ++ D).length = T.length + D.length + 2 := by
  simp
  omega

end SplitListHelpers



/-- The last separator of a parent whose child entry was replaced by two
entries: either it is the second new separator (only when the child was
last), or it is unchanged. -/
theorem node_keyList_last_split {T D : List (K × Blk K V)}
    (e₀ a b : K × Blk K V) :
    ∀ s ∈ (Blk.node (T ++ [a, b] ++ D) : Blk K V).keyList.getLast?,
      (s = b.1 ∧
        (Blk.node (T ++ e₀ :: D) : Blk K V).keyList.getLast? = some e₀.1) ∨
      (Blk.node (T ++ e₀ :: D) : Blk K V).keyList.getLast? = some s := by
  intro s hs
  rw [Blk.keyList_node] at hs ⊢
  cases D with
  | nil =>
    have h1 : List.map Prod.fst (T ++ [a, b] ++ []) =
        (List.map Prod.fst T ++ [a.1]) ++ [b.1] := by simp
    have h2 : List.map Prod.fst (T ++ e₀ :: []) =
        List.map Prod.fst T ++ [e₀.1] := by simp
    rw [h1, List.getLast?_concat, Option.mem_def, Option.some.injEq] at hs
    subst hs
    refine Or.inl ⟨rfl, ?_⟩
    rw [h2, List.getLast?_concat]
  | cons d ds =>
    have h1 : List.map Prod.fst (T ++ [a, b] ++ d :: ds) =
        (List.map Prod.fst T ++ [a.1, b.1]) ++
          d.1 :: List.map Prod.fst ds := by simp
    have h2 : List.map Prod.fst (T ++ e₀ :: d :: ds) =
        List.map Prod.fst T ++
          e₀.1 :: d.1 :: List.map Prod.fst ds := by simp
    rw [h1, List.getLast?_append_cons] at hs
    rw [h2, List.getLast?_append_cons, List.getLast?_cons_cons]
    exact Or.inr hs



/-- Replacing child `idx` (keeping or rewriting its separator) by a block
with the same stored entries does not change the parent's stored entries. -/
theorem flat_set_child {es : List (K × Blk K V)} {idx : Nat}
    (hidx : idx < es.length) (k : K) {c : Blk K V}
    (hflat : c.flat = (es.getD idx default).2.flat) :
    (Blk.node (es.set idx (k, c)) : Blk K V).flat =
    (Blk.node es : Blk K V).flat := by
  have h1 : es.get? idx = some (es.getD idx default) := by
    rcases hg : es.get? idx with _ | e
    · rw [List.get?_eq_none] at hg
      omega
    · rw [List.getD_eq_getD_get?, hg]
      rfl
  have hdz : es.drop idx = (es.getD idx default) :: es.drop (idx + 1) :=
    drop_eq_cons_of_get? h1
  have hdecomp : es = es.take idx ++ (es.getD idx default) ::
      es.drop (idx + 1) := by
    conv_lhs => rw [← List.take_append_drop idx es, hdz]
  have hset : es.set idx (k, c) =
      es.take idx ++ (k, c) :: es.drop (idx + 1) :=
    List.set_eq_take_cons_drop (k, c) hidx
  have hone : ∀ (e : K × Blk K V),
      (Blk.node [e] : Blk K V).flat = e.2.flat := by
    intro e
    obtain ⟨k2, c2⟩ := e
    simp
  rw [hset]
  conv_rhs => rw [hdecomp]
  rw [show es.take idx ++ (k, c) :: es.drop (idx + 1) =
    es.take idx ++ ([(k, c)] ++ es.drop (idx + 1)) from by simp]
  rw [show es.take idx ++ (es.getD idx default) :: es.drop (idx + 1) =
    es.take idx ++ ([(es.getD idx default)] ++ es.drop (idx + 1)) from
    by simp]
  rw [Blk.flat_node_append, Blk.flat_node_append, Blk.flat_node_append,
    Blk.flat_node_append, hone, hone, hflat]

/-- `ksl_split_node` does not change the parent's stored entries. -/
theorem splitNodeEs_flat {es : List (K × Blk K V)} {i : Nat}
    (hi : i < es.length) :
    (Blk.node (splitNodeEs es i) : Blk K V).flat =
    (Blk.node es : Blk K V).flat := by
  have h1 : es.get? i = some (es.getD i default) := by
    rcases hg : es.get? i with _ | e
    · rw [List.get?_eq_none] at hg
      omega
    · rw [List.getD_eq_getD_get?, hg]
      rfl
  have hdz : es.drop i = (es.getD i default) :: es.drop (i + 1) :=
    drop_eq_cons_of_get? h1
  have hdecomp : es = es.take i ++ (es.getD i default) ::
      es.drop (i + 1) := by
    conv_lhs => rw [← List.take_append_drop i es, hdz]
  have hone : ∀ (e : K × Blk K V),
      (Blk.node [e] : Blk K V).flat = e.2.flat := by
    intro e
    obtain ⟨k2, c2⟩ := e
    simp
  rw [show splitNodeEs es i = es.take i ++
    [((splitBlkPair (es.getD i default).2).1.lastKeyD,
      (splitBlkPair (es.getD i default).2).1),
     ((splitBlkPair (es.getD i default).2).2.lastKeyD,
      (splitBlkPair (es.getD i default).2).2)] ++
    es.drop (i + 1) from rfl]
  conv_rhs => rw [hdecomp]
  rw [show es.take i ++
    [((splitBlkPair (es.getD i default).2).1.lastKeyD,
      (splitBlkPair (es.getD i default).2).1),
     ((splitBlkPair (es.getD i default).2).2.lastKeyD,
      (splitBlkPair (es.getD i default).2).2)] ++
    es.drop (i + 1) = es.take i ++
    ([((splitBlkPair (es.getD i default).2).1.lastKeyD,
       (splitBlkPair (es.getD i default).2).1),
      ((splitBlkPair (es.getD i default).2).2.lastKeyD,
       (splitBlkPair (es.getD i default).2).2)] ++
     es.drop (i + 1)) from by simp]
  rw [show es.take i ++ (es.getD i default) :: es.drop (i + 1) =
    es.take i ++ ([(es.getD i default)] ++ es.drop (i + 1)) from by simp]
  rw [Blk.flat_node_append, Blk.flat_node_append, Blk.flat_node_append,
    Blk.flat_node_append, hone]
  congr 1
  congr 1
  simp [splitBlkPair_flat]


end InsertHelpers

/-! ## Correctness of the insertion descent -/

section InsertProof

variable {K V : Type} [Inhabited K] [Inhabited V] {lt : K → K → Bool}
  {MIN : Nat}

/-- Correctness of the rightmost-spine append loop `insertMax` (run with an
always-successful allocation oracle): the new entry is appended at the end of
the subtree, well-formedness is preserved at the same height, and the
returned cursor addresses the appended entry. -/
theorem insertMax_ok (ord : LtOrder lt) (hMIN : 1 ≤ MIN) (key : K) (data : V) :
    ∀ (h : Nat) (root : Bool) (b : Blk K V), WfN lt MIN h root b →
    b.count < 2 * MIN →
    (∀ s ∈ b.keyList, lt s key = true) →
    ∀ fuel, h + 1 ≤ fuel →
    ∃ b' lb i, insertMax lt MIN key data fuel b [] = .ok b' lb i [] ∧
      WfN lt MIN h root b' ∧
      b'.flat = b.flat ++ [(key, data)] ∧
      b'.count ≤ b.count + 1 ∧
      b'.keyList.getLast? = some key ∧
      lb < b'.leafCount ∧
      i < (b'.leafBlocks.getD lb []).length ∧
      lbRank b'.leafBlocks lb i = b.flat.length := by
  intro h
  induction h with
  | zero =>
    intro root b hwf hcnt hseps fuel hfuel
    cases b with
    | node es => exact absurd hwf (by simp)
    | leaf es =>
      cases fuel with
      | zero => omega
      | succ f =>
        obtain ⟨hlo, hhi, hsorted⟩ := WfN_leaf_iff.1 hwf
        refine ⟨.leaf (es ++ [(key, data)]), 0, es.length, rfl, ?_, by simp,
          by simp, ?_, ?_, ?_, ?_⟩
        · rw [WfN_leaf_iff]
          rw [Blk.count_leaf] at hcnt
          refine ⟨?_, by simp; omega, ?_⟩
          · rcases hlo with hr | hr
            · exact Or.inl hr
            · exact Or.inr (by simp; omega)
          · rw [List.map_append]
            refine sorted_append_key ord hsorted ?_
            intro x hx
            refine hseps x ?_
            rw [Blk.keyList_leaf]
            exact hx
        · rw [Blk.keyList_leaf, List.map_append]
          exact List.getLast?_concat _
        · simp [Blk.leafCount]
        · simp
        · simp [lbRank]
  | succ h ih =>
    intro root b hwf hcnt hseps fuel hfuel
    cases b with
    | leaf es => exact absurd hwf (by simp)
    | node es =>
      cases fuel with
      | zero => omega
      | succ f =>
        obtain ⟨hlo, hhi, hent, hp⟩ := WfN_node_iff.1 hwf
        rw [Blk.count_node] at hcnt
        have hlen1 : 1 ≤ es.length := by
          cases root with
          | true => simp at hlo; omega
          | false => simp at hlo; omega
        obtain ⟨lastE, hlastE⟩ : ∃ e, es.getLast? = some e := by
          cases hg : es.getLast? with
          | none =>
            rw [List.getLast?_eq_none_iff] at hg
            subst hg
            simp at hlen1
          | some e => exact ⟨e, rfl⟩
        have hgd : es.getLastD default = lastE := by
          rw [List.getLastD_eq_getLast?, hlastE]
          rfl
        have hsplitL : es.dropLast ++ [lastE] = es :=
          List.dropLast_append_getLast? lastE (by simp [hlastE])
        have hlastmem : lastE ∈ es := getLast?_mem_self hlastE
        obtain ⟨hwfL, hgeL, hneL, hdomL⟩ := hent lastE hlastmem
        have hkeyLlt : lt lastE.1 key = true := by
          refine hseps lastE.1 ?_
          rw [Blk.keyList_node]
          exact List.mem_map_of_mem Prod.fst hlastmem
        have hchildseps : ∀ s ∈ lastE.2.keyList, lt s key = true :=
          entry_seps_lt_key ord hwfL hdomL hkeyLlt
        have hchildkeys : ∀ x ∈ lastE.2.fkeys, lt x key = true :=
          wf_fkeys_lt_of_seps_lt ord hwfL hchildseps
        have hpd : List.Pairwise (fun a b => lt a.1 b.1 = true ∧
            ∀ x ∈ b.2.fkeys, lt a.1 x = true) es.dropLast := by
          have hp2 := hp
          rw [← hsplitL] at hp2
          exact (List.pairwise_append.1 hp2).1
        have hbet : ∀ a ∈ es.dropLast, lt a.1 lastE.1 = true ∧
            ∀ x ∈ lastE.2.fkeys, lt a.1 x = true := by
          intro a ha
          have hp2 := hp
          rw [← hsplitL] at hp2
          exact (List.pairwise_append.1 hp2).2.2 a ha lastE (by simp)
        have hsubD : ∀ e ∈ es.dropLast, e ∈ es := fun e he =>
          (List.dropLast_sublist es).subset he
        have hsepD : ∀ a ∈ es.dropLast, lt a.1 key = true := by
          intro a ha
          refine hseps a.1 ?_
          rw [Blk.keyList_node]
          exact List.mem_map_of_mem Prod.fst (hsubD a ha)
        have hflatb : (Blk.node es).flat =
            (Blk.node es.dropLast).flat ++ lastE.2.flat := by
          conv_lhs => rw [← hsplitL]
          rw [Blk.flat_node_append]
          congr 1
          obtain ⟨k0, c0⟩ := lastE
          simp
        have hlbb : (Blk.node es).leafBlocks =
            (Blk.node es.dropLast).leafBlocks ++ lastE.2.leafBlocks := by
          conv_lhs => rw [← hsplitL]
          rw [Blk.leafBlocks_node_append]
          congr 1
          obtain ⟨k0, c0⟩ := lastE
          simp
        by_cases hfull : lastE.2.count = 2 * MIN
        · -- split the rightmost child before descending
          obtain ⟨hwf1, hwf2⟩ := splitBlkPair_wf hwfL hfull hMIN
          have hc1 : (splitBlkPair lastE.2).1.count = MIN := by
            rw [splitBlkPair_count₁, hfull]
            omega
          have hc2 : (splitBlkPair lastE.2).2.count = MIN := by
            rw [splitBlkPair_count₂, hfull]
            omega
          have hpr2seps : ∀ s ∈ (splitBlkPair lastE.2).2.keyList,
              lt s key = true := by
            intro s hs
            rw [splitBlkPair_keyList₂] at hs
            exact hchildseps s (List.mem_of_mem_drop hs)
          obtain ⟨c2, lb2, i2, hrec, hwfc2, hflatc2, hcntc2, hlastc2,
            hlb2, hi2, hrank2⟩ :=
            ih false (splitBlkPair lastE.2).2 hwf2 (by omega) hpr2seps f
              (by omega)
          have hfkc2 : c2.fkeys = (splitBlkPair lastE.2).2.fkeys ++ [key] := by
            rw [Blk.fkeys, hflatc2, List.map_append, ← Blk.fkeys]
            rfl
          have hlk1ne : (splitBlkPair lastE.2).1.keyList ≠ [] := by
            have := Blk.keyList_length (splitBlkPair lastE.2).1
            rw [hc1] at this
            intro hnil
            rw [hnil] at this
            simp at this
            omega
          have hlast1 : (splitBlkPair lastE.2).1.keyList.getLast? =
              some (splitBlkPair lastE.2).1.lastKeyD := lastKeyD_spec _ hlk1ne
          have hmaxclmem : (splitBlkPair lastE.2).1.lastKeyD ∈
              lastE.2.keyList := by
            have hm := getLast?_mem_self hlast1
            rw [splitBlkPair_keyList₁] at hm
            exact List.mem_of_mem_take hm
          have hmaxcllt : lt (splitBlkPair lastE.2).1.lastKeyD key = true :=
            hchildseps _ hmaxclmem
          have hsep2 : ∀ x ∈ (splitBlkPair lastE.2).2.fkeys,
              lt (splitBlkPair lastE.2).1.lastKeyD x = true :=
            splitBlkPair_sep_lt ord hwfL (by omega)
          have hsub2 : ∀ x ∈ (splitBlkPair lastE.2).2.fkeys,
              x ∈ lastE.2.fkeys := by
            intro x hx
            have hsp := splitBlkPair_flat lastE.2
            rw [Blk.fkeys, ← hsp, List.map_append]
            exact List.mem_append_right _ hx
          have hsub1 : ∀ x ∈ (splitBlkPair lastE.2).1.fkeys,
              x ∈ lastE.2.fkeys := by
            intro x hx
            have hsp := splitBlkPair_flat lastE.2
            rw [Blk.fkeys, ← hsp, List.map_append]
            exact List.mem_append_left _ hx
          have hne1 : (splitBlkPair lastE.2).1.fkeys ≠ [] :=
            wf_nonroot_fkeys_ne_nil hMIN hwf1
          have hunf : insertMax lt MIN key data (f + 1) (Blk.node es) [] =
              .ok (.node (es.dropLast ++
                  [((splitBlkPair lastE.2).1.lastKeyD, (splitBlkPair lastE.2).1),
                   (key, c2)]))
                (((es.dropLast.map fun e => e.2.leafCount).sum +
                  (splitBlkPair lastE.2).1.leafCount) + lb2) i2 [] := by
            simp only [insertMax, hgd, hfull, if_pos, takeAlloc]
            rw [hrec]
          refine ⟨_, _, _, hunf, ?_, ?_, ?_, ?_, ?_, ?_, ?_⟩
          · -- well-formedness of the rebuilt node
            rw [WfN_node_iff]
            have hld : es.dropLast.length = es.length - 1 :=
              List.length_dropLast es
            refine ⟨?_, by simp [hld]; omega, ?_, ?_⟩
            · cases root with
              | true =>
                (try simp [hld] at hlo ⊢)
                all_goals omega
              | false =>
                (try simp [hld] at hlo ⊢)
                all_goals omega
            · intro e he
              rcases List.mem_append.1 he with he2 | he2
              · exact hent e (hsubD e he2)
              · rcases List.mem_cons.1 he2 with rfl | he3
                · refine ⟨hwf1, wf_lastKey_ge ord hwf1,
                    wf_nonroot_fkeys_ne_nil hMIN hwf1, ?_⟩
                  intro s hs
                  rw [hlast1, Option.mem_def, Option.some.injEq] at hs
                  subst hs
                  exact ord.irrefl _
                · rcases List.mem_singleton.1 he3 with rfl
                  refine ⟨hwfc2, ?_, by rw [hfkc2]; simp, ?_⟩
                  · intro x hx
                    rw [hfkc2] at hx
                    rcases List.mem_append.1 hx with hx2 | hx2
                    · exact ord.asymm (hchildkeys x (hsub2 x hx2))
                    · rcases List.mem_singleton.1 hx2 with rfl
                      exact ord.irrefl _
                  · intro s hs
                    rw [hlastc2, Option.mem_def, Option.some.injEq] at hs
                    subst hs
                    exact ord.irrefl _
            · rw [List.pairwise_append]
              refine ⟨hpd, ?_, ?_⟩
              · rw [List.pairwise_cons]
                refine ⟨?_, List.pairwise_singleton _ _⟩
                intro b2 hb2
                rcases List.mem_singleton.1 hb2 with rfl
                refine ⟨hmaxcllt, ?_⟩
                intro x hx
                rw [hfkc2] at hx
                rcases List.mem_append.1 hx with hx2 | hx2
                · exact hsep2 x hx2
                · rcases List.mem_singleton.1 hx2 with rfl
                  exact hmaxcllt
              · intro a ha b2 hb2
                obtain ⟨hblt, hbfk⟩ := hbet a ha
                rcases List.mem_cons.1 hb2 with rfl | hb3
                · constructor
                  · obtain ⟨x0, hx0⟩ := List.exists_mem_of_ne_nil _ hne1
                    exact ord.ltLe (hbfk x0 (hsub1 x0 hx0))
                      (wf_lastKey_ge ord hwf1 x0 hx0)
                  · intro x hx
                    exact hbfk x (hsub1 x hx)
                · rcases List.mem_singleton.1 hb3 with rfl
                  refine ⟨hsepD a ha, ?_⟩
                  intro x hx
                  rw [hfkc2] at hx
                  rcases List.mem_append.1 hx with hx2 | hx2
                  · exact hbfk x (hsub2 x hx2)
                  · rcases List.mem_singleton.1 hx2 with rfl
                    exact hsepD a ha
          · -- flattened entries
            rw [Blk.flat_node_append, hflatb]
            have hfl2 : (Blk.node
                [((splitBlkPair lastE.2).1.lastKeyD, (splitBlkPair lastE.2).1),
                 (key, c2)] : Blk K V).flat =
                (splitBlkPair lastE.2).1.flat ++ c2.flat := by
              simp
            rw [hfl2, hflatc2, ← splitBlkPair_flat lastE.2]
            simp [List.append_assoc]
          · -- entry count
            simp only [Blk.count_node, List.length_append,
              List.length_dropLast, List.length_cons, List.length_nil]
            omega
          · -- the block's last key is now the inserted key
            rw [Blk.keyList_node, List.map_append]
            rw [show ((([((splitBlkPair lastE.2).1.lastKeyD,
              (splitBlkPair lastE.2).1), (key, c2)] : List (K × Blk K V)).map
              Prod.fst)) = [(splitBlkPair lastE.2).1.lastKeyD, key] from rfl]
            rw [show ((es.dropLast.map Prod.fst) ++
              [(splitBlkPair lastE.2).1.lastKeyD, key]) =
              ((es.dropLast.map Prod.fst) ++
                [(splitBlkPair lastE.2).1.lastKeyD]) ++ [key] by simp]
            exact List.getLast?_concat _
          · -- cursor: leaf index in range
            have hlbB : (Blk.node (es.dropLast ++
                [((splitBlkPair lastE.2).1.lastKeyD, (splitBlkPair lastE.2).1),
                 (key, c2)]) : Blk K V).leafBlocks =
              ((Blk.node es.dropLast).leafBlocks ++
                (splitBlkPair lastE.2).1.leafBlocks) ++ c2.leafBlocks := by
              rw [Blk.leafBlocks_node_append]
              simp [List.append_assoc]
            have hA : (Blk.node es.dropLast).leafBlocks.length =
                (es.dropLast.map fun e => e.2.leafCount).sum := by
              rw [show (Blk.node es.dropLast).leafBlocks.length =
                (Blk.node es.dropLast).leafCount from rfl, Blk.leafCount_node]
            simp only [Blk.leafCount] at hA hlb2 ⊢
            rw [hlbB]
            simp only [List.length_append]
            omega
          · -- cursor: index within the leaf
            have hlbB : (Blk.node (es.dropLast ++
                [((splitBlkPair lastE.2).1.lastKeyD, (splitBlkPair lastE.2).1),
                 (key, c2)]) : Blk K V).leafBlocks =
              ((Blk.node es.dropLast).leafBlocks ++
                (splitBlkPair lastE.2).1.leafBlocks) ++ c2.leafBlocks := by
              rw [Blk.leafBlocks_node_append]
              simp [List.append_assoc]
            have hA : (Blk.node es.dropLast).leafBlocks.length =
                (es.dropLast.map fun e => e.2.leafCount).sum := by
              rw [show (Blk.node es.dropLast).leafBlocks.length =
                (Blk.node es.dropLast).leafCount from rfl, Blk.leafCount_node]
            have hsum : (es.dropLast.map fun e => e.2.leafCount).sum +
                (splitBlkPair lastE.2).1.leafCount =
                ((Blk.node es.dropLast).leafBlocks ++
                  (splitBlkPair lastE.2).1.leafBlocks).length := by
              rw [List.length_append, hA]
              rfl
            rw [hlbB, hsum, getD_append_offset]
            exact hi2
          · -- cursor: global rank equals the old size
            have hlbB : (Blk.node (es.dropLast ++
                [((splitBlkPair lastE.2).1.lastKeyD, (splitBlkPair lastE.2).1),
                 (key, c2)]) : Blk K V).leafBlocks =
              ((Blk.node es.dropLast).leafBlocks ++
                (splitBlkPair lastE.2).1.leafBlocks) ++ c2.leafBlocks := by
              rw [Blk.leafBlocks_node_append]
              simp [List.append_assoc]
            have hA : (Blk.node es.dropLast).leafBlocks.length =
                (es.dropLast.map fun e => e.2.leafCount).sum := by
              rw [show (Blk.node es.dropLast).leafBlocks.length =
                (Blk.node es.dropLast).leafCount from rfl, Blk.leafCount_node]
            have hsum : (es.dropLast.map fun e => e.2.leafCount).sum +
                (splitBlkPair lastE.2).1.leafCount =
                ((Blk.node es.dropLast).leafBlocks ++
                  (splitBlkPair lastE.2).1.leafBlocks).length := by
              rw [List.length_append, hA]
              rfl
            rw [hlbB, hsum, lbRank_append, hflatb, hrank2]
            have h1 : (((Blk.node es.dropLast).leafBlocks ++
                (splitBlkPair lastE.2).1.leafBlocks).map List.length).sum =
                (Blk.node es.dropLast).flat.length +
                (splitBlkPair lastE.2).1.flat.length := by
              rw [List.map_append, List.sum_append,
                ← Blk.length_flat_eq_sum, ← Blk.length_flat_eq_sum]
            rw [h1]
            have h2 := splitBlkPair_flat lastE.2
            have h3 := congrArg List.length h2
            simp only [List.length_append] at h3 ⊢
            omega
        · -- the rightmost child has room: descend directly
          have hcntL : lastE.2.count < 2 * MIN := by
            have hle := hwfL
            have : lastE.2.count ≤ 2 * MIN := by
              cases hc : lastE.2 with
              | leaf es2 =>
                cases h with
                | zero =>
                  rw [hc] at hle
                  exact (WfN_leaf_iff.1 hle).2.1
                | succ h2 => rw [hc] at hle; exact absurd hle (by simp)
              | node es2 =>
                cases h with
                | zero => rw [hc] at hle; exact absurd hle (by simp)
                | succ h2 =>
                  rw [hc] at hle
                  exact (WfN_node_iff.1 hle).2.1
            omega
          obtain ⟨c2, lb2, i2, hrec, hwfc2, hflatc2, hcntc2, hlastc2,
            hlb2, hi2, hrank2⟩ :=
            ih false lastE.2 hwfL hcntL hchildseps f (by omega)
          have hfkc2 : c2.fkeys = lastE.2.fkeys ++ [key] := by
            rw [Blk.fkeys, hflatc2, List.map_append, ← Blk.fkeys]
            rfl
          have hunf : insertMax lt MIN key data (f + 1) (Blk.node es) [] =
              .ok (.node (es.dropLast ++ [(key, c2)]))
                ((es.dropLast.map fun e => e.2.leafCount).sum + lb2) i2 [] := by
            simp only [insertMax, hgd, hfull, if_false]
            rw [hrec]
          refine ⟨_, _, _, hunf, ?_, ?_, ?_, ?_, ?_, ?_, ?_⟩
          · rw [WfN_node_iff]
            have hld : es.dropLast.length = es.length - 1 :=
              List.length_dropLast es
            refine ⟨?_, by simp [hld]; omega, ?_, ?_⟩
            · cases root with
              | true =>
                (try simp [hld] at hlo ⊢)
                all_goals omega
              | false =>
                (try simp [hld] at hlo ⊢)
                all_goals omega
            · intro e he
              rcases List.mem_append.1 he with he2 | he2
              · exact hent e (hsubD e he2)
              · rcases List.mem_singleton.1 he2 with rfl
                refine ⟨hwfc2, ?_, by rw [hfkc2]; simp, ?_⟩
                · intro x hx
                  rw [hfkc2] at hx
                  rcases List.mem_append.1 hx with hx2 | hx2
                  · exact ord.asymm (hchildkeys x hx2)
                  · rcases List.mem_singleton.1 hx2 with rfl
                    exact ord.irrefl _
                · intro s hs
                  rw [hlastc2, Option.mem_def, Option.some.injEq] at hs
                  subst hs
                  exact ord.irrefl _
            · rw [List.pairwise_append]
              refine ⟨hpd, List.pairwise_singleton _ _, ?_⟩
              intro a ha b2 hb2
              obtain ⟨hblt, hbfk⟩ := hbet a ha
              rcases List.mem_singleton.1 hb2 with rfl
              refine ⟨hsepD a ha, ?_⟩
              intro x hx
              rw [hfkc2] at hx
              rcases List.mem_append.1 hx with hx2 | hx2
              · exact hbfk x hx2
              · rcases List.mem_singleton.1 hx2 with rfl
                exact hsepD a ha
          · rw [Blk.flat_node_append, hflatb]
            have hfl2 : (Blk.node [(key, c2)] : Blk K V).flat = c2.flat := by
              simp
            rw [hfl2, hflatc2, List.append_assoc]
          · simp only [Blk.count_node, List.length_append,
              List.length_dropLast, List.length_cons, List.length_nil]
            omega
          · rw [Blk.keyList_node, List.map_append]
            rw [show (([(key, c2)] : List (K × Blk K V)).map Prod.fst) =
              [key] from rfl]
            exact List.getLast?_concat _
          · have hlbB : (Blk.node (es.dropLast ++ [(key, c2)])
                : Blk K V).leafBlocks =
                (Blk.node es.dropLast).leafBlocks ++ c2.leafBlocks := by
              rw [Blk.leafBlocks_node_append]
              simp
            have hA : (Blk.node es.dropLast).leafBlocks.length =
                (es.dropLast.map fun e => e.2.leafCount).sum := by
              rw [show (Blk.node es.dropLast).leafBlocks.length =
                (Blk.node es.dropLast).leafCount from rfl, Blk.leafCount_node]
            simp only [Blk.leafCount] at hA hlb2 ⊢
            rw [hlbB]
            simp only [List.length_append]
            omega
          · have hlbB : (Blk.node (es.dropLast ++ [(key, c2)])
                : Blk K V).leafBlocks =
                (Blk.node es.dropLast).leafBlocks ++ c2.leafBlocks := by
              rw [Blk.leafBlocks_node_append]
              simp
            have hA : (Blk.node es.dropLast).leafBlocks.length =
                (es.dropLast.map fun e => e.2.leafCount).sum := by
              rw [show (Blk.node es.dropLast).leafBlocks.length =
                (Blk.node es.dropLast).leafCount from rfl, Blk.leafCount_node]
            rw [hlbB, ← hA, getD_append_offset]
            exact hi2
          · have hlbB : (Blk.node (es.dropLast ++ [(key, c2)])
                : Blk K V).leafBlocks =
                (Blk.node es.dropLast).leafBlocks ++ c2.leafBlocks := by
              rw [Blk.leafBlocks_node_append]
              simp
            have hA : (Blk.node es.dropLast).leafBlocks.length =
                (es.dropLast.map fun e => e.2.leafCount).sum := by
              rw [show (Blk.node es.dropLast).leafBlocks.length =
                (Blk.node es.dropLast).leafCount from rfl, Blk.leafCount_node]
            rw [hlbB, ← hA, lbRank_append, hflatb, hrank2]
            have h1 : ((Blk.node es.dropLast).leafBlocks.map List.length).sum =
                (Blk.node es.dropLast).flat.length := by
              rw [← Blk.length_flat_eq_sum]
            rw [h1]
            simp only [List.length_append]


/-- Correctness of the main insertion loop `insertB` (with an
always-successful allocation oracle): the new entry lands at its sorted
position, well-formedness is preserved at the same height, and the returned
cursor addresses the inserted entry. -/
theorem insertB_ok (ord : LtOrder lt) (hMIN : 1 ≤ MIN) (key : K) (data : V) :
    ∀ (h : Nat) (root : Bool) (b : Blk K V), WfN lt MIN h root b →
    b.count < 2 * MIN →
    key ∉ b.fkeys →
    ∀ fuel, h + 2 ≤ fuel →
    ∃ b' lb i A B, insertB lt MIN key data fuel b [] = .ok b' lb i [] ∧
      WfN lt MIN h root b' ∧
      b.flat = A ++ B ∧
      b'.flat = A ++ (key, data) :: B ∧
      (∀ e ∈ A, lt e.1 key = true) ∧
      (∀ e ∈ B, lt key e.1 = true) ∧
      b'.count ≤ b.count + 1 ∧
      (∀ s ∈ b'.keyList.getLast?, lt key s = false ∨
        ∃ s₀, b.keyList.getLast? = some s₀ ∧ lt s₀ s = false) ∧
      lb < b'.leafCount ∧
      i < (b'.leafBlocks.getD lb []).length ∧
      lbRank b'.leafBlocks lb i = A.length := by
  intro h
  induction h with
  | zero =>
    intro root b hwf hcnt hnm fuel hfuel
    cases b with
    | node es => exact absurd hwf (by simp)
    | leaf es =>
      cases fuel with
      | zero => omega
      | succ f =>
        obtain ⟨hlo, hhi, hsorted⟩ := WfN_leaf_iff.1 hwf
        have hspec := ksl_bsearch_spec (es.map Prod.fst) key
          (bsMono_of_sorted ord key hsorted)
        have hieqc := ksl_bsearch_sorted ord key hsorted
        obtain ⟨i, hI⟩ : ∃ j, ksl_bsearch lt (es.map Prod.fst) key = j :=
          ⟨_, rfl⟩
        rw [hI] at hspec hieqc
        have hsplit : (∀ x ∈ (es.map Prod.fst).take i, lt x key = true) ∧
            (∀ x ∈ (es.map Prod.fst).drop i, lt x key = false) := by
          rw [hieqc]
          exact sorted_countP_split ord hsorted
        have hilen : i ≤ es.length := by
          have h2 := hspec.1
          rwa [List.length_map] at h2
        have htkeys : (es.map Prod.fst).take i = (es.take i).map Prod.fst :=
          (List.map_take _ _ _).symm
        have hdkeys : (es.map Prod.fst).drop i = (es.drop i).map Prod.fst :=
          (List.map_drop _ _ _).symm
        have hAlt : ∀ x ∈ (es.take i).map Prod.fst, lt x key = true := by
          intro x hx
          refine hsplit.1 x ?_
          rwa [htkeys]
        have hBle : ∀ x ∈ (es.drop i).map Prod.fst, lt x key = false := by
          intro x hx
          refine hsplit.2 x ?_
          rwa [hdkeys]
        have hBgt : ∀ x ∈ (es.drop i).map Prod.fst, lt key x = true := by
          intro x hx
          rcases ord.lt_or_eq (hBle x hx) with h2 | h2
          · exact h2
          · exfalso
            have hx2 : x ∈ (es.map Prod.fst).drop i := by
              rwa [← hdkeys] at hx
            refine hnm ?_
            rw [Blk.fkeys_leaf, h2]
            exact List.mem_of_mem_drop hx2
        refine ⟨.leaf (es.take i ++ (key, data) :: es.drop i), 0, i,
          es.take i, es.drop i, ?_, ?_, by simp, by simp, ?_, ?_, ?_, ?_,
          ?_, ?_, ?_⟩
        · simp only [insertB]
          rw [hI]
        · rw [WfN_leaf_iff]
          rw [Blk.count_leaf] at hcnt
          refine ⟨?_, ?_, ?_⟩
          · rcases hlo with hr | hr
            · exact Or.inl hr
            · refine Or.inr ?_
              simp only [List.length_append, List.length_cons,
                List.length_take, List.length_drop]
              omega
          · simp only [List.length_append, List.length_cons,
              List.length_take, List.length_drop]
            omega
          · rw [List.map_append, List.map_cons, ← htkeys, ← hdkeys]
            have hsorted2 := hsorted
            rw [← List.take_append_drop i (es.map Prod.fst),
              List.pairwise_append] at hsorted2
            obtain ⟨hsT, hsD, hsX⟩ := hsorted2
            rw [List.pairwise_append]
            refine ⟨hsT, ?_, ?_⟩
            · rw [List.pairwise_cons]
              refine ⟨?_, hsD⟩
              intro y hy
              refine hBgt y ?_
              rwa [hdkeys] at hy
            · intro x hx y hy
              rcases List.mem_cons.1 hy with rfl | hy2
              · refine hAlt x ?_
                rwa [htkeys] at hx
              · exact hsX x hx y hy2
        · intro e he
          exact hAlt e.1 (List.mem_map_of_mem _ he)
        · intro e he
          exact hBgt e.1 (List.mem_map_of_mem _ he)
        · simp only [Blk.count_leaf, List.length_append, List.length_cons,
            List.length_take, List.length_drop]
          omega
        · intro s hs
          rw [Blk.keyList_leaf, List.map_append, List.map_cons,
            List.getLast?_append_cons] at hs
          cases hdrop : (es.drop i).map Prod.fst with
          | nil =>
            rw [hdrop, List.getLast?_singleton, Option.mem_def,
              Option.some.injEq] at hs
            subst hs
            exact Or.inl (ord.irrefl _)
          | cons y ys =>
            rw [hdrop, List.getLast?_cons_cons, Option.mem_def] at hs
            refine Or.inr ⟨s, ?_, ord.irrefl s⟩
            rw [Blk.keyList_leaf, ← List.take_append_drop i
              (es.map Prod.fst), hdkeys, hdrop, List.getLast?_append_cons]
            exact hs
        · simp [Blk.leafCount]
        · simp only [Blk.leafBlocks_leaf, List.getD_cons_zero,
            List.length_append, List.length_cons, List.length_take,
            List.length_drop]
          omega
        · simp only [Blk.leafBlocks_leaf]
          rw [lbRank_zero, List.length_take]
          omega
  | succ h ih =>
    intro root b hwf hcnt hnm fuel hfuel
    cases b with
    | leaf es => exact absurd hwf (by simp)
    | node es =>
      cases fuel with
      | zero => omega
      | succ f =>
        obtain ⟨hlo, hhi, hent, hp⟩ := WfN_node_iff.1 hwf
        have hsortedsep : List.Pairwise (fun a b => lt a b = true)
            (es.map Prod.fst) :=
          List.pairwise_map.2 (hp.imp fun hx => hx.1)
        have hspec := ksl_bsearch_spec (es.map Prod.fst) key
          (bsMono_of_sorted ord key hsortedsep)
        obtain ⟨i, hI⟩ : ∃ j, ksl_bsearch lt (es.map Prod.fst) key = j :=
          ⟨_, rfl⟩
        rw [hI] at hspec
        have hilen : i ≤ es.length := by
          have h2 := hspec.1
          rwa [List.length_map] at h2
        have hcntlen : es.length < 2 * MIN := by
          rw [Blk.count_node] at hcnt
          exact hcnt
        by_cases hmax : i = es.length
        · have hseps : ∀ s ∈ (Blk.node es : Blk K V).keyList,
              lt s key = true := by
            intro s hs
            rw [Blk.keyList_node] at hs
            obtain ⟨m, hm⟩ := List.mem_iff_get?.1 hs
            have hmlt : m < es.length := by
              have h3 := (List.get?_eq_some.1 hm).1
              rwa [List.length_map] at h3
            exact hspec.2.1 m s (by omega) hm
          obtain ⟨b', lb, j, hrun, hwf', hflat', hcnt', hlast', hlb, hj,
            hrank⟩ := insertMax_ok ord hMIN key data (h + 1) root
            (Blk.node es) hwf hcnt hseps f (by omega)
          refine ⟨b', lb, j, (Blk.node es : Blk K V).flat, [], ?_, hwf',
            by simp, hflat', ?_, by simp, hcnt', ?_, hlb, hj, hrank⟩
          · simp only [insertB]
            rw [hI, if_pos hmax]
            exact hrun
          · intro e he
            refine wf_fkeys_lt_of_seps_lt ord hwf hseps e.1 ?_
            rw [Blk.fkeys]
            exact List.mem_map_of_mem _ he
          · intro s hs
            rw [hlast', Option.mem_def, Option.some.injEq] at hs
            subst hs
            exact Or.inl (ord.irrefl _)
        · have hilt : i < es.length := lt_of_le_of_ne hilen hmax
          have h1 : es.get? i = some (es.getD i default) := by
            rcases hg : es.get? i with _ | e
            · rw [List.get?_eq_none] at hg
              omega
            · rw [List.getD_eq_getD_get?, hg]
              rfl
          have hmemc : es.getD i default ∈ es := List.get?_mem h1
          obtain ⟨hwfc, hgec, hnec, hdomc⟩ := hent _ hmemc
          have hsepge : lt (es.getD i default).1 key = false := by
            refine hspec.2.2 (es.getD i default).1 ?_
            rw [List.get?_map, h1]
            rfl
          have hbefore : ∀ j s, j < i → (es.map Prod.fst).get? j = some s →
              lt s key = true := fun j s hj hg => hspec.2.1 j s hj hg
          have hnmc : key ∉ (es.getD i default).2.fkeys := by
            intro hkc
            refine hnm ?_
            rw [Blk.fkeys_node_join]
            exact List.mem_join.2 ⟨_, List.mem_map_of_mem _ hmemc, hkc⟩
          by_cases hfull : (es.getD i default).2.count = 2 * MIN
          · obtain ⟨hwf1, hwf2⟩ := splitBlkPair_wf hwfc hfull hMIN
            have hcnt1 : (splitBlkPair (es.getD i default).2).1.count =
                MIN := by
              rw [splitBlkPair_count₁, hfull]
              omega
            have hcnt2 : (splitBlkPair (es.getD i default).2).2.count =
                MIN := by
              rw [splitBlkPair_count₂, hfull]
              omega
            have hkl2ne :
                (splitBlkPair (es.getD i default).2).2.keyList ≠ [] := by
              intro hnil
              have h2 := congrArg List.length hnil
              rw [Blk.keyList_length, hcnt2] at h2
              simp at h2
              omega
            have hlast2 :
                (splitBlkPair (es.getD i default).2).2.keyList.getLast? =
                some (splitBlkPair (es.getD i default).2).2.lastKeyD :=
              lastKeyD_spec _ hkl2ne
            have hk2mem : (splitBlkPair (es.getD i default).2).2.lastKeyD ∈
                (es.getD i default).2.keyList := by
              have hm := getLast?_mem_self hlast2
              rw [splitBlkPair_keyList₂] at hm
              exact List.mem_of_mem_drop hm
            have hkle2 : lt (es.getD i default).1
                (splitBlkPair (es.getD i default).2).2.lastKeyD = false :=
              entry_keyList_ge ord hwfc hdomc _ hk2mem
            have hfk : (es.getD i default).2.fkeys =
                (splitBlkPair (es.getD i default).2).1.fkeys ++
                (splitBlkPair (es.getD i default).2).2.fkeys := by
              rw [Blk.fkeys, Blk.fkeys, Blk.fkeys, ← List.map_append,
                splitBlkPair_flat]
            have hfk1ne :
                (splitBlkPair (es.getD i default).2).1.fkeys ≠ [] :=
              wf_nonroot_fkeys_ne_nil hMIN hwf1
            have hfk2ne :
                (splitBlkPair (es.getD i default).2).2.fkeys ≠ [] :=
              wf_nonroot_fkeys_ne_nil hMIN hwf2
            have hgek2 : ∀ x ∈ (splitBlkPair (es.getD i default).2).2.fkeys,
                lt (splitBlkPair (es.getD i default).2).2.lastKeyD x =
                false := wf_lastKey_ge ord hwf2
            have hltc2 : ∀ x ∈ (splitBlkPair (es.getD i default).2).2.fkeys,
                lt (splitBlkPair (es.getD i default).2).1.lastKeyD x =
                true := by
              refine splitBlkPair_sep_lt ord hwfc ?_
              rw [hfull]
              omega
            have hk1k2 : lt (splitBlkPair (es.getD i default).2).1.lastKeyD
                (splitBlkPair (es.getD i default).2).2.lastKeyD = true := by
              obtain ⟨x₀, hx₀⟩ := List.exists_mem_of_ne_nil _ hfk2ne
              exact ord.ltLe (hltc2 x₀ hx₀) (hgek2 x₀ hx₀)
            have hklast2 : ∀ s ∈
                (splitBlkPair (es.getD i default).2).2.keyList.getLast?,
                lt (splitBlkPair (es.getD i default).2).2.lastKeyD s =
                false := by
              intro s hs
              rw [hlast2, Option.mem_def, Option.some.injEq] at hs
              subst hs
              exact ord.irrefl _
            have hnm1 : key ∉ (splitBlkPair (es.getD i default).2).1.fkeys := by
              intro hk2
              refine hnmc ?_
              rw [hfk]
              exact List.mem_append_left _ hk2
            have hnm2 : key ∉ (splitBlkPair (es.getD i default).2).2.fkeys := by
              intro hk2
              refine hnmc ?_
              rw [hfk]
              exact List.mem_append_right _ hk2
            have hlT : (es.take i).length = i := by
              rw [List.length_take]
              omega
            have hdz : es.drop i = (es.getD i default) :: es.drop (i + 1) :=
              drop_eq_cons_of_get? h1
            have hdecomp : es = es.take i ++ (es.getD i default) ::
                es.drop (i + 1) := by
              conv_lhs => rw [← List.take_append_drop i es, hdz]
            have hLraw : splitNodeEs es i = es.take i ++
                [((splitBlkPair (es.getD i default).2).1.lastKeyD,
                  (splitBlkPair (es.getD i default).2).1),
                 ((splitBlkPair (es.getD i default).2).2.lastKeyD,
                  (splitBlkPair (es.getD i default).2).2)] ++
                es.drop (i + 1) := rfl
            have hg1 : (splitNodeEs es i).getD i default =
                ((splitBlkPair (es.getD i default).2).1.lastKeyD,
                 (splitBlkPair (es.getD i default).2).1) := by
              have h2 := getD_append2_fst (es.take i) (es.drop (i + 1))
                ((splitBlkPair (es.getD i default).2).1.lastKeyD,
                 (splitBlkPair (es.getD i default).2).1)
                ((splitBlkPair (es.getD i default).2).2.lastKeyD,
                 (splitBlkPair (es.getD i default).2).2) default
              rw [hlT] at h2
              rw [hLraw]
              exact h2
            have hg2 : (splitNodeEs es i).getD (i + 1) default =
                ((splitBlkPair (es.getD i default).2).2.lastKeyD,
                 (splitBlkPair (es.getD i default).2).2) := by
              have h2 := getD_append2_snd (es.take i) (es.drop (i + 1))
                ((splitBlkPair (es.getD i default).2).1.lastKeyD,
                 (splitBlkPair (es.getD i default).2).1)
                ((splitBlkPair (es.getD i default).2).2.lastKeyD,
                 (splitBlkPair (es.getD i default).2).2) default
              rw [hlT] at h2
              rw [hLraw]
              exact h2
            have hg1fst : ((splitNodeEs es i).getD i default).1 =
                (splitBlkPair (es.getD i default).2).1.lastKeyD := by
              rw [hg1]
            have hg1snd : ((splitNodeEs es i).getD i default).2 =
                (splitBlkPair (es.getD i default).2).1 := by
              rw [hg1]
            have hg2fst : ((splitNodeEs es i).getD (i + 1) default).1 =
                (splitBlkPair (es.getD i default).2).2.lastKeyD := by
              rw [hg2]
            have hg2snd : ((splitNodeEs es i).getD (i + 1) default).2 =
                (splitBlkPair (es.getD i default).2).2 := by
              rw [hg2]
            have hLlen : (splitNodeEs es i).length = es.length + 1 := by
              rw [hLraw, length_append2, hlT, List.length_drop]
              omega
            have hflatMid : ∀ (u v : K),
                (Blk.node (es.take i ++
                  [(u, (splitBlkPair (es.getD i default).2).1),
                   (v, (splitBlkPair (es.getD i default).2).2)] ++
                  es.drop (i + 1)) : Blk K V).flat =
                (Blk.node es : Blk K V).flat := by
              intro u v
              conv_rhs => rw [hdecomp]
              rw [show es.take i ++
                  [(u, (splitBlkPair (es.getD i default).2).1),
                   (v, (splitBlkPair (es.getD i default).2).2)] ++
                  es.drop (i + 1) = es.take i ++
                  ([(u, (splitBlkPair (es.getD i default).2).1),
                    (v, (splitBlkPair (es.getD i default).2).2)] ++
                   es.drop (i + 1)) from by simp]
              rw [show es.take i ++ (es.getD i default) ::
                  es.drop (i + 1) = es.take i ++
                  ([(es.getD i default)] ++ es.drop (i + 1)) from by simp]
              rw [Blk.flat_node_append, Blk.flat_node_append,
                Blk.flat_node_append, Blk.flat_node_append]
              congr 1
              congr 1
              have hone : ∀ (e : K × Blk K V),
                  (Blk.node [e] : Blk K V).flat = e.2.flat := by
                intro e
                obtain ⟨k, c⟩ := e
                simp
              rw [hone]
              simp [splitBlkPair_flat]
            have hLflat : (Blk.node (splitNodeEs es i) : Blk K V).flat =
                (Blk.node es : Blk K V).flat := by
              rw [hLraw]
              exact hflatMid _ _
            have hmapL : (splitNodeEs es i).map Prod.fst =
                (es.take i).map Prod.fst ++
                [(splitBlkPair (es.getD i default).2).1.lastKeyD,
                 (splitBlkPair (es.getD i default).2).2.lastKeyD] ++
                (es.drop (i + 1)).map Prod.fst := by
              rw [hLraw]
              simp
            have hbeforeL : ∀ j s, j < i →
                ((splitNodeEs es i).map Prod.fst).get? j = some s →
                lt s key = true := by
              intro j s hj hg
              rw [hmapL] at hg
              rw [get?_append2_left _ _ _ _
                (by rw [List.length_map, hlT]; omega)] at hg
              rw [List.map_take] at hg
              rw [List.get?_take hj] at hg
              exact hspec.2.1 j s hj hg
            have hgetk1 : ((splitNodeEs es i).map Prod.fst).get? i =
                some (splitBlkPair (es.getD i default).2).1.lastKeyD := by
              rw [hmapL, List.append_assoc, List.get?_append_right
                (le_of_eq (by rw [List.length_map, hlT]))]
              rw [show i - ((es.take i).map Prod.fst).length = 0 from by
                rw [List.length_map, hlT]; omega]
              rfl
            have hklastL : ∀ s ∈
                (Blk.node (splitNodeEs es i) : Blk K V).keyList.getLast?,
                lt key s = false ∨ ∃ s₀,
                  (Blk.node es : Blk K V).keyList.getLast? = some s₀ ∧
                  lt s₀ s = false := by
              intro s hs
              rw [hLraw] at hs
              rcases node_keyList_last_split (es.getD i default) _ _ s hs
                with ⟨hseq, hold⟩ | hsame
              · subst hseq
                refine Or.inr ⟨(es.getD i default).1, ?_, hkle2⟩
                conv_lhs => rw [hdecomp]
                exact hold
              · refine Or.inr ⟨s, ?_, ord.irrefl s⟩
                conv_lhs => rw [hdecomp]
                exact hsame
            by_cases hlt1 :
                lt (splitBlkPair (es.getD i default).2).1.lastKeyD key = true
            · by_cases hlt2 :
                  lt (splitBlkPair (es.getD i default).2).2.lastKeyD key =
                  true
              · -- stale separator: bump the right half's key to `key`
                have hkgeKey : ∀ x ∈
                    (splitBlkPair (es.getD i default).2).2.fkeys,
                    lt key x = false := by
                  intro x hx
                  exact ord.asymm (ord.leLt (hgek2 x hx) hlt2)
                have hklastKey : ∀ s ∈
                    (splitBlkPair (es.getD i default).2).2.keyList.getLast?,
                    lt key s = false := by
                  intro s hs
                  rw [hlast2, Option.mem_def, Option.some.injEq] at hs
                  subst hs
                  exact ord.asymm hlt2
                have hE2 : (splitNodeEs es i).set (i + 1)
                    (key, ((splitNodeEs es i).getD (i + 1) default).2) =
                    es.take i ++
                    [((splitBlkPair (es.getD i default).2).1.lastKeyD,
                      (splitBlkPair (es.getD i default).2).1),
                     (key, (splitBlkPair (es.getD i default).2).2)] ++
                    es.drop (i + 1) := by
                  rw [hg2snd, hLraw]
                  have h2 := set_append2_snd (es.take i) (es.drop (i + 1))
                    ((splitBlkPair (es.getD i default).2).1.lastKeyD,
                     (splitBlkPair (es.getD i default).2).1)
                    ((splitBlkPair (es.getD i default).2).2.lastKeyD,
                     (splitBlkPair (es.getD i default).2).2)
                    (key, (splitBlkPair (es.getD i default).2).2)
                  rwa [hlT] at h2
                have hg3 : ((splitNodeEs es i).set (i + 1)
                    (key, ((splitNodeEs es i).getD (i + 1)
                      default).2)).getD (i + 1) default =
                    (key, (splitBlkPair (es.getD i default).2).2) := by
                  rw [hE2]
                  have h2 := getD_append2_snd (es.take i) (es.drop (i + 1))
                    ((splitBlkPair (es.getD i default).2).1.lastKeyD,
                     (splitBlkPair (es.getD i default).2).1)
                    (key, (splitBlkPair (es.getD i default).2).2) default
                  rwa [hlT] at h2
                have hg3fst : (((splitNodeEs es i).set (i + 1)
                    (key, ((splitNodeEs es i).getD (i + 1)
                      default).2)).getD (i + 1) default).1 = key := by
                  rw [hg3]
                have hg3snd : (((splitNodeEs es i).set (i + 1)
                    (key, ((splitNodeEs es i).getD (i + 1)
                      default).2)).getD (i + 1) default).2 =
                    (splitBlkPair (es.getD i default).2).2 := by
                  rw [hg3]
                have hE2len : ((splitNodeEs es i).set (i + 1)
                    (key, ((splitNodeEs es i).getD (i + 1)
                      default).2)).length = es.length + 1 := by
                  rw [List.length_set, hLlen]
                have hwfL2 : WfN lt MIN (h + 1) root
                    (Blk.node ((splitNodeEs es i).set (i + 1)
                      (key, ((splitNodeEs es i).getD (i + 1)
                        default).2))) := by
                  rw [hE2]
                  exact split_insert_wf ord hMIN hwf hilt hcntlen hfull
                    hlt1 hkgeKey hsepge hklastKey
                have hmapL2 : ((splitNodeEs es i).set (i + 1)
                    (key, ((splitNodeEs es i).getD (i + 1)
                      default).2)).map Prod.fst =
                    (es.take i).map Prod.fst ++
                    [(splitBlkPair (es.getD i default).2).1.lastKeyD,
                     key] ++ (es.drop (i + 1)).map Prod.fst := by
                  rw [hE2]
                  simp
                have hbeforeL2 : ∀ j s, j < i + 1 →
                    (((splitNodeEs es i).set (i + 1)
                      (key, ((splitNodeEs es i).getD (i + 1)
                        default).2)).map Prod.fst).get? j = some s →
                    lt s key = true := by
                  intro j s hj hg
                  rw [hmapL2] at hg
                  rcases Nat.lt_or_ge j i with hji | hji
                  · rw [get?_append2_left _ _ _ _
                      (by rw [List.length_map, hlT]; omega)] at hg
                    rw [List.map_take] at hg
                    rw [List.get?_take hji] at hg
                    exact hspec.2.1 j s hji hg
                  · have hjeq : j = i := by omega
                    subst hjeq
                    rw [List.append_assoc, List.get?_append_right
                      (le_of_eq (by rw [List.length_map, hlT]))] at hg
                    rw [show j - ((es.take j).map Prod.fst).length = 0 from
                      by rw [List.length_map, hlT]; omega] at hg
                    rw [List.cons_append, List.get?_cons_zero,
                      Option.some.injEq] at hg
                    subst hg
                    exact hlt1
                obtain ⟨c', lb₂, i₂, A₂, B₂, hrec, hwfc', hflatc, hflatc',
                  hA₂, hB₂, hcntc', hlastc', hlb₂, hi₂, hrank₂⟩ :=
                  ih false _ hwf2 (by rw [hcnt2]; omega) hnm2 f (by omega)
                rw [← hg3snd] at hrec hflatc hlastc'
                obtain ⟨hwfS, hflatEq, hflatEq', hcntS, hklS, hAm, hBm,
                  hlbS, hiS, hrankS⟩ := insDescend_ok ord hwfL2
                  (by rw [hE2len]; omega) (by rw [hg3fst]; exact ord.irrefl _)
                  hbeforeL2 hwfc' hflatc hflatc' hA₂ hB₂ hlb₂ hi₂ hrank₂
                  hlastc'
                have hE2flat : (Blk.node ((splitNodeEs es i).set (i + 1)
                    (key, ((splitNodeEs es i).getD (i + 1) default).2))
                    : Blk K V).flat = (Blk.node es : Blk K V).flat := by
                  rw [hE2]
                  exact hflatMid _ _
                have hklastL2 : ∀ s ∈ (Blk.node ((splitNodeEs es i).set
                    (i + 1) (key, ((splitNodeEs es i).getD (i + 1)
                      default).2)) : Blk K V).keyList.getLast?,
                    lt key s = false ∨ ∃ s₀,
                      (Blk.node es : Blk K V).keyList.getLast? = some s₀ ∧
                      lt s₀ s = false := by
                  intro s hs
                  rw [hE2] at hs
                  rcases node_keyList_last_split (es.getD i default) _ _ s
                    hs with ⟨hseq, hold⟩ | hsame
                  · subst hseq
                    exact Or.inl (ord.irrefl _)
                  · refine Or.inr ⟨s, ?_, ord.irrefl s⟩
                    conv_lhs => rw [hdecomp]
                    exact hsame
                refine ⟨_, _, _, _, _, ?_, hwfS, ?_, hflatEq', hAm, hBm,
                  ?_, ?_, hlbS, hiS, hrankS⟩
                · simp only [insertB, takeAlloc]
                  rw [hI, if_neg hmax, if_pos hfull]
                  rw [if_pos (show lt ((splitNodeEs es i).getD i
                    default).1 key = true from by rw [hg1fst]; exact hlt1)]
                  rw [if_pos (show lt ((splitNodeEs es i).getD (i + 1)
                    default).1 key = true from by rw [hg2fst]; exact hlt2)]
                  rw [hrec]
                  rfl
                · rw [← hE2flat]
                  exact hflatEq
                · rw [hcntS, hE2len, Blk.count_node]
                · intro s hs
                  rw [hklS] at hs
                  exact hklastL2 s hs
              · -- descend into the right half
                have hlt2' : lt
                    (splitBlkPair (es.getD i default).2).2.lastKeyD key =
                    false := by
                  cases hx : lt
                      (splitBlkPair (es.getD i default).2).2.lastKeyD key
                  · rfl
                  · exact absurd hx hlt2
                have hwfL : WfN lt MIN (h + 1) root
                    (Blk.node (splitNodeEs es i)) := by
                  rw [hLraw]
                  exact split_insert_wf ord hMIN hwf hilt hcntlen hfull
                    hk1k2 hgek2 hkle2 hklast2
                have hbeforeL2 : ∀ j s, j < i + 1 →
                    ((splitNodeEs es i).map Prod.fst).get? j = some s →
                    lt s key = true := by
                  intro j s hj hg
                  rcases Nat.lt_or_ge j i with hji | hji
                  · exact hbeforeL j s hji hg
                  · have hjeq : j = i := by omega
                    subst hjeq
                    rw [hgetk1, Option.some.injEq] at hg
                    subst hg
                    exact hlt1
                obtain ⟨c', lb₂, i₂, A₂, B₂, hrec, hwfc', hflatc, hflatc',
                  hA₂, hB₂, hcntc', hlastc', hlb₂, hi₂, hrank₂⟩ :=
                  ih false _ hwf2 (by rw [hcnt2]; omega) hnm2 f (by omega)
                rw [← hg2snd] at hrec hflatc hlastc'
                obtain ⟨hwfS, hflatEq, hflatEq', hcntS, hklS, hAm, hBm,
                  hlbS, hiS, hrankS⟩ := insDescend_ok ord hwfL
                  (by rw [hLlen]; omega) (by rw [hg2fst]; exact hlt2')
                  hbeforeL2 hwfc' hflatc hflatc' hA₂ hB₂ hlb₂ hi₂ hrank₂
                  hlastc'
                refine ⟨_, _, _, _, _, ?_, hwfS, ?_, hflatEq', hAm, hBm,
                  ?_, ?_, hlbS, hiS, hrankS⟩
                · simp only [insertB, takeAlloc]
                  rw [hI, if_neg hmax, if_pos hfull]
                  rw [if_pos (show lt ((splitNodeEs es i).getD i
                    default).1 key = true from by rw [hg1fst]; exact hlt1)]
                  rw [if_neg (show ¬ lt ((splitNodeEs es i).getD (i + 1)
                    default).1 key = true from by rw [hg2fst, hlt2']
                                                  simp)]
                  rw [hrec]
                  rfl
                · rw [← hLflat]
                  exact hflatEq
                · rw [hcntS, hLlen, Blk.count_node]
                · intro s hs
                  rw [hklS] at hs
                  exact hklastL s hs
            · -- descend into the left half
              have hlt1' : lt
                  (splitBlkPair (es.getD i default).2).1.lastKeyD key =
                  false := by
                cases hx : lt
                    (splitBlkPair (es.getD i default).2).1.lastKeyD key
                · rfl
                · exact absurd hx hlt1
              have hwfL : WfN lt MIN (h + 1) root
                  (Blk.node (splitNodeEs es i)) := by
                rw [hLraw]
                exact split_insert_wf ord hMIN hwf hilt hcntlen hfull
                  hk1k2 hgek2 hkle2 hklast2
              obtain ⟨c', lb₂, i₂, A₂, B₂, hrec, hwfc', hflatc, hflatc',
                hA₂, hB₂, hcntc', hlastc', hlb₂, hi₂, hrank₂⟩ :=
                ih false _ hwf1 (by rw [hcnt1]; omega) hnm1 f (by omega)
              rw [← hg1snd] at hrec hflatc hlastc'
              obtain ⟨hwfS, hflatEq, hflatEq', hcntS, hklS, hAm, hBm,
                hlbS, hiS, hrankS⟩ := insDescend_ok ord hwfL
                (by rw [hLlen]; omega) (by rw [hg1fst]; exact hlt1')
                hbeforeL hwfc' hflatc hflatc' hA₂ hB₂ hlb₂ hi₂ hrank₂
                hlastc'
              refine ⟨_, _, _, _, _, ?_, hwfS, ?_, hflatEq', hAm, hBm,
                ?_, ?_, hlbS, hiS, hrankS⟩
              · simp only [insertB, takeAlloc]
                rw [hI, if_neg hmax, if_pos hfull]
                rw [if_neg (show ¬ lt ((splitNodeEs es i).getD i
                  default).1 key = true from by rw [hg1fst, hlt1']
                                                simp)]
                rw [hrec]
                rfl
              · rw [← hLflat]
                exact hflatEq
              · rw [hcntS, hLlen, Blk.count_node]
              · intro s hs
                rw [hklS] at hs
                exact hklastL s hs
          · have hcntc : (es.getD i default).2.count < 2 * MIN :=
              lt_of_le_of_ne (wf_count_le hwfc) hfull
            obtain ⟨c', lb₂, i₂, A₂, B₂, hrec, hwfc', hflatc, hflatc',
              hA₂, hB₂, hcntc', hlastc', hlb₂, hi₂, hrank₂⟩ :=
              ih false _ hwfc hcntc hnmc f (by omega)
            obtain ⟨hwfS, hflatEq, hflatEq', hcntS, hklS, hAm, hBm, hlbS,
              hiS, hrankS⟩ := insDescend_ok ord hwf hilt hsepge hbefore
              hwfc' hflatc hflatc' hA₂ hB₂ hlb₂ hi₂ hrank₂ hlastc'
            refine ⟨_, _, _, _, _, ?_, hwfS, hflatEq, hflatEq', hAm, hBm,
              ?_, ?_, hlbS, hiS, hrankS⟩
            · simp only [insertB]
              rw [hI, if_neg hmax, if_neg hfull, hrec]
              rfl
            · rw [hcntS, Blk.count_node]
              omega
            · intro s hs
              rw [hklS, Option.mem_def] at hs
              exact Or.inr ⟨s, hs, ord.irrefl s⟩



/-- Reduction of the result-packaging match inside `nghttp3_ksl_insert`. -/
theorem nghttp3_ksl_insert_go (key : K) (data : V) (n : Nat)
    {b : Blk K V} {b' : Blk K V} {lb i : Nat}
    (hrun : insertB lt MIN key data (2 * b.height + 2) b [] =
      .ok b' lb i []) :
    (match insertB lt MIN key data (2 * b.height + 2) b [] with
      | InsRes.ok b₂ lb₂ i₂ _ =>
        KIns.ok (⟨b₂, n + 1⟩ : Ksl K V) ⟨b₂.leafBlocks, lb₂, i₂⟩
      | InsRes.oom b₂ _ => KIns.oom (⟨b₂, n⟩ : Ksl K V)) =
    KIns.ok (⟨b', n + 1⟩ : Ksl K V) ⟨b'.leafBlocks, lb, i⟩ := by
  rw [hrun]

/-- Correctness of `nghttp3_ksl_insert` under an always-successful
allocation oracle and a key not already stored: the entry is inserted at its
sorted position, the tree stays well-formed, `ksl->n` is incremented, and the
returned iterator addresses the new entry. -/
theorem nghttp3_ksl_insert_ok (ord : LtOrder lt) (hMIN : 2 ≤ MIN)
    (t : Ksl K V) (hwf : WfK lt MIN t) (key : K) (data : V)
    (hnm : key ∉ t.head.fkeys) :
    ∃ t' it A B, nghttp3_ksl_insert lt MIN t key data [] = .ok t' it ∧
      WfK lt MIN t' ∧
      t.head.flat = A ++ B ∧
      t'.head.flat = A ++ (key, data) :: B ∧
      (∀ e ∈ A, lt e.1 key = true) ∧
      (∀ e ∈ B, lt key e.1 = true) ∧
      t'.n = t.n + 1 ∧
      it.leaves = t'.head.leafBlocks ∧
      nghttp3_ksl_it_key it = some key ∧
      nghttp3_ksl_it_get it = some data := by
  obtain ⟨hwfh, hn⟩ := hwf
  have hM1 : 1 ≤ MIN := by omega
  by_cases hfull : t.head.count = 2 * MIN
  · -- split the full head first, then run the descent on the new head
    obtain ⟨hwf1, hwf2⟩ := splitBlkPair_wf hwfh hfull hM1
    have hcnt1 : (splitBlkPair t.head).1.count = MIN := by
      rw [splitBlkPair_count₁, hfull]
      omega
    have hcnt2 : (splitBlkPair t.head).2.count = MIN := by
      rw [splitBlkPair_count₂, hfull]
      omega
    have hkl1ne : (splitBlkPair t.head).1.keyList ≠ [] := by
      intro hnil
      have h2 := congrArg List.length hnil
      rw [Blk.keyList_length, hcnt1] at h2
      simp at h2
      omega
    have hkl2ne : (splitBlkPair t.head).2.keyList ≠ [] := by
      intro hnil
      have h2 := congrArg List.length hnil
      rw [Blk.keyList_length, hcnt2] at h2
      simp at h2
      omega
    have hlast1 : (splitBlkPair t.head).1.keyList.getLast? =
        some (splitBlkPair t.head).1.lastKeyD := lastKeyD_spec _ hkl1ne
    have hlast2 : (splitBlkPair t.head).2.keyList.getLast? =
        some (splitBlkPair t.head).2.lastKeyD := lastKeyD_spec _ hkl2ne
    have hge1 : ∀ x ∈ (splitBlkPair t.head).1.fkeys,
        lt (splitBlkPair t.head).1.lastKeyD x = false :=
      wf_lastKey_ge ord hwf1
    have hge2 : ∀ x ∈ (splitBlkPair t.head).2.fkeys,
        lt (splitBlkPair t.head).2.lastKeyD x = false :=
      wf_lastKey_ge ord hwf2
    have hltc2 : ∀ x ∈ (splitBlkPair t.head).2.fkeys,
        lt (splitBlkPair t.head).1.lastKeyD x = true := by
      refine splitBlkPair_sep_lt ord hwfh ?_
      rw [hfull]
      omega
    have hfk1ne : (splitBlkPair t.head).1.fkeys ≠ [] :=
      wf_nonroot_fkeys_ne_nil hM1 hwf1
    have hfk2ne : (splitBlkPair t.head).2.fkeys ≠ [] :=
      wf_nonroot_fkeys_ne_nil hM1 hwf2
    have hk1k2 : lt (splitBlkPair t.head).1.lastKeyD
        (splitBlkPair t.head).2.lastKeyD = true := by
      obtain ⟨x₀, hx₀⟩ := List.exists_mem_of_ne_nil _ hfk2ne
      exact ord.ltLe (hltc2 x₀ hx₀) (hge2 x₀ hx₀)
    have hfkN : (Blk.node [((splitBlkPair t.head).1.lastKeyD,
        (splitBlkPair t.head).1), ((splitBlkPair t.head).2.lastKeyD,
        (splitBlkPair t.head).2)] : Blk K V).fkeys = t.head.fkeys := by
      rw [Blk.fkeys_node_cons, Blk.fkeys_node_cons, Blk.fkeys_node_nil,
        List.append_nil, Blk.fkeys, Blk.fkeys, Blk.fkeys,
        ← List.map_append, splitBlkPair_flat]
    have hflatN : (Blk.node [((splitBlkPair t.head).1.lastKeyD,
        (splitBlkPair t.head).1), ((splitBlkPair t.head).2.lastKeyD,
        (splitBlkPair t.head).2)] : Blk K V).flat = t.head.flat := by
      rw [Blk.flat_node_cons, Blk.flat_node_cons, Blk.flat_node_nil,
        List.append_nil, splitBlkPair_flat]
    have hwfN : WfN lt MIN (t.head.height + 1) true
        (Blk.node [((splitBlkPair t.head).1.lastKeyD,
          (splitBlkPair t.head).1), ((splitBlkPair t.head).2.lastKeyD,
          (splitBlkPair t.head).2)]) := by
      have hh : t.head.height = t.head.height := rfl
      have hwfh2 : WfN lt MIN t.head.height true t.head := hwfh
      rw [WfN_node_iff]
      refine ⟨by simp, by simp; omega, ?_, ?_⟩
      · intro e he
        rcases List.mem_cons.1 he with rfl | he2
        · refine ⟨hwf1, hge1, hfk1ne, ?_⟩
          intro s hs
          rw [hlast1, Option.mem_def, Option.some.injEq] at hs
          subst hs
          exact ord.irrefl _
        · rcases List.mem_singleton.1 he2 with rfl
          refine ⟨hwf2, hge2, hfk2ne, ?_⟩
          intro s hs
          rw [hlast2, Option.mem_def, Option.some.injEq] at hs
          subst hs
          exact ord.irrefl _
      · rw [List.pairwise_cons]
        refine ⟨?_, List.pairwise_singleton _ _⟩
        intro b hb
        rcases List.mem_singleton.1 hb with rfl
        exact ⟨hk1k2, hltc2⟩
    have hhN : (Blk.node [((splitBlkPair t.head).1.lastKeyD,
        (splitBlkPair t.head).1), ((splitBlkPair t.head).2.lastKeyD,
        (splitBlkPair t.head).2)] : Blk K V).height =
        t.head.height + 1 := wf_height hM1 _ hwfN
    have hcntN : (Blk.node [((splitBlkPair t.head).1.lastKeyD,
        (splitBlkPair t.head).1), ((splitBlkPair t.head).2.lastKeyD,
        (splitBlkPair t.head).2)] : Blk K V).count < 2 * MIN := by
      rw [Blk.count_node]
      simp
      omega
    have hnmN : key ∉ (Blk.node [((splitBlkPair t.head).1.lastKeyD,
        (splitBlkPair t.head).1), ((splitBlkPair t.head).2.lastKeyD,
        (splitBlkPair t.head).2)] : Blk K V).fkeys := by
      rw [hfkN]
      exact hnm
    obtain ⟨b', lb, i, A, B, hrun, hwf', hflatAB, hflat', hA, hB, hcnt',
      hlast', hlb, hi, hrank⟩ := insertB_ok ord hM1 key data
      (t.head.height + 1) true _ hwfN hcntN hnmN
      (2 * (Blk.node [((splitBlkPair t.head).1.lastKeyD,
        (splitBlkPair t.head).1), ((splitBlkPair t.head).2.lastKeyD,
        (splitBlkPair t.head).2)] : Blk K V).height + 2)
      (by rw [hhN]; omega)
    have hsh : ksl_split_head t.head ([] : List Bool) =
        (true, Blk.node [((splitBlkPair t.head).1.lastKeyD,
          (splitBlkPair t.head).1), ((splitBlkPair t.head).2.lastKeyD,
          (splitBlkPair t.head).2)], ([] : List Bool)) := rfl
    have hget : (b'.leafBlocks.getD lb []).get? i = some (key, data) := by
      have h2 := join_get?_rank b'.leafBlocks lb i
        (by simpa [Blk.leafCount] using hlb) hi
      rw [hrank, ← Blk.flat_eq_join_leafBlocks, hflat',
        List.get?_append_right (le_refl _)] at h2
      simp only [Nat.sub_self, List.get?_cons_zero] at h2
      exact h2.symm
    refine ⟨⟨b', t.n + 1⟩, ⟨b'.leafBlocks, lb, i⟩, A, B, ?_, ?_, ?_,
      hflat', hA, hB, rfl, rfl, ?_, ?_⟩
    · simp only [nghttp3_ksl_insert]
      rw [if_pos hfull]
      exact nghttp3_ksl_insert_go key data t.n hrun
    · refine ⟨?_, ?_⟩
      · have hh' : b'.height = t.head.height + 1 := wf_height hM1 _ hwf'
        show WfN lt MIN b'.height true b'
        rw [hh']
        exact hwf'
      · show t.n + 1 = b'.flat.length
        rw [hflat', List.length_append, List.length_cons]
        have h3 : t.head.flat.length = A.length + B.length := by
          rw [← hflatN, hflatAB, List.length_append]
        omega
    · rw [← hflatN]
      exact hflatAB
    · show nghttp3_ksl_it_key ⟨b'.leafBlocks, lb, i⟩ = some key
      rw [nghttp3_ksl_it_key]
      simp only [hget]
      rfl
    · show nghttp3_ksl_it_get ⟨b'.leafBlocks, lb, i⟩ = some data
      rw [nghttp3_ksl_it_get]
      simp only [hget]
      rfl
  · -- no split needed
    have hcnth : t.head.count < 2 * MIN :=
      lt_of_le_of_ne (wf_count_le hwfh) hfull
    obtain ⟨b', lb, i, A, B, hrun, hwf', hflatAB, hflat', hA, hB, hcnt',
      hlast', hlb, hi, hrank⟩ := insertB_ok ord hM1 key data
      t.head.height true t.head hwfh hcnth hnm
      (2 * t.head.height + 2) (by omega)
    have hget : (b'.leafBlocks.getD lb []).get? i = some (key, data) := by
      have h2 := join_get?_rank b'.leafBlocks lb i
        (by simpa [Blk.leafCount] using hlb) hi
      rw [hrank, ← Blk.flat_eq_join_leafBlocks, hflat',
        List.get?_append_right (le_refl _)] at h2
      simp only [Nat.sub_self, List.get?_cons_zero] at h2
      exact h2.symm
    refine ⟨⟨b', t.n + 1⟩, ⟨b'.leafBlocks, lb, i⟩, A, B, ?_, ?_, hflatAB,
      hflat', hA, hB, rfl, rfl, ?_, ?_⟩
    · simp only [nghttp3_ksl_insert]
      rw [if_neg hfull]
      exact nghttp3_ksl_insert_go key data t.n hrun
    · refine ⟨?_, ?_⟩
      · have hh' : b'.height = t.head.height := wf_height hM1 _ hwf'
        show WfN lt MIN b'.height true b'
        rw [hh']
        exact hwf'
      · show t.n + 1 = b'.flat.length
        rw [hflat', List.length_append, List.length_cons]
        have h3 : t.head.flat.length = A.length + B.length := by
          rw [hflatAB, List.length_append]
        omega
    · show nghttp3_ksl_it_key ⟨b'.leafBlocks, lb, i⟩ = some key
      rw [nghttp3_ksl_it_key]
      simp only [hget]
      rfl
    · show nghttp3_ksl_it_get ⟨b'.leafBlocks, lb, i⟩ = some data
      rw [nghttp3_ksl_it_get]
      simp only [hget]
      rfl



/-- On an allocation failure, the rightmost-spine append loop leaves the
stored entries of the subtree unchanged (separators along the visited spine
may already have been rewritten, but no entry is lost or added). -/
theorem insertMax_oom_flat (ord : LtOrder lt) (hMIN : 1 ≤ MIN)
    (key : K) (data : V) :
    ∀ (fuel : Nat) {h : Nat} {root : Bool} (b : Blk K V),
    WfN lt MIN h root b →
    ∀ {os : List Bool} {c : Blk K V} {os₂ : List Bool},
    insertMax lt MIN key data fuel b os = .oom c os₂ → c.flat = b.flat := by
  intro fuel
  induction fuel with
  | zero =>
    intro h root b hwf os c os₂ heq
    simp only [insertMax] at heq
    obtain ⟨rfl, rfl⟩ := InsRes.oom.inj heq
    rfl
  | succ f ih =>
    intro h root b hwf os c os₂ heq
    cases b with
    | leaf es =>
      simp only [insertMax] at heq
      simp at heq
    | node es =>
      cases h with
      | zero => exact absurd hwf (by simp)
      | succ h2 =>
        obtain ⟨hlo, hhi, hent, hp⟩ := WfN_node_iff.1 hwf
        have hlen1 : 1 ≤ es.length := by
          cases root with
          | true => simp at hlo; omega
          | false => simp at hlo; omega
        obtain ⟨lastE, hlastE⟩ : ∃ e, es.getLast? = some e := by
          cases hg : es.getLast? with
          | none =>
            rw [List.getLast?_eq_none_iff] at hg
            subst hg
            simp at hlen1
          | some e => exact ⟨e, rfl⟩
        have hgd : es.getLastD default = lastE := by
          rw [List.getLastD_eq_getLast?, hlastE]
          rfl
        have hsplitL : es.dropLast ++ [lastE] = es :=
          List.dropLast_append_getLast? lastE (by simp [hlastE])
        have hlastmem : lastE ∈ es := getLast?_mem_self hlastE
        obtain ⟨hwfL, hgeL, hneL, hdomL⟩ := hent lastE hlastmem
        have hflatb : (Blk.node es : Blk K V).flat =
            (Blk.node es.dropLast : Blk K V).flat ++ lastE.2.flat := by
          conv_lhs => rw [← hsplitL]
          rw [Blk.flat_node_append]
          congr 1
          obtain ⟨k0, c0⟩ := lastE
          simp
        simp only [insertMax, hgd] at heq
        by_cases hfull : lastE.2.count = 2 * MIN
        · rw [if_pos hfull] at heq
          rcases hta : takeAlloc os with ⟨flag, os₁⟩
          rw [hta] at heq
          cases flag with
          | false =>
            simp only [] at heq
            obtain ⟨rfl, rfl⟩ := InsRes.oom.inj heq
            rfl
          | true =>
            simp only [] at heq
            obtain ⟨hwf1, hwf2⟩ := splitBlkPair_wf hwfL hfull hMIN
            cases hr : insertMax lt MIN key data f
                (splitBlkPair lastE.2).2 os₁ with
            | ok c₁ lb₁ i₁ os₃ =>
              rw [hr] at heq
              simp at heq
            | oom c₁ os₃ =>
              rw [hr] at heq
              obtain ⟨rfl, rfl⟩ := InsRes.oom.inj heq
              have hc₁ : c₁.flat = (splitBlkPair lastE.2).2.flat :=
                ih _ hwf2 hr
              rw [hflatb, Blk.flat_node_append]
              congr 1
              rw [show (Blk.node
                [((splitBlkPair lastE.2).1.lastKeyD,
                  (splitBlkPair lastE.2).1), (key, c₁)] : Blk K V).flat =
                (splitBlkPair lastE.2).1.flat ++ c₁.flat from by simp]
              rw [hc₁, splitBlkPair_flat]
        · rw [if_neg hfull] at heq
          cases hr : insertMax lt MIN key data f lastE.2 os with
          | ok c₁ lb₁ i₁ os₃ =>
            rw [hr] at heq
            simp at heq
          | oom c₁ os₃ =>
            rw [hr] at heq
            obtain ⟨rfl, rfl⟩ := InsRes.oom.inj heq
            have hc₁ : c₁.flat = lastE.2.flat := ih _ hwfL hr
            rw [hflatb, Blk.flat_node_append]
            congr 1
            rw [show (Blk.node [(key, c₁)] : Blk K V).flat = c₁.flat from
              by simp]
            exact hc₁

/-- On an allocation failure, the insertion loop leaves the stored entries
of the subtree unchanged. -/
theorem insertB_oom_flat (ord : LtOrder lt) (hMIN : 1 ≤ MIN)
    (key : K) (data : V) :
    ∀ (fuel : Nat) {h : Nat} {root : Bool} (b : Blk K V),
    WfN lt MIN h root b →
    ∀ {os : List Bool} {c : Blk K V} {os₂ : List Bool},
    insertB lt MIN key data fuel b os = .oom c os₂ → c.flat = b.flat := by
  intro fuel
  induction fuel with
  | zero =>
    intro h root b hwf os c os₂ heq
    simp only [insertB] at heq
    obtain ⟨rfl, rfl⟩ := InsRes.oom.inj heq
    rfl
  | succ f ih =>
    intro h root b hwf os c os₂ heq
    cases b with
    | leaf es =>
      simp only [insertB] at heq
      simp at heq
    | node es =>
      cases h with
      | zero => exact absurd hwf (by simp)
      | succ h2 =>
        obtain ⟨hlo, hhi, hent, hp⟩ := WfN_node_iff.1 hwf
        have hsortedsep : List.Pairwise (fun a b => lt a b = true)
            (es.map Prod.fst) :=
          List.pairwise_map.2 (hp.imp fun hx => hx.1)
        have hspec := ksl_bsearch_spec (es.map Prod.fst) key
          (bsMono_of_sorted ord key hsortedsep)
        simp only [insertB] at heq
        obtain ⟨i, hI⟩ : ∃ j, ksl_bsearch lt (es.map Prod.fst) key = j :=
          ⟨_, rfl⟩
        rw [hI] at heq hspec
        have hilen : i ≤ es.length := by
          have h3 := hspec.1
          rwa [List.length_map] at h3
        by_cases hmax : i = es.length
        · rw [if_pos hmax] at heq
          exact insertMax_oom_flat ord hMIN key data f _ hwf heq
        · rw [if_neg hmax] at heq
          have hilt : i < es.length := lt_of_le_of_ne hilen hmax
          have h1 : es.get? i = some (es.getD i default) := by
            rcases hg : es.get? i with _ | e
            · rw [List.get?_eq_none] at hg
              omega
            · rw [List.getD_eq_getD_get?, hg]
              rfl
          have hmemc : es.getD i default ∈ es := List.get?_mem h1
          obtain ⟨hwfc, hgec, hnec, hdomc⟩ := hent _ hmemc
          have hlT : (es.take i).length = i := by
            rw [List.length_take]
            omega
          by_cases hfull : (es.getD i default).2.count = 2 * MIN
          · rw [if_pos hfull] at heq
            rcases hta : takeAlloc os with ⟨flag, os₁⟩
            rw [hta] at heq
            cases flag with
            | false =>
              simp only [] at heq
              obtain ⟨rfl, rfl⟩ := InsRes.oom.inj heq
              rfl
            | true =>
              simp only [] at heq
              obtain ⟨hwf1, hwf2⟩ := splitBlkPair_wf hwfc hfull hMIN
              have hLraw : splitNodeEs es i = es.take i ++
                  [((splitBlkPair (es.getD i default).2).1.lastKeyD,
                    (splitBlkPair (es.getD i default).2).1),
                   ((splitBlkPair (es.getD i default).2).2.lastKeyD,
                    (splitBlkPair (es.getD i default).2).2)] ++
                  es.drop (i + 1) := rfl
              have hLlen : (splitNodeEs es i).length = es.length + 1 := by
                rw [hLraw, length_append2, hlT, List.length_drop]
                omega
              have hg1 : (splitNodeEs es i).getD i default =
                  ((splitBlkPair (es.getD i default).2).1.lastKeyD,
                   (splitBlkPair (es.getD i default).2).1) := by
                have h2 := getD_append2_fst (es.take i) (es.drop (i + 1))
                  ((splitBlkPair (es.getD i default).2).1.lastKeyD,
                   (splitBlkPair (es.getD i default).2).1)
                  ((splitBlkPair (es.getD i default).2).2.lastKeyD,
                   (splitBlkPair (es.getD i default).2).2) default
                rw [hlT] at h2
                rw [hLraw]
                exact h2
              have hg2 : (splitNodeEs es i).getD (i + 1) default =
                  ((splitBlkPair (es.getD i default).2).2.lastKeyD,
                   (splitBlkPair (es.getD i default).2).2) := by
                have h2 := getD_append2_snd (es.take i) (es.drop (i + 1))
                  ((splitBlkPair (es.getD i default).2).1.lastKeyD,
                   (splitBlkPair (es.getD i default).2).1)
                  ((splitBlkPair (es.getD i default).2).2.lastKeyD,
                   (splitBlkPair (es.getD i default).2).2) default
                rw [hlT] at h2
                rw [hLraw]
                exact h2
              have hg1snd : ((splitNodeEs es i).getD i default).2 =
                  (splitBlkPair (es.getD i default).2).1 := by
                rw [hg1]
              have hg2snd : ((splitNodeEs es i).getD (i + 1) default).2 =
                  (splitBlkPair (es.getD i default).2).2 := by
                rw [hg2]
              have hLflat : (Blk.node (splitNodeEs es i) : Blk K V).flat =
                  (Blk.node es : Blk K V).flat := splitNodeEs_flat hilt
              by_cases hc1 :
                  lt ((splitNodeEs es i).getD i default).1 key = true
              · rw [if_pos hc1] at heq
                by_cases hc2 :
                    lt ((splitNodeEs es i).getD (i + 1) default).1 key = true
                · rw [if_pos hc2] at heq
                  have hsetEq : (splitNodeEs es i).set (i + 1)
                      (key, ((splitNodeEs es i).getD (i + 1) default).2) =
                      es.take i ++
                      [((splitBlkPair (es.getD i default).2).1.lastKeyD,
                        (splitBlkPair (es.getD i default).2).1),
                       (key, (splitBlkPair (es.getD i default).2).2)] ++
                      es.drop (i + 1) := by
                    rw [hg2snd, hLraw]
                    have h3 := set_append2_snd (es.take i) (es.drop (i + 1))
                      ((splitBlkPair (es.getD i default).2).1.lastKeyD,
                       (splitBlkPair (es.getD i default).2).1)
                      ((splitBlkPair (es.getD i default).2).2.lastKeyD,
                       (splitBlkPair (es.getD i default).2).2)
                      (key, (splitBlkPair (es.getD i default).2).2)
                    rwa [hlT] at h3
                  have hg3 : ((splitNodeEs es i).set (i + 1)
                      (key, ((splitNodeEs es i).getD (i + 1)
                        default).2)).getD (i + 1) default =
                      (key, (splitBlkPair (es.getD i default).2).2) := by
                    rw [hsetEq]
                    have h2 := getD_append2_snd (es.take i)
                      (es.drop (i + 1))
                      ((splitBlkPair (es.getD i default).2).1.lastKeyD,
                       (splitBlkPair (es.getD i default).2).1)
                      (key, (splitBlkPair (es.getD i default).2).2) default
                    rwa [hlT] at h2
                  have hg3snd : (((splitNodeEs es i).set (i + 1)
                      (key, ((splitNodeEs es i).getD (i + 1)
                        default).2)).getD (i + 1) default).2 =
                      (splitBlkPair (es.getD i default).2).2 := by
                    rw [hg3]
                  cases hr : insertB lt MIN key data f
                      (((splitNodeEs es i).set (i + 1)
                        (key, ((splitNodeEs es i).getD (i + 1)
                          default).2)).getD (i + 1) default).2 os₁ with
                  | ok c₁ lb₁ i₁ os₃ =>
                    rw [hr] at heq
                    simp [insDescend] at heq
                  | oom c₁ os₃ =>
                    rw [hr] at heq
                    simp only [insDescend] at heq
                    obtain ⟨rfl, rfl⟩ := InsRes.oom.inj heq
                    rw [hg3snd] at hr
                    have hc₁ : c₁.flat =
                        (splitBlkPair (es.getD i default).2).2.flat :=
                      ih _ hwf2 hr
                    have hlen2 : i + 1 < ((splitNodeEs es i).set (i + 1)
                        (key, ((splitNodeEs es i).getD (i + 1)
                          default).2)).length := by
                      rw [List.length_set, hLlen]
                      omega
                    have hceq : c₁.flat = (((splitNodeEs es i).set (i + 1)
                        (key, ((splitNodeEs es i).getD (i + 1)
                          default).2)).getD (i + 1) default).2.flat := by
                      rw [hg3snd]
                      exact hc₁
                    have hlen3 : i + 1 < (splitNodeEs es i).length := by
                      rw [hLlen]
                      omega
                    rw [flat_set_child hlen2 _ hceq]
                    rw [flat_set_child hlen3 _ rfl]
                    exact hLflat
                · rw [if_neg hc2] at heq
                  cases hr : insertB lt MIN key data f
                      ((splitNodeEs es i).getD (i + 1) default).2 os₁ with
                  | ok c₁ lb₁ i₁ os₃ =>
                    rw [hr] at heq
                    simp [insDescend] at heq
                  | oom c₁ os₃ =>
                    rw [hr] at heq
                    simp only [insDescend] at heq
                    obtain ⟨rfl, rfl⟩ := InsRes.oom.inj heq
                    rw [hg2snd] at hr
                    have hc₁ : c₁.flat =
                        (splitBlkPair (es.getD i default).2).2.flat :=
                      ih _ hwf2 hr
                    have hlen3 : i + 1 < (splitNodeEs es i).length := by
                      rw [hLlen]
                      omega
                    have hceq : c₁.flat =
                        ((splitNodeEs es i).getD (i + 1) default).2.flat := by
                      rw [hg2snd]
                      exact hc₁
                    rw [flat_set_child hlen3 _ hceq]
                    exact hLflat
              · rw [if_neg hc1] at heq
                cases hr : insertB lt MIN key data f
                    ((splitNodeEs es i).getD i default).2 os₁ with
                | ok c₁ lb₁ i₁ os₃ =>
                  rw [hr] at heq
                  simp [insDescend] at heq
                | oom c₁ os₃ =>
                  rw [hr] at heq
                  simp only [insDescend] at heq
                  obtain ⟨rfl, rfl⟩ := InsRes.oom.inj heq
                  rw [hg1snd] at hr
                  have hc₁ : c₁.flat =
                      (splitBlkPair (es.getD i default).2).1.flat :=
                    ih _ hwf1 hr
                  have hlen3 : i < (splitNodeEs es i).length := by
                    rw [hLlen]
                    omega
                  have hceq : c₁.flat =
                      ((splitNodeEs es i).getD i default).2.flat := by
                    rw [hg1snd]
                    exact hc₁
                  rw [flat_set_child hlen3 _ hceq]
                  exact hLflat
          · rw [if_neg hfull] at heq
            cases hr : insertB lt MIN key data f
                (es.getD i default).2 os with
            | ok c₁ lb₁ i₁ os₃ =>
              rw [hr] at heq
              simp [insDescend] at heq
            | oom c₁ os₃ =>
              rw [hr] at heq
              simp only [insDescend] at heq
              obtain ⟨rfl, rfl⟩ := InsRes.oom.inj heq
              have hc₁ : c₁.flat = (es.getD i default).2.flat :=
                ih _ hwfc hr
              exact flat_set_child hilt _ hc₁


end InsertProof

/-! ## Correctness of the removal descent -/

section RemoveProof

variable {K V : Type} [Inhabited K] [Inhabited V] {lt : K → K → Bool}
  {MIN : Nat}

/-- A well-formed block stores at least as many entries as it has
countable slots. -/
theorem wf_count_le_flat (hMIN : 1 ≤ MIN) :
    ∀ (h : Nat) {root : Bool} {b : Blk K V}, WfN lt MIN h root b →
    b.count ≤ b.flat.length := by
  intro h
  induction h with
  | zero =>
    intro root b hwf
    cases b with
    | leaf es => simp
    | node es => exact absurd hwf (by simp)
  | succ h ih =>
    intro root b hwf
    cases b with
    | leaf es => exact absurd hwf (by simp)
    | node es =>
      obtain ⟨hlo, hhi, hent, hp⟩ := WfN_node_iff.1 hwf
      rw [Blk.count_node]
      clear hwf hlo hhi
      induction es with
      | nil => simp
      | cons e rest ihr =>
        rw [Blk.flat_node_cons, List.length_append, List.length_cons]
        have h1 : 1 ≤ e.2.flat.length := by
          have h2 := (hent e (List.mem_cons_self _ _)).2.2.1
          rw [Blk.fkeys] at h2
          rcases hfe : e.2.flat with _ | _
          · rw [hfe] at h2
            simp at h2
          · simp [hfe]
        have h3 : rest.length ≤ (Blk.node rest : Blk K V).flat.length := by
          refine ihr ?_ ?_
          · intro e2 he2
            exact hent e2 (List.mem_cons_of_mem _ he2)
          · exact (List.pairwise_cons.1 hp).2
        omega

/-- When the key is present, `ksl_bsearch` lands exactly on it. -/
theorem ksl_bsearch_finds (ord : LtOrder lt) {ks : List K} {key : K}
    (hs : List.Pairwise (fun a b => lt a b = true) ks) (hmem : key ∈ ks) :
    ksl_bsearch lt ks key < ks.length ∧
    ks.get? (ksl_bsearch lt ks key) = some key := by
  have hspec := ksl_bsearch_spec ks key (bsMono_of_sorted ord key hs)
  obtain ⟨j, hj⟩ := List.mem_iff_get?.1 hmem
  have hjlen : j < ks.length := (List.get?_eq_some.1 hj).1
  have hge : ¬ j < ksl_bsearch lt ks key := by
    intro hlt
    have h2 := hspec.2.1 j key hlt hj
    rw [ord.irrefl] at h2
    cases h2
  have hile : ksl_bsearch lt ks key ≤ j := by omega
  have hilt : ksl_bsearch lt ks key < ks.length := lt_of_le_of_lt hile hjlen
  refine ⟨hilt, ?_⟩
  obtain ⟨ki, hki⟩ : ∃ k, ks.get? (ksl_bsearch lt ks key) = some k := by
    rcases hk : ks.get? (ksl_bsearch lt ks key) with _ | k
    · rw [List.get?_eq_none] at hk
      omega
    · exact ⟨k, rfl⟩
  have h1 : lt ki key = false := hspec.2.2 ki hki
  have h2 : lt key ki = false := by
    rcases Nat.eq_or_lt_of_le hile with heq | hlt2
    · rw [heq, hj] at hki
      obtain rfl := (Option.some.inj hki).symm
      exact ord.irrefl _
    · obtain ⟨hi2, hgi⟩ := List.get?_eq_some.1 hki
      obtain ⟨hj2, hgj⟩ := List.get?_eq_some.1 hj
      have hp := List.pairwise_iff_get.1 hs ⟨_, hi2⟩ ⟨j, hj2⟩ hlt2
      rw [hgi, hgj] at hp
      exact ord.asymm hp
  have h3 := ord.conn ki key h1 h2
  rw [hki, h3]

/-- At an internal block holding the key somewhere below, `ksl_bsearch` on
the separators selects exactly the child whose subtree holds the key. -/
theorem node_child_of_bsearch (ord : LtOrder lt) {h : Nat} {root : Bool}
    {es : List (K × Blk K V)}
    (hwf : WfN lt MIN (h + 1) root (Blk.node es)) {key : K}
    (hmem : key ∈ (Blk.node es : Blk K V).fkeys) :
    ksl_bsearch lt (es.map Prod.fst) key < es.length ∧
    key ∈ (es.getD (ksl_bsearch lt (es.map Prod.fst) key)
      default).2.fkeys := by
  obtain ⟨hlo, hhi, hent, hp⟩ := WfN_node_iff.1 hwf
  have hsortedsep : List.Pairwise (fun a b => lt a b = true)
      (es.map Prod.fst) :=
    List.pairwise_map.2 (hp.imp fun hx => hx.1)
  have hspec := ksl_bsearch_spec (es.map Prod.fst) key
    (bsMono_of_sorted ord key hsortedsep)
  rw [Blk.fkeys_node_join] at hmem
  obtain ⟨l, hl, hkl⟩ := List.mem_join.1 hmem
  obtain ⟨e, he, rfl⟩ := List.mem_map.1 hl
  obtain ⟨j, hj⟩ := List.mem_iff_get?.1 he
  have hjlen : j < es.length := (List.get?_eq_some.1 hj).1
  have hjsep : lt e.1 key = false := (hent e he).2.1 key hkl
  have hile : ksl_bsearch lt (es.map Prod.fst) key ≤ j := by
    by_contra hgt
    have h2 := hspec.2.1 j e.1 (by omega) (by rw [List.get?_map, hj]; rfl)
    rw [h2] at hjsep
    cases hjsep
  have hilt : ksl_bsearch lt (es.map Prod.fst) key < es.length :=
    lt_of_le_of_lt hile hjlen
  refine ⟨hilt, ?_⟩
  have hgi : es.get? (ksl_bsearch lt (es.map Prod.fst) key) =
      some (es.getD (ksl_bsearch lt (es.map Prod.fst) key) default) := by
    rcases hg : es.get? (ksl_bsearch lt (es.map Prod.fst) key) with _ | e2
    · rw [List.get?_eq_none] at hg
      omega
    · rw [List.getD_eq_getD_get?, hg]
      rfl
  rcases Nat.eq_or_lt_of_le hile with heq | hlt2
  · rw [heq]
    rw [heq, hj] at hgi
    obtain rfl := Option.some.inj hgi
    exact hkl
  · exfalso
    obtain ⟨hi2, hgi2⟩ := List.get?_eq_some.1 hgi
    obtain ⟨hj2, hgj2⟩ := List.get?_eq_some.1 hj
    have hp2 := List.pairwise_iff_get.1 hp ⟨_, hi2⟩ ⟨j, hj2⟩ hlt2
    rw [hgi2, hgj2] at hp2
    have h4 := hp2.2 key hkl
    have h5 : lt (es.getD (ksl_bsearch lt (es.map Prod.fst) key)
        default).1 key = false := by
      refine hspec.2.2 _ ?_
      rw [List.get?_map, hgi]
      rfl
    rw [h5] at h4
    cases h4


/-- Rebuilding the parent after a removal descent into child `idx`: the
separator is kept, the child replaced, flats compose, well-formedness is
preserved and the cursor address composes. -/
theorem remDescend_ok (ord : LtOrder lt) {key : K}
    {h : Nat} {root : Bool} {es : List (K × Blk K V)} {idx : Nat}
    (hwf : WfN lt MIN (h + 1) root (Blk.node es))
    (hidx : idx < es.length)
    {c' : Blk K V} {lb₂ i₂ : Nat} {d : V} {A₂ B₂ : List (K × V)}
    (hwfc' : WfN lt MIN h false c')
    (hflat : (es.getD idx default).2.flat = A₂ ++ (key, d) :: B₂)
    (hflat' : c'.flat = A₂ ++ B₂)
    (hne' : c'.fkeys ≠ [])
    (hlb₂ : lb₂ < c'.leafCount)
    (hi₂ : i₂ ≤ (c'.leafBlocks.getD lb₂ []).length)
    (hrank₂ : lbRank c'.leafBlocks lb₂ i₂ = A₂.length)
    (hlast' : ∀ s ∈ c'.keyList.getLast?,
      ∃ s₀, (es.getD idx default).2.keyList.getLast? = some s₀ ∧
        lt s₀ s = false) :
    WfN lt MIN (h + 1) root
      (Blk.node (es.set idx ((es.getD idx default).1, c'))) ∧
    (Blk.node es : Blk K V).flat =
      ((Blk.node (es.take idx) : Blk K V).flat ++ A₂) ++ (key, d) ::
        (B₂ ++ (Blk.node (es.drop (idx + 1)) : Blk K V).flat) ∧
    (Blk.node (es.set idx ((es.getD idx default).1, c')) : Blk K V).flat =
      ((Blk.node (es.take idx) : Blk K V).flat ++ A₂) ++
        (B₂ ++ (Blk.node (es.drop (idx + 1)) : Blk K V).flat) ∧
    (∀ s ∈ (Blk.node (es.set idx ((es.getD idx default).1, c'))
        : Blk K V).keyList.getLast?,
      ∃ s₀, (Blk.node es : Blk K V).keyList.getLast? = some s₀ ∧
        lt s₀ s = false) ∧
    ((es.take idx).map fun e => e.2.leafCount).sum + lb₂ <
      (Blk.node (es.set idx ((es.getD idx default).1, c'))
        : Blk K V).leafCount ∧
    i₂ ≤ ((Blk.node (es.set idx ((es.getD idx default).1, c'))
      : Blk K V).leafBlocks.getD
        (((es.take idx).map fun e => e.2.leafCount).sum + lb₂) []).length ∧
    lbRank (Blk.node (es.set idx ((es.getD idx default).1, c'))
        : Blk K V).leafBlocks
      (((es.take idx).map fun e => e.2.leafCount).sum + lb₂) i₂ =
      ((Blk.node (es.take idx) : Blk K V).flat ++ A₂).length := by
  obtain ⟨hlo, hhi, hent, hp⟩ := WfN_node_iff.1 hwf
  have h1 : es.get? idx = some (es.getD idx default) := by
    rcases hg : es.get? idx with _ | e
    · rw [List.get?_eq_none] at hg
      omega
    · rw [List.getD_eq_getD_get?, hg]
      rfl
  have hmem₀ : es.getD idx default ∈ es := List.get?_mem h1
  have hdz : es.drop idx = (es.getD idx default) :: es.drop (idx + 1) :=
    drop_eq_cons_of_get? h1
  have hdecomp : es = es.take idx ++ (es.getD idx default) ::
      es.drop (idx + 1) := by
    conv_lhs => rw [← List.take_append_drop idx es, hdz]
  have hset : es.set idx ((es.getD idx default).1, c') =
      es.take idx ++ ((es.getD idx default).1, c') :: es.drop (idx + 1) :=
    List.set_eq_take_cons_drop ((es.getD idx default).1, c') hidx
  have hsingle : ∀ (e : K × Blk K V),
      (Blk.node [e] : Blk K V).flat = e.2.flat := by
    intro e
    obtain ⟨k, c⟩ := e
    simp
  have hflatA : (Blk.node es : Blk K V).flat =
      (Blk.node (es.take idx) : Blk K V).flat ++
      ((es.getD idx default).2.flat ++
        (Blk.node (es.drop (idx + 1)) : Blk K V).flat) := by
    conv_lhs => rw [hdecomp]
    rw [show es.take idx ++ (es.getD idx default) :: es.drop (idx + 1) =
      es.take idx ++ ([(es.getD idx default)] ++ es.drop (idx + 1)) from
      by simp, Blk.flat_node_append, Blk.flat_node_append, hsingle]
  have hflatS : (Blk.node (es.set idx ((es.getD idx default).1, c'))
      : Blk K V).flat =
      (Blk.node (es.take idx) : Blk K V).flat ++
      (c'.flat ++ (Blk.node (es.drop (idx + 1)) : Blk K V).flat) := by
    rw [hset]
    rw [show es.take idx ++ ((es.getD idx default).1, c') ::
      es.drop (idx + 1) = es.take idx ++
      ([((es.getD idx default).1, c')] ++ es.drop (idx + 1)) from by simp,
      Blk.flat_node_append, Blk.flat_node_append, hsingle]
  have hlbS : (Blk.node (es.set idx ((es.getD idx default).1, c'))
      : Blk K V).leafBlocks =
      (Blk.node (es.take idx) : Blk K V).leafBlocks ++
      (c'.leafBlocks ++
        (Blk.node (es.drop (idx + 1)) : Blk K V).leafBlocks) := by
    rw [hset]
    rw [show es.take idx ++ ((es.getD idx default).1, c') ::
      es.drop (idx + 1) = es.take idx ++
      ([((es.getD idx default).1, c')] ++ es.drop (idx + 1)) from by simp,
      Blk.leafBlocks_node_append, Blk.leafBlocks_node_append]
    simp
  have hsum : ((es.take idx).map fun e => e.2.leafCount).sum =
      (Blk.node (es.take idx) : Blk K V).leafBlocks.length := by
    rw [show (Blk.node (es.take idx) : Blk K V).leafBlocks.length =
      (Blk.node (es.take idx) : Blk K V).leafCount from rfl,
      Blk.leafCount_node]
  have hsubkeys : ∀ x ∈ c'.fkeys, x ∈ (es.getD idx default).2.fkeys := by
    intro x hx
    rw [Blk.fkeys, hflat', List.map_append] at hx
    rw [Blk.fkeys, hflat, List.map_append, List.map_cons]
    rcases List.mem_append.1 hx with hx2 | hx2
    · exact List.mem_append_left _ hx2
    · exact List.mem_append_right _ (List.mem_cons_of_mem _ hx2)
  refine ⟨?_, ?_, ?_, ?_, ?_, ?_, ?_⟩
  · rw [WfN_node_iff]
    refine ⟨by simpa [List.length_set] using hlo,
      by simpa [List.length_set] using hhi, ?_, ?_⟩
    · intro e he
      rw [hset] at he
      rcases List.mem_append.1 he with heT | heC
      · refine hent e ?_
        rw [hdecomp]
        exact List.mem_append_left _ heT
      · rcases List.mem_cons.1 heC with rfl | heD
        · obtain ⟨hwf₀, hge₀, hne₀, hdom₀⟩ := hent _ hmem₀
          refine ⟨hwfc', ?_, hne', ?_⟩
          · show ∀ x ∈ c'.fkeys, lt (es.getD idx default).1 x = false
            intro x hx
            exact hge₀ x (hsubkeys x hx)
          · show ∀ s ∈ c'.keyList.getLast?,
              lt (es.getD idx default).1 s = false
            intro s hs
            obtain ⟨s₀, hs₀, hss⟩ := hlast' s hs
            exact ord.leLe hss (hdom₀ s₀ hs₀)
        · refine hent e ?_
          rw [hdecomp]
          exact List.mem_append_right _ (List.mem_cons_of_mem _ heD)
    · rw [hset]
      have hp2 := hp
      rw [hdecomp, List.pairwise_append, List.pairwise_cons] at hp2
      obtain ⟨hpT, ⟨hrel₀, hpD⟩, hcross⟩ := hp2
      rw [List.pairwise_append, List.pairwise_cons]
      refine ⟨hpT, ⟨?_, hpD⟩, ?_⟩
      · intro b hb
        exact hrel₀ b hb
      · intro a ha b hb
        rcases List.mem_cons.1 hb with rfl | hbD
        · have hold := hcross a ha _ (List.mem_cons_self _ _)
          refine ⟨hold.1, ?_⟩
          show ∀ x ∈ c'.fkeys, lt a.1 x = true
          intro x hx
          exact hold.2 x (hsubkeys x hx)
        · exact hcross a ha b (List.mem_cons_of_mem _ hbD)
  · rw [hflatA, hflat]
    simp [List.append_assoc]
  · rw [hflatS, hflat']
    simp [List.append_assoc]
  · intro s hs
    have hkl : (Blk.node (es.set idx ((es.getD idx default).1, c'))
        : Blk K V).keyList = (Blk.node es : Blk K V).keyList := by
      rw [Blk.keyList_node, Blk.keyList_node]
      conv_rhs => rw [hdecomp]
      rw [hset]
      simp
    rw [hkl, Option.mem_def] at hs
    exact ⟨s, hs, ord.irrefl s⟩
  · rw [show (Blk.node (es.set idx ((es.getD idx default).1, c'))
      : Blk K V).leafCount = (Blk.node (es.set idx
      ((es.getD idx default).1, c')) : Blk K V).leafBlocks.length from rfl,
      hlbS, hsum]
    simp only [Blk.leafCount] at hlb₂
    simp only [List.length_append]
    omega
  · rw [hlbS, hsum, getD_append_offset]
    rw [getD_append_left]
    · exact hi₂
    · simpa [Blk.leafCount] using hlb₂
  · rw [hlbS, hsum, lbRank_append, lbRank_append_left]
    · rw [hrank₂, List.length_append]
      have hfl : (Blk.node (es.take idx) : Blk K V).flat.length =
          ((Blk.node (es.take idx) : Blk K V).leafBlocks.map
            List.length).sum := Blk.length_flat_eq_sum _
      omega
    · simp only [Blk.leafCount] at hlb₂
      omega



/-- Dropping an entry just before the final segment does not change the last
separator of a block. -/
theorem node_keyList_last_pad {T D : List (K × Blk K V)}
    (e₀ a : K × Blk K V) :
    (Blk.node (T ++ a :: e₀ :: D) : Blk K V).keyList.getLast? =
    (Blk.node (T ++ e₀ :: D) : Blk K V).keyList.getLast? := by
  rw [Blk.keyList_node, Blk.keyList_node]
  rw [show List.map Prod.fst (T ++ a :: e₀ :: D) =
    (List.map Prod.fst T ++ [a.1]) ++ e₀.1 :: List.map Prod.fst D from
    by simp]
  rw [show List.map Prod.fst (T ++ e₀ :: D) =
    List.map Prod.fst T ++ e₀.1 :: List.map Prod.fst D from by simp]
  rw [List.getLast?_append_cons, List.getLast?_append_cons]

/-- Replacing two adjacent children (and their separators) by a redistributed
pair holding the same stored entries, with separators dominated by the old
right separator, preserves well-formedness, the stored entries, and the
bound on the last separator.  This covers both `ksl_shift_left` and
`ksl_shift_right`. -/
theorem pair_replace_wf (ord : LtOrder lt) {h : Nat} {root : Bool}
    {es : List (K × Blk K V)} {j : Nat}
    (hwf : WfN lt MIN (h + 1) root (Blk.node es))
    (hj : j + 1 < es.length)
    {k1 k2 : K} {c1 c2 : Blk K V}
    (hwf1 : WfN lt MIN h false c1) (hwf2 : WfN lt MIN h false c2)
    (hflat : c1.flat ++ c2.flat =
      (es.getD j default).2.flat ++ (es.getD (j + 1) default).2.flat)
    (hne1 : c1.fkeys ≠ []) (hne2 : c2.fkeys ≠ [])
    (hk1ge : ∀ x ∈ c1.fkeys, lt k1 x = false)
    (hk1last : ∀ s ∈ c1.keyList.getLast?, lt k1 s = false)
    (hk1lt2 : ∀ x ∈ c2.fkeys, lt k1 x = true)
    (hk2ge : ∀ x ∈ c2.fkeys, lt k2 x = false)
    (hk2last : ∀ s ∈ c2.keyList.getLast?, lt k2 s = false)
    (hk1le : lt (es.getD (j + 1) default).1 k1 = false)
    (hk2le : lt (es.getD (j + 1) default).1 k2 = false)
    (hk1k2 : lt k1 k2 = true) :
    WfN lt MIN (h + 1) root
      (Blk.node ((es.set j (k1, c1)).set (j + 1) (k2, c2))) ∧
    (Blk.node ((es.set j (k1, c1)).set (j + 1) (k2, c2)) : Blk K V).flat =
      (Blk.node es : Blk K V).flat ∧
    (∀ s ∈ (Blk.node ((es.set j (k1, c1)).set (j + 1) (k2, c2))
        : Blk K V).keyList.getLast?,
      ∃ s₀, (Blk.node es : Blk K V).keyList.getLast? = some s₀ ∧
        lt s₀ s = false) ∧
    ((es.set j (k1, c1)).set (j + 1) (k2, c2)).length = es.length ∧
    ((es.set j (k1, c1)).set (j + 1) (k2, c2)).getD j default = (k1, c1) ∧
    ((es.set j (k1, c1)).set (j + 1) (k2, c2)).getD (j + 1) default =
      (k2, c2) := by
  obtain ⟨hlo, hhi, hent, hp⟩ := WfN_node_iff.1 hwf
  have h1 : es.get? j = some (es.getD j default) := by
    rcases hg : es.get? j with _ | e
    · rw [List.get?_eq_none] at hg
      omega
    · rw [List.getD_eq_getD_get?, hg]
      rfl
  have h2 : es.get? (j + 1) = some (es.getD (j + 1) default) := by
    rcases hg : es.get? (j + 1) with _ | e
    · rw [List.get?_eq_none] at hg
      omega
    · rw [List.getD_eq_getD_get?, hg]
      rfl
  have hdz1 : es.drop j = (es.getD j default) :: es.drop (j + 1) :=
    drop_eq_cons_of_get? h1
  have hdz2 : es.drop (j + 1) = (es.getD (j + 1) default) ::
      es.drop (j + 2) := drop_eq_cons_of_get? h2
  have hdecomp : es = es.take j ++
      [(es.getD j default), (es.getD (j + 1) default)] ++
      es.drop (j + 2) := by
    conv_lhs => rw [← List.take_append_drop j es, hdz1, hdz2]
    simp
  have hlT : (es.take j).length = j := by
    rw [List.length_take]
    omega
  have hnew : (es.set j (k1, c1)).set (j + 1) (k2, c2) =
      es.take j ++ [(k1, c1), (k2, c2)] ++ es.drop (j + 2) := by
    conv_lhs => rw [hdecomp]
    have hs1 := set_append2_fst (es.take j) (es.drop (j + 2))
      (es.getD j default) (es.getD (j + 1) default) (k1, c1)
    rw [hlT] at hs1
    rw [hs1]
    have hs2 := set_append2_snd (es.take j) (es.drop (j + 2))
      (k1, c1) (es.getD (j + 1) default) (k2, c2)
    rw [hlT] at hs2
    rw [show j + 1 = (es.take j).length + 1 from by rw [hlT]] at hs2 ⊢
    rw [hs2]
  have hmem₁ : es.getD j default ∈ es := List.get?_mem h1
  have hmem₂ : es.getD (j + 1) default ∈ es := List.get?_mem h2
  obtain ⟨hwfl, hgel, hnel, hdoml⟩ := hent _ hmem₁
  obtain ⟨hwfr, hger, hner, hdomr⟩ := hent _ hmem₂
  have hfkun : c1.fkeys ++ c2.fkeys =
      (es.getD j default).2.fkeys ++ (es.getD (j + 1) default).2.fkeys := by
    rw [Blk.fkeys, Blk.fkeys, Blk.fkeys, Blk.fkeys, ← List.map_append,
      ← List.map_append, hflat]
  have hsubun : ∀ x, (x ∈ c1.fkeys ∨ x ∈ c2.fkeys) →
      x ∈ (es.getD j default).2.fkeys ∨
      x ∈ (es.getD (j + 1) default).2.fkeys := by
    intro x hx
    have hx2 : x ∈ c1.fkeys ++ c2.fkeys := by
      rcases hx with hx | hx
      · exact List.mem_append_left _ hx
      · exact List.mem_append_right _ hx
    rw [hfkun] at hx2
    exact List.mem_append.1 hx2
  have hp2 := hp
  rw [hdecomp, List.append_assoc, List.cons_append, List.cons_append,
    List.nil_append, List.pairwise_append, List.pairwise_cons,
    List.pairwise_cons] at hp2
  obtain ⟨hpT, ⟨hrel₁, hrel₂, hpD⟩, hcross⟩ := hp2
  refine ⟨?_, ?_, ?_, ?_, ?_, ?_⟩
  · rw [WfN_node_iff, hnew]
    have hlen : (es.take j ++ [(k1, c1), (k2, c2)] ++
        es.drop (j + 2)).length = es.length := by
      rw [length_append2, hlT, List.length_drop]
      omega
    refine ⟨by rw [hlen]; exact hlo, by rw [hlen]; exact hhi, ?_, ?_⟩
    · intro e he
      rcases List.mem_append.1 he with heTM | heD
      · rcases List.mem_append.1 heTM with heT | heM
        · refine hent e ?_
          rw [hdecomp]
          exact List.mem_append_left _ (List.mem_append_left _ heT)
        · rcases List.mem_cons.1 heM with rfl | heM2
          · exact ⟨hwf1, hk1ge, hne1, hk1last⟩
          · rcases List.mem_singleton.1 heM2 with rfl
            exact ⟨hwf2, hk2ge, hne2, hk2last⟩
      · refine hent e ?_
        rw [hdecomp]
        exact List.mem_append_right _ heD
    · rw [List.append_assoc, List.cons_append, List.cons_append,
        List.nil_append, List.pairwise_append, List.pairwise_cons,
        List.pairwise_cons]
      refine ⟨hpT, ⟨?_, ?_, hpD⟩, ?_⟩
      · intro b hb
        rcases List.mem_cons.1 hb with rfl | hbD
        · exact ⟨hk1k2, hk1lt2⟩
        · have hold := hrel₂ b hbD
          refine ⟨ord.leLt hk1le hold.1, ?_⟩
          intro x hx
          exact ord.leLt hk1le (hold.2 x hx)
      · intro b hb
        have hold := hrel₂ b hb
        refine ⟨ord.leLt hk2le hold.1, ?_⟩
        intro x hx
        exact ord.leLt hk2le (hold.2 x hx)
      · intro a ha b hb
        have hcra := hcross a ha
        have hcr₁ := hcra _ (List.mem_cons_self _ _)
        have hcr₂ := hcra _ (List.mem_cons_of_mem _ (List.mem_cons_self _ _))
        rcases List.mem_cons.1 hb with rfl | hb2
        · obtain ⟨x₀, hx₀⟩ := List.exists_mem_of_ne_nil _ hne1
          have hax : lt a.1 x₀ = true := by
            rcases hsubun x₀ (Or.inl hx₀) with hxx | hxx
            · exact hcr₁.2 x₀ hxx
            · exact hcr₂.2 x₀ hxx
          refine ⟨ord.ltLe hax (hk1ge x₀ hx₀), ?_⟩
          intro x hx
          rcases hsubun x (Or.inl hx) with hxx | hxx
          · exact hcr₁.2 x hxx
          · exact hcr₂.2 x hxx
        · rcases List.mem_cons.1 hb2 with rfl | hbD
          · obtain ⟨x₀, hx₀⟩ := List.exists_mem_of_ne_nil _ hne2
            have hax : lt a.1 x₀ = true := by
              rcases hsubun x₀ (Or.inr hx₀) with hxx | hxx
              · exact hcr₁.2 x₀ hxx
              · exact hcr₂.2 x₀ hxx
            refine ⟨ord.ltLe hax (hk2ge x₀ hx₀), ?_⟩
            intro x hx
            rcases hsubun x (Or.inr hx) with hxx | hxx
            · exact hcr₁.2 x hxx
            · exact hcr₂.2 x hxx
          · exact hcra b (List.mem_cons_of_mem _
              (List.mem_cons_of_mem _ hbD))
  · rw [hnew]
    conv_rhs => rw [hdecomp]
    rw [show es.take j ++ [(k1, c1), (k2, c2)] ++ es.drop (j + 2) =
      es.take j ++ ([(k1, c1), (k2, c2)] ++ es.drop (j + 2)) from by simp]
    rw [show es.take j ++
      [(es.getD j default), (es.getD (j + 1) default)] ++
      es.drop (j + 2) = es.take j ++
      ([(es.getD j default), (es.getD (j + 1) default)] ++
       es.drop (j + 2)) from by simp]
    rw [Blk.flat_node_append, Blk.flat_node_append, Blk.flat_node_append,
      Blk.flat_node_append]
    congr 1
    congr 1
    have hpair : (Blk.node
        [(es.getD j default), (es.getD (j + 1) default)]
        : Blk K V).flat = (es.getD j default).2.flat ++
        (es.getD (j + 1) default).2.flat := by
      rcases hx1 : es.getD j default with ⟨a1, b1⟩
      rcases hx2 : es.getD (j + 1) default with ⟨a2, b2⟩
      simp
    rw [hpair]
    rw [show (Blk.node [(k1, c1), (k2, c2)] : Blk K V).flat =
      c1.flat ++ c2.flat from by simp]
    exact hflat
  · intro s hs
    rw [hnew] at hs
    have hpad : (Blk.node es : Blk K V).keyList.getLast? =
        (Blk.node (es.take j ++ (es.getD (j + 1) default) ::
          es.drop (j + 2)) : Blk K V).keyList.getLast? := by
      conv_lhs => rw [hdecomp]
      rw [show es.take j ++
        [(es.getD j default), (es.getD (j + 1) default)] ++
        es.drop (j + 2) = es.take j ++ (es.getD j default) ::
        (es.getD (j + 1) default) :: es.drop (j + 2) from by simp]
      exact node_keyList_last_pad _ _
    rcases node_keyList_last_split (es.getD (j + 1) default) _ _ s hs with
      ⟨hseq, hold⟩ | hsame
    · subst hseq
      refine ⟨(es.getD (j + 1) default).1, ?_, hk2le⟩
      rw [hpad]
      exact hold
    · refine ⟨s, ?_, ord.irrefl s⟩
      rw [hpad]
      exact hsame
  · rw [hnew, length_append2, hlT, List.length_drop]
    omega
  · rw [hnew]
    have hg := getD_append2_fst (es.take j) (es.drop (j + 2)) (k1, c1)
      (k2, c2) default
    rw [hlT] at hg
    exact hg
  · rw [hnew]
    have hg := getD_append2_snd (es.take j) (es.drop (j + 2)) (k1, c1)
      (k2, c2) default
    rw [hlT] at hg
    rw [show j + 1 = (es.take j).length + 1 from by rw [hlT]] at hg
    rw [hlT] at hg
    exact hg



/-- A concatenation of two sorted leaf segments with all left keys below all
right keys is a well-formed (non-root) leaf when the size bounds hold. -/
theorem leaf_join_wf {ls rs : List (K × V)}
    (hs1 : List.Pairwise (fun a b => lt a b = true) (ls.map Prod.fst))
    (hs2 : List.Pairwise (fun a b => lt a b = true) (rs.map Prod.fst))
    (hcross : ∀ x ∈ ls.map Prod.fst, ∀ y ∈ rs.map Prod.fst,
      lt x y = true)
    (hlo : MIN ≤ ls.length + rs.length)
    (hhi : ls.length + rs.length ≤ 2 * MIN) :
    WfN lt MIN 0 false (Blk.leaf (ls ++ rs)) := by
  rw [WfN_leaf_iff]
  refine ⟨Or.inr (by simp; omega), by simp; omega, ?_⟩
  rw [List.map_append, List.pairwise_append]
  exact ⟨hs1, hs2, hcross⟩

/-- A concatenation of two internal entry segments with all left separators
(and their subtree keys) below all right subtree keys is a well-formed
(non-root) internal block when the size bounds hold. -/
theorem node_join_wf {h : Nat} {ls rs : List (K × Blk K V)}
    (hent : ∀ e ∈ ls ++ rs, WfN lt MIN h false e.2 ∧
      (∀ x ∈ e.2.fkeys, lt e.1 x = false) ∧ e.2.fkeys ≠ [] ∧
      (∀ s ∈ e.2.keyList.getLast?, lt e.1 s = false))
    (hp1 : List.Pairwise (fun a b => lt a.1 b.1 = true ∧
      ∀ x ∈ b.2.fkeys, lt a.1 x = true) ls)
    (hp2 : List.Pairwise (fun a b => lt a.1 b.1 = true ∧
      ∀ x ∈ b.2.fkeys, lt a.1 x = true) rs)
    (hcross : ∀ a ∈ ls, ∀ b ∈ rs, lt a.1 b.1 = true ∧
      ∀ x ∈ b.2.fkeys, lt a.1 x = true)
    (hlo : MIN ≤ ls.length + rs.length)
    (hhi : ls.length + rs.length ≤ 2 * MIN) :
    WfN lt MIN (h + 1) false (Blk.node (ls ++ rs)) := by
  rw [WfN_node_iff]
  refine ⟨by simp; omega, by simp; omega, hent, ?_⟩
  rw [List.pairwise_append]
  exact ⟨hp1, hp2, hcross⟩



/-- `getLast?` commutes with `map`. -/
theorem map_getLast? {A B : Type} (f : A → B) :
    ∀ (l : List A), (l.map f).getLast? = l.getLast?.map f
  | [] => rfl
  | [_] => rfl
  | x :: y :: l => by
    rw [List.map_cons, List.map_cons, List.getLast?_cons_cons,
      List.getLast?_cons_cons, ← List.map_cons]
    exact map_getLast? f (y :: l)

/-- A nonempty `keyList` out of nonempty stored keys. -/
theorem keyList_ne_of_fkeys_ne {b : Blk K V} (hne : b.fkeys ≠ []) :
    b.keyList ≠ [] := by
  cases b with
  | leaf es =>
    simp only [Blk.fkeys_leaf, ne_eq, List.map_eq_nil_iff] at hne
    simpa using hne
  | node es =>
    simp only [Blk.keyList_node, ne_eq, List.map_eq_nil_iff]
    intro hnil
    subst hnil
    simp at hne

/-- Adjacent elements of a pairwise list are related. -/
theorem pairwise_getD_adj {A : Type} {R : A → A → Prop} {l : List A}
    (hp : List.Pairwise R l) {j : Nat} (hj : j + 1 < l.length) (d : A) :
    R (l.getD j d) (l.getD (j + 1) d) := by
  have h1 : l.get? j = some (l.getD j d) := by
    rcases hg : l.get? j with _ | e
    · rw [List.get?_eq_none] at hg
      omega
    · rw [List.getD_eq_getD_get?, hg]
      rfl
  have h2 : l.get? (j + 1) = some (l.getD (j + 1) d) := by
    rcases hg : l.get? (j + 1) with _ | e
    · rw [List.get?_eq_none] at hg
      omega
    · rw [List.getD_eq_getD_get?, hg]
      rfl
  obtain ⟨hj1, hg1⟩ := List.get?_eq_some.1 h1
  obtain ⟨hj2, hg2⟩ := List.get?_eq_some.1 h2
  have hr := List.pairwise_iff_get.1 hp ⟨j, hj1⟩ ⟨j + 1, hj2⟩ (by simp)
  rwa [hg1, hg2] at hr

/-- Erasing the second of two explicit entries after a prefix. -/
theorem eraseIdx_append2 {A : Type} (T D : List A) (x y : A) :
    (T ++ [x, y] ++ D).eraseIdx (T.length + 1) = T ++ [x] ++ D := by
  induction T with
  | nil => rfl
  | cons a T ih =>
    simp only [List.cons_append, List.length_cons, List.eraseIdx_cons_succ]
    rw [ih]

/-- `ksl_shift_right` on a surplus left sibling and a minimal right sibling:
both redistributed blocks are well formed, the stored entries are preserved,
the new left block's last key separates the halves, and the right block grows
to `MIN + 1` entries keeping its last key. -/
theorem shiftRightPair_facts (ord : LtOrder lt) (hMIN : 1 ≤ MIN) {h : Nat}
    {l r : Blk K V}
    (hwfl : WfN lt MIN h false l) (hwfr : WfN lt MIN h false r)
    (hsur : MIN < l.count) (htgt : r.count = MIN)
    (hsl : ∀ s ∈ l.keyList, ∀ y ∈ r.fkeys, lt s y = true) :
    WfN lt MIN h false (shiftRightPair l r).1 ∧
    WfN lt MIN h false (shiftRightPair l r).2 ∧
    (shiftRightPair l r).1.flat ++ (shiftRightPair l r).2.flat =
      l.flat ++ r.flat ∧
    (shiftRightPair l r).1.fkeys ≠ [] ∧
    (shiftRightPair l r).2.fkeys ≠ [] ∧
    (∀ x ∈ (shiftRightPair l r).2.fkeys,
      lt (shiftRightPair l r).1.lastKeyD x = true) ∧
    (shiftRightPair l r).2.keyList.getLast? = r.keyList.getLast? ∧
    (shiftRightPair l r).2.count = r.count + 1 ∧
    (∀ x ∈ r.fkeys, x ∈ (shiftRightPair l r).2.fkeys) := by
  cases h with
  | zero =>
    cases l with
    | node ls => exact absurd hwfl (by simp)
    | leaf ls =>
      cases r with
      | node rs => exact absurd hwfr (by simp)
      | leaf rs =>
        obtain ⟨hlol, hhil, hsl1⟩ := WfN_leaf_iff.1 hwfl
        obtain ⟨hlor, hhir, hsr1⟩ := WfN_leaf_iff.1 hwfr
        rw [Blk.count_leaf] at hsur
        rw [Blk.count_leaf] at htgt
        have hlsne : ls ≠ [] := by
          intro hnil
          subst hnil
          simp at hsur
        obtain ⟨a, ha⟩ : ∃ a, ls.getLast? = some a := by
          rcases hgl : ls.getLast? with _ | a
          · rw [List.getLast?_eq_none_iff] at hgl
            exact absurd hgl hlsne
          · exact ⟨a, rfl⟩
        have hmv : ls.getLastD default = a := by
          rw [List.getLastD_eq_getLast?, ha]
          rfl
        have hdecomp : ls.dropLast ++ [a] = ls := by
          have h1 := List.dropLast_append_getLast hlsne
          have h2 := List.getLast?_eq_getLast ls hlsne
          rw [h2] at ha
          rw [Option.some.inj ha] at h1
          exact h1
        have hksd : ls.map Prod.fst =
            ls.dropLast.map Prod.fst ++ [a.1] := by
          conv_lhs => rw [← hdecomp]
          rw [List.map_append]
          rfl
        have hamem : a ∈ ls := getLast?_mem_self ha
        have hldl : ls.dropLast.length = ls.length - 1 :=
          List.length_dropLast ls
        have hdlne : ls.dropLast ≠ [] := by
          intro hnil
          have := congrArg List.length hnil
          rw [hldl] at this
          simp at this
          omega
        have hrsne : rs ≠ [] := by
          intro hnil
          subst hnil
          simp at htgt
          omega
        have hcross : ∀ x ∈ ls.map Prod.fst, ∀ y ∈ rs.map Prod.fst,
            lt x y = true := by
          intro x hx y hy
          exact hsl x (by simpa using hx) y (by simpa using hy)
        simp only [shiftRightPair, hmv]
        refine ⟨?_, ?_, ?_, ?_, ?_, ?_, ?_, ?_, ?_⟩
        · rw [WfN_leaf_iff]
          refine ⟨Or.inr (by rw [hldl]; omega), by rw [hldl]; omega, ?_⟩
          exact List.Pairwise.sublist
            (List.Sublist.map Prod.fst (List.dropLast_sublist ls)) hsl1
        · rw [WfN_leaf_iff]
          refine ⟨Or.inr (by simp; omega), by simp; omega, ?_⟩
          rw [List.map_cons, List.pairwise_cons]
          refine ⟨?_, hsr1⟩
          intro y hy
          exact hcross a.1 (List.mem_map_of_mem Prod.fst hamem) y hy
        · rw [Blk.flat_leaf, Blk.flat_leaf, Blk.flat_leaf, Blk.flat_leaf,
            show ls.dropLast ++ a :: rs = (ls.dropLast ++ [a]) ++ rs from
              by simp, hdecomp]
        · rw [Blk.fkeys_leaf, ne_eq, List.map_eq_nil_iff]
          exact hdlne
        · simp
        · intro x hx
          rw [Blk.fkeys_leaf, List.map_cons] at hx
          have hk1 : (Blk.leaf ls.dropLast : Blk K V).keyList.getLast? =
              some (Blk.leaf ls.dropLast : Blk K V).lastKeyD := by
            refine lastKeyD_spec _ ?_
            rw [Blk.keyList_leaf, ne_eq, List.map_eq_nil_iff]
            exact hdlne
          rw [Blk.keyList_leaf] at hk1
          have hk1mem : (Blk.leaf ls.dropLast : Blk K V).lastKeyD ∈
              ls.dropLast.map Prod.fst := getLast?_mem_self hk1
          rcases List.mem_cons.1 hx with rfl | hx2
          · have hpw := hsl1
            rw [hksd, List.pairwise_append] at hpw
            exact hpw.2.2 _ hk1mem a.1 (List.mem_singleton_self _)
          · refine hsl _ ?_ x (by simpa using hx2)
            rw [Blk.keyList_leaf, hksd]
            exact List.mem_append_left _ hk1mem
        · rw [Blk.keyList_leaf, Blk.keyList_leaf, List.map_cons]
          cases rs with
          | nil => exact absurd rfl hrsne
          | cons b t => rw [List.map_cons, List.getLast?_cons_cons]
        · simp
        · intro x hx
          rw [Blk.fkeys_leaf] at hx ⊢
          rw [List.map_cons]
          exact List.mem_cons_of_mem _ hx
  | succ h =>
    cases l with
    | leaf ls => exact absurd hwfl (by simp)
    | node ls =>
      cases r with
      | leaf rs => exact absurd hwfr (by simp)
      | node rs =>
        obtain ⟨hlol, hhil, hentl, hpl⟩ := WfN_node_iff.1 hwfl
        obtain ⟨hlor, hhir, hentr, hpr⟩ := WfN_node_iff.1 hwfr
        simp only [if_neg (by simp : ¬((false : Bool) = true))] at hlol hlor
        rw [Blk.count_node] at hsur
        rw [Blk.count_node] at htgt
        have hlsne : ls ≠ [] := by
          intro hnil
          subst hnil
          simp at hsur
        obtain ⟨a, ha⟩ : ∃ a, ls.getLast? = some a := by
          rcases hgl : ls.getLast? with _ | a
          · rw [List.getLast?_eq_none_iff] at hgl
            exact absurd hgl hlsne
          · exact ⟨a, rfl⟩
        have hmv : ls.getLastD default = a := by
          rw [List.getLastD_eq_getLast?, ha]
          rfl
        have hdecomp : ls.dropLast ++ [a] = ls := by
          have h1 := List.dropLast_append_getLast hlsne
          have h2 := List.getLast?_eq_getLast ls hlsne
          rw [h2] at ha
          rw [Option.some.inj ha] at h1
          exact h1
        have hamem : a ∈ ls := getLast?_mem_self ha
        have hldl : ls.dropLast.length = ls.length - 1 :=
          List.length_dropLast ls
        have hdlne : ls.dropLast ≠ [] := by
          intro hnil
          have := congrArg List.length hnil
          rw [hldl] at this
          simp at this
          omega
        have hrsne : rs ≠ [] := by
          intro hnil
          subst hnil
          simp at htgt
          omega
        have hchildk : ∀ b ∈ rs, ∀ x ∈ b.2.fkeys,
            x ∈ (Blk.node rs : Blk K V).fkeys := by
          intro b hb x hx
          rw [Blk.fkeys_node_join]
          exact List.mem_join.2 ⟨b.2.fkeys,
            List.mem_map_of_mem (fun e => e.2.fkeys) hb, hx⟩
        simp only [shiftRightPair, hmv]
        refine ⟨?_, ?_, ?_, ?_, ?_, ?_, ?_, ?_, ?_⟩
        · rw [WfN_node_iff]
          refine ⟨?_, ?_, ?_, ?_⟩
          · rw [if_neg (by simp : ¬((false : Bool) = true)), hldl]
            omega
          · rw [hldl]
            omega
          · intro e he
            exact hentl e ((List.dropLast_sublist ls).subset he)
          · exact List.Pairwise.sublist (List.dropLast_sublist _) hpl
        · rw [WfN_node_iff]
          refine ⟨?_, ?_, ?_, ?_⟩
          · rw [if_neg (by simp : ¬((false : Bool) = true))]
            simp
            omega
          · simp
            omega
          · intro e he
            rcases List.mem_cons.1 he with rfl | he2
            · exact hentl e hamem
            · exact hentr e he2
          · rw [List.pairwise_cons]
            refine ⟨?_, hpr⟩
            intro b hb
            have hsec : ∀ x ∈ b.2.fkeys, lt a.1 x = true := by
              intro x hx
              refine hsl a.1 ?_ x (hchildk b hb x hx)
              rw [Blk.keyList_node]
              exact List.mem_map_of_mem Prod.fst hamem
            refine ⟨?_, hsec⟩
            obtain ⟨x₀, hx₀⟩ :=
              List.exists_mem_of_ne_nil _ (hentr b hb).2.2.1
            exact ord.ltLe (hsec x₀ hx₀) ((hentr b hb).2.1 x₀ hx₀)
        · obtain ⟨ka, ca⟩ := a
          rw [Blk.flat_node_cons, ← List.append_assoc,
            show (Blk.node ls.dropLast : Blk K V).flat ++ ca.flat =
              (Blk.node ls.dropLast : Blk K V).flat ++
                (Blk.node [(ka, ca)] : Blk K V).flat from by simp,
            ← Blk.flat_node_append, hdecomp]
        · have h1 := (hentl _ ((List.dropLast_sublist ls).subset
            (List.exists_mem_of_ne_nil _ hdlne).choose_spec)).2.2.1
          cases hdl : ls.dropLast with
          | nil => exact absurd hdl hdlne
          | cons e t =>
            rw [Blk.fkeys_node_cons, ne_eq, List.append_eq_nil]
            intro hc
            have h2 := (hentl e ((List.dropLast_sublist ls).subset
              (hdl ▸ List.mem_cons_self e t))).2.2.1
            exact h2 hc.1
        · rw [Blk.fkeys_node_cons, ne_eq, List.append_eq_nil]
          intro hc
          exact (hentl a hamem).2.2.1 hc.1
        · intro x hx
          rw [Blk.fkeys_node_cons] at hx
          have hk1 : (Blk.node ls.dropLast : Blk K V).keyList.getLast? =
              some (Blk.node ls.dropLast : Blk K V).lastKeyD := by
            refine lastKeyD_spec _ ?_
            rw [Blk.keyList_node, ne_eq, List.map_eq_nil_iff]
            exact hdlne
          rw [Blk.keyList_node, map_getLast?] at hk1
          obtain ⟨e₀, he₀, hfst⟩ : ∃ e₀, ls.dropLast.getLast? = some e₀ ∧
              e₀.1 = (Blk.node ls.dropLast : Blk K V).lastKeyD := by
            rcases hg : ls.dropLast.getLast? with _ | e₀
            · rw [hg] at hk1
              cases hk1
            · rw [hg] at hk1
              exact ⟨e₀, rfl, Option.some.inj hk1⟩
          have he₀mem : e₀ ∈ ls.dropLast := getLast?_mem_self he₀
          rcases List.mem_append.1 hx with hx2 | hx2
          · have hpw := hpl
            rw [← hdecomp, List.pairwise_append] at hpw
            have hrel := hpw.2.2 e₀ he₀mem a (List.mem_singleton_self _)
            rw [← hfst]
            exact hrel.2 x hx2
          · refine hsl _ ?_ x hx2
            rw [← hfst, Blk.keyList_node, ← hdecomp, List.map_append]
            exact List.mem_append_left _
              (List.mem_map_of_mem Prod.fst he₀mem)
        · rw [Blk.keyList_node, Blk.keyList_node, List.map_cons]
          cases rs with
          | nil => exact absurd rfl hrsne
          | cons b t => rw [List.map_cons, List.getLast?_cons_cons]
        · simp
        · intro x hx
          have h2 : x ∈ (Blk.node (a :: rs) : Blk K V).fkeys := by
            rw [Blk.fkeys_node_cons]
            exact List.mem_append_right _ hx
          exact h2



/-- `ksl_shift_left` on a minimal left sibling and a surplus right sibling:
both redistributed blocks are well formed, the stored entries are preserved,
the new left block's last key (the moved key) separates the halves, and the
left block grows to `MIN + 1` entries. -/
theorem shiftLeftPair_facts (ord : LtOrder lt) (hMIN : 1 ≤ MIN) {h : Nat}
    {l r : Blk K V}
    (hwfl : WfN lt MIN h false l) (hwfr : WfN lt MIN h false r)
    (htgt : l.count = MIN) (hsur : MIN < r.count)
    (hsl : ∀ s ∈ l.keyList, ∀ y ∈ r.fkeys, lt s y = true) :
    WfN lt MIN h false (shiftLeftPair l r).1 ∧
    WfN lt MIN h false (shiftLeftPair l r).2 ∧
    (shiftLeftPair l r).1.flat ++ (shiftLeftPair l r).2.flat =
      l.flat ++ r.flat ∧
    (shiftLeftPair l r).1.fkeys ≠ [] ∧
    (shiftLeftPair l r).2.fkeys ≠ [] ∧
    (∀ x ∈ (shiftLeftPair l r).2.fkeys,
      lt (shiftLeftPair l r).1.lastKeyD x = true) ∧
    (shiftLeftPair l r).2.keyList.getLast? = r.keyList.getLast? ∧
    (shiftLeftPair l r).1.count = l.count + 1 ∧
    (∀ x ∈ l.fkeys, x ∈ (shiftLeftPair l r).1.fkeys) := by
  cases h with
  | zero =>
    cases l with
    | node ls => exact absurd hwfl (by simp)
    | leaf ls =>
      cases r with
      | node rs => exact absurd hwfr (by simp)
      | leaf rs =>
        obtain ⟨hlol, hhil, hsl1⟩ := WfN_leaf_iff.1 hwfl
        obtain ⟨hlor, hhir, hsr1⟩ := WfN_leaf_iff.1 hwfr
        rw [Blk.count_leaf] at htgt
        rw [Blk.count_leaf] at hsur
        cases rs with
        | nil => simp at hsur
        | cons b t =>
        rw [List.length_cons] at hsur
        rw [List.length_cons] at hhir
        have htne : t ≠ [] := by
          intro hnil
          subst hnil
          simp at hsur
          omega
        rw [List.map_cons, List.pairwise_cons] at hsr1
        have hbmem : b.1 ∈ (Blk.leaf (b :: t) : Blk K V).fkeys := by
          rw [Blk.fkeys_leaf, List.map_cons]
          exact List.mem_cons_self _ _
        have hlast1 : (Blk.leaf (ls ++ [b]) : Blk K V).lastKeyD = b.1 := by
          rw [Blk.lastKeyD, Blk.keyList_leaf]
          simp only [List.map_append, List.map_cons, List.map_nil]
          rw [List.getLastD_eq_getLast?, List.getLast?_concat]
          rfl
        simp only [shiftLeftPair, List.headD_cons, List.tail_cons]
        refine ⟨?_, ?_, ?_, ?_, ?_, ?_, ?_, ?_, ?_⟩
        · rw [WfN_leaf_iff]
          refine ⟨Or.inr (by simp; omega), by simp; omega, ?_⟩
          rw [List.map_append]
          refine sorted_append_key ord hsl1 ?_
          intro x hx
          exact hsl x (by simpa using hx) b.1 hbmem
        · rw [WfN_leaf_iff]
          refine ⟨Or.inr (by omega), by omega, ?_⟩
          exact hsr1.2
        · simp
        · simp
        · rw [Blk.fkeys_leaf, ne_eq, List.map_eq_nil_iff]
          exact htne
        · intro x hx
          rw [hlast1]
          rw [Blk.fkeys_leaf] at hx
          exact hsr1.1 x hx
        · rw [Blk.keyList_leaf, Blk.keyList_leaf, List.map_cons]
          cases t with
          | nil => exact absurd rfl htne
          | cons c u => rw [List.map_cons, List.getLast?_cons_cons]
        · simp
        · intro x hx
          rw [Blk.fkeys_leaf] at hx ⊢
          rw [List.map_append]
          exact List.mem_append_left _ hx
  | succ h =>
    cases l with
    | leaf ls => exact absurd hwfl (by simp)
    | node ls =>
      cases r with
      | leaf rs => exact absurd hwfr (by simp)
      | node rs =>
        obtain ⟨hlol, hhil, hentl, hpl⟩ := WfN_node_iff.1 hwfl
        obtain ⟨hlor, hhir, hentr, hpr⟩ := WfN_node_iff.1 hwfr
        simp only [if_neg (by simp : ¬((false : Bool) = true))] at hlol hlor
        rw [Blk.count_node] at htgt
        rw [Blk.count_node] at hsur
        cases rs with
        | nil => simp at hsur
        | cons b t =>
        rw [List.length_cons] at hsur
        rw [List.length_cons] at hhir
        have htne : t ≠ [] := by
          intro hnil
          subst hnil
          simp at hsur
          omega
        rw [List.pairwise_cons] at hpr
        have hbmem : b ∈ b :: t := List.mem_cons_self _ _
        have hchildk : ∀ e ∈ b :: t, ∀ x ∈ e.2.fkeys,
            x ∈ (Blk.node (b :: t) : Blk K V).fkeys := by
          intro e he x hx
          rw [Blk.fkeys_node_join]
          exact List.mem_join.2 ⟨e.2.fkeys,
            List.mem_map_of_mem (fun e => e.2.fkeys) he, hx⟩
        have hlast1 : (Blk.node (ls ++ [b]) : Blk K V).lastKeyD = b.1 := by
          rw [Blk.lastKeyD, Blk.keyList_node]
          simp only [List.map_append, List.map_cons, List.map_nil]
          rw [List.getLastD_eq_getLast?, List.getLast?_concat]
          rfl
        simp only [shiftLeftPair, List.headD_cons, List.tail_cons]
        refine ⟨?_, ?_, ?_, ?_, ?_, ?_, ?_, ?_, ?_⟩
        · rw [WfN_node_iff]
          refine ⟨?_, ?_, ?_, ?_⟩
          · rw [if_neg (by simp : ¬((false : Bool) = true))]
            simp
            omega
          · simp
            omega
          · intro e he
            rcases List.mem_append.1 he with he2 | he2
            · exact hentl e he2
            · rw [List.mem_singleton.1 he2]
              exact hentr b hbmem
          · rw [List.pairwise_append]
            refine ⟨hpl, List.pairwise_singleton _ _, ?_⟩
            intro a ha e he
            rw [List.mem_singleton.1 he]
            have hsec : ∀ x ∈ b.2.fkeys, lt a.1 x = true := by
              intro x hx
              refine hsl a.1 ?_ x (hchildk b hbmem x hx)
              rw [Blk.keyList_node]
              exact List.mem_map_of_mem Prod.fst ha
            refine ⟨?_, hsec⟩
            obtain ⟨x₀, hx₀⟩ :=
              List.exists_mem_of_ne_nil _ (hentr b hbmem).2.2.1
            exact ord.ltLe (hsec x₀ hx₀) ((hentr b hbmem).2.1 x₀ hx₀)
        · rw [WfN_node_iff]
          refine ⟨?_, ?_, ?_, ?_⟩
          · rw [if_neg (by simp : ¬((false : Bool) = true))]
            omega
          · omega
          · intro e he
            exact hentr e (List.mem_cons_of_mem _ he)
          · exact hpr.2
        · obtain ⟨kb, cb⟩ := b
          simp [Blk.flat_node_append, List.append_assoc]
        · obtain ⟨kb, cb⟩ := b
          rw [Blk.fkeys_node_append, ne_eq, List.append_eq_nil]
          intro hc
          have h2 := (hentr (kb, cb) hbmem).2.2.1
          rw [show (Blk.node [(kb, cb)] : Blk K V).fkeys = cb.fkeys from
            by rw [Blk.fkeys_node_cons]; simp] at hc
          exact h2 hc.2
        · cases t with
          | nil => exact absurd rfl htne
          | cons e u =>
            rw [Blk.fkeys_node_cons, ne_eq, List.append_eq_nil]
            intro hc
            exact (hentr e (List.mem_cons_of_mem _
              (List.mem_cons_self _ _))).2.2.1 hc.1
        · intro x hx
          rw [hlast1]
          rw [Blk.fkeys_node_join] at hx
          obtain ⟨fs, hfs, hx2⟩ := List.mem_join.1 hx
          obtain ⟨e, he, rfl⟩ := List.mem_map.1 hfs
          exact (hpr.1 e he).2 x hx2
        · rw [Blk.keyList_node, Blk.keyList_node, List.map_cons]
          cases t with
          | nil => exact absurd rfl htne
          | cons c u => rw [List.map_cons, List.getLast?_cons_cons]
        · simp
        · intro x hx
          rw [Blk.fkeys_node_append]
          exact List.mem_append_left _ hx



/-- `get?` is unchanged at untouched positions of a `set`. -/
theorem get?_set_other {A : Type} :
    ∀ (l : List A) (i m : Nat) (a : A), i ≠ m →
    (l.set i a).get? m = l.get? m := by
  intro l
  induction l with
  | nil => intro i m a _; simp
  | cons x xs ih =>
    intro i m a hne
    cases i with
    | zero =>
      cases m with
      | zero => exact absurd rfl hne
      | succ m => simp
    | succ i =>
      cases m with
      | zero => simp
      | succ m =>
        rw [List.set_cons_succ, List.get?_cons_succ, List.get?_cons_succ]
        exact ih i m a (by omega)

/-- `ksl_shift_right(blk, j)`: with a surplus child at `j` and a minimal
child at `j + 1`, the rebuilt entry list is well formed, stores the same
entries, keeps the last separator bounded, leaves other entries in place and
grows child `j + 1` to `MIN + 1` entries with its separator unchanged and its
keys dominated from below by the new separator at `j`. -/
theorem shiftRightEs_ok (ord : LtOrder lt) (hMIN : 1 ≤ MIN)
    {h : Nat} {root : Bool} {es : List (K × Blk K V)} {j : Nat}
    (hwf : WfN lt MIN (h + 1) root (Blk.node es))
    (hj : j + 1 < es.length)
    (hsur : MIN < (es.getD j default).2.count)
    (htgt : (es.getD (j + 1) default).2.count = MIN) :
    WfN lt MIN (h + 1) root (Blk.node (shiftRightEs es j)) ∧
    (Blk.node (shiftRightEs es j) : Blk K V).flat =
      (Blk.node es : Blk K V).flat ∧
    (∀ s ∈ (Blk.node (shiftRightEs es j) : Blk K V).keyList.getLast?,
      ∃ s₀, (Blk.node es : Blk K V).keyList.getLast? = some s₀ ∧
        lt s₀ s = false) ∧
    (shiftRightEs es j).length = es.length ∧
    ((shiftRightEs es j).getD (j + 1) default).1 =
      (es.getD (j + 1) default).1 ∧
    ((shiftRightEs es j).getD (j + 1) default).2.count = MIN + 1 ∧
    (∀ x ∈ (es.getD (j + 1) default).2.fkeys,
      x ∈ ((shiftRightEs es j).getD (j + 1) default).2.fkeys) ∧
    (∀ x ∈ ((shiftRightEs es j).getD (j + 1) default).2.fkeys,
      lt ((shiftRightEs es j).getD j default).1 x = true) ∧
    (∀ m, m ≠ j → m ≠ j + 1 → (shiftRightEs es j).get? m = es.get? m) := by
  obtain ⟨hlo, hhi, hent, hp⟩ := WfN_node_iff.1 hwf
  have h1 : es.get? j = some (es.getD j default) := by
    rcases hg : es.get? j with _ | e
    · rw [List.get?_eq_none] at hg
      omega
    · rw [List.getD_eq_getD_get?, hg]
      rfl
  have h2 : es.get? (j + 1) = some (es.getD (j + 1) default) := by
    rcases hg : es.get? (j + 1) with _ | e
    · rw [List.get?_eq_none] at hg
      omega
    · rw [List.getD_eq_getD_get?, hg]
      rfl
  have hmem₁ : es.getD j default ∈ es := List.get?_mem h1
  have hmem₂ : es.getD (j + 1) default ∈ es := List.get?_mem h2
  obtain ⟨hwfl, hgel, hnel, hdoml⟩ := hent _ hmem₁
  obtain ⟨hwfr, hger, hner, hdomr⟩ := hent _ hmem₂
  have hrel := pairwise_getD_adj hp hj default
  have hsl : ∀ s ∈ (es.getD j default).2.keyList,
      ∀ y ∈ (es.getD (j + 1) default).2.fkeys, lt s y = true := by
    intro s hs y hy
    exact ord.leLt (entry_keyList_ge ord hwfl hdoml s hs) (hrel.2 y hy)
  obtain ⟨f1, f2, f3, f4, f5, f6, f7, f8, f9⟩ :=
    shiftRightPair_facts ord hMIN hwfl hwfr hsur htgt hsl
  have hk1last : ∀ s ∈ (shiftRightPair (es.getD j default).2
      (es.getD (j + 1) default).2).1.keyList.getLast?,
      lt (shiftRightPair (es.getD j default).2
        (es.getD (j + 1) default).2).1.lastKeyD s = false := by
    intro s hs
    have hkl := lastKeyD_spec _ (keyList_ne_of_fkeys_ne f4)
    rw [Option.mem_def, hkl] at hs
    rw [← Option.some.inj hs]
    exact ord.irrefl _
  have hk2ge : ∀ x ∈ (shiftRightPair (es.getD j default).2
      (es.getD (j + 1) default).2).2.fkeys,
      lt (es.getD (j + 1) default).1 x = false := by
    intro x hx
    have hun : x ∈ (es.getD j default).2.fkeys ++
        (es.getD (j + 1) default).2.fkeys := by
      rw [show (es.getD j default).2.fkeys ++
        (es.getD (j + 1) default).2.fkeys =
        (shiftRightPair (es.getD j default).2
          (es.getD (j + 1) default).2).1.fkeys ++
        (shiftRightPair (es.getD j default).2
          (es.getD (j + 1) default).2).2.fkeys from by
          rw [Blk.fkeys, Blk.fkeys, Blk.fkeys, Blk.fkeys, ← List.map_append,
            ← List.map_append, f3]]
      exact List.mem_append_right _ hx
    rcases List.mem_append.1 hun with hx2 | hx2
    · exact ord.asymm (ord.leLt (hgel x hx2) hrel.1)
    · exact hger x hx2
  have hk1k2 : lt (shiftRightPair (es.getD j default).2
      (es.getD (j + 1) default).2).1.lastKeyD
      (es.getD (j + 1) default).1 = true := by
    obtain ⟨x₀, hx₀⟩ := List.exists_mem_of_ne_nil _ f5
    exact ord.ltLe (f6 x₀ hx₀) (hk2ge x₀ hx₀)
  obtain ⟨P1, P2, P3, P4, P5, P6⟩ := pair_replace_wf ord hwf hj f1 f2 f3 f4 f5
    (wf_lastKey_ge ord f1) hk1last f6 hk2ge (by rw [f7]; exact hdomr)
    (ord.asymm hk1k2) (ord.irrefl _) hk1k2
  have hdef : shiftRightEs es j =
      (es.set j ((shiftRightPair (es.getD j default).2
        (es.getD (j + 1) default).2).1.lastKeyD,
        (shiftRightPair (es.getD j default).2
          (es.getD (j + 1) default).2).1)).set (j + 1)
        ((es.getD (j + 1) default).1,
         (shiftRightPair (es.getD j default).2
           (es.getD (j + 1) default).2).2) := rfl
  rw [hdef]
  refine ⟨P1, P2, P3, P4, ?_, ?_, ?_, ?_, ?_⟩
  · rw [P6]
  · rw [P6, f8, htgt]
  · intro x hx
    rw [P6]
    exact f9 x hx
  · intro x hx
    rw [P6] at hx
    rw [P5]
    exact f6 x hx
  · intro m hm1 hm2
    rw [get?_set_other _ _ _ _ (by omega), get?_set_other _ _ _ _ (by omega)]

/-- `ksl_shift_left(blk, j + 1)`: with a minimal child at `j` and a surplus
child at `j + 1`, the rebuilt entry list is well formed, stores the same
entries, keeps the last separator bounded, leaves other entries in place and
grows child `j` to `MIN + 1` entries, its new separator dominating its
keys. -/
theorem shiftLeftEs_ok (ord : LtOrder lt) (hMIN : 1 ≤ MIN)
    {h : Nat} {root : Bool} {es : List (K × Blk K V)} {j : Nat}
    (hwf : WfN lt MIN (h + 1) root (Blk.node es))
    (hj : j + 1 < es.length)
    (htgt : (es.getD j default).2.count = MIN)
    (hsur : MIN < (es.getD (j + 1) default).2.count) :
    WfN lt MIN (h + 1) root (Blk.node (shiftLeftEs es (j + 1))) ∧
    (Blk.node (shiftLeftEs es (j + 1)) : Blk K V).flat =
      (Blk.node es : Blk K V).flat ∧
    (∀ s ∈ (Blk.node (shiftLeftEs es (j + 1)) : Blk K V).keyList.getLast?,
      ∃ s₀, (Blk.node es : Blk K V).keyList.getLast? = some s₀ ∧
        lt s₀ s = false) ∧
    (shiftLeftEs es (j + 1)).length = es.length ∧
    ((shiftLeftEs es (j + 1)).getD j default).2.count = MIN + 1 ∧
    (∀ x ∈ (es.getD j default).2.fkeys,
      x ∈ ((shiftLeftEs es (j + 1)).getD j default).2.fkeys) ∧
    (∀ x ∈ ((shiftLeftEs es (j + 1)).getD j default).2.fkeys,
      lt ((shiftLeftEs es (j + 1)).getD j default).1 x = false) ∧
    (∀ m, m ≠ j → m ≠ j + 1 →
      (shiftLeftEs es (j + 1)).get? m = es.get? m) := by
  obtain ⟨hlo, hhi, hent, hp⟩ := WfN_node_iff.1 hwf
  have h1 : es.get? j = some (es.getD j default) := by
    rcases hg : es.get? j with _ | e
    · rw [List.get?_eq_none] at hg
      omega
    · rw [List.getD_eq_getD_get?, hg]
      rfl
  have h2 : es.get? (j + 1) = some (es.getD (j + 1) default) := by
    rcases hg : es.get? (j + 1) with _ | e
    · rw [List.get?_eq_none] at hg
      omega
    · rw [List.getD_eq_getD_get?, hg]
      rfl
  have hmem₁ : es.getD j default ∈ es := List.get?_mem h1
  have hmem₂ : es.getD (j + 1) default ∈ es := List.get?_mem h2
  obtain ⟨hwfl, hgel, hnel, hdoml⟩ := hent _ hmem₁
  obtain ⟨hwfr, hger, hner, hdomr⟩ := hent _ hmem₂
  have hrel := pairwise_getD_adj hp hj default
  have hsl : ∀ s ∈ (es.getD j default).2.keyList,
      ∀ y ∈ (es.getD (j + 1) default).2.fkeys, lt s y = true := by
    intro s hs y hy
    exact ord.leLt (entry_keyList_ge ord hwfl hdoml s hs) (hrel.2 y hy)
  obtain ⟨f1, f2, f3, f4, f5, f6, f7, f8, f9⟩ :=
    shiftLeftPair_facts ord hMIN hwfl hwfr htgt hsur hsl
  have hk1last : ∀ s ∈ (shiftLeftPair (es.getD j default).2
      (es.getD (j + 1) default).2).1.keyList.getLast?,
      lt (shiftLeftPair (es.getD j default).2
        (es.getD (j + 1) default).2).1.lastKeyD s = false := by
    intro s hs
    have hkl := lastKeyD_spec _ (keyList_ne_of_fkeys_ne f4)
    rw [Option.mem_def, hkl] at hs
    rw [← Option.some.inj hs]
    exact ord.irrefl _
  have hk2ge : ∀ x ∈ (shiftLeftPair (es.getD j default).2
      (es.getD (j + 1) default).2).2.fkeys,
      lt (es.getD (j + 1) default).1 x = false := by
    intro x hx
    have hun : x ∈ (es.getD j default).2.fkeys ++
        (es.getD (j + 1) default).2.fkeys := by
      rw [show (es.getD j default).2.fkeys ++
        (es.getD (j + 1) default).2.fkeys =
        (shiftLeftPair (es.getD j default).2
          (es.getD (j + 1) default).2).1.fkeys ++
        (shiftLeftPair (es.getD j default).2
          (es.getD (j + 1) default).2).2.fkeys from by
          rw [Blk.fkeys, Blk.fkeys, Blk.fkeys, Blk.fkeys, ← List.map_append,
            ← List.map_append, f3]]
      exact List.mem_append_right _ hx
    rcases List.mem_append.1 hun with hx2 | hx2
    · exact ord.asymm (ord.leLt (hgel x hx2) hrel.1)
    · exact hger x hx2
  have hk1k2 : lt (shiftLeftPair (es.getD j default).2
      (es.getD (j + 1) default).2).1.lastKeyD
      (es.getD (j + 1) default).1 = true := by
    obtain ⟨x₀, hx₀⟩ := List.exists_mem_of_ne_nil _ f5
    exact ord.ltLe (f6 x₀ hx₀) (hk2ge x₀ hx₀)
  obtain ⟨P1, P2, P3, P4, P5, P6⟩ := pair_replace_wf ord hwf hj f1 f2 f3 f4 f5
    (wf_lastKey_ge ord f1) hk1last f6 hk2ge (by rw [f7]; exact hdomr)
    (ord.asymm hk1k2) (ord.irrefl _) hk1k2
  have hdef : shiftLeftEs es (j + 1) =
      (es.set j ((shiftLeftPair (es.getD j default).2
        (es.getD (j + 1) default).2).1.lastKeyD,
        (shiftLeftPair (es.getD j default).2
          (es.getD (j + 1) default).2).1)).set (j + 1)
        ((es.getD (j + 1) default).1,
         (shiftLeftPair (es.getD j default).2
           (es.getD (j + 1) default).2).2) := rfl
  rw [hdef]
  refine ⟨P1, P2, P3, P4, ?_, ?_, ?_, ?_⟩
  · rw [P5, f8, htgt]
  · intro x hx
    rw [P5]
    exact f9 x hx
  · intro x hx
    rw [P5] at hx
    rw [P5]
    exact wf_lastKey_ge ord f1 x hx
  · intro m hm1 hm2
    rw [get?_set_other _ _ _ _ (by omega), get?_set_other _ _ _ _ (by omega)]



/-- `ksl_merge_node` on two adjacent children: the concatenated block is well
formed at the children's height whenever the combined size fits, stores the
two flats in order, keeps the right block's last key, and adds the counts. -/
theorem mergeBlk_facts (ord : LtOrder lt) (hMIN : 1 ≤ MIN) {h : Nat}
    {l r : Blk K V}
    (hwfl : WfN lt MIN h false l) (hwfr : WfN lt MIN h false r)
    (hlo2 : MIN ≤ l.count + r.count) (hhi2 : l.count + r.count ≤ 2 * MIN)
    (hsl : ∀ s ∈ l.keyList, ∀ y ∈ r.fkeys, lt s y = true) :
    WfN lt MIN h false (mergeBlk l r) ∧
    (mergeBlk l r).flat = l.flat ++ r.flat ∧
    (mergeBlk l r).keyList.getLast? = r.keyList.getLast? ∧
    (mergeBlk l r).count = l.count + r.count ∧
    (mergeBlk l r).fkeys = l.fkeys ++ r.fkeys := by
  cases h with
  | zero =>
    cases l with
    | node ls => exact absurd hwfl (by simp)
    | leaf ls =>
      cases r with
      | node rs => exact absurd hwfr (by simp)
      | leaf rs =>
        obtain ⟨hlol, hhil, hsl1⟩ := WfN_leaf_iff.1 hwfl
        obtain ⟨hlor, hhir, hsr1⟩ := WfN_leaf_iff.1 hwfr
        rw [Blk.count_leaf, Blk.count_leaf] at hlo2 hhi2
        have hlor2 : MIN ≤ rs.length := hlor.resolve_left (by simp)
        have hrsne : rs ≠ [] := by
          intro hnil
          subst hnil
          simp at hlor2
          omega
        simp only [mergeBlk]
        refine ⟨?_, by simp, ?_, by simp, by simp⟩
        · refine leaf_join_wf hsl1 hsr1 ?_ (by omega) (by omega)
          intro x hx y hy
          exact hsl x (by simpa using hx) y (by simpa using hy)
        · rw [Blk.keyList_leaf, Blk.keyList_leaf, List.map_append]
          cases rs with
          | nil => exact absurd rfl hrsne
          | cons b t =>
            rw [List.map_cons, List.getLast?_append_cons]
  | succ h =>
    cases l with
    | leaf ls => exact absurd hwfl (by simp)
    | node ls =>
      cases r with
      | leaf rs => exact absurd hwfr (by simp)
      | node rs =>
        obtain ⟨hlol, hhil, hentl, hpl⟩ := WfN_node_iff.1 hwfl
        obtain ⟨hlor, hhir, hentr, hpr⟩ := WfN_node_iff.1 hwfr
        simp only [if_neg (by simp : ¬((false : Bool) = true))] at hlol hlor
        rw [Blk.count_node, Blk.count_node] at hlo2 hhi2
        have hrsne : rs ≠ [] := by
          intro hnil
          subst hnil
          simp at hlor
          omega
        have hchildk : ∀ e ∈ rs, ∀ x ∈ e.2.fkeys,
            x ∈ (Blk.node rs : Blk K V).fkeys := by
          intro e he x hx
          rw [Blk.fkeys_node_join]
          exact List.mem_join.2 ⟨e.2.fkeys,
            List.mem_map_of_mem (fun e => e.2.fkeys) he, hx⟩
        simp only [mergeBlk]
        refine ⟨?_, Blk.flat_node_append ls rs, ?_, by simp,
          Blk.fkeys_node_append ls rs⟩
        · refine node_join_wf ?_ hpl hpr ?_ (by omega) (by omega)
          · intro e he
            rcases List.mem_append.1 he with he2 | he2
            · exact hentl e he2
            · exact hentr e he2
          · intro a ha b hb
            have hsec : ∀ x ∈ b.2.fkeys, lt a.1 x = true := by
              intro x hx
              refine hsl a.1 ?_ x (hchildk b hb x hx)
              rw [Blk.keyList_node]
              exact List.mem_map_of_mem Prod.fst ha
            refine ⟨?_, hsec⟩
            obtain ⟨x₀, hx₀⟩ :=
              List.exists_mem_of_ne_nil _ (hentr b hb).2.2.1
            exact ord.ltLe (hsec x₀ hx₀) ((hentr b hb).2.1 x₀ hx₀)
        · rw [Blk.keyList_node, Blk.keyList_node, List.map_append]
          cases rs with
          | nil => exact absurd rfl hrsne
          | cons b t =>
            rw [List.map_cons, List.getLast?_append_cons]



/-- The parent rebuild of the merge path of `nghttp3_ksl_remove` (non-root
collapse case): child `j + 1` is absorbed into child `j`, the merged child
keyed by its own last key; the parent stays well formed, stores the same
entries, and its last separator can only move down. -/
theorem merge_parent_ok (ord : LtOrder lt) (hMIN : 1 ≤ MIN)
    {h : Nat} {root : Bool} {es : List (K × Blk K V)} {j : Nat}
    (hwf : WfN lt MIN (h + 1) root (Blk.node es))
    (hj : j + 1 < es.length)
    (hcnt1 : MIN ≤ (es.getD j default).2.count +
      (es.getD (j + 1) default).2.count)
    (hcnt2 : (es.getD j default).2.count +
      (es.getD (j + 1) default).2.count ≤ 2 * MIN)
    (hlen : if root = true then 3 ≤ es.length else MIN + 1 ≤ es.length) :
    WfN lt MIN h false
      (mergeBlk (es.getD j default).2 (es.getD (j + 1) default).2) ∧
    (mergeBlk (es.getD j default).2 (es.getD (j + 1) default).2).flat =
      (es.getD j default).2.flat ++ (es.getD (j + 1) default).2.flat ∧
    (mergeBlk (es.getD j default).2 (es.getD (j + 1) default).2).count =
      (es.getD j default).2.count + (es.getD (j + 1) default).2.count ∧
    (mergeBlk (es.getD j default).2 (es.getD (j + 1) default).2).fkeys =
      (es.getD j default).2.fkeys ++ (es.getD (j + 1) default).2.fkeys ∧
    WfN lt MIN (h + 1) root (Blk.node
      ((es.set j
        ((mergeBlk (es.getD j default).2
          (es.getD (j + 1) default).2).lastKeyD,
         mergeBlk (es.getD j default).2
           (es.getD (j + 1) default).2)).eraseIdx (j + 1))) ∧
    (Blk.node ((es.set j
        ((mergeBlk (es.getD j default).2
          (es.getD (j + 1) default).2).lastKeyD,
         mergeBlk (es.getD j default).2
           (es.getD (j + 1) default).2)).eraseIdx (j + 1)) : Blk K V).flat =
      (Blk.node es : Blk K V).flat ∧
    (∀ s ∈ (Blk.node ((es.set j
        ((mergeBlk (es.getD j default).2
          (es.getD (j + 1) default).2).lastKeyD,
         mergeBlk (es.getD j default).2
           (es.getD (j + 1) default).2)).eraseIdx (j + 1))
        : Blk K V).keyList.getLast?,
      ∃ s₀, (Blk.node es : Blk K V).keyList.getLast? = some s₀ ∧
        lt s₀ s = false) ∧
    ((es.set j
        ((mergeBlk (es.getD j default).2
          (es.getD (j + 1) default).2).lastKeyD,
         mergeBlk (es.getD j default).2
           (es.getD (j + 1) default).2)).eraseIdx (j + 1)).length =
      es.length - 1 ∧
    ((es.set j
        ((mergeBlk (es.getD j default).2
          (es.getD (j + 1) default).2).lastKeyD,
         mergeBlk (es.getD j default).2
           (es.getD (j + 1) default).2)).eraseIdx (j + 1)).getD j default =
      ((mergeBlk (es.getD j default).2
          (es.getD (j + 1) default).2).lastKeyD,
       mergeBlk (es.getD j default).2 (es.getD (j + 1) default).2) := by
  obtain ⟨hlo, hhi, hent, hp⟩ := WfN_node_iff.1 hwf
  have h1 : es.get? j = some (es.getD j default) := by
    rcases hg : es.get? j with _ | e
    · rw [List.get?_eq_none] at hg
      omega
    · rw [List.getD_eq_getD_get?, hg]
      rfl
  have h2 : es.get? (j + 1) = some (es.getD (j + 1) default) := by
    rcases hg : es.get? (j + 1) with _ | e
    · rw [List.get?_eq_none] at hg
      omega
    · rw [List.getD_eq_getD_get?, hg]
      rfl
  have hmem₁ : es.getD j default ∈ es := List.get?_mem h1
  have hmem₂ : es.getD (j + 1) default ∈ es := List.get?_mem h2
  obtain ⟨hwfl, hgel, hnel, hdoml⟩ := hent _ hmem₁
  obtain ⟨hwfr, hger, hner, hdomr⟩ := hent _ hmem₂
  have hrel := pairwise_getD_adj hp hj default
  have hsl : ∀ s ∈ (es.getD j default).2.keyList,
      ∀ y ∈ (es.getD (j + 1) default).2.fkeys, lt s y = true := by
    intro s hs y hy
    exact ord.leLt (entry_keyList_ge ord hwfl hdoml s hs) (hrel.2 y hy)
  obtain ⟨m1, m2, m3, m4, m5⟩ :=
    mergeBlk_facts ord hMIN hwfl hwfr hcnt1 hcnt2 hsl
  have hMne : (mergeBlk (es.getD j default).2
      (es.getD (j + 1) default).2).fkeys ≠ [] :=
    wf_nonroot_fkeys_ne_nil hMIN m1
  have hMlast := lastKeyD_spec _ (keyList_ne_of_fkeys_ne hMne)
  have hsle : lt (es.getD (j + 1) default).1
      (mergeBlk (es.getD j default).2
        (es.getD (j + 1) default).2).lastKeyD = false := by
    refine hdomr _ ?_
    rw [← m3]
    exact hMlast
  have hdz1 : es.drop j = (es.getD j default) :: es.drop (j + 1) :=
    drop_eq_cons_of_get? h1
  have hdz2 : es.drop (j + 1) = (es.getD (j + 1) default) ::
      es.drop (j + 2) := drop_eq_cons_of_get? h2
  have hdecomp : es = es.take j ++
      [(es.getD j default), (es.getD (j + 1) default)] ++
      es.drop (j + 2) := by
    conv_lhs => rw [← List.take_append_drop j es, hdz1, hdz2]
    simp
  have hlT : (es.take j).length = j := by
    rw [List.length_take]
    omega
  have hgen : ∀ z : K × Blk K V, (es.set j z).eraseIdx (j + 1) =
      es.take j ++ [z] ++ es.drop (j + 2) := by
    intro z
    conv_lhs => rw [hdecomp]
    have hs1 := set_append2_fst (es.take j) (es.drop (j + 2))
      (es.getD j default) (es.getD (j + 1) default) z
    rw [hlT] at hs1
    rw [hs1]
    have hs2 := eraseIdx_append2 (es.take j) (es.drop (j + 2)) z
      (es.getD (j + 1) default)
    rw [hlT] at hs2
    rw [hs2]
  have hnew := hgen
    ((mergeBlk (es.getD j default).2
      (es.getD (j + 1) default).2).lastKeyD,
     mergeBlk (es.getD j default).2 (es.getD (j + 1) default).2)
  have hp2 := hp
  rw [hdecomp, List.append_assoc, List.cons_append, List.cons_append,
    List.nil_append, List.pairwise_append, List.pairwise_cons,
    List.pairwise_cons] at hp2
  obtain ⟨hpT, ⟨hrel₁, hrel₂, hpD⟩, hcross⟩ := hp2
  refine ⟨m1, m2, m4, m5, ?_, ?_, ?_, ?_, ?_⟩
  · rw [WfN_node_iff, hnew]
    have hlen2 : (es.take j ++ [((mergeBlk (es.getD j default).2
        (es.getD (j + 1) default).2).lastKeyD,
       mergeBlk (es.getD j default).2
         (es.getD (j + 1) default).2)] ++ es.drop (j + 2)).length =
        es.length - 1 := by
      rw [List.length_append, List.length_append, hlT, List.length_drop]
      simp
      omega
    refine ⟨?_, ?_, ?_, ?_⟩
    · rw [hlen2]
      by_cases hroot : root = true
      · rw [if_pos hroot]
        rw [if_pos hroot] at hlen
        omega
      · rw [if_neg hroot]
        rw [if_neg hroot] at hlen
        omega
    · rw [hlen2]
      omega
    · intro e he
      rcases List.mem_append.1 he with heTM | heD
      · rcases List.mem_append.1 heTM with heT | heM
        · refine hent e ?_
          rw [hdecomp]
          exact List.mem_append_left _ (List.mem_append_left _ heT)
        · rcases List.mem_singleton.1 heM with rfl
          refine ⟨m1, wf_lastKey_ge ord m1, hMne, ?_⟩
          intro s hs
          rw [Option.mem_def, hMlast] at hs
          rw [← Option.some.inj hs]
          exact ord.irrefl _
      · refine hent e ?_
        rw [hdecomp]
        exact List.mem_append_right _ heD
    · rw [List.append_assoc, List.cons_append, List.nil_append,
        List.pairwise_append, List.pairwise_cons]
      refine ⟨hpT, ⟨?_, hpD⟩, ?_⟩
      · intro b hb
        have hold := hrel₂ b hb
        refine ⟨ord.leLt hsle hold.1, ?_⟩
        intro x hx
        exact ord.leLt hsle (hold.2 x hx)
      · intro a ha b hb
        have hcra := hcross a ha
        have hcr₁ := hcra _ (List.mem_cons_self _ _)
        have hcr₂ := hcra _ (List.mem_cons_of_mem _ (List.mem_cons_self _ _))
        rcases List.mem_cons.1 hb with rfl | hbD
        · obtain ⟨x₀, hx₀⟩ := List.exists_mem_of_ne_nil _ hMne
          have hx₀un : x₀ ∈ (es.getD j default).2.fkeys ++
              (es.getD (j + 1) default).2.fkeys := by
            rw [← m5]
            exact hx₀
          have hax : lt a.1 x₀ = true := by
            rcases List.mem_append.1 hx₀un with hxx | hxx
            · exact hcr₁.2 x₀ hxx
            · exact hcr₂.2 x₀ hxx
          refine ⟨ord.ltLe hax (wf_lastKey_ge ord m1 x₀ hx₀), ?_⟩
          intro x hx
          have hxun : x ∈ (es.getD j default).2.fkeys ++
              (es.getD (j + 1) default).2.fkeys := by
            rw [← m5]
            exact hx
          rcases List.mem_append.1 hxun with hxx | hxx
          · exact hcr₁.2 x hxx
          · exact hcr₂.2 x hxx
        · exact hcra b (List.mem_cons_of_mem _ (List.mem_cons_of_mem _ hbD))
  · rw [hnew]
    conv_rhs => rw [hdecomp]
    rw [show es.take j ++ [((mergeBlk (es.getD j default).2
        (es.getD (j + 1) default).2).lastKeyD,
       mergeBlk (es.getD j default).2
         (es.getD (j + 1) default).2)] ++ es.drop (j + 2) =
      es.take j ++ ([((mergeBlk (es.getD j default).2
        (es.getD (j + 1) default).2).lastKeyD,
       mergeBlk (es.getD j default).2
         (es.getD (j + 1) default).2)] ++ es.drop (j + 2)) from by simp]
    rw [show es.take j ++
      [(es.getD j default), (es.getD (j + 1) default)] ++
      es.drop (j + 2) = es.take j ++
      ([(es.getD j default), (es.getD (j + 1) default)] ++
       es.drop (j + 2)) from by simp]
    rw [Blk.flat_node_append, Blk.flat_node_append, Blk.flat_node_append,
      Blk.flat_node_append]
    congr 1
    congr 1
    have hpair : (Blk.node
        [(es.getD j default), (es.getD (j + 1) default)]
        : Blk K V).flat = (es.getD j default).2.flat ++
        (es.getD (j + 1) default).2.flat := by
      rcases hx1 : es.getD j default with ⟨a1, b1⟩
      rcases hx2 : es.getD (j + 1) default with ⟨a2, b2⟩
      simp
    rw [hpair]
    rw [show (Blk.node [((mergeBlk (es.getD j default).2
        (es.getD (j + 1) default).2).lastKeyD,
       mergeBlk (es.getD j default).2
         (es.getD (j + 1) default).2)] : Blk K V).flat =
      (mergeBlk (es.getD j default).2
        (es.getD (j + 1) default).2).flat from by simp]
    exact m2
  · intro s hs
    rw [hnew] at hs
    simp only [Blk.keyList_node, List.map_append, List.map_cons,
      List.map_nil, List.append_assoc, List.cons_append,
      List.nil_append] at hs
    rw [List.getLast?_append_cons] at hs
    have hklold : (Blk.node es : Blk K V).keyList.getLast? =
        ((es.getD (j + 1) default).1 ::
          List.map Prod.fst (es.drop (j + 2))).getLast? := by
      conv_lhs => rw [hdecomp]
      simp only [Blk.keyList_node, List.map_append, List.map_cons,
        List.map_nil, List.append_assoc, List.cons_append, List.nil_append]
      rw [List.getLast?_append_cons, List.getLast?_cons_cons]
    cases hD : List.map Prod.fst (es.drop (j + 2)) with
    | nil =>
      rw [hD] at hs
      rw [List.getLast?_singleton] at hs
      rw [Option.mem_def, Option.some.injEq] at hs
      refine ⟨(es.getD (j + 1) default).1, ?_, ?_⟩
      · rw [hklold, hD, List.getLast?_singleton]
      · rw [← hs]
        exact hsle
    | cons d0 dt =>
      rw [hD] at hs
      rw [List.getLast?_cons_cons] at hs
      refine ⟨s, ?_, ord.irrefl s⟩
      rw [hklold, hD, List.getLast?_cons_cons]
      exact hs
  · rw [hnew, List.length_append, List.length_append, hlT, List.length_drop]
    simp
    omega
  · rw [hnew, List.append_assoc, List.cons_append, List.nil_append]
    have hg := getD_append_length (es.take j)
      (((mergeBlk (es.getD j default).2
        (es.getD (j + 1) default).2).lastKeyD,
       mergeBlk (es.getD j default).2
         (es.getD (j + 1) default).2) :: es.drop (j + 2)) default
    rw [hlT] at hg
    rw [hg]
    rfl



/-- The correctness package of one `ksl_remove` loop run on a block `b`: the
key was stored once, it is removed and nothing else changes, the block stays
well formed, its last key does not increase, and the returned cursor
addresses the removal position among the remaining entries. -/
def RemPkg (lt : K → K → Bool) (MIN : Nat) (key : K) (h : Nat) (root : Bool)
    (b : Blk K V) (r : Blk K V × Nat × Nat) : Prop :=
  ∃ (d : V) (A B : List (K × V)),
    b.flat = A ++ (key, d) :: B ∧
    r.1.flat = A ++ B ∧
    WfN lt MIN h root r.1 ∧
    (∀ s ∈ r.1.keyList.getLast?,
      ∃ s₀, b.keyList.getLast? = some s₀ ∧ lt s₀ s = false) ∧
    r.2.1 < r.1.leafCount ∧
    r.2.2 ≤ (r.1.leafBlocks.getD r.2.1 []).length ∧
    lbRank r.1.leafBlocks r.2.1 r.2.2 = A.length

/-- `ksl_bsearch` is determined by its characteristic bounds. -/
theorem bsearch_eq_of (ord : LtOrder lt) {ks : List K} {key : K}
    (hs : List.Pairwise (fun a b => lt a b = true) ks) {i : Nat}
    (hi : i < ks.length)
    (hlt : ∀ (m : Nat) (k : K), m < i → ks.get? m = some k →
      lt k key = true)
    (hge : ∀ k, ks.get? i = some k → lt k key = false) :
    ksl_bsearch lt ks key = i := by
  have hspec := ksl_bsearch_spec ks key (bsMono_of_sorted ord key hs)
  by_contra hne
  rcases Nat.lt_or_ge (ksl_bsearch lt ks key) i with hlt2 | hge2
  · obtain ⟨k, hk⟩ : ∃ k, ks.get? (ksl_bsearch lt ks key) = some k := by
      rcases hg : ks.get? (ksl_bsearch lt ks key) with _ | k
      · rw [List.get?_eq_none] at hg
        omega
      · exact ⟨k, rfl⟩
    have h2 := hspec.2.2 k hk
    rw [hlt _ k hlt2 hk] at h2
    cases h2
  · have hgt : i < ksl_bsearch lt ks key := by omega
    obtain ⟨k, hk⟩ : ∃ k, ks.get? i = some k := by
      rcases hg : ks.get? i with _ | k
      · rw [List.get?_eq_none] at hg
        omega
      · exact ⟨k, rfl⟩
    have h2 := hspec.2.1 i k hgt hk
    rw [hge k hk] at h2
    cases h2

/-- Lifting the removal package of a child through the parent rebuild
performed by `remDescend`. -/
theorem descend_step_ok (ord : LtOrder lt) (hMIN : 1 ≤ MIN) {key : K}
    {h : Nat} {root : Bool} {es : List (K × Blk K V)} {i : Nat}
    {r : Blk K V × Nat × Nat}
    (hwf : WfN lt MIN (h + 1) root (Blk.node es))
    (hi : i < es.length)
    (hcnt : MIN < (es.getD i default).2.count)
    (hpkg : RemPkg lt MIN key h false (es.getD i default).2 r) :
    RemPkg lt MIN key (h + 1) root (Blk.node es) (remDescend es i r) := by
  obtain ⟨d, A₂, B₂, e1, e2, e3, e4, e5, e6, e7⟩ := hpkg
  have hget : es.get? i = some (es.getD i default) := by
    rcases hg : es.get? i with _ | e
    · rw [List.get?_eq_none] at hg
      omega
    · rw [List.getD_eq_getD_get?, hg]
      rfl
  have hwfc := ((WfN_node_iff.1 hwf).2.2.1 _ (List.get?_mem hget)).1
  have hcle := wf_count_le_flat hMIN h hwfc
  have hlene : (es.getD i default).2.flat.length =
      A₂.length + B₂.length + 1 := by
    rw [e1]
    simp
    omega
  have hne' : r.1.fkeys ≠ [] := by
    rw [Blk.fkeys, ne_eq, List.map_eq_nil_iff, ← ne_eq]
    intro hnil
    rw [hnil] at e2
    have hl2 := congrArg List.length e2
    rw [List.length_nil, List.length_append] at hl2
    omega
  obtain ⟨R1, R2, R3, R4, R5, R6, R7⟩ :=
    remDescend_ok ord hwf hi e3 e1 e2 hne' e5 e6 e7 e4
  exact ⟨d, (Blk.node (es.take i) : Blk K V).flat ++ A₂,
    B₂ ++ (Blk.node (es.drop (i + 1)) : Blk K V).flat,
    R2, R3, R1, R4, R5, R6, R7⟩



/-- The leaf step of the `ksl_remove` loop: binary search lands on the key,
the entry is erased in place, and the returned cursor addresses the erased
position. -/
theorem leaf_remove_ok (ord : LtOrder lt) (hMIN : 1 ≤ MIN) {key : K}
    {root : Bool} {es : List (K × V)}
    (hwf : WfN lt MIN 0 root (Blk.leaf es))
    (hnr : root = false → MIN < (Blk.leaf es : Blk K V).count)
    (hmem : key ∈ (Blk.leaf es : Blk K V).fkeys) :
    RemPkg lt MIN key 0 root (Blk.leaf es)
      (Blk.leaf (es.eraseIdx (ksl_bsearch lt (es.map Prod.fst) key)), 0,
       ksl_bsearch lt (es.map Prod.fst) key) := by
  obtain ⟨hlo, hhi, hs⟩ := WfN_leaf_iff.1 hwf
  rw [Blk.fkeys_leaf] at hmem
  obtain ⟨hilt, hgi⟩ := ksl_bsearch_finds ord hs hmem
  rw [List.length_map] at hilt
  obtain ⟨e, he⟩ : ∃ e, es.get? (ksl_bsearch lt (es.map Prod.fst) key) =
      some e := by
    rcases hg : es.get? (ksl_bsearch lt (es.map Prod.fst) key) with _ | e
    · rw [List.get?_eq_none] at hg
      omega
    · exact ⟨e, rfl⟩
  obtain ⟨k0, d0⟩ := e
  have he1 : k0 = key := by
    rw [List.get?_map, he] at hgi
    exact Option.some.inj hgi
  rw [he1] at he
  have hsplit : es = es.take (ksl_bsearch lt (es.map Prod.fst) key) ++
      (key, d0) :: es.drop (ksl_bsearch lt (es.map Prod.fst) key + 1) := by
    conv_lhs => rw [← List.take_append_drop
      (ksl_bsearch lt (es.map Prod.fst) key) es, drop_eq_cons_of_get? he]
  have herase : es.eraseIdx (ksl_bsearch lt (es.map Prod.fst) key) =
      es.take (ksl_bsearch lt (es.map Prod.fst) key) ++
      es.drop (ksl_bsearch lt (es.map Prod.fst) key + 1) :=
    List.eraseIdx_eq_take_drop_succ es _
  have hlenA : (es.take (ksl_bsearch lt (es.map Prod.fst) key)).length =
      ksl_bsearch lt (es.map Prod.fst) key := by
    rw [List.length_take]
    omega
  have hlentot := congrArg List.length hsplit
  rw [List.length_append, List.length_cons, hlenA] at hlentot
  refine ⟨d0, es.take (ksl_bsearch lt (es.map Prod.fst) key),
    es.drop (ksl_bsearch lt (es.map Prod.fst) key + 1), hsplit,
    by rw [Blk.flat_leaf, herase], ?_, ?_, ?_, ?_, ?_⟩
  · rw [WfN_leaf_iff]
    have hlene : (es.eraseIdx
        (ksl_bsearch lt (es.map Prod.fst) key)).length =
        es.length - 1 := by
      rw [herase, List.length_append, hlenA, List.length_drop]
      omega
    refine ⟨?_, by omega, ?_⟩
    · cases root with
      | true => exact Or.inl rfl
      | false =>
        have := hnr rfl
        rw [Blk.count_leaf] at this
        exact Or.inr (by omega)
    · exact List.Pairwise.sublist
        (List.Sublist.map Prod.fst (List.eraseIdx_sublist es _)) hs
  · intro s hs2
    rw [Blk.keyList_leaf, herase, List.map_append] at hs2
    rw [Blk.keyList_leaf]
    conv in List.map Prod.fst es => rw [hsplit]
    rw [List.map_append, List.map_cons]
    cases hD : es.drop (ksl_bsearch lt (es.map Prod.fst) key + 1) with
    | nil =>
      rw [hD] at hs2
      rw [List.map_nil, List.append_nil] at hs2
      rw [List.map_nil]
      refine ⟨key, List.getLast?_concat _, ?_⟩
      have hsmem : s ∈ (es.take
          (ksl_bsearch lt (es.map Prod.fst) key)).map Prod.fst :=
        getLast?_mem_self hs2
      have hpw := hs
      rw [hsplit, hD, List.map_append, List.map_cons, List.map_nil,
        List.pairwise_append] at hpw
      exact ord.asymm (hpw.2.2 s hsmem key (List.mem_cons_self _ _))
    | cons p ps =>
      rw [hD, List.map_cons] at hs2
      rw [List.getLast?_append_cons] at hs2
      rw [List.map_cons, List.getLast?_append_cons,
        List.getLast?_cons_cons]
      exact ⟨s, hs2, ord.irrefl s⟩
  · simp [Blk.leafCount]
  · show ksl_bsearch lt (es.map Prod.fst) key ≤
      ((Blk.leaf (es.eraseIdx (ksl_bsearch lt (es.map Prod.fst) key))
        : Blk K V).leafBlocks.getD 0 []).length
    rw [Blk.leafBlocks_leaf, List.getD_cons_zero, herase,
      List.length_append, hlenA, List.length_drop]
    omega
  · rw [Blk.leafBlocks_leaf, lbRank_zero, hlenA]



/-- A non-root block carries at least `MIN_NBLK` entries. -/
theorem wf_nonroot_count_ge {h : Nat} {b : Blk K V}
    (hwf : WfN lt MIN h false b) : MIN ≤ b.count := by
  cases b with
  | leaf es =>
    cases h with
    | zero =>
      have := (WfN_leaf_iff.1 hwf).1
      rw [Blk.count_leaf]
      exact this.resolve_left (by simp)
    | succ h2 => exact absurd hwf (by simp)
  | node es =>
    cases h with
    | zero => exact absurd hwf (by simp)
    | succ h2 =>
      have := (WfN_node_iff.1 hwf).1
      rw [if_neg (by simp : ¬((false : Bool) = true))] at this
      rw [Blk.count_node]
      exact this

/-- `get?` below the length is `getD`. -/
theorem get?_getD_of_lt {A : Type} [Inhabited A] {l : List A} {n : Nat}
    (h : n < l.length) : l.get? n = some (l.getD n default) := by
  rcases hg : l.get? n with _ | e
  · rw [List.get?_eq_none] at hg
    omega
  · rw [List.getD_eq_getD_get?, hg]
    rfl

/-- A removal package transfers along a rebalancing step that preserves the
stored entries and does not increase the last key. -/
theorem pkg_transfer (ord : LtOrder lt) {key : K} {h : Nat} {root : Bool}
    {b b' : Blk K V} {r : Blk K V × Nat × Nat}
    (hflat : b'.flat = b.flat)
    (hlast : ∀ s ∈ b'.keyList.getLast?,
      ∃ s₀, b.keyList.getLast? = some s₀ ∧ lt s₀ s = false)
    (hpkg : RemPkg lt MIN key h root b' r) :
    RemPkg lt MIN key h root b r := by
  obtain ⟨d, A, B, p1, p2, p3, p4, p5, p6, p7⟩ := hpkg
  refine ⟨d, A, B, by rw [← hflat]; exact p1, p2, p3, ?_, p5, p6, p7⟩
  intro s hs
  obtain ⟨s₁, hs₁, hb1⟩ := p4 s hs
  obtain ⟨s₀, hs₀, hb0⟩ := hlast s₁ hs₁
  exact ⟨s₀, hs₀, ord.leLe hb1 hb0⟩



/-- The `ksl_remove` loop: on a well-formed block that stores the key, with
the surplus the caller maintains (a non-head block was rebalanced above
`MIN_NBLK` before descending; a 2-entry head has a non-minimal child, the
head pre-merge having fired otherwise) and fuel covering twice the height,
the loop removes exactly the one keyed entry, keeps the block well formed,
never increases its last key, and returns the cursor of the removal
position. -/
theorem removeB_ok (ord : LtOrder lt) (hMIN : 1 ≤ MIN) (key : K) :
    ∀ (fuel : Nat) {h : Nat} {root : Bool} {b : Blk K V},
    WfN lt MIN h root b →
    (root = false → MIN < b.count) →
    (root = true → ∀ es2, b = Blk.node es2 → es2.length = 2 →
      MIN < (es2.getD 0 default).2.count ∨
      MIN < (es2.getD 1 default).2.count) →
    key ∈ b.fkeys →
    2 * h + 2 ≤ fuel →
    RemPkg lt MIN key h root b (removeB lt MIN key fuel root b) := by
  intro fuel
  induction fuel using Nat.strong_induction_on with
  | _ fuel IH =>
  intro h root b hwf hnr hrt hmem hfuel
  obtain ⟨f, rfl⟩ : ∃ f, fuel = f + 1 := ⟨fuel - 1, by omega⟩
  cases b with
  | leaf es =>
    cases h with
    | succ h2 => exact absurd hwf (by simp)
    | zero =>
      have hstep : removeB lt MIN key (f + 1) root (Blk.leaf es) =
          (Blk.leaf (es.eraseIdx (ksl_bsearch lt (es.map Prod.fst) key)), 0,
           ksl_bsearch lt (es.map Prod.fst) key) := by
        simp only [removeB]
      rw [hstep]
      exact leaf_remove_ok ord hMIN hwf hnr hmem
  | node es =>
    cases h with
    | zero => exact absurd hwf (by simp)
    | succ h =>
    obtain ⟨i, hidef⟩ : ∃ i, ksl_bsearch lt (es.map Prod.fst) key = i :=
      ⟨_, rfl⟩
    obtain ⟨hi, hkey⟩ := node_child_of_bsearch ord hwf hmem
    rw [hidef] at hi hkey
    obtain ⟨hlo, hhi, hent, hp⟩ := WfN_node_iff.1 hwf
    have hsortedsep : List.Pairwise (fun a b => lt a b = true)
        (es.map Prod.fst) := List.pairwise_map.2 (hp.imp fun hx => hx.1)
    have hspec := ksl_bsearch_spec (es.map Prod.fst) key
      (bsMono_of_sorted ord key hsortedsep)
    rw [hidef] at hspec
    have hgeti : es.get? i = some (es.getD i default) := get?_getD_of_lt hi
    have hcei := hent _ (List.get?_mem hgeti)
    by_cases hc : (es.getD i default).2.count = MIN
    · by_cases hbl : 0 < i ∧ MIN < (es.getD (i - 1) default).2.count
      · -- borrow the left sibling's last entry (ksl_shift_right)
        obtain ⟨hi0, hsurl⟩ := hbl
        have hj' : i - 1 + 1 < es.length := by omega
        obtain ⟨S1, S2, S3, S4, S5, S6, S7, S8, S9⟩ :=
          shiftRightEs_ok ord hMIN hwf hj' hsurl
            (by rw [show i - 1 + 1 = i from by omega]; exact hc)
        rw [show i - 1 + 1 = i from by omega] at S5 S6 S7 S8 S9
        have hstep1 : removeB lt MIN key (f + 1) root (Blk.node es) =
            removeB lt MIN key f root
              (Blk.node (shiftRightEs es (i - 1))) := by
          simp only [removeB]
          rw [hidef, if_pos hc, if_pos ⟨hi0, hsurl⟩]
        obtain ⟨f2, rfl⟩ : ∃ f2, f = f2 + 1 := ⟨f - 1, by omega⟩
        have hsorted' : List.Pairwise (fun a b => lt a b = true)
            ((shiftRightEs es (i - 1)).map Prod.fst) := by
          have := wf_sorted_block_keys S1
          rwa [Blk.keyList_node] at this
        have hilen' : i < (shiftRightEs es (i - 1)).length := by
          rw [S4]
          exact hi
        have hb' : ksl_bsearch lt
            ((shiftRightEs es (i - 1)).map Prod.fst) key = i := by
          refine bsearch_eq_of ord hsorted' ?_ ?_ ?_
          · rw [List.length_map, S4]
            exact hi
          · intro m k hm hk
            rw [List.get?_map] at hk
            by_cases hm1 : m = i - 1
            · subst hm1
              rw [get?_getD_of_lt (by omega), Option.map_some'] at hk
              rw [← Option.some.inj hk]
              exact S8 key (S7 key hkey)
            · have hm2 : m ≠ i := by omega
              rw [S9 m hm1 hm2, ← List.get?_map] at hk
              exact hspec.2.1 m k hm hk
          · intro k hk
            rw [List.get?_map, get?_getD_of_lt hilen', Option.map_some']
              at hk
            rw [← Option.some.inj hk, S5]
            refine hspec.2.2 _ ?_
            rw [List.get?_map, hgeti, Option.map_some']
        have hstep2 : removeB lt MIN key (f2 + 1) root
            (Blk.node (shiftRightEs es (i - 1))) =
            remDescend (shiftRightEs es (i - 1)) i
              (removeB lt MIN key f2 false
                ((shiftRightEs es (i - 1)).getD i default).2) := by
          simp only [removeB]
          rw [hb', if_neg (by rw [S6]; omega)]
        have hget' : (shiftRightEs es (i - 1)).get? i =
            some ((shiftRightEs es (i - 1)).getD i default) :=
          get?_getD_of_lt hilen'
        have hce' := (WfN_node_iff.1 S1).2.2.1 _ (List.get?_mem hget')
        have hpkg := IH f2 (by omega) hce'.1
          (fun _ => by rw [S6]; omega)
          (fun hcon => absurd hcon (by simp))
          (S7 key hkey) (by omega)
        rw [hstep1, hstep2]
        exact pkg_transfer ord S2 S3
          (descend_step_ok ord hMIN S1 hilen' (by rw [S6]; omega) hpkg)
      · by_cases hbr : i + 1 < es.length ∧
            MIN < (es.getD (i + 1) default).2.count
        · -- borrow the right sibling's first entry (ksl_shift_left)
          obtain ⟨hilen, hsurr⟩ := hbr
          obtain ⟨S1, S2, S3, S4, S5, S6, S7, S8⟩ :=
            shiftLeftEs_ok ord hMIN hwf hilen hc hsurr
          have hstep1 : removeB lt MIN key (f + 1) root (Blk.node es) =
              removeB lt MIN key f root
                (Blk.node (shiftLeftEs es (i + 1))) := by
            simp only [removeB]
            rw [hidef, if_pos hc, if_neg hbl, if_pos ⟨hilen, hsurr⟩]
          obtain ⟨f2, rfl⟩ : ∃ f2, f = f2 + 1 := ⟨f - 1, by omega⟩
          have hsorted' : List.Pairwise (fun a b => lt a b = true)
              ((shiftLeftEs es (i + 1)).map Prod.fst) := by
            have := wf_sorted_block_keys S1
            rwa [Blk.keyList_node] at this
          have hilen' : i < (shiftLeftEs es (i + 1)).length := by
            rw [S4]
            exact hi
          have hb' : ksl_bsearch lt
              ((shiftLeftEs es (i + 1)).map Prod.fst) key = i := by
            refine bsearch_eq_of ord hsorted' ?_ ?_ ?_
            · rw [List.length_map, S4]
              exact hi
            · intro m k hm hk
              rw [List.get?_map, S8 m (by omega) (by omega),
                ← List.get?_map] at hk
              exact hspec.2.1 m k hm hk
            · intro k hk
              rw [List.get?_map, get?_getD_of_lt hilen', Option.map_some']
                at hk
              rw [← Option.some.inj hk]
              exact S7 key (S6 key hkey)
          have hstep2 : removeB lt MIN key (f2 + 1) root
              (Blk.node (shiftLeftEs es (i + 1))) =
              remDescend (shiftLeftEs es (i + 1)) i
                (removeB lt MIN key f2 false
                  ((shiftLeftEs es (i + 1)).getD i default).2) := by
            simp only [removeB]
            rw [hb', if_neg (by rw [S5]; omega)]
          have hget' : (shiftLeftEs es (i + 1)).get? i =
              some ((shiftLeftEs es (i + 1)).getD i default) :=
            get?_getD_of_lt hilen'
          have hce' := (WfN_node_iff.1 S1).2.2.1 _ (List.get?_mem hget')
          have hpkg := IH f2 (by omega) hce'.1
            (fun _ => by rw [S5]; omega)
            (fun hcon => absurd hcon (by simp))
            (S6 key hkey) (by omega)
          rw [hstep1, hstep2]
          exact pkg_transfer ord S2 S3
            (descend_step_ok ord hMIN S1 hilen' (by rw [S5]; omega) hpkg)
        · -- merge with a sibling (ksl_merge_node)
          have h2len : 2 ≤ es.length := by
            by_cases hroot : root = true
            · rw [if_pos hroot] at hlo
              exact hlo
            · have hfalse : root = false := by
                revert hroot
                cases root
                · intro _
                  rfl
                · intro hcon
                  exact absurd rfl hcon
              have := hnr hfalse
              rw [Blk.count_node] at this
              omega
          by_cases hi0 : 0 < i
          · -- merge with the left sibling
            have hj' : i - 1 + 1 < es.length := by omega
            have hgetl : es.get? (i - 1) = some (es.getD (i - 1) default) :=
              get?_getD_of_lt (by omega)
            have hcel := hent _ (List.get?_mem hgetl)
            have hsibl : (es.getD (i - 1) default).2.count = MIN := by
              have hge := wf_nonroot_count_ge hcel.1
              have hnlt : ¬ MIN < (es.getD (i - 1) default).2.count :=
                fun hlt => hbl ⟨hi0, hlt⟩
              omega
            have hncol : ¬(root = true ∧ es.length = 2) := by
              rintro ⟨hroot, hl2⟩
              have hor := hrt hroot es rfl hl2
              have hieq : i = 1 := by omega
              rw [hieq] at hc
              rw [hieq, show (1 : Nat) - 1 = 0 from rfl] at hsibl
              rcases hor with hgt | hgt
              · rw [hsibl] at hgt
                omega
              · rw [hc] at hgt
                omega
            have hlenif : if root = true then 3 ≤ es.length
                else MIN + 1 ≤ es.length := by
              by_cases hroot : root = true
              · rw [if_pos hroot]
                have hne2 : es.length ≠ 2 := fun hl2 => hncol ⟨hroot, hl2⟩
                omega
              · rw [if_neg hroot]
                have hfalse : root = false := by
                  revert hroot
                  cases root
                  · intro _
                    rfl
                  · intro hcon
                    exact absurd rfl hcon
                have := hnr hfalse
                rw [Blk.count_node] at this
                omega
            have hcnt1 : MIN ≤ (es.getD (i - 1) default).2.count +
                (es.getD (i - 1 + 1) default).2.count := by
              rw [show i - 1 + 1 = i from by omega, hsibl, hc]
              omega
            have hcnt2 : (es.getD (i - 1) default).2.count +
                (es.getD (i - 1 + 1) default).2.count ≤ 2 * MIN := by
              rw [show i - 1 + 1 = i from by omega, hsibl, hc]
              omega
            obtain ⟨m1, m2, m3, m4, p5, p6, p7, p8, p9⟩ :=
              merge_parent_ok ord hMIN hwf hj' hcnt1 hcnt2 hlenif
            have hkeyM : key ∈ (mergeBlk (es.getD (i - 1) default).2
                (es.getD (i - 1 + 1) default).2).fkeys := by
              rw [m4, show i - 1 + 1 = i from by omega]
              exact List.mem_append_right _ hkey
            have hMcnt : MIN < (mergeBlk (es.getD (i - 1) default).2
                (es.getD (i - 1 + 1) default).2).count := by
              rw [m3, show i - 1 + 1 = i from by omega, hsibl, hc]
              omega
            have hstep : removeB lt MIN key (f + 1) root (Blk.node es) =
                remDescend ((es.set (i - 1)
                    ((mergeBlk (es.getD (i - 1) default).2
                      (es.getD (i - 1 + 1) default).2).lastKeyD,
                     mergeBlk (es.getD (i - 1) default).2
                       (es.getD (i - 1 + 1) default).2)).eraseIdx
                      (i - 1 + 1)) (i - 1)
                  (removeB lt MIN key f false
                    (mergeBlk (es.getD (i - 1) default).2
                      (es.getD (i - 1 + 1) default).2)) := by
              simp only [removeB]
              rw [hidef, if_pos hc, if_neg hbl, if_neg hbr, if_pos hi0,
                if_neg hncol]
            have hpkgM := IH f (by omega) m1 (fun _ => hMcnt)
              (fun hcon => absurd hcon (by simp)) hkeyM (by omega)
            rw [hstep]
            exact pkg_transfer ord p6 p7
              (descend_step_ok ord hMIN p5 (by rw [p8]; omega)
                (by rw [p9]; exact hMcnt) (by rw [p9]; exact hpkgM))
          · -- merge with the right sibling
            have hj' : i + 1 < es.length := by omega
            have hgetr : es.get? (i + 1) = some (es.getD (i + 1) default) :=
              get?_getD_of_lt hj'
            have hcer := hent _ (List.get?_mem hgetr)
            have hsibr : (es.getD (i + 1) default).2.count = MIN := by
              have hge := wf_nonroot_count_ge hcer.1
              have hnlt : ¬ MIN < (es.getD (i + 1) default).2.count :=
                fun hlt => hbr ⟨hj', hlt⟩
              omega
            have hncol : ¬(root = true ∧ es.length = 2) := by
              rintro ⟨hroot, hl2⟩
              have hor := hrt hroot es rfl hl2
              have hieq : i = 0 := by omega
              rw [hieq] at hc
              rw [hieq, show (0 : Nat) + 1 = 1 from rfl] at hsibr
              rcases hor with hgt | hgt
              · rw [hc] at hgt
                omega
              · rw [hsibr] at hgt
                omega
            have hlenif : if root = true then 3 ≤ es.length
                else MIN + 1 ≤ es.length := by
              by_cases hroot : root = true
              · rw [if_pos hroot]
                have hne2 : es.length ≠ 2 := fun hl2 => hncol ⟨hroot, hl2⟩
                omega
              · rw [if_neg hroot]
                have hfalse : root = false := by
                  revert hroot
                  cases root
                  · intro _
                    rfl
                  · intro hcon
                    exact absurd rfl hcon
                have := hnr hfalse
                rw [Blk.count_node] at this
                omega
            have hcnt1 : MIN ≤ (es.getD i default).2.count +
                (es.getD (i + 1) default).2.count := by
              rw [hsibr, hc]
              omega
            have hcnt2 : (es.getD i default).2.count +
                (es.getD (i + 1) default).2.count ≤ 2 * MIN := by
              rw [hsibr, hc]
              omega
            obtain ⟨m1, m2, m3, m4, p5, p6, p7, p8, p9⟩ :=
              merge_parent_ok ord hMIN hwf hj' hcnt1 hcnt2 hlenif
            have hkeyM : key ∈ (mergeBlk (es.getD i default).2
                (es.getD (i + 1) default).2).fkeys := by
              rw [m4]
              exact List.mem_append_left _ hkey
            have hMcnt : MIN < (mergeBlk (es.getD i default).2
                (es.getD (i + 1) default).2).count := by
              rw [m3, hsibr, hc]
              omega
            have hstep : removeB lt MIN key (f + 1) root (Blk.node es) =
                remDescend ((es.set i
                    ((mergeBlk (es.getD i default).2
                      (es.getD (i + 1) default).2).lastKeyD,
                     mergeBlk (es.getD i default).2
                       (es.getD (i + 1) default).2)).eraseIdx (i + 1)) i
                  (removeB lt MIN key f false
                    (mergeBlk (es.getD i default).2
                      (es.getD (i + 1) default).2)) := by
              simp only [removeB]
              rw [hidef, if_pos hc, if_neg hbl, if_neg hbr, if_neg hi0,
                if_neg hncol]
            have hpkgM := IH f (by omega) m1 (fun _ => hMcnt)
              (fun hcon => absurd hcon (by simp)) hkeyM (by omega)
            rw [hstep]
            exact pkg_transfer ord p6 p7
              (descend_step_ok ord hMIN p5 (by rw [p8]; omega)
                (by rw [p9]; exact hMcnt) (by rw [p9]; exact hpkgM))
    · -- the chosen child has surplus: plain descent
      have hcnt : MIN < (es.getD i default).2.count := by
        have := wf_nonroot_count_ge hcei.1
        omega
      have hstep : removeB lt MIN key (f + 1) root (Blk.node es) =
          remDescend es i (removeB lt MIN key f false
            (es.getD i default).2) := by
        simp only [removeB]
        rw [hidef, if_neg hc]
      rw [hstep]
      exact descend_step_ok ord hMIN hwf hi hcnt
        (IH f (by omega) hcei.1 (fun _ => hcnt)
          (fun hcon => absurd hcon (by simp)) hkey (by omega))



/-- A non-root well-formed block with at least two entries is also a valid
root. -/
theorem wf_root_of_nonroot {h : Nat} {b : Blk K V}
    (hwf : WfN lt MIN h false b) (h2 : 2 ≤ b.count) :
    WfN lt MIN h true b := by
  cases b with
  | leaf es =>
    cases h with
    | zero =>
      obtain ⟨_, hhi, hs⟩ := WfN_leaf_iff.1 hwf
      exact WfN_leaf_iff.2 ⟨Or.inl rfl, hhi, hs⟩
    | succ hh => exact absurd hwf (by simp)
  | node es =>
    cases h with
    | zero => exact absurd hwf (by simp)
    | succ hh =>
      obtain ⟨_, hhi, hent, hp⟩ := WfN_node_iff.1 hwf
      rw [Blk.count_node] at h2
      exact WfN_node_iff.2 ⟨by rw [if_pos rfl]; exact h2, hhi, hent, hp⟩

/-- Stepping the cursor to the start of the next leaf preserves the rank when
the current leaf is exhausted. -/
theorem lbRank_succ_zero {ls : List (List (K × V))} {p : Nat}
    (hp : p < ls.length) :
    lbRank ls (p + 1) 0 = lbRank ls p ((ls.getD p []).length) := by
  unfold lbRank
  have hg : ls[p]? = some (ls.getD p []) := by
    rw [← List.get?_eq_getElem?]
    exact get?_getD_of_lt hp
  rw [List.take_succ, hg]
  simp

/-- The rank, the room left in the current leaf and the entries of later
leaves partition the stored entries. -/
theorem rank_total_split {ls : List (List (K × V))} {p i₂ : Nat}
    (hp : p < ls.length) (hi : i₂ ≤ (ls.getD p []).length) :
    lbRank ls p i₂ + ((ls.drop (p + 1)).map List.length).sum +
      ((ls.getD p []).length - i₂) = (ls.map List.length).sum := by
  have hdec : ls = ls.take p ++ (ls.getD p []) :: ls.drop (p + 1) := by
    conv_lhs => rw [← List.take_append_drop p ls,
      drop_eq_cons_of_get? (get?_getD_of_lt hp)]
    rfl
  conv_rhs => rw [hdec]
  rw [List.map_append, List.sum_append, List.map_cons, List.sum_cons]
  unfold lbRank
  omega

/-- The cursor normalization of `nghttp3_ksl_remove`: given the removal
package of the loop, the returned iterator addresses the removed key's
successor, or equals `end()` when the greatest key was removed. -/
theorem remove_post_ok (ord : LtOrder lt) (hMIN : 1 ≤ MIN) {key : K}
    {H : Nat} {c' : Blk K V} {p i₂ : Nat} {b0 : Blk K V}
    (hwf0 : WfN lt MIN H true b0)
    (hpkg : RemPkg lt MIN key H true b0 (c', p, i₂)) :
    ∃ (d : V) (A B : List (K × V)),
      b0.flat = A ++ (key, d) :: B ∧
      c'.flat = A ++ B ∧
      WfN lt MIN H true c' ∧
      ∀ it : KslIt K V,
        it = (if i₂ = (c'.leafBlocks.getD p []).length ∧
            p + 1 < c'.leafBlocks.length then
          (⟨c'.leafBlocks, p + 1, 0⟩ : KslIt K V)
        else ⟨c'.leafBlocks, p, i₂⟩) →
        it.leaves = c'.leafBlocks ∧
        (B = [] → nghttp3_ksl_it_end it = true) ∧
        (∀ e ∈ B.head?, nghttp3_ksl_it_key it = some e.1 ∧
          nghttp3_ksl_it_get it = some e.2) := by
  obtain ⟨d, A, B, p1, p2, p3, p4, p5, p6, p7⟩ := hpkg
  simp only [] at p2 p3 p4 p5 p6 p7
  refine ⟨d, A, B, p1, p2, p3, ?_⟩
  intro it hit
  have hjoin : c'.leafBlocks.join = A ++ B := by
    rw [← Blk.flat_eq_join_leafBlocks, p2]
  have htot : (c'.leafBlocks.map List.length).sum = A.length + B.length := by
    have h1 := Blk.length_flat_eq_sum c'
    rw [p2, List.length_append] at h1
    omega
  have hsplit := rank_total_split p5 p6
  rw [p7, htot] at hsplit
  cases B with
  | cons b1 B' =>
    have hfne : c'.flat ≠ [] := by
      rw [p2]
      simp
    have hlne := wf_head_leafBlocks_ne_nil hMIN p3 hfne
    have hget : c'.leafBlocks.join.get? A.length = some b1 := by
      rw [hjoin, List.get?_append_right (by omega)]
      simp
    by_cases hnorm : i₂ = (c'.leafBlocks.getD p []).length ∧
        p + 1 < c'.leafBlocks.length
    · rw [if_pos hnorm] at hit
      subst hit
      have hplen : p + 1 < c'.leafBlocks.length := hnorm.2
      have hlp1ne : c'.leafBlocks.getD (p + 1) [] ≠ [] := by
        have hg1 := get?_getD_of_lt hplen
        rw [show (default : List (K × V)) = [] from rfl] at hg1
        exact hlne _ (List.get?_mem hg1)
      have hlp1pos : 0 < (c'.leafBlocks.getD (p + 1) []).length := by
        cases hx : c'.leafBlocks.getD (p + 1) [] with
        | nil => exact absurd hx hlp1ne
        | cons a l => simp [hx]
      have hrank1 : lbRank c'.leafBlocks (p + 1) 0 = A.length := by
        rw [lbRank_succ_zero p5, ← hnorm.1, p7]
      have hval : (c'.leafBlocks.getD (p + 1) []).get? 0 = some b1 := by
        rw [← join_get?_rank _ _ _ hplen hlp1pos, hrank1, hget]
      refine ⟨rfl, ?_, ?_⟩
      · intro hBnil
        cases hBnil
      · intro e he
        rw [List.head?_cons, Option.mem_def] at he
        obtain rfl := Option.some.inj he
        constructor
        · rw [nghttp3_ksl_it_key]
          simp only []
          rw [hval, Option.map_some']
        · rw [nghttp3_ksl_it_get]
          simp only []
          rw [hval, Option.map_some']
    · rw [if_neg hnorm] at hit
      subst hit
      have hi2lt : i₂ < (c'.leafBlocks.getD p []).length := by
        rcases Nat.lt_or_ge i₂ (c'.leafBlocks.getD p []).length with hlt | hge
        · exact hlt
        · exfalso
          have hi2eq : i₂ = (c'.leafBlocks.getD p []).length := by omega
          have hnp : ¬ p + 1 < c'.leafBlocks.length :=
            fun hlt2 => hnorm ⟨hi2eq, hlt2⟩
          have hdnil : c'.leafBlocks.drop (p + 1) = [] := by
            rw [List.drop_eq_nil_iff_le]
            omega
          rw [hdnil] at hsplit
          rw [List.map_nil, List.sum_nil, List.length_cons] at hsplit
          omega
      have hval : (c'.leafBlocks.getD p []).get? i₂ = some b1 := by
        rw [← join_get?_rank _ _ _ p5 hi2lt, p7, hget]
      refine ⟨rfl, ?_, ?_⟩
      · intro hBnil
        cases hBnil
      · intro e he
        rw [List.head?_cons, Option.mem_def] at he
        obtain rfl := Option.some.inj he
        constructor
        · rw [nghttp3_ksl_it_key]
          simp only []
          rw [hval, Option.map_some']
        · rw [nghttp3_ksl_it_get]
          simp only []
          rw [hval, Option.map_some']
  | nil =>
    rw [List.length_nil] at hsplit
    refine ⟨?_, ?_, ?_⟩
    · rw [hit]
      by_cases hnorm : i₂ = (c'.leafBlocks.getD p []).length ∧
          p + 1 < c'.leafBlocks.length
      · rw [if_pos hnorm]
      · rw [if_neg hnorm]
    · intro _
      by_cases hA : A = []
      · have hfnil : c'.flat = [] := by
          rw [p2, hA]
          rfl
        have hcl : c' = Blk.leaf [] := wf_flat_nil_eq hMIN p3 hfnil
        subst hcl
        have hp0 : p = 0 := by
          have hpc := p5
          rw [show (Blk.leaf ([] : List (K × V)) : Blk K V).leafCount = 1
            from rfl] at hpc
          omega
        have hi20 : i₂ = 0 := by
          have hic := p6
          rw [hp0] at hic
          simpa using hic
        rw [hp0, hi20] at hit
        rw [if_neg (by simp)] at hit
        subst hit
        rfl
      · have hfne : c'.flat ≠ [] := by
          rw [p2, List.append_nil]
          exact hA
        have hlne := wf_head_leafBlocks_ne_nil hMIN p3 hfne
        have hnp : ¬ p + 1 < c'.leafBlocks.length := by
          intro hlt2
          have hlp1ne : c'.leafBlocks.getD (p + 1) [] ≠ [] := by
            have hg1 := get?_getD_of_lt hlt2
            rw [show (default : List (K × V)) = [] from rfl] at hg1
            exact hlne _ (List.get?_mem hg1)
          have hdc : c'.leafBlocks.drop (p + 1) =
              (c'.leafBlocks.getD (p + 1) []) ::
                c'.leafBlocks.drop (p + 2) := by
            have := drop_eq_cons_of_get? (get?_getD_of_lt hlt2)
            rwa [show (default : List (K × V)) = [] from rfl] at this
          rw [hdc] at hsplit
          rw [List.map_cons, List.sum_cons] at hsplit
          have hlp1pos : 0 < (c'.leafBlocks.getD (p + 1) []).length := by
            cases hx : c'.leafBlocks.getD (p + 1) [] with
            | nil => exact absurd hx hlp1ne
            | cons a l => simp [hx]
          omega
        have hi2eq : i₂ = (c'.leafBlocks.getD p []).length := by
          have hdnil : c'.leafBlocks.drop (p + 1) = [] := by
            rw [List.drop_eq_nil_iff_le]
            omega
          rw [hdnil] at hsplit
          rw [List.map_nil, List.sum_nil] at hsplit
          omega
        rw [if_neg (fun hcon => hnp hcon.2)] at hit
        subst hit
        rw [nghttp3_ksl_it_end]
        simp only [KslIt.curLen]
        rw [← hi2eq]
        have hplen : p + 1 = c'.leafBlocks.length := by
          have hpc := p5
          rw [show c'.leafCount = c'.leafBlocks.length from rfl] at hpc
          omega
        rw [hplen]
        simp
    · intro e he
      cases he



/-- Assembling `nghttp3_ksl_remove` from the loop package, given the block
the call actually descends from (the head, or the pre-merged root). -/
theorem remove_assemble (ord : LtOrder lt) (hMIN1 : 1 ≤ MIN)
    {t : Ksl K V} {key : K} {B0 : Blk K V} {H : Nat}
    (hwf0 : WfN lt MIN H true B0)
    (hb0 : (if (!t.head.isLeaf) = true ∧ t.head.count = 2 ∧
        (t.head.children.getD 0 default).2.count = MIN ∧
        (t.head.children.getD 1 default).2.count = MIN then
          mergeBlk (t.head.children.getD 0 default).2
            (t.head.children.getD 1 default).2
        else t.head) = B0)
    (hflat0 : B0.flat = t.head.flat)
    (hexcl : ∀ es2, B0 = Blk.node es2 → es2.length = 2 →
      MIN < (es2.getD 0 default).2.count ∨
      MIN < (es2.getD 1 default).2.count)
    (hmem0 : key ∈ B0.fkeys)
    (hn : t.n = t.head.flat.length) :
    ∃ (d : V) (A B : List (K × V)),
      t.head.flat = A ++ (key, d) :: B ∧
      (nghttp3_ksl_remove lt MIN t key).1.head.flat = A ++ B ∧
      WfK lt MIN (nghttp3_ksl_remove lt MIN t key).1 ∧
      (nghttp3_ksl_remove lt MIN t key).1.n = t.n - 1 ∧
      (nghttp3_ksl_remove lt MIN t key).2.leaves =
        (nghttp3_ksl_remove lt MIN t key).1.head.leafBlocks ∧
      (B = [] → nghttp3_ksl_it_end
        (nghttp3_ksl_remove lt MIN t key).2 = true) ∧
      (∀ e ∈ B.head?,
        nghttp3_ksl_it_key (nghttp3_ksl_remove lt MIN t key).2 =
          some e.1 ∧
        nghttp3_ksl_it_get (nghttp3_ksl_remove lt MIN t key).2 =
          some e.2) := by
  have hH := wf_height hMIN1 H hwf0
  have pkg := removeB_ok ord hMIN1 key (2 * B0.height + 2) hwf0
    (fun hcon => absurd hcon (by simp)) (fun _ => hexcl) hmem0
    (by rw [hH])
  have post := remove_post_ok ord hMIN1 hwf0
    (show RemPkg lt MIN key H true B0
      ((removeB lt MIN key (2 * B0.height + 2) true B0).1,
       (removeB lt MIN key (2 * B0.height + 2) true B0).2.1,
       (removeB lt MIN key (2 * B0.height + 2) true B0).2.2) from pkg)
  obtain ⟨d, A, B, q1, q2, q3, q4⟩ := post
  obtain ⟨w1, w2, w3⟩ := q4 _ rfl
  have hunf : nghttp3_ksl_remove lt MIN t key =
      (⟨(removeB lt MIN key (2 * B0.height + 2) true B0).1, t.n - 1⟩,
       if (removeB lt MIN key (2 * B0.height + 2) true B0).2.2 =
           ((removeB lt MIN key (2 * B0.height + 2) true
             B0).1.leafBlocks.getD
             (removeB lt MIN key (2 * B0.height + 2) true B0).2.1
             []).length ∧
           (removeB lt MIN key (2 * B0.height + 2) true B0).2.1 + 1 <
           (removeB lt MIN key (2 * B0.height + 2) true
             B0).1.leafBlocks.length then
         (⟨(removeB lt MIN key (2 * B0.height + 2) true B0).1.leafBlocks,
           (removeB lt MIN key (2 * B0.height + 2) true B0).2.1 + 1, 0⟩
           : KslIt K V)
       else
         ⟨(removeB lt MIN key (2 * B0.height + 2) true B0).1.leafBlocks,
          (removeB lt MIN key (2 * B0.height + 2) true B0).2.1,
          (removeB lt MIN key (2 * B0.height + 2) true B0).2.2⟩) := by
    simp only [nghttp3_ksl_remove]
    rw [hb0]
  have hflen : t.head.flat.length = A.length + B.length + 1 := by
    have := congrArg List.length q1
    rw [hflat0] at this
    rw [this]
    simp
    omega
  have hflen2 : (removeB lt MIN key (2 * B0.height + 2) true
      B0).1.flat.length = A.length + B.length := by
    rw [q2, List.length_append]
  refine ⟨d, A, B, by rw [← hflat0]; exact q1, ?_, ?_, ?_, ?_, ?_, ?_⟩
  · rw [hunf]
    exact q2
  · rw [hunf]
    refine ⟨?_, ?_⟩
    · show WfN lt MIN
        (removeB lt MIN key (2 * B0.height + 2) true B0).1.height true
        (removeB lt MIN key (2 * B0.height + 2) true B0).1
      rw [wf_height hMIN1 H q3]
      exact q3
    · show t.n - 1 = (removeB lt MIN key (2 * B0.height + 2) true
        B0).1.flat.length
      rw [hflen2, hn, hflen]
      omega
  · rw [hunf]
  · rw [hunf]
    exact w1
  · rw [hunf]
    exact w2
  · rw [hunf]
    exact w3



/-- `nghttp3_ksl_remove` on a container holding the key: the keyed entry is
removed and nothing else, the container stays well formed, `ksl->n` drops by
one, and the returned iterator addresses the removed key's successor (or
`end()` when the greatest key was removed). -/
theorem nghttp3_ksl_remove_ok (ord : LtOrder lt) (hMIN : 2 ≤ MIN)
    {t : Ksl K V} (hwfk : WfK lt MIN t) {key : K}
    (hmem : key ∈ t.head.fkeys) :
    ∃ (d : V) (A B : List (K × V)),
      t.head.flat = A ++ (key, d) :: B ∧
      (nghttp3_ksl_remove lt MIN t key).1.head.flat = A ++ B ∧
      WfK lt MIN (nghttp3_ksl_remove lt MIN t key).1 ∧
      (nghttp3_ksl_remove lt MIN t key).1.n = t.n - 1 ∧
      (nghttp3_ksl_remove lt MIN t key).2.leaves =
        (nghttp3_ksl_remove lt MIN t key).1.head.leafBlocks ∧
      (B = [] → nghttp3_ksl_it_end
        (nghttp3_ksl_remove lt MIN t key).2 = true) ∧
      (∀ e ∈ B.head?,
        nghttp3_ksl_it_key (nghttp3_ksl_remove lt MIN t key).2 =
          some e.1 ∧
        nghttp3_ksl_it_get (nghttp3_ksl_remove lt MIN t key).2 =
          some e.2) := by
  obtain ⟨hwf, hn⟩ := hwfk
  have hMIN1 : 1 ≤ MIN := by omega
  by_cases hpre : (!t.head.isLeaf) = true ∧ t.head.count = 2 ∧
      (t.head.children.getD 0 default).2.count = MIN ∧
      (t.head.children.getD 1 default).2.count = MIN
  · -- the 2-child both-minimal root is merged before the descent
    have hnl := hpre.1
    rcases hhd : t.head with es | es
    · rw [hhd] at hnl
      simp [Blk.isLeaf] at hnl
    · have h2 := hpre.2.1
      rw [hhd, Blk.count_node] at h2
      obtain ⟨⟨k0, c0⟩, ⟨k1, c1⟩, rfl⟩ :
          ∃ e0 e1, es = [e0, e1] := by
        cases es with
        | nil => simp at h2
        | cons a tl =>
          cases tl with
          | nil => simp at h2
          | cons b tl2 =>
            cases tl2 with
            | nil => exact ⟨a, b, rfl⟩
            | cons c tl3 =>
              rw [List.length_cons, List.length_cons, List.length_cons]
                at h2
              omega
      have hch : t.head.children = [(k0, c0), (k1, c1)] := by
        rw [hhd]
        rfl
      have hc0 : c0.count = MIN := by
        have hx := hpre.2.2.1
        rw [hch] at hx
        simpa using hx
      have hc1 : c1.count = MIN := by
        have hx := hpre.2.2.2
        rw [hch] at hx
        simpa using hx
      rw [hhd] at hwf
      rcases hHd : (Blk.node [(k0, c0), (k1, c1)] : Blk K V).height
        with _ | h0
      · rw [hHd] at hwf
        exact absurd hwf (by simp)
      · rw [hHd] at hwf
        obtain ⟨hlo, hhi, hent, hp⟩ := WfN_node_iff.1 hwf
        obtain ⟨hwf0, hge0, hne0, hdom0⟩ :=
          hent (k0, c0) (by simp)
        obtain ⟨hwf1, hge1, hne1, hdom1⟩ :=
          hent (k1, c1) (by simp)
        have hrel := (List.pairwise_cons.1 hp).1 (k1, c1) (by simp)
        have hsl : ∀ s ∈ c0.keyList, ∀ y ∈ c1.fkeys, lt s y = true :=
          fun s hs y hy =>
            ord.leLt (entry_keyList_ge ord hwf0 hdom0 s hs) (hrel.2 y hy)
        obtain ⟨m1, m2, m3, m4, m5⟩ := mergeBlk_facts ord hMIN1 hwf0 hwf1
          (by rw [hc0, hc1]; omega) (by rw [hc0, hc1]; omega) hsl
        have hwfM : WfN lt MIN h0 true (mergeBlk c0 c1) :=
          wf_root_of_nonroot m1 (by rw [m4, hc0, hc1]; omega)
        rw [← hhd]
        refine remove_assemble ord hMIN1 hwfM ?_ ?_ ?_ ?_ hn
        · rw [if_pos hpre, hch]
          rfl
        · rw [m2, hhd]
          simp
        · intro es2 hMeq hlen2
          rw [hMeq, Blk.count_node, hlen2, hc0, hc1] at m4
          omega
        · rw [m5]
          rw [hhd] at hmem
          rw [Blk.fkeys_node_cons, Blk.fkeys_node_cons] at hmem
          simpa using hmem
  · -- the head is descended from directly
    refine remove_assemble ord hMIN1 hwf (by rw [if_neg hpre]) rfl ?_
      hmem hn
    intro es2 heq hlen2
    by_contra hno
    rw [not_or] at hno
    obtain ⟨hn0, hn1⟩ := hno
    rw [heq] at hwf
    rcases hHd : (Blk.node es2 : Blk K V).height with _ | h0
    · rw [hHd] at hwf
      exact absurd hwf (by simp)
    · rw [hHd] at hwf
      obtain ⟨_, _, hent, _⟩ := WfN_node_iff.1 hwf
      have hg0 : es2.get? 0 = some (es2.getD 0 default) :=
        get?_getD_of_lt (by omega)
      have hg1 : es2.get? 1 = some (es2.getD 1 default) :=
        get?_getD_of_lt (by omega)
      have hw0 := wf_nonroot_count_ge (hent _ (List.get?_mem hg0)).1
      have hw1 := wf_nonroot_count_ge (hent _ (List.get?_mem hg1)).1
      have hch2 : t.head.children = es2 := by
        rw [heq]
        rfl
      apply hpre
      refine ⟨?_, ?_, ?_, ?_⟩
      · rw [heq]
        rfl
      · rw [heq, Blk.count_node, hlen2]
      · rw [hch2]
        omega
      · rw [hch2]
        omega


end RemoveProof


end NgKsl


namespace NgKsl

/-! ## Facts about the concrete comparator -/

theorem natLt_order : LtOrder natLt := by
  refine ⟨?_, ?_, ?_⟩
  · intro a
    simp [natLt]
  · intro a b c h1 h2
    simp only [natLt, decide_eq_true_eq] at h1 h2 ⊢
    omega
  · intro a b h1 h2
    simp only [natLt, decide_eq_false_iff_not] at h1 h2
    omega

end NgKsl

/-! # Claims -/

/-- C2: on every well-formed container with stored key set `S` and query key
`k`, `nghttp3_ksl_lower_bound` returns the `end()` iterator when every key of
`S` is less than `k` under the tree's comparator, and otherwise returns an
iterator positioned at the smallest key of `S` that is not less than `k`. -/
theorem claim_C2 {K V : Type} [Inhabited K] [Inhabited V]
    (lt : K → K → Bool) (MIN : Nat) (ord : NgKsl.LtOrder lt) (hMIN : 1 ≤ MIN)
    (t : NgKsl.Ksl K V) (hwf : NgKsl.WfK lt MIN t) (key : K) :
    ((∀ x ∈ t.head.fkeys, lt x key = true) →
      NgKsl.nghttp3_ksl_lower_bound lt t key = NgKsl.nghttp3_ksl_end t) ∧
    (∀ s ∈ t.head.fkeys, lt s key = false →
      (∀ x ∈ t.head.fkeys, lt x key = false → lt x s = false) →
      NgKsl.nghttp3_ksl_it_key (NgKsl.nghttp3_ksl_lower_bound lt t key) =
        some s) := by
  have hc := NgKsl.lower_bound_cases ord hMIN t hwf key
  constructor
  · intro hall
    rcases hc with ⟨heq, _⟩ | ⟨s, _, hmem, hge, _⟩
    · exact heq
    · exfalso
      have h2 := hall s hmem
      rw [hge] at h2
      cases h2
  · intro s hmem hge hmin
    rcases hc with ⟨_, hall⟩ | ⟨s2, hkey2, hmem2, hge2, hmin2⟩
    · exfalso
      have h2 := hall s hmem
      rw [hge] at h2
      cases h2
    · rw [hkey2]
      exact congrArg some
        (ord.conn s2 s (hmin s2 hmem2 hge2) (hmin2 s hmem hge))

/-- Witness for C2: in the container holding keys 1..4, the lower bound of 3
is the cursor at key 3. -/
theorem claim_C2_witness :
    NgKsl.nghttp3_ksl_it_key (NgKsl.nghttp3_ksl_lower_bound NgKsl.natLt
      ⟨NgKsl.Blk.leaf [(1, 10), (2, 20), (3, 30), (4, 40)], 4⟩ 3) =
      some 3 := by
  refine (claim_C2 NgKsl.natLt 2 NgKsl.natLt_order (by decide)
    ⟨NgKsl.Blk.leaf [(1, 10), (2, 20), (3, 30), (4, 40)], 4⟩ ?_ 3).2
    3 (by decide) (by decide) (by decide)
  refine ⟨?_, by decide⟩
  show NgKsl.WfN NgKsl.natLt 2 0 true
    (NgKsl.Blk.leaf [(1, 10), (2, 20), (3, 30), (4, 40)])
  rw [NgKsl.WfN_leaf_iff]
  exact ⟨Or.inl rfl, by decide, by decide⟩

/-- C8: the strict range comparator returns true exactly when
`a.begin < b.begin`; the overlap-aware exclusive range comparator returns true
exactly when `a.begin < b.begin` and the half-open intervals do not overlap
(`¬(max(a.begin, b.begin) < min(a.end, b.end))`), so two overlapping intervals
compare as equivalent (neither is less than the other). -/
theorem claim_C8 :
    (∀ a b : NgKsl.NgRange,
      NgKsl.nghttp3_ksl_range_compar a b = true ↔ a.rb < b.rb) ∧
    (∀ a b : NgKsl.NgRange,
      NgKsl.nghttp3_ksl_range_exclusive_compar a b = true ↔
        (a.rb < b.rb ∧ ¬ (max a.rb b.rb < min a.re b.re))) ∧
    (∀ a b : NgKsl.NgRange, max a.rb b.rb < min a.re b.re →
      NgKsl.nghttp3_ksl_range_exclusive_compar a b = false ∧
      NgKsl.nghttp3_ksl_range_exclusive_compar b a = false) := by
  refine ⟨?_, ?_, ?_⟩
  · intro a b
    simp [NgKsl.nghttp3_ksl_range_compar]
  · intro a b
    rw [show NgKsl.nghttp3_ksl_range_exclusive_compar a b =
      (decide (a.rb < b.rb) && !decide (max a.rb b.rb < min a.re b.re))
      from rfl]
    rw [Bool.and_eq_true, decide_eq_true_eq, Bool.not_eq_true',
      decide_eq_false_iff_not]
  · intro a b hov
    have hov2 : max b.rb a.rb < min b.re a.re := by omega
    constructor
    · simp [NgKsl.nghttp3_ksl_range_exclusive_compar, hov]
    · simp [NgKsl.nghttp3_ksl_range_exclusive_compar, hov2]

/-- Witness for C8: the overlapping intervals [0,10) and [5,15) are
equivalent under the exclusive comparator. -/
theorem claim_C8_witness :
    NgKsl.nghttp3_ksl_range_exclusive_compar ⟨0, 10⟩ ⟨5, 15⟩ = false ∧
    NgKsl.nghttp3_ksl_range_exclusive_compar ⟨5, 15⟩ ⟨0, 10⟩ = false :=
  claim_C8.2.2 ⟨0, 10⟩ ⟨5, 15⟩ (by decide)

/-- C10: a successful `nghttp3_ksl_insert` returns, through the iterator
out-parameter, an iterator that is not at `end()`, whose key is the inserted
key and whose dereferenced datum is exactly the inserted data pointer. -/
theorem claim_C10 {K V : Type} [Inhabited K] [Inhabited V]
    {lt : K → K → Bool} {MIN : Nat} (ord : NgKsl.LtOrder lt)
    (hMIN : 2 ≤ MIN) (t : NgKsl.Ksl K V) (hwf : NgKsl.WfK lt MIN t)
    (key : K) (data : V) (hnm : key ∉ t.head.fkeys) :
    ∃ t' it, NgKsl.nghttp3_ksl_insert lt MIN t key data [] =
        NgKsl.KIns.ok t' it ∧
      NgKsl.nghttp3_ksl_it_end it = false ∧
      NgKsl.nghttp3_ksl_it_key it = some key ∧
      NgKsl.nghttp3_ksl_it_get it = some data := by
  obtain ⟨t', it, A, B, heq, _, _, _, _, _, _, _, hkey, hget⟩ :=
    NgKsl.nghttp3_ksl_insert_ok ord hMIN t hwf key data hnm
  refine ⟨t', it, heq, ?_, hkey, hget⟩
  have hne : (it.curLen == it.i) = false := by
    cases hb : it.curLen == it.i with
    | false => rfl
    | true =>
      exfalso
      have heqi : it.curLen = it.i := by
        rwa [beq_iff_eq] at hb
      have hnone : ((it.leaves.getD it.p []).get? it.i) = none := by
        rw [List.get?_eq_none]
        exact le_of_eq heqi
      rw [NgKsl.nghttp3_ksl_it_key, hnone] at hkey
      cases hkey
  rw [NgKsl.nghttp3_ksl_it_end, hne, Bool.false_and]

/-- C10 witness: inserting key 5 with datum 50 into the two-entry container
`{1 ↦ 10, 2 ↦ 20}` (MIN = 2) returns an iterator at the new entry. -/
theorem claim_C10_witness :
    NgKsl.WfK NgKsl.natLt 2
      (⟨NgKsl.Blk.leaf [(1, 10), (2, 20)], 2⟩ : NgKsl.Ksl Nat Nat) ∧
    (5 : Nat) ∉ (⟨NgKsl.Blk.leaf [(1, 10), (2, 20)], 2⟩ :
      NgKsl.Ksl Nat Nat).head.fkeys ∧
    ∃ t' it, NgKsl.nghttp3_ksl_insert NgKsl.natLt 2
        (⟨NgKsl.Blk.leaf [(1, 10), (2, 20)], 2⟩ : NgKsl.Ksl Nat Nat) 5 50
        [] = NgKsl.KIns.ok t' it ∧
      NgKsl.nghttp3_ksl_it_end it = false ∧
      NgKsl.nghttp3_ksl_it_key it = some 5 ∧
      NgKsl.nghttp3_ksl_it_get it = some 50 := by
  have hwf : NgKsl.WfK NgKsl.natLt 2
      (⟨NgKsl.Blk.leaf [(1, 10), (2, 20)], 2⟩ : NgKsl.Ksl Nat Nat) := by
    constructor
    · show NgKsl.WfN NgKsl.natLt 2 0 true
        (NgKsl.Blk.leaf [(1, 10), (2, 20)])
      rw [NgKsl.WfN_leaf_iff]
      decide
    · decide
  have hnm : (5 : Nat) ∉ (⟨NgKsl.Blk.leaf [(1, 10), (2, 20)], 2⟩ :
      NgKsl.Ksl Nat Nat).head.fkeys := by decide
  exact ⟨hwf, hnm,
    claim_C10 NgKsl.natLt_order (by decide) _ hwf 5 50 hnm⟩

/-- C1 (amended): an allocation failure inside `nghttp3_ksl_insert` is
reported as out-of-memory with `ksl->n` (`len()`) unchanged; when the head
is not full (so no root split is attempted) the stored entry sequence is
also unchanged; and when the first allocation of the root split fails the
container is fully unchanged.  (When the root split's second allocation
fails, the upper half of the root's entries is lost — see the
counterexample.) -/
theorem claim_C1 {K V : Type} [Inhabited K] [Inhabited V]
    {lt : K → K → Bool} {MIN : Nat} (ord : NgKsl.LtOrder lt)
    (hMIN : 1 ≤ MIN) (t : NgKsl.Ksl K V) (hwf : NgKsl.WfK lt MIN t)
    (key : K) (data : V) :
    (∀ (os : List Bool) (t' : NgKsl.Ksl K V),
      NgKsl.nghttp3_ksl_insert lt MIN t key data os = NgKsl.KIns.oom t' →
      t'.n = t.n) ∧
    (t.head.count ≠ 2 * MIN →
      ∀ (os : List Bool) (t' : NgKsl.Ksl K V),
        NgKsl.nghttp3_ksl_insert lt MIN t key data os =
          NgKsl.KIns.oom t' →
        t'.head.flat = t.head.flat) ∧
    (t.head.count = 2 * MIN →
      ∀ os' : List Bool,
        NgKsl.nghttp3_ksl_insert lt MIN t key data (false :: os') =
          NgKsl.KIns.oom ⟨t.head, t.n⟩) := by
  refine ⟨?_, ?_, ?_⟩
  · intro os t' heq
    simp only [NgKsl.nghttp3_ksl_insert] at heq
    by_cases hfull : t.head.count = 2 * MIN
    · rw [if_pos hfull] at heq
      rcases hsh : NgKsl.ksl_split_head t.head os with ⟨flag, b₂, os₁⟩
      rw [hsh] at heq
      cases flag with
      | false =>
        simp only [] at heq
        obtain rfl := NgKsl.KIns.oom.inj heq
        rfl
      | true =>
        simp only [] at heq
        cases hr : NgKsl.insertB lt MIN key data (2 * b₂.height + 2) b₂
            os₁ with
        | ok b₃ lb₃ i₃ os₃ =>
          rw [hr] at heq
          simp at heq
        | oom b₃ os₃ =>
          rw [hr] at heq
          simp only [] at heq
          obtain rfl := NgKsl.KIns.oom.inj heq
          rfl
    · rw [if_neg hfull] at heq
      cases hr : NgKsl.insertB lt MIN key data (2 * t.head.height + 2)
          t.head os with
      | ok b₃ lb₃ i₃ os₃ =>
        rw [hr] at heq
        simp at heq
      | oom b₃ os₃ =>
        rw [hr] at heq
        simp only [] at heq
        obtain rfl := NgKsl.KIns.oom.inj heq
        rfl
  · intro hfull os t' heq
    simp only [NgKsl.nghttp3_ksl_insert] at heq
    rw [if_neg hfull] at heq
    cases hr : NgKsl.insertB lt MIN key data (2 * t.head.height + 2)
        t.head os with
    | ok b₃ lb₃ i₃ os₃ =>
      rw [hr] at heq
      simp at heq
    | oom b₃ os₃ =>
      rw [hr] at heq
      simp only [] at heq
      obtain rfl := NgKsl.KIns.oom.inj heq
      exact NgKsl.insertB_oom_flat ord hMIN key data _ t.head hwf.1 hr
  · intro hfull os'
    simp only [NgKsl.nghttp3_ksl_insert]
    rw [if_pos hfull]
    rfl

/-- C1 counterexample: on a full root (MIN = 2, four entries), an insert in
which the sibling allocation succeeds but the new-head allocation fails
(`[true, false]`) reports out-of-memory but leaves the container holding
only the lower half of its entries — the state before the failing
allocation attempt is not restored and half of the stored keys are lost. -/
theorem claim_C1_counterexample :
    NgKsl.nghttp3_ksl_insert NgKsl.natLt 2
      (⟨NgKsl.Blk.leaf [(1, 10), (2, 20), (3, 30), (4, 40)], 4⟩ :
        NgKsl.Ksl Nat Nat) 5 50 [true, false] =
      NgKsl.KIns.oom ⟨NgKsl.Blk.leaf [(1, 10), (2, 20)], 4⟩ ∧
    (NgKsl.Blk.leaf [(1, 10), (2, 20)] : NgKsl.Blk Nat Nat).flat ≠
      (NgKsl.Blk.leaf [(1, 10), (2, 20), (3, 30), (4, 40)]
        : NgKsl.Blk Nat Nat).flat := by
  refine ⟨?_, by decide⟩
  rfl

/-- C1 witness: the amended guarantees instantiated on the singleton
container `{1 ↦ 10}` with MIN = 2. -/
theorem claim_C1_witness :
    NgKsl.WfK NgKsl.natLt 2
      (⟨NgKsl.Blk.leaf [(1, 10)], 1⟩ : NgKsl.Ksl Nat Nat) ∧
    ((∀ (os : List Bool) (t' : NgKsl.Ksl Nat Nat),
      NgKsl.nghttp3_ksl_insert NgKsl.natLt 2
        (⟨NgKsl.Blk.leaf [(1, 10)], 1⟩ : NgKsl.Ksl Nat Nat) 5 50 os =
        NgKsl.KIns.oom t' → t'.n = 1) ∧
    ((⟨NgKsl.Blk.leaf [(1, 10)], 1⟩ : NgKsl.Ksl Nat Nat).head.count ≠
        2 * 2 →
      ∀ (os : List Bool) (t' : NgKsl.Ksl Nat Nat),
        NgKsl.nghttp3_ksl_insert NgKsl.natLt 2
          (⟨NgKsl.Blk.leaf [(1, 10)], 1⟩ : NgKsl.Ksl Nat Nat) 5 50 os =
          NgKsl.KIns.oom t' →
        t'.head.flat =
          (⟨NgKsl.Blk.leaf [(1, 10)], 1⟩ :
            NgKsl.Ksl Nat Nat).head.flat) ∧
    ((⟨NgKsl.Blk.leaf [(1, 10)], 1⟩ : NgKsl.Ksl Nat Nat).head.count =
        2 * 2 →
      ∀ os' : List Bool,
        NgKsl.nghttp3_ksl_insert NgKsl.natLt 2
          (⟨NgKsl.Blk.leaf [(1, 10)], 1⟩ : NgKsl.Ksl Nat Nat) 5 50
          (false :: os') =
          NgKsl.KIns.oom ⟨NgKsl.Blk.leaf [(1, 10)], 1⟩)) := by
  have hwf : NgKsl.WfK NgKsl.natLt 2
      (⟨NgKsl.Blk.leaf [(1, 10)], 1⟩ : NgKsl.Ksl Nat Nat) := by
    constructor
    · show NgKsl.WfN NgKsl.natLt 2 0 true (NgKsl.Blk.leaf [(1, 10)])
      rw [NgKsl.WfN_leaf_iff]
      decide
    · decide
  exact ⟨hwf, claim_C1 NgKsl.natLt_order (by decide) _ hwf 5 50⟩


/-- C5: `nghttp3_ksl_remove` rebalances pre-emptively in a fixed priority
order.  Before descending, a 2-child internal root whose children both hold
exactly `MIN_NBLK` entries is merged into a single block that the descent
starts from (the new root).  During the descent, when the child selected by
binary search holds exactly `MIN_NBLK` entries the engine first borrows the
left sibling's last entry if that sibling has surplus, else borrows the
right sibling's first entry if it has surplus, else merges the child with
its left sibling if one exists (merging the 2-entry head into a new root in
the head-collapse case) and otherwise with its right sibling, and continues
with the resulting block; a child with surplus is descended into
directly. -/
theorem claim_C5 {K V : Type} [Inhabited K] [Inhabited V]
    (lt : K → K → Bool) (MIN : Nat) (key : K) (t : NgKsl.Ksl K V)
    (fuel : Nat) (isHead : Bool) (es : List (K × NgKsl.Blk K V)) :
    ((!t.head.isLeaf) = true ∧ t.head.count = 2 ∧
      (t.head.children.getD 0 default).2.count = MIN ∧
      (t.head.children.getD 1 default).2.count = MIN →
      (NgKsl.nghttp3_ksl_remove lt MIN t key).1.head =
        (NgKsl.removeB lt MIN key
          (2 * (NgKsl.mergeBlk (t.head.children.getD 0 default).2
            (t.head.children.getD 1 default).2).height + 2) true
          (NgKsl.mergeBlk (t.head.children.getD 0 default).2
            (t.head.children.getD 1 default).2)).1) ∧
    (∀ i, NgKsl.ksl_bsearch lt (es.map Prod.fst) key = i →
      ((es.getD i default).2.count = MIN →
        ((0 < i ∧ MIN < (es.getD (i - 1) default).2.count →
          NgKsl.removeB lt MIN key (fuel + 1) isHead (NgKsl.Blk.node es) =
            NgKsl.removeB lt MIN key fuel isHead
              (NgKsl.Blk.node (NgKsl.shiftRightEs es (i - 1)))) ∧
         (¬(0 < i ∧ MIN < (es.getD (i - 1) default).2.count) →
          (i + 1 < es.length ∧ MIN < (es.getD (i + 1) default).2.count →
            NgKsl.removeB lt MIN key (fuel + 1) isHead
              (NgKsl.Blk.node es) =
              NgKsl.removeB lt MIN key fuel isHead
                (NgKsl.Blk.node (NgKsl.shiftLeftEs es (i + 1)))) ∧
          (¬(i + 1 < es.length ∧
              MIN < (es.getD (i + 1) default).2.count) →
            ∀ j, (if 0 < i then i - 1 else i) = j →
            ((isHead = true ∧ es.length = 2 →
              NgKsl.removeB lt MIN key (fuel + 1) isHead
                (NgKsl.Blk.node es) =
                NgKsl.removeB lt MIN key fuel true
                  (NgKsl.mergeBlk (es.getD j default).2
                    (es.getD (j + 1) default).2)) ∧
             (¬(isHead = true ∧ es.length = 2) →
              NgKsl.removeB lt MIN key (fuel + 1) isHead
                (NgKsl.Blk.node es) =
                NgKsl.remDescend ((es.set j
                    ((NgKsl.mergeBlk (es.getD j default).2
                      (es.getD (j + 1) default).2).lastKeyD,
                     NgKsl.mergeBlk (es.getD j default).2
                       (es.getD (j + 1) default).2)).eraseIdx (j + 1)) j
                  (NgKsl.removeB lt MIN key fuel false
                    (NgKsl.mergeBlk (es.getD j default).2
                      (es.getD (j + 1) default).2)))))))) ∧
      ((es.getD i default).2.count ≠ MIN →
        NgKsl.removeB lt MIN key (fuel + 1) isHead (NgKsl.Blk.node es) =
          NgKsl.remDescend es i (NgKsl.removeB lt MIN key fuel false
            (es.getD i default).2))) := by
  constructor
  · intro hpre
    simp only [NgKsl.nghttp3_ksl_remove]
    rw [if_pos hpre]
  · intro i hi
    constructor
    · intro hc
      refine ⟨?_, ?_⟩
      · intro hbl
        simp only [NgKsl.removeB]
        rw [hi, if_pos hc, if_pos hbl]
      · intro hbl
        refine ⟨?_, ?_⟩
        · intro hbr
          simp only [NgKsl.removeB]
          rw [hi, if_pos hc, if_neg hbl, if_pos hbr]
        · intro hbr j hj
          refine ⟨?_, ?_⟩
          · intro hcol
            simp only [NgKsl.removeB]
            rw [hi, if_pos hc, if_neg hbl, if_neg hbr, hj, if_pos hcol]
          · intro hcol
            simp only [NgKsl.removeB]
            rw [hi, if_pos hc, if_neg hbl, if_neg hbr, hj, if_neg hcol]
    · intro hc
      simp only [NgKsl.removeB]
      rw [hi, if_neg hc]

theorem claim_C5_witness :
    NgKsl.ksl_bsearch NgKsl.natLt [3, 6] 4 = 1 ∧
    NgKsl.removeB NgKsl.natLt 2 4 10 true
      (NgKsl.Blk.node [(3, NgKsl.Blk.leaf [(1, 10), (2, 20), (3, 30)]),
        (6, NgKsl.Blk.leaf [(4, 40), (6, 60)])]) =
      NgKsl.removeB NgKsl.natLt 2 4 9 true
        (NgKsl.Blk.node (NgKsl.shiftRightEs
          [(3, NgKsl.Blk.leaf [(1, 10), (2, 20), (3, 30)]),
           (6, NgKsl.Blk.leaf [(4, 40), (6, 60)])] (1 - 1))) := by
  have hb : NgKsl.ksl_bsearch NgKsl.natLt [3, 6] 4 = 1 := by
    refine NgKsl.bsearch_eq_of NgKsl.natLt_order (by decide) (by decide)
      ?_ ?_
    · intro m k hm hk
      have hm0 : m = 0 := by omega
      subst hm0
      rw [List.get?_cons_zero] at hk
      rw [← Option.some.inj hk]
      decide
    · intro k hk
      rw [List.get?_cons_succ, List.get?_cons_zero] at hk
      rw [← Option.some.inj hk]
      decide
  refine ⟨hb, ?_⟩
  exact (((claim_C5 NgKsl.natLt 2 4 NgKsl.nghttp3_ksl_init 9 true
    [(3, NgKsl.Blk.leaf [(1, 10), (2, 20), (3, 30)]),
     (6, NgKsl.Blk.leaf [(4, 40), (6, 60)])]).2 1 hb).1
    (by decide)).1 ⟨by decide, by decide⟩

/-- C6: removing a present key returns a cursor at the removed key's
successor, or at `end()` when the removed key was the greatest: the stored
entries lose exactly the keyed entry, and the iterator dereferences to the
first remaining entry greater than the removed key when one exists and is
`end()` otherwise. -/
theorem claim_C6 {K V : Type} [Inhabited K] [Inhabited V]
    {lt : K → K → Bool} {MIN : Nat} (ord : NgKsl.LtOrder lt)
    (hMIN : 2 ≤ MIN) (t : NgKsl.Ksl K V) (hwfk : NgKsl.WfK lt MIN t)
    (key : K) (hmem : key ∈ t.head.fkeys) :
    ∃ (d : V) (A B : List (K × V)),
      t.head.flat = A ++ (key, d) :: B ∧
      (NgKsl.nghttp3_ksl_remove lt MIN t key).1.head.flat = A ++ B ∧
      (B = [] → NgKsl.nghttp3_ksl_it_end
        (NgKsl.nghttp3_ksl_remove lt MIN t key).2 = true) ∧
      (∀ e ∈ B.head?,
        NgKsl.nghttp3_ksl_it_key
          (NgKsl.nghttp3_ksl_remove lt MIN t key).2 = some e.1 ∧
        NgKsl.nghttp3_ksl_it_get
          (NgKsl.nghttp3_ksl_remove lt MIN t key).2 = some e.2 ∧
        lt key e.1 = true) := by
  obtain ⟨d, A, B, q1, q2, q3, q4, q5, q6, q7⟩ :=
    NgKsl.nghttp3_ksl_remove_ok ord hMIN hwfk hmem
  have hsorted := NgKsl.wf_fkeys_sorted ord _ hwfk.1
  refine ⟨d, A, B, q1, q2, q6, ?_⟩
  intro e he
  obtain ⟨hk, hg⟩ := q7 e he
  refine ⟨hk, hg, ?_⟩
  have hmemB : e ∈ B := by
    cases B with
    | nil => cases he
    | cons b1 B' =>
      rw [List.head?_cons, Option.mem_def] at he
      rw [← Option.some.inj he]
      exact List.mem_cons_self _ _
  rw [NgKsl.Blk.fkeys, q1, List.map_append, List.map_cons,
    List.pairwise_append] at hsorted
  exact (List.pairwise_cons.1 hsorted.2.1).1 e.1
    (List.mem_map_of_mem Prod.fst hmemB)

theorem claim_C6_witness :
    ∃ (d : Nat) (A B : List (Nat × Nat)),
      (⟨NgKsl.Blk.leaf [(1, 10), (2, 20)], 2⟩ :
        NgKsl.Ksl Nat Nat).head.flat = A ++ (1, d) :: B ∧
      (NgKsl.nghttp3_ksl_remove NgKsl.natLt 2
        (⟨NgKsl.Blk.leaf [(1, 10), (2, 20)], 2⟩ : NgKsl.Ksl Nat Nat)
        1).1.head.flat = A ++ B ∧
      (B = [] → NgKsl.nghttp3_ksl_it_end
        (NgKsl.nghttp3_ksl_remove NgKsl.natLt 2
          (⟨NgKsl.Blk.leaf [(1, 10), (2, 20)], 2⟩ : NgKsl.Ksl Nat Nat)
          1).2 = true) ∧
      (∀ e ∈ B.head?,
        NgKsl.nghttp3_ksl_it_key
          (NgKsl.nghttp3_ksl_remove NgKsl.natLt 2
            (⟨NgKsl.Blk.leaf [(1, 10), (2, 20)], 2⟩ : NgKsl.Ksl Nat Nat)
            1).2 = some e.1 ∧
        NgKsl.nghttp3_ksl_it_get
          (NgKsl.nghttp3_ksl_remove NgKsl.natLt 2
            (⟨NgKsl.Blk.leaf [(1, 10), (2, 20)], 2⟩ : NgKsl.Ksl Nat Nat)
            1).2 = some e.2 ∧
        NgKsl.natLt 1 e.1 = true) := by
  have hwf : NgKsl.WfK NgKsl.natLt 2
      (⟨NgKsl.Blk.leaf [(1, 10), (2, 20)], 2⟩ : NgKsl.Ksl Nat Nat) := by
    constructor
    · show NgKsl.WfN NgKsl.natLt 2 0 true
        (NgKsl.Blk.leaf [(1, 10), (2, 20)])
      rw [NgKsl.WfN_leaf_iff]
      decide
    · decide
  exact claim_C6 NgKsl.natLt_order (by omega) _ hwf 1 (by decide)

namespace NgKsl

/-! ## Iterator traversal of the leaf list -/

section Traversal

variable {K V : Type} [Inhabited K] [Inhabited V] {lt : K → K → Bool}
variable {MIN : Nat}

theorem getD_cons_drop {A : Type} {l : List A} {n : Nat} (d : A)
    (h : n < l.length) : l.drop n = l.getD n d :: l.drop (n + 1) := by
  rw [List.drop_eq_getElem_cons h]
  congr 1
  rw [List.getD_eq_getElem?_getD, List.getElem?_eq_getElem h]
  rfl

/-- Traversal from the cursor `(p, i)` with sufficient fuel yields the rest of
the current leaf followed by the entries of all later leaves, provided the
later leaves are nonempty and the cursor is dereferenceable or at `end()`. -/
theorem iterTrav_spec :
    ∀ (fuel : Nat) (ls : List (List (K × V))) (p i : Nat),
    (∀ l ∈ ls.drop (p + 1), l ≠ []) →
    p < ls.length →
    (i < (ls.getD p []).length ∨
      (i = (ls.getD p []).length ∧ p + 1 = ls.length)) →
    ((ls.getD p []).length - i) +
      ((ls.drop (p + 1)).map List.length).sum + 1 ≤ fuel →
    iterTrav fuel (⟨ls, p, i⟩ : KslIt K V) =
      (ls.getD p []).drop i ++ (ls.drop (p + 1)).join := by
  intro fuel
  induction fuel with
  | zero =>
    intro ls p i _ _ _ hf
    exact absurd hf (by omega)
  | succ fuel ih =>
    intro ls p i hne hp hstate hf
    rcases hstate with hlt | ⟨hieq, hpeq⟩
    · -- the cursor is dereferenceable: read one entry and advance
      have hend : nghttp3_ksl_it_end (⟨ls, p, i⟩ : KslIt K V) = false := by
        simp only [nghttp3_ksl_it_end, KslIt.curLen]
        have h1 : ((ls.getD p []).length == i) = false := by
          simp only [beq_eq_false_iff_ne, ne_eq]
          omega
        rw [h1, Bool.false_and]
      have hstep : iterTrav (fuel + 1) (⟨ls, p, i⟩ : KslIt K V) =
          (ls.getD p []).getD i default ::
            iterTrav fuel (nghttp3_ksl_it_next ⟨ls, p, i⟩) := by
        simp only [iterTrav]
        rw [if_neg (by rw [hend]; exact Bool.false_ne_true)]
      have hdrop : (ls.getD p []).drop i =
          (ls.getD p []).getD i default :: (ls.getD p []).drop (i + 1) :=
        getD_cons_drop default hlt
      by_cases hadv : i + 1 = (ls.getD p []).length ∧ p + 1 < ls.length
      · -- the removal exhausted the leaf: hop to the next leaf
        have hnext : nghttp3_ksl_it_next (⟨ls, p, i⟩ : KslIt K V) =
            ⟨ls, p + 1, 0⟩ := by
          simp only [nghttp3_ksl_it_next, KslIt.curLen]
          rw [if_pos]
          rw [Bool.and_eq_true]
          exact ⟨beq_iff_eq.2 hadv.1, decide_eq_true hadv.2⟩
        have hq := hadv.2
        have hdropP : ls.drop (p + 1) =
            ls.getD (p + 1) [] :: ls.drop (p + 1 + 1) :=
          getD_cons_drop [] hq
        have hmemP : ls.getD (p + 1) [] ∈ ls.drop (p + 1) := by
          rw [hdropP]
          exact List.mem_cons_self _ _
        have hlenP : 0 < (ls.getD (p + 1) []).length :=
          List.length_pos.2 (hne _ hmemP)
        have hne2 : ∀ l ∈ ls.drop (p + 1 + 1), l ≠ [] := by
          intro l hl
          apply hne
          rw [hdropP]
          exact List.mem_cons_of_mem _ hl
        have hfuel2 : ((ls.getD (p + 1) []).length - 0) +
            ((ls.drop (p + 1 + 1)).map List.length).sum + 1 ≤ fuel := by
          rw [hdropP, List.map_cons, List.sum_cons] at hf
          omega
        rw [hstep, hnext]
        rw [ih ls (p + 1) 0 hne2 hq (Or.inl hlenP) hfuel2]
        rw [List.drop_zero]
        rw [hdrop]
        rw [show (ls.getD p []).drop (i + 1) = [] from by
          rw [hadv.1]; exact List.drop_length _]
        rw [hdropP]
        rfl
      · -- stay in the same leaf
        have hnext : nghttp3_ksl_it_next (⟨ls, p, i⟩ : KslIt K V) =
            ⟨ls, p, i + 1⟩ := by
          simp only [nghttp3_ksl_it_next, KslIt.curLen]
          rw [if_neg]
          intro hc
          rw [Bool.and_eq_true] at hc
          exact hadv ⟨beq_iff_eq.1 hc.1, of_decide_eq_true hc.2⟩
        have hstate2 : i + 1 < (ls.getD p []).length ∨
            (i + 1 = (ls.getD p []).length ∧ p + 1 = ls.length) := by
          by_cases h1 : i + 1 < (ls.getD p []).length
          · exact Or.inl h1
          · refine Or.inr ⟨by omega, ?_⟩
            by_cases h2 : p + 1 < ls.length
            · exact absurd ⟨by omega, h2⟩ hadv
            · omega
        rw [hstep, hnext]
        rw [ih ls p (i + 1) hne hp hstate2 (by omega)]
        rw [hdrop]
        rfl
    · -- the cursor is at end(): the traversal stops
      have hend : nghttp3_ksl_it_end (⟨ls, p, i⟩ : KslIt K V) = true := by
        simp only [nghttp3_ksl_it_end, KslIt.curLen, Bool.and_eq_true]
        exact ⟨beq_iff_eq.2 hieq.symm, beq_iff_eq.2 hpeq⟩
      simp only [iterTrav]
      rw [if_pos hend]
      rw [hieq, List.drop_length, hpeq, List.drop_length]
      rfl

/-- Traversing from `begin()` with sufficient fuel yields the whole stored
entry sequence. -/
theorem iterTrav_begin_flat (hMIN : 1 ≤ MIN) {t : Ksl K V}
    (hwf : WfK lt MIN t) {fuel : Nat}
    (hfuel : t.head.flat.length + 1 ≤ fuel) :
    iterTrav fuel (nghttp3_ksl_begin t) = t.head.flat := by
  by_cases hnil : t.head.flat = []
  · have hhead := wf_flat_nil_eq hMIN hwf.1 hnil
    have h1 : 1 ≤ fuel := by
      rw [hnil] at hfuel
      simpa using hfuel
    simp only [nghttp3_ksl_begin, kslLeaves]
    rw [hnil, hhead]
    rw [show (Blk.leaf ([] : List (K × V))).leafBlocks = [[]] from rfl]
    rw [iterTrav_spec fuel [[]] 0 0 (by intro l hl; simp at hl) (by simp)
      (Or.inr (by simp)) (by simpa using h1)]
    rfl
  · have hlen0 : 0 < t.head.leafBlocks.length := by
      have h := wf_leafCount_pos hMIN t.head.height hwf.1
      simpa [Blk.leafCount] using h
    have hnn := wf_head_leafBlocks_ne_nil hMIN hwf.1 hnil
    have hdecomp : t.head.leafBlocks =
        t.head.leafBlocks.getD 0 [] :: t.head.leafBlocks.drop (0 + 1) := by
      have h2 := getD_cons_drop ([] : List (K × V)) hlen0
      rw [List.drop_zero] at h2
      exact h2
    have hmem0 : t.head.leafBlocks.getD 0 [] ∈ t.head.leafBlocks := by
      have h3 := get?_getD_of_lt hlen0
      exact List.get?_mem h3
    have hpos0 : 0 < (t.head.leafBlocks.getD 0 []).length :=
      List.length_pos.2 (hnn _ hmem0)
    have hne1 : ∀ l ∈ t.head.leafBlocks.drop (0 + 1), l ≠ [] := by
      intro l hl
      exact hnn l (List.mem_of_mem_drop hl)
    have hsum : t.head.flat.length =
        (t.head.leafBlocks.getD 0 []).length +
        ((t.head.leafBlocks.drop (0 + 1)).map List.length).sum := by
      rw [Blk.length_flat_eq_sum]
      conv_lhs => rw [hdecomp]
      rw [List.map_cons, List.sum_cons]
    simp only [nghttp3_ksl_begin, kslLeaves]
    rw [iterTrav_spec fuel t.head.leafBlocks 0 0 hne1 hlen0 (Or.inl hpos0)
      (by rw [hsum] at hfuel; omega)]
    rw [List.drop_zero]
    rw [show t.head.leafBlocks.getD 0 [] ++
        (t.head.leafBlocks.drop (0 + 1)).join =
        (t.head.leafBlocks.getD 0 [] ::
          t.head.leafBlocks.drop (0 + 1)).join from rfl]
    rw [← hdecomp, ← Blk.flat_eq_join_leafBlocks]

end Traversal

/-! ## Sequences of mutating operations -/

section SeqProof

variable {K V : Type} [Inhabited K] [Inhabited V] {lt : K → K → Bool}
variable {MIN : Nat}

/-- A valid operation sequence keeps the tree well-formed, and the stored key
set tracks `liveKeys`. -/
theorem applyOps_ok (ord : LtOrder lt) (hMIN : 2 ≤ MIN) :
    ∀ (ops : List (Op K V)) (t : Ksl K V) (acc : List K),
    WfK lt MIN t → opsValid lt MIN t ops →
    (∀ x, x ∈ t.head.fkeys ↔ x ∈ acc) →
    WfK lt MIN (applyOps lt MIN t ops) ∧
    (∀ x, x ∈ (applyOps lt MIN t ops).head.fkeys ↔
      x ∈ liveKeys lt acc ops) := by
  intro ops
  induction ops with
  | nil =>
    intro t acc hwf _ hacc
    exact ⟨hwf, hacc⟩
  | cons op ops ih =>
    intro t acc hwf hvalid hacc
    cases op with
    | ins k v =>
      obtain ⟨hpre, hrest⟩ := hvalid
      have hnm : k ∉ t.head.fkeys := by
        intro hk
        rcases hpre k hk with h | h
        · rw [ord.irrefl] at h
          cases h
        · rw [ord.irrefl] at h
          cases h
      obtain ⟨t2, it, A, B, heq, hwf2, hflat0, hflat2, _, _, _, _, _, _⟩ :=
        nghttp3_ksl_insert_ok ord hMIN t hwf k v hnm
      have hstep : applyOp lt MIN t (Op.ins k v) = t2 := by
        simp only [applyOp]
        rw [heq]
      have he : applyOps lt MIN t (Op.ins k v :: ops) =
          applyOps lt MIN t2 ops := by
        simp only [applyOps, List.foldl_cons]
        rw [hstep]
      rw [hstep] at hrest
      have hacc2 : ∀ x, x ∈ t2.head.fkeys ↔ x ∈ acc ++ [k] := by
        intro x
        have h1 := hacc x
        simp only [Blk.fkeys, hflat0, List.map_append, List.mem_append] at h1
        simp only [Blk.fkeys, hflat2, List.map_append, List.map_cons,
          List.mem_append, List.mem_cons, List.mem_singleton]
        tauto
      have hmain := ih t2 (acc ++ [k]) hwf2 hrest hacc2
      rw [he]
      refine ⟨hmain.1, ?_⟩
      intro x
      simp only [liveKeys]
      exact hmain.2 x
    | del k =>
      obtain ⟨hpre, hrest⟩ := hvalid
      obtain ⟨d, A, B, hflat0, hflat2, hwf2, hn2, _, _, _⟩ :=
        nghttp3_ksl_remove_ok ord hMIN hwf hpre
      have he : applyOps lt MIN t (Op.del k :: ops) =
          applyOps lt MIN (nghttp3_ksl_remove lt MIN t k).1 ops := rfl
      have hsorted := wf_fkeys_sorted ord t.head.height hwf.1
      simp only [Blk.fkeys, hflat0, List.map_append, List.map_cons]
        at hsorted
      obtain ⟨hA, hkB, hcross⟩ := List.pairwise_append.1 hsorted
      have hkB2 : ∀ b ∈ B.map Prod.fst, lt k b = true :=
        (List.pairwise_cons.1 hkB).1
      have hAk : ∀ a ∈ A.map Prod.fst, lt a k = true := fun a ha =>
        hcross a ha k (List.mem_cons_self _ _)
      have hmm2 : ∀ x, x ∈ (nghttp3_ksl_remove lt MIN t k).1.head.fkeys ↔
          (x ∈ t.head.fkeys ∧ key_equal lt x k = false) := by
        intro x
        simp only [Blk.fkeys, hflat2, hflat0, List.map_append, List.map_cons,
          List.mem_append, List.mem_cons]
        constructor
        · intro hx
          rcases hx with hx | hx
          · have hlt1 := hAk x hx
            refine ⟨Or.inl hx, ?_⟩
            simp only [key_equal, hlt1, Bool.not_true, Bool.false_and]
          · have hlt1 := hkB2 x hx
            refine ⟨Or.inr (Or.inr hx), ?_⟩
            simp only [key_equal, hlt1, Bool.not_true, Bool.and_false]
        · rintro ⟨hx, hne⟩
          rcases hx with hx | hx | hx
          · exact Or.inl hx
          · exfalso
            rw [hx] at hne
            simp only [key_equal, ord.irrefl, Bool.not_false, Bool.and_self]
              at hne
            cases hne
          · exact Or.inr hx
      have hacc2 : ∀ x, x ∈ (nghttp3_ksl_remove lt MIN t k).1.head.fkeys ↔
          x ∈ acc.filter fun y => !key_equal lt y k := by
        intro x
        rw [hmm2 x]
        simp only [List.mem_filter, Bool.not_eq_true']
        rw [hacc x]
      have hmain := ih (nghttp3_ksl_remove lt MIN t k).1
        (acc.filter fun y => !key_equal lt y k) hwf2 hrest hacc2
      rw [he]
      refine ⟨hmain.1, ?_⟩
      intro x
      simp only [liveKeys]
      exact hmain.2 x

theorem liveKeys_append (acc : List K) (l₁ l₂ : List (Op K V)) :
    liveKeys lt acc (l₁ ++ l₂) = liveKeys lt (liveKeys lt acc l₁) l₂ := by
  induction l₁ generalizing acc with
  | nil => rfl
  | cons op ops ih =>
    cases op with
    | ins k v =>
      simp only [List.cons_append, liveKeys]
      exact ih _
    | del k =>
      simp only [List.cons_append, liveKeys]
      exact ih _

theorem liveKeys_ins_map (acc : List K) (ks : List K) (dat : K → V) :
    liveKeys lt acc (ks.map fun k => Op.ins k (dat k)) = acc ++ ks := by
  induction ks generalizing acc with
  | nil => simp [liveKeys]
  | cons k ks ih =>
    simp only [List.map_cons, liveKeys]
    rw [ih]
    simp

theorem mem_liveKeys_del_map {acc : List K} {ds : List K} {x : K} :
    x ∈ liveKeys lt acc (ds.map (Op.del (V := V))) →
    x ∈ acc ∧ ∀ e ∈ ds, key_equal lt x e = false := by
  induction ds generalizing acc with
  | nil =>
    intro h
    exact ⟨h, fun e he => absurd he (List.not_mem_nil e)⟩
  | cons e ds ih =>
    intro h
    simp only [List.map_cons, liveKeys] at h
    obtain ⟨h1, h2⟩ := ih h
    simp only [List.mem_filter, Bool.not_eq_true'] at h1
    refine ⟨h1.1, ?_⟩
    intro e2 he2
    rcases List.mem_cons.1 he2 with rfl | he3
    · exact h1.2
    · exact h2 e2 he3

end SeqProof

end NgKsl

/-- C3: after every valid sequence of insert and remove operations starting
from a fresh container, traversing from `begin()` with `it_next` until
`it_end` yields exactly the stored entry sequence; the keys of that sequence
are strictly ascending under the comparator (so each key occurs exactly once)
and they are exactly the currently-live key set left by the sequence. -/
theorem claim_C3 {K V : Type} [Inhabited K] [Inhabited V]
    (lt : K → K → Bool) (MIN : Nat) (ord : NgKsl.LtOrder lt) (hMIN : 2 ≤ MIN)
    (ops : List (NgKsl.Op K V))
    (hvalid : NgKsl.opsValid lt MIN NgKsl.nghttp3_ksl_init ops)
    (fuel : Nat)
    (hfuel : (NgKsl.applyOps lt MIN NgKsl.nghttp3_ksl_init
      ops).head.flat.length + 1 ≤ fuel) :
    NgKsl.iterTrav fuel (NgKsl.nghttp3_ksl_begin
        (NgKsl.applyOps lt MIN NgKsl.nghttp3_ksl_init ops)) =
      (NgKsl.applyOps lt MIN NgKsl.nghttp3_ksl_init ops).head.flat ∧
    List.Pairwise (fun a b => lt a b = true)
      (NgKsl.applyOps lt MIN NgKsl.nghttp3_ksl_init ops).head.fkeys ∧
    (∀ x, x ∈ (NgKsl.applyOps lt MIN NgKsl.nghttp3_ksl_init ops).head.fkeys ↔
      x ∈ NgKsl.liveKeys lt [] ops) := by
  have hwf0 : NgKsl.WfK lt MIN (NgKsl.nghttp3_ksl_init : NgKsl.Ksl K V) := by
    constructor
    · show NgKsl.WfN lt MIN 0 true (NgKsl.Blk.leaf [])
      rw [NgKsl.WfN_leaf_iff]
      exact ⟨Or.inl rfl, by simp, List.Pairwise.nil⟩
    · rfl
  have hacc0 : ∀ x,
      x ∈ (NgKsl.nghttp3_ksl_init : NgKsl.Ksl K V).head.fkeys ↔
      x ∈ ([] : List K) := by
    intro x
    constructor
    · intro hx
      exact absurd hx (List.not_mem_nil x)
    · intro hx
      exact absurd hx (List.not_mem_nil x)
  obtain ⟨hwfF, hlive⟩ := NgKsl.applyOps_ok ord hMIN ops
    NgKsl.nghttp3_ksl_init [] hwf0 hvalid hacc0
  refine ⟨?_, ?_, hlive⟩
  · exact NgKsl.iterTrav_begin_flat (by omega) hwfF hfuel
  · exact NgKsl.wf_fkeys_sorted ord _ hwfF.1

/-- Witness for C3: the one-insert sequence on a fresh container. -/
theorem claim_C3_witness :
    NgKsl.iterTrav 2 (NgKsl.nghttp3_ksl_begin
        (NgKsl.applyOps NgKsl.natLt 2 NgKsl.nghttp3_ksl_init
          [NgKsl.Op.ins (1 : Nat) (10 : Nat)])) =
      (NgKsl.applyOps NgKsl.natLt 2 NgKsl.nghttp3_ksl_init
        [NgKsl.Op.ins (1 : Nat) (10 : Nat)]).head.flat ∧
    List.Pairwise (fun a b => NgKsl.natLt a b = true)
      (NgKsl.applyOps NgKsl.natLt 2 NgKsl.nghttp3_ksl_init
        [NgKsl.Op.ins (1 : Nat) (10 : Nat)]).head.fkeys ∧
    (∀ x, x ∈ (NgKsl.applyOps NgKsl.natLt 2 NgKsl.nghttp3_ksl_init
        [NgKsl.Op.ins (1 : Nat) (10 : Nat)]).head.fkeys ↔
      x ∈ NgKsl.liveKeys NgKsl.natLt []
        [NgKsl.Op.ins (1 : Nat) (10 : Nat)]) := by
  have hwf0 : NgKsl.WfK NgKsl.natLt 2
      (NgKsl.nghttp3_ksl_init : NgKsl.Ksl Nat Nat) := by
    constructor
    · show NgKsl.WfN NgKsl.natLt 2 0 true (NgKsl.Blk.leaf [])
      rw [NgKsl.WfN_leaf_iff]
      exact ⟨Or.inl rfl, by simp, List.Pairwise.nil⟩
    · rfl
  obtain ⟨t2, it, A, B, heq, hwf2, hflat0, hflat2, _, _, _, _, _, _⟩ :=
    NgKsl.nghttp3_ksl_insert_ok NgKsl.natLt_order (by omega)
      NgKsl.nghttp3_ksl_init hwf0 1 10
      (by intro hx; exact List.not_mem_nil 1 hx)
  have hstep : NgKsl.applyOp NgKsl.natLt 2 NgKsl.nghttp3_ksl_init
      (NgKsl.Op.ins 1 10) = t2 := by
    simp only [NgKsl.applyOp]
    rw [heq]
  have hMA : A = [] ∧ B = [] := by
    have h0 : ([] : List (Nat × Nat)) = A ++ B := hflat0
    exact List.append_eq_nil.1 h0.symm
  have hflat1 : t2.head.flat = [(1, 10)] := by
    rw [hflat2, hMA.1, hMA.2]
    rfl
  have hOps : NgKsl.applyOps NgKsl.natLt 2 NgKsl.nghttp3_ksl_init
      [NgKsl.Op.ins (1 : Nat) (10 : Nat)] = t2 := by
    simp only [NgKsl.applyOps, List.foldl_cons, List.foldl_nil]
    exact hstep
  have hvalid : NgKsl.opsValid NgKsl.natLt 2 NgKsl.nghttp3_ksl_init
      [NgKsl.Op.ins (1 : Nat) (10 : Nat)] :=
    ⟨fun x hx => absurd hx (List.not_mem_nil x), trivial⟩
  have hfuel : (NgKsl.applyOps NgKsl.natLt 2 NgKsl.nghttp3_ksl_init
      [NgKsl.Op.ins (1 : Nat) (10 : Nat)]).head.flat.length + 1 ≤ 2 := by
    rw [hOps, hflat1]
    exact Nat.le_refl 2
  exact claim_C3 NgKsl.natLt 2 NgKsl.natLt_order (by omega)
    [NgKsl.Op.ins (1 : Nat) (10 : Nat)] hvalid 2 hfuel

/-- C9: inserting a list of keys into a fresh container and then removing a
rearrangement of them (any op sequence whose removals cover the insertions,
with the C preconditions holding along the way) leaves `len() = 0` and
`begin() = end()` — the observable state of a freshly constructed
container. -/
theorem claim_C9 {K V : Type} [Inhabited K] [Inhabited V]
    (lt : K → K → Bool) (MIN : Nat) (ord : NgKsl.LtOrder lt) (hMIN : 2 ≤ MIN)
    (ks ds : List K) (dat : K → V) (ops : List (NgKsl.Op K V))
    (hops : ops = (ks.map fun k => NgKsl.Op.ins k (dat k)) ++
      ds.map (NgKsl.Op.del (V := V)))
    (hcover : ∀ x ∈ ks, x ∈ ds)
    (hvalid : NgKsl.opsValid lt MIN NgKsl.nghttp3_ksl_init ops) :
    NgKsl.nghttp3_ksl_len
      (NgKsl.applyOps lt MIN NgKsl.nghttp3_ksl_init ops) = 0 ∧
    NgKsl.nghttp3_ksl_begin
      (NgKsl.applyOps lt MIN NgKsl.nghttp3_ksl_init ops) =
    NgKsl.nghttp3_ksl_end
      (NgKsl.applyOps lt MIN NgKsl.nghttp3_ksl_init ops) := by
  have hwf0 : NgKsl.WfK lt MIN (NgKsl.nghttp3_ksl_init : NgKsl.Ksl K V) := by
    constructor
    · show NgKsl.WfN lt MIN 0 true (NgKsl.Blk.leaf [])
      rw [NgKsl.WfN_leaf_iff]
      exact ⟨Or.inl rfl, by simp, List.Pairwise.nil⟩
    · rfl
  have hacc0 : ∀ x,
      x ∈ (NgKsl.nghttp3_ksl_init : NgKsl.Ksl K V).head.fkeys ↔
      x ∈ ([] : List K) := by
    intro x
    constructor
    · intro hx
      exact absurd hx (List.not_mem_nil x)
    · intro hx
      exact absurd hx (List.not_mem_nil x)
  obtain ⟨hwfF, hlive⟩ := NgKsl.applyOps_ok ord hMIN ops
    NgKsl.nghttp3_ksl_init [] hwf0 hvalid hacc0
  have hnone : ∀ x,
      x ∉ (NgKsl.applyOps lt MIN NgKsl.nghttp3_ksl_init ops).head.fkeys := by
    intro x hx
    have h1 := (hlive x).1 hx
    rw [hops, NgKsl.liveKeys_append, NgKsl.liveKeys_ins_map] at h1
    obtain ⟨h2, h3⟩ := NgKsl.mem_liveKeys_del_map h1
    simp only [List.nil_append] at h2
    have h4 := h3 x (hcover x h2)
    simp only [NgKsl.key_equal, ord.irrefl, Bool.not_false, Bool.and_self]
      at h4
    cases h4
  revert hwfF hnone
  generalize NgKsl.applyOps lt MIN NgKsl.nghttp3_ksl_init ops = F
  intro hwfF hnone
  have hflatnil : F.head.flat = [] := by
    cases hF : F.head.flat with
    | nil => rfl
    | cons e l =>
      exfalso
      apply hnone e.1
      show e.1 ∈ F.head.flat.map Prod.fst
      rw [hF]
      exact List.mem_map.2 ⟨e, List.mem_cons_self _ _, rfl⟩
  have hhead := NgKsl.wf_flat_nil_eq (by omega) hwfF.1 hflatnil
  constructor
  · show F.n = 0
    rw [hwfF.2, hflatnil]
    rfl
  · simp only [NgKsl.nghttp3_ksl_begin, NgKsl.nghttp3_ksl_end,
      NgKsl.kslLeaves]
    rw [hhead]
    rfl

/-- Witness for C9: insert key 1 then remove it; the container is observably
fresh again. -/
theorem claim_C9_witness :
    NgKsl.nghttp3_ksl_len (NgKsl.applyOps NgKsl.natLt 2
      NgKsl.nghttp3_ksl_init
      [NgKsl.Op.ins (1 : Nat) (10 : Nat), NgKsl.Op.del 1]) = 0 ∧
    NgKsl.nghttp3_ksl_begin (NgKsl.applyOps NgKsl.natLt 2
      NgKsl.nghttp3_ksl_init
      [NgKsl.Op.ins (1 : Nat) (10 : Nat), NgKsl.Op.del 1]) =
    NgKsl.nghttp3_ksl_end (NgKsl.applyOps NgKsl.natLt 2
      NgKsl.nghttp3_ksl_init
      [NgKsl.Op.ins (1 : Nat) (10 : Nat), NgKsl.Op.del 1]) := by
  have hwf0 : NgKsl.WfK NgKsl.natLt 2
      (NgKsl.nghttp3_ksl_init : NgKsl.Ksl Nat Nat) := by
    constructor
    · show NgKsl.WfN NgKsl.natLt 2 0 true (NgKsl.Blk.leaf [])
      rw [NgKsl.WfN_leaf_iff]
      exact ⟨Or.inl rfl, by simp, List.Pairwise.nil⟩
    · rfl
  obtain ⟨t2, it, A, B, heq, hwf2, hflat0, hflat2, _, _, _, _, _, _⟩ :=
    NgKsl.nghttp3_ksl_insert_ok NgKsl.natLt_order (by omega)
      NgKsl.nghttp3_ksl_init hwf0 1 10
      (by intro hx; exact List.not_mem_nil 1 hx)
  have hstep : NgKsl.applyOp NgKsl.natLt 2 NgKsl.nghttp3_ksl_init
      (NgKsl.Op.ins 1 10) = t2 := by
    simp only [NgKsl.applyOp]
    rw [heq]
  have hMA : A = [] ∧ B = [] := by
    have h0 : ([] : List (Nat × Nat)) = A ++ B := hflat0
    exact List.append_eq_nil.1 h0.symm
  have hflat1 : t2.head.flat = [(1, 10)] := by
    rw [hflat2, hMA.1, hMA.2]
    rfl
  have hvalid : NgKsl.opsValid NgKsl.natLt 2 NgKsl.nghttp3_ksl_init
      [NgKsl.Op.ins (1 : Nat) (10 : Nat), NgKsl.Op.del 1] := by
    refine ⟨fun x hx => absurd hx (List.not_mem_nil x), ?_, trivial⟩
    rw [hstep]
    show (1 : Nat) ∈ t2.head.flat.map Prod.fst
    rw [hflat1]
    exact List.mem_map.2 ⟨(1, 10), List.mem_cons_self _ _, rfl⟩
  exact claim_C9 NgKsl.natLt 2 NgKsl.natLt_order (by omega) [1] [1]
    (fun _ => 10) [NgKsl.Op.ins 1 10, NgKsl.Op.del 1] rfl
    (fun x hx => hx) hvalid

namespace NgKsl

/-! ## The weak separator property -/

section SepDomSec

variable {K V : Type} [Inhabited K] [Inhabited V] {lt : K → K → Bool}
variable {MIN : Nat}

/-- The weak separator property: every internal entry's key is an upper bound
for every key stored in its subtree.  (The spec asserts the stronger
`SepExact`, which removal does not maintain.) -/
def SepDom (lt : K → K → Bool) : Blk K V → Prop
  | .leaf _ => True
  | .node [] => True
  | .node ((k, c) :: rest) =>
    (∀ x ∈ c.fkeys, lt k x = false) ∧ SepDom lt c ∧ SepDom lt (.node rest)

theorem SepDom_leaf (es : List (K × V)) :
    SepDom lt (Blk.leaf es) ↔ True := by
  rw [SepDom]

theorem SepDom_nil :
    SepDom lt (Blk.node ([] : List (K × Blk K V))) ↔ True := by
  rw [SepDom]

theorem SepDom_cons (k : K) (c : Blk K V) (rest : List (K × Blk K V)) :
    SepDom lt (Blk.node ((k, c) :: rest)) ↔
      ((∀ x ∈ c.fkeys, lt k x = false) ∧ SepDom lt c ∧
        SepDom lt (Blk.node rest)) := by
  rw [SepDom]

theorem SepExact_leaf (es : List (K × V)) :
    SepExact (Blk.leaf es : Blk K V) ↔ True := by
  rw [SepExact]

theorem SepExact_nil :
    SepExact (Blk.node ([] : List (K × Blk K V))) ↔ True := by
  rw [SepExact]

theorem SepExact_cons (k : K) (c : Blk K V) (rest : List (K × Blk K V)) :
    SepExact (Blk.node ((k, c) :: rest)) ↔
      (c.fkeys.getLast? = some k ∧ SepExact c ∧
        SepExact (Blk.node rest)) := by
  rw [SepExact]

/-- Well-formedness entails the weak separator property. -/
theorem wf_SepDom : ∀ (h : Nat) {root : Bool} {b : Blk K V},
    WfN lt MIN h root b → SepDom lt b := by
  intro h
  induction h with
  | zero =>
    intro root b hwf
    cases b with
    | leaf es => exact (SepDom_leaf es).2 trivial
    | node es => exact absurd hwf (by simp)
  | succ h ih =>
    intro root b hwf
    cases b with
    | leaf es => exact absurd hwf (by simp)
    | node es =>
      obtain ⟨h1x, h2x, hent, h3x⟩ := WfN_node_iff.1 hwf
      clear hwf h1x h2x h3x
      induction es with
      | nil => exact SepDom_nil.2 trivial
      | cons e rest ihes =>
        obtain ⟨k, c⟩ := e
        refine (SepDom_cons k c rest).2
          ⟨(hent (k, c) (List.mem_cons_self _ _)).2.1,
            ih (hent (k, c) (List.mem_cons_self _ _)).1, ?_⟩
        exact ihes fun e2 he2 => hent e2 (List.mem_cons_of_mem _ he2)

end SepDomSec

end NgKsl

/-- C4 (amended): after every successful mutating operation the weak
separator invariant holds: the tree stays well-formed and every internal
entry's key is an upper bound, under the comparator, for every key stored in
its subtree.  The original claim — that every internal entry's key *equals*
the maximum key of its subtree after every mutation — is refuted by
`claim_C4_counterexample`: a removal can leave a stale separator that is
strictly greater than every key remaining in its subtree. -/
theorem claim_C4 {K V : Type} [Inhabited K] [Inhabited V]
    (lt : K → K → Bool) (MIN : Nat) (ord : NgKsl.LtOrder lt) (hMIN : 2 ≤ MIN)
    (t : NgKsl.Ksl K V) (hwf : NgKsl.WfK lt MIN t) (key : K) (data : V) :
    (∀ t2 it, key ∉ t.head.fkeys →
      NgKsl.nghttp3_ksl_insert lt MIN t key data [] = NgKsl.KIns.ok t2 it →
      NgKsl.WfK lt MIN t2 ∧ NgKsl.SepDom lt t2.head) ∧
    (key ∈ t.head.fkeys →
      NgKsl.WfK lt MIN (NgKsl.nghttp3_ksl_remove lt MIN t key).1 ∧
      NgKsl.SepDom lt (NgKsl.nghttp3_ksl_remove lt MIN t key).1.head) := by
  constructor
  · intro t2 it hnm heq
    obtain ⟨t3, it3, A, B, heq3, hwf3, _, _, _, _, _, _, _, _⟩ :=
      NgKsl.nghttp3_ksl_insert_ok ord hMIN t hwf key data hnm
    rw [heq] at heq3
    injection heq3 with h1 h2
    subst h1
    exact ⟨hwf3, NgKsl.wf_SepDom _ hwf3.1⟩
  · intro hmem
    obtain ⟨d, A, B, _, _, hwf2, _, _, _, _⟩ :=
      NgKsl.nghttp3_ksl_remove_ok ord hMIN hwf hmem
    exact ⟨hwf2, NgKsl.wf_SepDom _ hwf2.1⟩

/-- Counterexample to the original C4: the well-formed two-leaf tree holding
1..5 satisfies separator-equals-maximum, but removing key 5 descends into the
right leaf without touching the parent separator 5, leaving an internal entry
whose key 5 exceeds the new subtree maximum 4. -/
theorem claim_C4_counterexample :
    NgKsl.WfK NgKsl.natLt 2
      (⟨NgKsl.Blk.node [(2, NgKsl.Blk.leaf [(1, 10), (2, 20)]),
        (5, NgKsl.Blk.leaf [(3, 30), (4, 40), (5, 50)])], 5⟩ :
        NgKsl.Ksl Nat Nat) ∧
    NgKsl.SepExact (NgKsl.Blk.node [(2, NgKsl.Blk.leaf [(1, 10), (2, 20)]),
      (5, NgKsl.Blk.leaf [(3, 30), (4, 40), (5, 50)])] : NgKsl.Blk Nat Nat) ∧
    (5 : Nat) ∈ (NgKsl.Blk.node [(2, NgKsl.Blk.leaf [(1, 10), (2, 20)]),
      (5, NgKsl.Blk.leaf [(3, 30), (4, 40), (5, 50)])] : NgKsl.Blk Nat Nat).fkeys ∧
    (NgKsl.nghttp3_ksl_remove NgKsl.natLt 2
      (⟨NgKsl.Blk.node [(2, NgKsl.Blk.leaf [(1, 10), (2, 20)]),
        (5, NgKsl.Blk.leaf [(3, 30), (4, 40), (5, 50)])], 5⟩ :
        NgKsl.Ksl Nat Nat) 5).1.head =
      NgKsl.Blk.node [(2, NgKsl.Blk.leaf [(1, 10), (2, 20)]),
        (5, NgKsl.Blk.leaf [(3, 30), (4, 40)])] ∧
    ¬ NgKsl.SepExact
      (NgKsl.nghttp3_ksl_remove NgKsl.natLt 2
        (⟨NgKsl.Blk.node [(2, NgKsl.Blk.leaf [(1, 10), (2, 20)]),
          (5, NgKsl.Blk.leaf [(3, 30), (4, 40), (5, 50)])], 5⟩ :
          NgKsl.Ksl Nat Nat) 5).1.head := by
  have hb0 : NgKsl.ksl_bsearch NgKsl.natLt [2, 5] 5 = 1 := by
    rw [NgKsl.ksl_bsearch_sorted NgKsl.natLt_order 5 (by decide)]
    decide
  have hb1 : NgKsl.ksl_bsearch NgKsl.natLt [3, 4, 5] 5 = 2 := by
    rw [NgKsl.ksl_bsearch_sorted NgKsl.natLt_order 5 (by decide)]
    decide
  have hstep2 : NgKsl.removeB NgKsl.natLt 2 5 3 false
      (NgKsl.Blk.leaf [(3, 30), (4, 40), (5, 50)]) =
      (NgKsl.Blk.leaf [(3, 30), (4, 40)], 0, 2) := by
    show NgKsl.removeB NgKsl.natLt 2 5 (2 + 1) false
      (NgKsl.Blk.leaf [(3, 30), (4, 40), (5, 50)]) =
      (NgKsl.Blk.leaf [(3, 30), (4, 40)], 0, 2)
    simp only [NgKsl.removeB]
    rw [show List.map Prod.fst
      [((3 : Nat), (30 : Nat)), (4, 40), (5, 50)] = [3, 4, 5] from rfl]
    rw [hb1]
    rfl
  have hstep1 : NgKsl.removeB NgKsl.natLt 2 5 (3 + 1) true
      (NgKsl.Blk.node [(2, NgKsl.Blk.leaf [(1, 10), (2, 20)]),
        (5, NgKsl.Blk.leaf [(3, 30), (4, 40), (5, 50)])]) =
      (NgKsl.Blk.node [(2, NgKsl.Blk.leaf [(1, 10), (2, 20)]),
        (5, NgKsl.Blk.leaf [(3, 30), (4, 40)])], 1, 2) := by
    simp only [NgKsl.removeB]
    rw [show List.map Prod.fst
      [((2 : Nat), NgKsl.Blk.leaf [((1 : Nat), (10 : Nat)), (2, 20)]),
        (5, NgKsl.Blk.leaf [(3, 30), (4, 40), (5, 50)])] = [2, 5] from rfl]
    rw [hb0]
    rw [if_neg (by decide)]
    rw [show ([((2 : Nat), NgKsl.Blk.leaf [((1 : Nat), (10 : Nat)), (2, 20)]),
      (5, NgKsl.Blk.leaf [(3, 30), (4, 40), (5, 50)])].getD 1 default).2 =
      NgKsl.Blk.leaf [(3, 30), (4, 40), (5, 50)] from rfl]
    rw [hstep2]
    rfl
  have hrem : (NgKsl.nghttp3_ksl_remove NgKsl.natLt 2
      (⟨NgKsl.Blk.node [(2, NgKsl.Blk.leaf [(1, 10), (2, 20)]),
        (5, NgKsl.Blk.leaf [(3, 30), (4, 40), (5, 50)])], 5⟩ :
        NgKsl.Ksl Nat Nat) 5).1.head =
      NgKsl.Blk.node [(2, NgKsl.Blk.leaf [(1, 10), (2, 20)]),
        (5, NgKsl.Blk.leaf [(3, 30), (4, 40)])] := by
    show (NgKsl.removeB NgKsl.natLt 2 5 (3 + 1) true
      (NgKsl.Blk.node [(2, NgKsl.Blk.leaf [(1, 10), (2, 20)]),
        (5, NgKsl.Blk.leaf [(3, 30), (4, 40), (5, 50)])])).1 =
      NgKsl.Blk.node [(2, NgKsl.Blk.leaf [(1, 10), (2, 20)]),
        (5, NgKsl.Blk.leaf [(3, 30), (4, 40)])]
    rw [hstep1]
  refine ⟨?_, ?_, by decide, hrem, ?_⟩
  · constructor
    · show NgKsl.WfN NgKsl.natLt 2 (0 + 1) true
        (NgKsl.Blk.node [(2, NgKsl.Blk.leaf [(1, 10), (2, 20)]),
          (5, NgKsl.Blk.leaf [(3, 30), (4, 40), (5, 50)])])
      rw [NgKsl.WfN_node_iff]
      refine ⟨by decide, by decide, ?_, ?_⟩
      · intro e he
        rcases List.mem_cons.1 he with rfl | he2
        · refine ⟨?_, by decide, by decide, ?_⟩
          · rw [NgKsl.WfN_leaf_iff]
            exact ⟨Or.inr (by decide), by decide, by decide⟩
          · intro s hs
            have h2 : some (2 : Nat) = some s := hs
            rcases Option.some.inj h2 with rfl
            decide
        · rcases List.mem_singleton.1 he2 with rfl
          refine ⟨?_, by decide, by decide, ?_⟩
          · rw [NgKsl.WfN_leaf_iff]
            exact ⟨Or.inr (by decide), by decide, by decide⟩
          · intro s hs
            have h2 : some (5 : Nat) = some s := hs
            rcases Option.some.inj h2 with rfl
            decide
      · refine List.Pairwise.cons ?_ (List.pairwise_singleton _ _)
        intro e2 he2
        rcases List.mem_singleton.1 he2 with rfl
        exact ⟨by decide, by decide⟩
    · rfl
  · refine (NgKsl.SepExact_cons _ _ _).2
      ⟨by decide, (NgKsl.SepExact_leaf _).2 trivial, ?_⟩
    refine (NgKsl.SepExact_cons _ _ _).2
      ⟨by decide, (NgKsl.SepExact_leaf _).2 trivial,
        NgKsl.SepExact_nil.2 trivial⟩
  · rw [hrem]
    intro hse
    have h5 := ((NgKsl.SepExact_cons _ _ _).1
      (((NgKsl.SepExact_cons _ _ _).1 hse).2.2)).1
    exact absurd h5 (by decide)

namespace NgKsl

/-! ## Separator exactness: structural lemmas -/

section SepExactLemmas

variable {K V : Type} [Inhabited K] [Inhabited V] {lt : K → K → Bool}
variable {MIN : Nat}

theorem set_append_cons {A : Type} (T D : List A) (x y : A) :
    (T ++ x :: D).set T.length y = T ++ y :: D := by
  have hlen : T.length < (T ++ x :: D).length := by simp
  rw [List.set_eq_take_cons_drop y hlen]
  rw [List.take_left]
  rw [show (T ++ x :: D).drop (T.length + 1) = D from by
    rw [show T ++ x :: D = (T ++ [x]) ++ D from by simp]
    exact List.drop_left' (by simp)]

theorem getLast?_append_right {A : Type} (l₁ : List A) {l₂ : List A}
    (h : l₂ ≠ []) : (l₁ ++ l₂).getLast? = l₂.getLast? := by
  obtain ⟨L, b, rfl⟩ := (List.eq_nil_or_concat l₂).resolve_left h
  rw [List.concat_eq_append]
  rw [show l₁ ++ (L ++ [b]) = (l₁ ++ L) ++ [b] from by simp,
    List.getLast?_concat, List.getLast?_concat]

/-- The per-entry content of `SepExact` at an internal block. -/
theorem sepExact_entries : ∀ {es : List (K × Blk K V)},
    SepExact (Blk.node es) →
    ∀ e ∈ es, e.2.fkeys.getLast? = some e.1 ∧ SepExact e.2 := by
  intro es
  induction es with
  | nil =>
    intro _ e he
    cases he
  | cons e0 rest ih =>
    intro hse e he
    obtain ⟨k, c⟩ := e0
    obtain ⟨h1, h2, h3⟩ := (SepExact_cons k c rest).1 hse
    rcases List.mem_cons.1 he with rfl | he2
    · exact ⟨h1, h2⟩
    · exact ih h3 e he2

/-- Rebuild `SepExact` of an internal block from its entries. -/
theorem sepExact_of_entries : ∀ {es : List (K × Blk K V)},
    (∀ e ∈ es, e.2.fkeys.getLast? = some e.1 ∧ SepExact e.2) →
    SepExact (Blk.node es) := by
  intro es
  induction es with
  | nil =>
    intro _
    exact SepExact_nil.2 trivial
  | cons e0 rest ih =>
    intro hent
    obtain ⟨k, c⟩ := e0
    refine (SepExact_cons k c rest).2
      ⟨(hent (k, c) (List.mem_cons_self _ _)).1,
        (hent (k, c) (List.mem_cons_self _ _)).2, ih ?_⟩
    exact fun e he => hent e (List.mem_cons_of_mem _ he)

/-- Under `SepExact`, the last separator of a block is the last stored key of
its subtree. -/
theorem sepExact_keyList_last (hMIN : 1 ≤ MIN) {h : Nat} {root : Bool}
    {b : Blk K V} (hwf : WfN lt MIN h root b) (hse : SepExact b) :
    b.keyList.getLast? = b.fkeys.getLast? := by
  cases b with
  | leaf es =>
    cases h with
    | zero => rfl
    | succ h => exact absurd hwf (by simp)
  | node es =>
    cases h with
    | zero => exact absurd hwf (by simp)
    | succ h =>
      obtain ⟨hlen, _, hent, _⟩ := WfN_node_iff.1 hwf
      have hne : es ≠ [] := by
        intro hnil
        subst hnil
        by_cases hroot : root = true
        · rw [if_pos hroot] at hlen
          simp at hlen
        · rw [if_neg hroot] at hlen
          simp at hlen
          omega
      obtain ⟨es1, eN, rfl⟩ := (List.eq_nil_or_concat es).resolve_left hne
      have hseN := (sepExact_entries hse eN (by simp)).1
      have hneN : eN.2.fkeys ≠ [] := (hent eN (by simp)).2.2.1
      rw [List.concat_eq_append]
      rw [Blk.keyList_node]
      rw [show List.map Prod.fst (es1 ++ [eN]) =
        List.map Prod.fst es1 ++ [eN.1] from by simp]
      rw [List.getLast?_concat]
      rw [show (Blk.node (es1 ++ [eN]) : Blk K V).fkeys =
          (Blk.node es1 : Blk K V).fkeys ++ eN.2.fkeys from by
        rw [Blk.fkeys_node_append]
        congr 1
        obtain ⟨k, c⟩ := eN
        rw [Blk.fkeys_node_cons, Blk.fkeys_node_nil, List.append_nil]]
      rw [getLast?_append_right _ hneN]
      exact hseN.symm

end SepExactLemmas

end NgKsl

namespace NgKsl

/-! ## Correctness of the update-key descent -/

section UpdateKeyProof

variable {K V : Type} [Inhabited K] [Inhabited V] {lt : K → K → Bool}
variable {MIN : Nat}

/-- `ksl_update_key`'s loop: under the caller guarantees (the new key neither
collides with nor crosses any other stored key) and separator exactness, the
loop renames the entry holding `oldKey` in place and preserves
well-formedness and separator exactness. -/
theorem updateKeyB_ok (ord : LtOrder lt) (hMIN : 1 ≤ MIN)
    (oldKey newKey : K) :
    ∀ (h : Nat) (root : Bool) (b : Blk K V),
    WfN lt MIN h root b →
    SepExact b →
    oldKey ∈ b.fkeys →
    (∀ x ∈ b.fkeys, key_equal lt x oldKey = false →
      lt x oldKey = lt x newKey ∧ lt oldKey x = lt newKey x) →
    ∃ (d : V) (A B : List (K × V)),
      b.flat = A ++ (oldKey, d) :: B ∧
      (updateKeyB lt oldKey newKey (h + 1) b).flat =
        A ++ (newKey, d) :: B ∧
      (∀ e ∈ A, lt e.1 oldKey = true) ∧
      (∀ e ∈ B, lt oldKey e.1 = true) ∧
      WfN lt MIN h root (updateKeyB lt oldKey newKey (h + 1) b) ∧
      SepExact (updateKeyB lt oldKey newKey (h + 1) b) := by
  intro h
  induction h with
  | zero =>
    intro root b hwf hse hmem hguard
    cases b with
    | node es => exact absurd hwf (by simp)
    | leaf es =>
      obtain ⟨hlo, hhi, hsort⟩ := WfN_leaf_iff.1 hwf
      rw [Blk.fkeys_leaf] at hmem hguard
      obtain ⟨e0, he0, hfst⟩ := List.mem_map.1 hmem
      obtain ⟨k0, d⟩ := e0
      have hk0 : oldKey = k0 := hfst.symm
      subst hk0
      obtain ⟨A, B, hAB⟩ := List.append_of_mem he0
      have hmap : es.map Prod.fst =
          A.map Prod.fst ++ oldKey :: B.map Prod.fst := by
        rw [hAB]
        simp
      have hsort2 := hsort
      rw [hmap] at hsort2
      obtain ⟨hsA, hsOB, hcross⟩ := List.pairwise_append.1 hsort2
      have hBgt : ∀ x ∈ B.map Prod.fst, lt oldKey x = true :=
        (List.pairwise_cons.1 hsOB).1
      have hAlt : ∀ x ∈ A.map Prod.fst, lt x oldKey = true := fun x hx =>
        hcross x hx oldKey (List.mem_cons_self _ _)
      have hib : ksl_bsearch lt (es.map Prod.fst) oldKey = A.length := by
        apply bsearch_eq_of ord hsort
        · rw [List.length_map, hAB, List.length_append, List.length_cons]
          omega
        · intro m k2 hm hk2
          rw [hmap, List.get?_append (by simpa using hm)] at hk2
          exact hAlt k2 (List.get?_mem hk2)
        · intro k2 hk2
          rw [hmap, List.get?_append_right (by simp)] at hk2
          simp only [List.length_map, Nat.sub_self, List.get?_cons_zero,
            Option.some.injEq] at hk2
          rw [← hk2]
          exact ord.irrefl oldKey
      have hgetD : es.getD A.length default = (oldKey, d) := by
        rw [hAB, getD_append_length, List.getD_cons_zero]
      have hset : es.set A.length (newKey, d) = A ++ (newKey, d) :: B := by
        rw [hAB]
        exact set_append_cons A B (oldKey, d) (newKey, d)
      have hstep : updateKeyB lt oldKey newKey (0 + 1) (Blk.leaf es) =
          Blk.leaf (A ++ (newKey, d) :: B) := by
        simp only [updateKeyB]
        rw [hib, hgetD]
        rw [show ((oldKey, d) : K × V).2 = d from rfl]
        rw [hset]
      refine ⟨d, A, B, hAB, ?_, ?_, ?_, ?_, ?_⟩
      · rw [hstep]
        rfl
      · intro e he
        exact hAlt e.1 (List.mem_map_of_mem _ he)
      · intro e he
        exact hBgt e.1 (List.mem_map_of_mem _ he)
      · rw [hstep]
        rw [WfN_leaf_iff]
        have hlenEq : (A ++ (newKey, d) :: B).length = es.length := by
          rw [hAB]
          simp
        refine ⟨?_, ?_, ?_⟩
        · rw [hlenEq]
          exact hlo
        · rw [hlenEq]
          exact hhi
        · rw [show (A ++ (newKey, d) :: B).map Prod.fst =
            A.map Prod.fst ++ newKey :: B.map Prod.fst from by simp]
          refine List.pairwise_append.2 ⟨hsA, ?_, ?_⟩
          · refine List.pairwise_cons.2 ⟨?_, (List.pairwise_cons.1 hsOB).2⟩
            intro b2 hb2
            have hob2 : lt oldKey b2 = true := hBgt b2 hb2
            have hmemb2 : b2 ∈ es.map Prod.fst := by
              rw [hmap]
              exact List.mem_append_right _ (List.mem_cons_of_mem _ hb2)
            have hke : key_equal lt b2 oldKey = false := by
              simp only [key_equal, hob2, Bool.not_true, Bool.and_false]
            rw [← (hguard b2 hmemb2 hke).2]
            exact hob2
          · intro a ha b2 hb2
            rcases List.mem_cons.1 hb2 with rfl | hb3
            · have hao : lt a oldKey = true := hAlt a ha
              have hmema : a ∈ es.map Prod.fst := by
                rw [hmap]
                exact List.mem_append_left _ ha
              have hke : key_equal lt a oldKey = false := by
                simp only [key_equal, hao, Bool.not_true, Bool.false_and]
              rw [← (hguard a hmema hke).1]
              exact hao
            · exact hcross a ha b2 (List.mem_cons_of_mem _ hb3)
      · rw [hstep]
        exact (SepExact_leaf _).2 trivial
  | succ hh ih =>
    intro root b hwf hse hmem hguard
    cases b with
    | leaf es => exact absurd hwf (by simp)
    | node es =>
      obtain ⟨hlen, hhi, hent, hpair⟩ := WfN_node_iff.1 hwf
      have hmem2 := hmem
      rw [Blk.fkeys_node_join] at hmem2
      obtain ⟨l, hl, hol⟩ := List.mem_join.1 hmem2
      obtain ⟨e0, he0, rfl⟩ := List.mem_map.1 hl
      obtain ⟨sep, c⟩ := e0
      obtain ⟨E1, E2, hes⟩ := List.append_of_mem he0
      have hmemsc : (sep, c) ∈ es := he0
      have hpair2 := hpair
      rw [hes] at hpair2
      obtain ⟨hpE1, hpCE2, hcrossP⟩ := List.pairwise_append.1 hpair2
      obtain ⟨hcE2, hpE2⟩ := List.pairwise_cons.1 hpCE2
      have hsepSorted : List.Pairwise (fun a b => lt a b = true)
          (es.map Prod.fst) :=
        List.pairwise_map.2 (hpair.imp fun hab => hab.1)
      have hmapE : es.map Prod.fst =
          E1.map Prod.fst ++ sep :: E2.map Prod.fst := by
        rw [hes]
        simp
      have hib : ksl_bsearch lt (es.map Prod.fst) oldKey = E1.length := by
        apply bsearch_eq_of ord hsepSorted
        · rw [List.length_map, hes, List.length_append, List.length_cons]
          omega
        · intro m k2 hm hk2
          rw [hmapE, List.get?_append (by simpa using hm)] at hk2
          obtain ⟨a, ha, rfl⟩ := List.mem_map.1 (List.get?_mem hk2)
          exact (hcrossP a ha (sep, c) (List.mem_cons_self _ _)).2 oldKey hol
        · intro k2 hk2
          rw [hmapE, List.get?_append_right (by simp)] at hk2
          simp only [List.length_map, Nat.sub_self, List.get?_cons_zero,
            Option.some.injEq] at hk2
          rw [← hk2]
          exact (hent (sep, c) hmemsc).2.1 oldKey hol
      have hgetDi : es.getD E1.length default = (sep, c) := by
        rw [hes, getD_append_length, List.getD_cons_zero]
      have hwfc := (hent (sep, c) hmemsc).1
      have hdomc := (hent (sep, c) hmemsc).2.1
      have hsec := (sepExact_entries hse (sep, c) hmemsc).2
      have hlastc := (sepExact_entries hse (sep, c) hmemsc).1
      have hxfk : ∀ e ∈ es, ∀ x ∈ e.2.fkeys, x ∈ (Blk.node es).fkeys := by
        intro e he x hx
        rw [Blk.fkeys_node_join]
        exact List.mem_join.2 ⟨e.2.fkeys, List.mem_map.2 ⟨e, he, rfl⟩, hx⟩
      have hsepfk : ∀ e ∈ es, e.1 ∈ (Blk.node es).fkeys := by
        intro e he
        exact hxfk e he e.1 (getLast?_mem_self (sepExact_entries hse e he).1)
      have hgLT : ∀ x, x ∈ (Blk.node es).fkeys → lt x oldKey = true →
          lt x newKey = true := by
        intro x hxm hxo
        have hke : key_equal lt x oldKey = false := by
          simp only [key_equal, hxo, Bool.not_true, Bool.false_and]
        rw [← (hguard x hxm hke).1]
        exact hxo
      have hgGT : ∀ x, x ∈ (Blk.node es).fkeys → lt oldKey x = true →
          lt newKey x = true := by
        intro x hxm hxo
        have hke : key_equal lt x oldKey = false := by
          simp only [key_equal, hxo, Bool.not_true, Bool.and_false]
        rw [← (hguard x hxm hke).2]
        exact hxo
      obtain ⟨d, Ac, Bc, hcflat, hcflat2, hAc, hBc, hwfc2, hsec2⟩ :=
        ih false c hwfc hsec hol
          (fun x hx hxne => hguard x (hxfk (sep, c) hmemsc x hx) hxne)
      have hcfk : c.fkeys =
          Ac.map Prod.fst ++ oldKey :: Bc.map Prod.fst := by
        show c.flat.map Prod.fst = _
        rw [hcflat]
        simp
      have hcfk2 : (updateKeyB lt oldKey newKey (hh + 1) c).fkeys =
          Ac.map Prod.fst ++ newKey :: Bc.map Prod.fst := by
        show (updateKeyB lt oldKey newKey (hh + 1) c).flat.map Prod.fst = _
        rw [hcflat2]
        simp
      have hE1newlt : ∀ a ∈ E1, lt a.1 newKey = true := by
        intro a ha
        have h1 : lt a.1 oldKey = true :=
          (hcrossP a ha (sep, c) (List.mem_cons_self _ _)).2 oldKey hol
        exact hgLT a.1
          (hsepfk a (by rw [hes]; exact List.mem_append_left _ ha)) h1
      obtain ⟨kv, hkvdef⟩ : ∃ kv,
          (if key_equal lt sep oldKey || lt sep newKey then newKey
            else sep) = kv := ⟨_, rfl⟩
      have hkfacts :
          (updateKeyB lt oldKey newKey (hh + 1) c).fkeys.getLast? =
            some kv ∧
          (∀ x ∈ (updateKeyB lt oldKey newKey (hh + 1) c).fkeys,
            lt kv x = false) ∧
          (∀ a ∈ E1, lt a.1 kv = true) ∧
          (∀ b2 ∈ E2, lt kv b2.1 = true ∧
            ∀ x ∈ b2.2.fkeys, lt kv x = true) := by
        by_cases hBnil : Bc = []
        · have hcfkS : c.fkeys = Ac.map Prod.fst ++ [oldKey] := by
            rw [hcfk, hBnil]
            simp
          have hcfk2S : (updateKeyB lt oldKey newKey (hh + 1) c).fkeys =
              Ac.map Prod.fst ++ [newKey] := by
            rw [hcfk2, hBnil]
            simp
          have hsepold : sep = oldKey := by
            have h1 : c.fkeys.getLast? = some oldKey := by
              rw [hcfkS]
              exact List.getLast?_concat _
            exact Option.some.inj (hlastc.symm.trans h1)
          have hkv : newKey = kv := by
            rw [← hkvdef, hsepold]
            rw [show key_equal lt oldKey oldKey = true from by
              simp [key_equal, ord.irrefl]]
            simp
          rw [← hkv]
          refine ⟨?_, ?_, ?_, ?_⟩
          · rw [hcfk2S]
            exact List.getLast?_concat _
          · intro x hx
            rw [hcfk2S] at hx
            rcases List.mem_append.1 hx with hx1 | hx2
            · obtain ⟨a, ha, rfl⟩ := List.mem_map.1 hx1
              have hax : lt a.1 oldKey = true := hAc a ha
              have haxm : a.1 ∈ (Blk.node es).fkeys :=
                hxfk (sep, c) hmemsc a.1
                  (by rw [hcfk]
                      exact List.mem_append_left _
                        (List.mem_map_of_mem _ ha))
              exact ord.asymm (hgLT a.1 haxm hax)
            · rcases List.mem_singleton.1 hx2 with rfl
              exact ord.irrefl x
          · exact hE1newlt
          · intro b2 hb2
            have hb2es : b2 ∈ es := by
              rw [hes]
              exact List.mem_append_right _ (List.mem_cons_of_mem _ hb2)
            constructor
            · have h1 : lt oldKey b2.1 = true := by
                rw [← hsepold]
                exact (hcE2 b2 hb2).1
              exact hgGT b2.1 (hsepfk b2 hb2es) h1
            · intro x hx
              have h1 : lt oldKey x = true := by
                rw [← hsepold]
                exact (hcE2 b2 hb2).2 x hx
              exact hgGT x (hxfk b2 hb2es x hx) h1
        · obtain ⟨Bc1, bN, hBcat⟩ :=
            (List.eq_nil_or_concat Bc).resolve_left hBnil
          rw [List.concat_eq_append] at hBcat
          have hlast2 : c.fkeys.getLast? = some bN.1 := by
            rw [hcfk, hBcat]
            rw [show Ac.map Prod.fst ++
                oldKey :: (Bc1 ++ [bN]).map Prod.fst =
                (Ac.map Prod.fst ++ oldKey :: Bc1.map Prod.fst) ++ [bN.1]
              from by simp]
            exact List.getLast?_concat _
          have hsepbN : sep = bN.1 :=
            Option.some.inj (hlastc.symm.trans hlast2)
          have hbNmem : bN ∈ Bc := by
            rw [hBcat]
            simp
          have holdsep : lt oldKey sep = true := by
            rw [hsepbN]
            exact hBc bN hbNmem
          have hkeF : key_equal lt sep oldKey = false := by
            simp only [key_equal, holdsep, Bool.not_true, Bool.and_false]
          have hnewsep : lt newKey sep = true := by
            rw [← (hguard sep (hsepfk (sep, c) hmemsc) hkeF).2]
            exact holdsep
          have hltF : lt sep newKey = false := ord.asymm hnewsep
          have hkv : sep = kv := by
            rw [← hkvdef, hkeF, hltF]
            simp
          rw [← hkv]
          refine ⟨?_, ?_, ?_, ?_⟩
          · rw [hcfk2, hBcat]
            rw [show Ac.map Prod.fst ++
                newKey :: (Bc1 ++ [bN]).map Prod.fst =
                (Ac.map Prod.fst ++ newKey :: Bc1.map Prod.fst) ++ [bN.1]
              from by simp]
            rw [List.getLast?_concat]
            rw [hsepbN]
          · intro x hx
            rw [hcfk2] at hx
            rcases List.mem_append.1 hx with hx1 | hx2
            · exact hdomc x
                (by rw [hcfk]; exact List.mem_append_left _ hx1)
            · rcases List.mem_cons.1 hx2 with rfl | hx3
              · exact hltF
              · exact hdomc x
                  (by rw [hcfk]
                      exact List.mem_append_right _
                        (List.mem_cons_of_mem _ hx3))
          · intro a ha
            exact (hcrossP a ha (sep, c) (List.mem_cons_self _ _)).1
          · intro b2 hb2
            exact ⟨(hcE2 b2 hb2).1, (hcE2 b2 hb2).2⟩
      have hP3 : (updateKeyB lt oldKey newKey (hh + 1) c).fkeys ≠ [] := by
        rw [hcfk2]
        simp
      have hP4 : ∀ s ∈
          (updateKeyB lt oldKey newKey (hh + 1) c).keyList.getLast?,
          lt kv s = false := by
        intro s hs
        rw [sepExact_keyList_last hMIN hwfc2 hsec2, hkfacts.1] at hs
        have h2 : some kv = some s := hs
        rcases Option.some.inj h2 with rfl
        exact ord.irrefl kv
      have hstep : updateKeyB lt oldKey newKey (hh + 1 + 1) (Blk.node es) =
          Blk.node (es.set E1.length
            (kv, updateKeyB lt oldKey newKey (hh + 1) c)) := by
        simp only [updateKeyB]
        rw [hib, hgetDi]
        rw [show ((sep, c) : K × Blk K V).1 = sep from rfl]
        rw [show ((sep, c) : K × Blk K V).2 = c from rfl]
        rw [hkvdef]
      have hsetE : es.set E1.length
          (kv, updateKeyB lt oldKey newKey (hh + 1) c) =
          E1 ++ (kv, updateKeyB lt oldKey newKey (hh + 1) c) :: E2 := by
        rw [hes]
        exact set_append_cons E1 E2 (sep, c) _
      have hflatO : (Blk.node es : Blk K V).flat =
          ((Blk.node E1 : Blk K V).flat ++ Ac) ++
            (oldKey, d) :: (Bc ++ (Blk.node E2 : Blk K V).flat) := by
        rw [hes]
        rw [show E1 ++ (sep, c) :: E2 = E1 ++ ([(sep, c)] ++ E2)
          from by simp]
        rw [Blk.flat_node_append, Blk.flat_node_append]
        rw [show (Blk.node [(sep, c)] : Blk K V).flat = c.flat from by simp]
        rw [hcflat]
        simp
      have hflatN : (Blk.node (E1 ++
          (kv, updateKeyB lt oldKey newKey (hh + 1) c) :: E2) :
            Blk K V).flat =
          ((Blk.node E1 : Blk K V).flat ++ Ac) ++
            (newKey, d) :: (Bc ++ (Blk.node E2 : Blk K V).flat) := by
        rw [show E1 ++ (kv, updateKeyB lt oldKey newKey (hh + 1) c) :: E2 =
          E1 ++ ([(kv, updateKeyB lt oldKey newKey (hh + 1) c)] ++ E2)
          from by simp]
        rw [Blk.flat_node_append, Blk.flat_node_append]
        rw [show (Blk.node [(kv, updateKeyB lt oldKey newKey (hh + 1) c)] :
          Blk K V).flat = (updateKeyB lt oldKey newKey (hh + 1) c).flat
          from by simp]
        rw [hcflat2]
        simp
      have hAdom : ∀ e ∈ (Blk.node E1 : Blk K V).flat ++ Ac,
          lt e.1 oldKey = true := by
        intro e he
        rcases List.mem_append.1 he with he1 | he2
        · obtain ⟨a, ha, hea⟩ := mem_flat_node he1
          have haes : a ∈ es := by
            rw [hes]
            exact List.mem_append_left _ ha
          have h1 : lt a.1 e.1 = false :=
            (hent a haes).2.1 e.1 (List.mem_map_of_mem _ hea)
          have h2 : lt a.1 oldKey = true :=
            (hcrossP a ha (sep, c) (List.mem_cons_self _ _)).2 oldKey hol
          exact ord.leLt h1 h2
        · exact hAc e he2
      have hBdom : ∀ e ∈ Bc ++ (Blk.node E2 : Blk K V).flat,
          lt oldKey e.1 = true := by
        intro e he
        rcases List.mem_append.1 he with he1 | he2
        · exact hBc e he1
        · obtain ⟨b2, hb2, heb⟩ := mem_flat_node he2
          have h1 : lt sep oldKey = false := hdomc oldKey hol
          have h2 : lt sep e.1 = true :=
            (hcE2 b2 hb2).2 e.1 (List.mem_map_of_mem _ heb)
          exact ord.leLt h1 h2
      have hwfN : WfN lt MIN (hh + 1) root
          (Blk.node (E1 ++
            (kv, updateKeyB lt oldKey newKey (hh + 1) c) :: E2)) := by
        rw [WfN_node_iff]
        have hlenEq : (E1 ++
            (kv, updateKeyB lt oldKey newKey (hh + 1) c) :: E2).length =
            es.length := by
          rw [hes]
          simp
        refine ⟨?_, ?_, ?_, ?_⟩
        · rw [hlenEq]
          exact hlen
        · rw [hlenEq]
          exact hhi
        · intro e he
          rcases List.mem_append.1 he with he1 | he2
          · exact hent e (by rw [hes]; exact List.mem_append_left _ he1)
          · rcases List.mem_cons.1 he2 with rfl | he3
            · exact ⟨hwfc2, hkfacts.2.1, hP3, hP4⟩
            · exact hent e
                (by rw [hes]
                    exact List.mem_append_right _
                      (List.mem_cons_of_mem _ he3))
        · refine List.pairwise_append.2 ⟨hpE1, ?_, ?_⟩
          · refine List.pairwise_cons.2 ⟨?_, hpE2⟩
            intro b2 hb2
            exact ⟨(hkfacts.2.2.2 b2 hb2).1, (hkfacts.2.2.2 b2 hb2).2⟩
          · intro a ha b2 hb2
            rcases List.mem_cons.1 hb2 with rfl | hb3
            · refine ⟨hkfacts.2.2.1 a ha, ?_⟩
              intro x hx
              have hx2 : x ∈ (updateKeyB lt oldKey newKey (hh + 1) c).fkeys :=
                hx
              rw [hcfk2] at hx2
              rcases List.mem_append.1 hx2 with hx3 | hx4
              · exact (hcrossP a ha (sep, c) (List.mem_cons_self _ _)).2 x
                  (by rw [hcfk]; exact List.mem_append_left _ hx3)
              · rcases List.mem_cons.1 hx4 with rfl | hx5
                · exact hE1newlt a ha
                · exact (hcrossP a ha (sep, c) (List.mem_cons_self _ _)).2 x
                    (by rw [hcfk]
                        exact List.mem_append_right _
                          (List.mem_cons_of_mem _ hx5))
            · exact hcrossP a ha b2 (List.mem_cons_of_mem _ hb3)
      have hseN : SepExact (Blk.node (E1 ++
          (kv, updateKeyB lt oldKey newKey (hh + 1) c) :: E2)) := by
        apply sepExact_of_entries
        intro e he
        rcases List.mem_append.1 he with he1 | he2
        · exact sepExact_entries hse e
            (by rw [hes]; exact List.mem_append_left _ he1)
        · rcases List.mem_cons.1 he2 with rfl | he3
          · exact ⟨hkfacts.1, hsec2⟩
          · exact sepExact_entries hse e
              (by rw [hes]
                  exact List.mem_append_right _
                    (List.mem_cons_of_mem _ he3))
      refine ⟨d, (Blk.node E1 : Blk K V).flat ++ Ac,
        Bc ++ (Blk.node E2 : Blk K V).flat, hflatO, ?_, hAdom, hBdom,
        ?_, ?_⟩
      · rw [hstep, hsetE]
        exact hflatN
      · rw [hstep, hsetE]
        exact hwfN
      · rw [hstep, hsetE]
        exact hseN

end UpdateKeyProof

end NgKsl

/-- C7: on a well-formed container satisfying separator exactness and holding
`old_key`, with the caller guaranteeing that `new_key` neither collides with
nor crosses any other stored key, `nghttp3_ksl_update_key` overwrites the key
of the leaf entry found by descending with `old_key` in place (same position,
same data), keeps the container well-formed with `len()` unchanged, preserves
the separator-equals-subtree-maximum invariant, and at each internal block of
the descent path rewrites exactly the separator at the descent index, to
`new_key` exactly when that separator equals `old_key` or compares less than
`new_key`. -/
theorem claim_C7 {K V : Type} [Inhabited K] [Inhabited V]
    (lt : K → K → Bool) (MIN : Nat) (ord : NgKsl.LtOrder lt) (hMIN : 2 ≤ MIN)
    (t : NgKsl.Ksl K V) (hwf : NgKsl.WfK lt MIN t)
    (hse : NgKsl.SepExact t.head) (oldKey newKey : K)
    (hmem : oldKey ∈ t.head.fkeys)
    (hguard : ∀ x ∈ t.head.fkeys, NgKsl.key_equal lt x oldKey = false →
      lt x oldKey = lt x newKey ∧ lt oldKey x = lt newKey x) :
    (∃ (d : V) (A B : List (K × V)),
      t.head.flat = A ++ (oldKey, d) :: B ∧
      (NgKsl.nghttp3_ksl_update_key lt t oldKey newKey).head.flat =
        A ++ (newKey, d) :: B) ∧
    NgKsl.WfK lt MIN (NgKsl.nghttp3_ksl_update_key lt t oldKey newKey) ∧
    NgKsl.SepExact (NgKsl.nghttp3_ksl_update_key lt t oldKey newKey).head ∧
    (NgKsl.nghttp3_ksl_update_key lt t oldKey newKey).n = t.n ∧
    (∀ es i, t.head = NgKsl.Blk.node es →
      NgKsl.ksl_bsearch lt (es.map Prod.fst) oldKey = i →
      (NgKsl.nghttp3_ksl_update_key lt t oldKey newKey).head =
        NgKsl.Blk.node (es.set i
          ((if NgKsl.key_equal lt (es.getD i default).1 oldKey ||
              lt (es.getD i default).1 newKey then newKey
            else (es.getD i default).1),
           NgKsl.updateKeyB lt oldKey newKey t.head.height
             (es.getD i default).2))) := by
  obtain ⟨d, A, B, h1, h2, _, _, h5, h6⟩ :=
    NgKsl.updateKeyB_ok ord (by omega) oldKey newKey t.head.height true
      t.head hwf.1 hse hmem hguard
  have hhe : (NgKsl.updateKeyB lt oldKey newKey (t.head.height + 1)
      t.head).height = t.head.height :=
    NgKsl.wf_height (by omega) t.head.height h5
  refine ⟨⟨d, A, B, h1, h2⟩, ⟨?_, ?_⟩, h6, rfl, ?_⟩
  · show NgKsl.WfN lt MIN (NgKsl.updateKeyB lt oldKey newKey
      (t.head.height + 1) t.head).height true
      (NgKsl.updateKeyB lt oldKey newKey (t.head.height + 1) t.head)
    rw [hhe]
    exact h5
  · show t.n = (NgKsl.updateKeyB lt oldKey newKey (t.head.height + 1)
      t.head).flat.length
    rw [h2, hwf.2, h1]
    simp
  · intro es i hheads hi
    show NgKsl.updateKeyB lt oldKey newKey (t.head.height + 1) t.head = _
    rw [hheads]
    simp only [NgKsl.updateKeyB]
    rw [hi]

/-- Witness for C7: renaming key 2 to 5 in the container holding 1 and 2. -/
theorem claim_C7_witness :
    (∃ (d : Nat) (A B : List (Nat × Nat)),
      (⟨NgKsl.Blk.leaf [(1, 10), (2, 20)], 2⟩ :
        NgKsl.Ksl Nat Nat).head.flat = A ++ (2, d) :: B ∧
      (NgKsl.nghttp3_ksl_update_key NgKsl.natLt
        ⟨NgKsl.Blk.leaf [(1, 10), (2, 20)], 2⟩ 2 5).head.flat =
        A ++ (5, d) :: B) ∧
    NgKsl.WfK NgKsl.natLt 2 (NgKsl.nghttp3_ksl_update_key NgKsl.natLt
      ⟨NgKsl.Blk.leaf [(1, 10), (2, 20)], 2⟩ 2 5) ∧
    NgKsl.SepExact (NgKsl.nghttp3_ksl_update_key NgKsl.natLt
      ⟨NgKsl.Blk.leaf [(1, 10), (2, 20)], 2⟩ 2 5).head ∧
    (NgKsl.nghttp3_ksl_update_key NgKsl.natLt
      ⟨NgKsl.Blk.leaf [(1, 10), (2, 20)], 2⟩ 2 5).n =
      (⟨NgKsl.Blk.leaf [(1, 10), (2, 20)], 2⟩ : NgKsl.Ksl Nat Nat).n ∧
    (∀ es i, (⟨NgKsl.Blk.leaf [(1, 10), (2, 20)], 2⟩ :
        NgKsl.Ksl Nat Nat).head = NgKsl.Blk.node es →
      NgKsl.ksl_bsearch NgKsl.natLt (es.map Prod.fst) 2 = i →
      (NgKsl.nghttp3_ksl_update_key NgKsl.natLt
        ⟨NgKsl.Blk.leaf [(1, 10), (2, 20)], 2⟩ 2 5).head =
        NgKsl.Blk.node (es.set i
          ((if NgKsl.key_equal NgKsl.natLt (es.getD i default).1 2 ||
              NgKsl.natLt (es.getD i default).1 5 then 5
            else (es.getD i default).1),
           NgKsl.updateKeyB NgKsl.natLt 2 5
             (⟨NgKsl.Blk.leaf [(1, 10), (2, 20)], 2⟩ :
               NgKsl.Ksl Nat Nat).head.height (es.getD i default).2))) := by
  have hwf : NgKsl.WfK NgKsl.natLt 2
      (⟨NgKsl.Blk.leaf [(1, 10), (2, 20)], 2⟩ : NgKsl.Ksl Nat Nat) := by
    constructor
    · show NgKsl.WfN NgKsl.natLt 2 0 true
        (NgKsl.Blk.leaf [(1, 10), (2, 20)])
      rw [NgKsl.WfN_leaf_iff]
      exact ⟨Or.inl rfl, by decide, by decide⟩
    · rfl
  exact claim_C7 NgKsl.natLt 2 NgKsl.natLt_order (by omega) _ hwf
    ((NgKsl.SepExact_leaf _).2 trivial) 2 5 (by decide) (by decide)

/-- Witness for the amended C4 on the container holding keys 1 and 2 with
insert key 3 and remove key 1. -/
theorem claim_C4_witness :
    (∀ t2 it, (3 : Nat) ∉ (⟨NgKsl.Blk.leaf [(1, 10), (2, 20)], 2⟩ :
        NgKsl.Ksl Nat Nat).head.fkeys →
      NgKsl.nghttp3_ksl_insert NgKsl.natLt 2
        (⟨NgKsl.Blk.leaf [(1, 10), (2, 20)], 2⟩ : NgKsl.Ksl Nat Nat)
        3 30 [] = NgKsl.KIns.ok t2 it →
      NgKsl.WfK NgKsl.natLt 2 t2 ∧ NgKsl.SepDom NgKsl.natLt t2.head) ∧
    ((3 : Nat) ∈ (⟨NgKsl.Blk.leaf [(1, 10), (2, 20)], 2⟩ :
        NgKsl.Ksl Nat Nat).head.fkeys →
      NgKsl.WfK NgKsl.natLt 2 (NgKsl.nghttp3_ksl_remove NgKsl.natLt 2
        (⟨NgKsl.Blk.leaf [(1, 10), (2, 20)], 2⟩ : NgKsl.Ksl Nat Nat) 3).1 ∧
      NgKsl.SepDom NgKsl.natLt (NgKsl.nghttp3_ksl_remove NgKsl.natLt 2
        (⟨NgKsl.Blk.leaf [(1, 10), (2, 20)], 2⟩ :
          NgKsl.Ksl Nat Nat) 3).1.head) := by
  have hwf : NgKsl.WfK NgKsl.natLt 2
      (⟨NgKsl.Blk.leaf [(1, 10), (2, 20)], 2⟩ : NgKsl.Ksl Nat Nat) := by
    constructor
    · show NgKsl.WfN NgKsl.natLt 2 0 true
        (NgKsl.Blk.leaf [(1, 10), (2, 20)])
      rw [NgKsl.WfN_leaf_iff]
      exact ⟨Or.inl rfl, by decide, by decide⟩
    · rfl
  exact claim_C4 NgKsl.natLt 2 NgKsl.natLt_order (by omega) _ hwf 3 30
